import Mathlib

/-!
# Bedlam: SSA values and blocks, boolean circuits, builtins

A shallow embedding of `compiler/ssa/program.go` (`Program.GC`,
`Program.liveness`), `compiler/ssa/block.go` (`Block.ReturnBinding`,
`Block.Serialize`, `SetNext`, `SetBranch`), `circuit/circuit.go` (`Stats`,
`Stats.Add`, `IO.Size`, `IO.Split`, `Circuit.AssignLevels`) and
`compiler/ast/builtin.go` (`nativeCircuit`, `copySSA`, `floorPow2Eval`),
followed by the properties established about them.

Conventions of the embedding:

* Go slices are lists, Go maps are association lists or functions, and a Go
  `panic` (explicit or a nil dereference) is the `none` / `panic` outcome.
* `*Block` pointers are indices into a heap of blocks (`List Block`); the
  nil pointer is `none`.  Pointer equality is index equality, which is distinct
  from equality of the `ID` field, exactly as in the source.
* `big.Int` bit sets are natural numbers read with `Nat.testBit`.
  The argument of `IO.Split` may be negative: it is an integer read with
  `Int.testBit`, the two-complement bit that `big.Int.Bit` returns.
* `uint32` and `uint64` counters are natural numbers reduced modulo `2 ^ 32` and
  `2 ^ 64` at every operation of the source; a `Wire` is a `Fin (2 ^ 32)`.
-/

namespace Bedlam

/-! ## Data model -/

/-- Bit-sized type information (`types.Info`): a type tag and the bit width. -/
structure Info where
  Kind : Nat
  Bits : Nat
deriving DecidableEq, Repr, Inhabited

/-- An SSA value (`ssa.Value`): name, scope, unique id, type and the constant flag. -/
structure Value where
  Name : String
  Scope : Nat
  ID : Nat
  TypeInfo : Info
  Const : Bool
deriving DecidableEq, Repr, Inhabited

/-- Modelled from the spec: the opcode enumeration `ssa.Operand` (its declaration in
`instr.go` is not among the sources); the constructors are the operations the
specification lists. -/
inductive Operand where
  | Add | Sub | Mul | Div | Mod
  | Lshift | Rshift | Srshift
  | Slice | Mov | Smov | Amov
  | Phi | Ret | GC | Circ | Builtin
deriving DecidableEq, Repr, Inhabited

/-- An SSA instruction (`ssa.Instr`): opcode, inputs and the optional output
(`Out *Value`, nil when the instruction defines nothing). -/
structure Instr where
  Op : Operand
  In : List Value
  Out : Option Value
deriving DecidableEq, Repr, Inhabited

/-- One program step (`ssa.Step`). -/
structure Step where
  Label : String
  Instr : Instr
  Live : List Value
deriving DecidableEq, Repr, Inhabited

/-- Modelled from the spec: `NewGCInstr(v)`, the `GC(v)` instruction that releases the
wires of `v` (the constructor lives in `instr.go`, which is not among the sources). -/
def NewGCInstr (v : Value) : Instr :=
  { Op := Operand.GC, In := [v], Out := none }

/-! ## `Program.GC` -/

/-- The method `SetBit(x, i, b)` of `big.Int` on a non-negative integer. -/
def setBit (x i : Nat) (b : Bool) : Nat :=
  if b then x ||| 2 ^ i else x ^^^ (x &&& 2 ^ i)

/-- The alias table `map[ValueID][]Value` of `Program.GC`, kept as the list of
`(input id, output)` pairs in insertion order. -/
abbrev AliasMap := List (Nat × Value)

/-- The lookup `aliases[id]`: the outputs recorded for `id`, in insertion order. -/
def AliasMap.get (m : AliasMap) (id : Nat) : List Value :=
  (m.filter (fun p => p.1 == id)).map (fun p => p.2)

/-- The opcodes whose output aliases its inputs (the `case` list of the alias loop). -/
def isAliasOp : Operand → Bool
  | Operand.Lshift | Operand.Rshift | Operand.Srshift | Operand.Slice
  | Operand.Mov | Operand.Smov | Operand.Amov => true
  | _ => false

/-- The inner loop of the alias collection for one aliasing step: every non-constant
input gets the step output appended to its alias list.  Dereferencing a nil output
(`*step.Instr.Out`) panics. -/
def aliasInputs (out : Option Value) : List Value → AliasMap → Option AliasMap
  | [], m => some m
  | v :: rest, m =>
    if v.Const then aliasInputs out rest m
    else
      match out with
      | none => none
      | some o => aliasInputs out rest (m ++ [(v.ID, o)])

/-- The loop "Collect value aliases" of `Program.GC`. -/
def collectAliases : List Step → AliasMap → Option AliasMap
  | [], m => some m
  | s :: rest, m =>
    if isAliasOp s.Instr.Op then
      match aliasInputs s.Instr.Out s.Instr.In m with
      | none => none
      | some m1 => collectAliases rest m1
    else collectAliases rest m

/-- The step `Step{Instr: NewGCInstr(in)}` that `Program.GC` appends for a dead input. -/
def releaseStep (v : Value) : Step :=
  { Label := "", Instr := NewGCInstr v, Live := [] }

/-- The body of the loop over the inputs of one step: a non-constant input whose bit is
clear and none of whose aliases has its bit set gets a `GC` step appended; then its
bit is set. -/
def gcInput (aliases : AliasMap) (acc : Nat × List Step) (v : Value) : Nat × List Step :=
  if v.Const then acc
  else
    let steps :=
      if acc.1.testBit v.ID = false then
        let live := (aliases.get v.ID).any (fun a => acc.1.testBit a.ID)
        if !live then acc.2 ++ [releaseStep v] else acc.2
      else acc.2
    (setBit acc.1 v.ID true, steps)

/-- The body of the main (backward) loop of `Program.GC` for one step. -/
def gcVisit (aliases : AliasMap) (acc : Nat × List Step) (s : Step) : Nat × List Step :=
  let acc1 := s.Instr.In.foldl (gcInput aliases) acc
  let set := match s.Instr.Out with
    | some o => setBit acc1.1 o.ID false
    | none => acc1.1
  (set, acc1.2 ++ [s])

/-- The seed of the live set: the bits of all inputs of the final `Ret`. -/
def retSeed (last : Step) : Nat :=
  last.Instr.In.foldl (fun s v => setBit s v.ID true) 0

/-- The part of the method `Program.GC` that works on the step list, from its first statement
to the assignment `prog.Steps = steps`: `none` is a panic, `some steps` the new value of
`prog.Steps`.  The dereference `prog.Params.Diagnostics` that follows the assignment is part
of `Program.GC` below.  (The debug print of every instruction has no effect on the result and
is left out.) -/
def GC (steps : List Step) : Option (List Step) :=
  match steps.getLast? with
  | none => none
  | some last =>
    if last.Instr.Op ≠ Operand.Ret then none
    else
      let set := retSeed last
      match collectAliases steps [] with
      | none => none
      | some aliases =>
        some ((steps.reverse.foldl (gcVisit aliases) (set, [])).2.reverse)

/-- Modelled from the spec: the compilation parameters `utils.Params` of a program, with the
flag `Diagnostics` that `Program.GC` reads (`utils` is not among the sources). -/
structure Params where
  Diagnostics : Bool
deriving DecidableEq, Repr, Inhabited

/-- The fields of an SSA program (`ssa.Program`) that `Program.GC` touches: the pointer
`Params` (`none` is nil) and the step list. -/
structure Program where
  Params : Option Params
  Steps : List Step
deriving DecidableEq, Repr, Inhabited

/-- Outcome of the method `Program.GC`: the program after a normal return, or the program as
the panic leaves it. -/
inductive GCResult where
  | done (prog : Program)
  | panic (prog : Program)
deriving DecidableEq, Repr

/-- The method `Program.GC` on a non-nil program: the step list is computed by `GC` and
assigned to `prog.Steps`; then `prog.Params.Diagnostics` is read, which panics when
`prog.Params` is nil.  (The timing print has no effect on the program.) -/
def Program.GC (prog : Program) : GCResult :=
  match Bedlam.GC prog.Steps with
  | none => GCResult.panic prog
  | some steps =>
    match prog.Params with
    | none => GCResult.panic { prog with Steps := steps }
    | some _ => GCResult.done { prog with Steps := steps }

/-! ### Vocabulary for the properties of `Program.GC` -/

/-- SSA form of a step list: each value (identified by its id) is the output of at most one
step and is read only by steps after that one. -/
def SSAForm (steps : List Step) : Prop :=
  ∀ i : Fin steps.length, ∀ o ∈ steps[i].Instr.Out,
    (∀ j : Fin steps.length, ∀ o2 ∈ steps[j].Instr.Out, o2.ID = o.ID → j = i) ∧
    (∀ j : Fin steps.length, ∀ w ∈ steps[j].Instr.In, w.ID = o.ID → i < j)

instance (steps : List Step) : Decidable (SSAForm steps) := by
  unfold SSAForm; infer_instance

/-- The step list is non-empty and its last step is a `Ret`. -/
def EndsInRet (steps : List Step) : Prop :=
  ∃ last ∈ steps.getLast?, last.Instr.Op = Operand.Ret

instance (steps : List Step) : Decidable (EndsInRet steps) := by
  unfold EndsInRet; infer_instance

/-- The layout of the output of `Program.GC`: every original step, immediately followed by the
`GC` steps of the values released after it. -/
def withReleases : List Step → List (List Value) → List Step
  | s :: steps, vs :: rel => s :: (vs.map releaseStep ++ withReleases steps rel)
  | _, _ => []

/-- The effect of the loop over the inputs of one step, as a function of the bit set before
it: the bit set after it and the values that got a `GC` step, in the order of the
inputs. -/
def emitInputs (aliases : AliasMap) : Nat → List Value → Nat × List Value
  | set, [] => (set, [])
  | set, v :: rest =>
    if v.Const then emitInputs aliases set rest
    else
      let r := emitInputs aliases (setBit set v.ID true) rest
      if set.testBit v.ID = false ∧ (aliases.get v.ID).any (fun a => set.testBit a.ID) = false
      then (r.1, v :: r.2) else r

/-- The bit set of `Program.GC` once the backward loop has visited all of `steps`, started
from the bit set `seed`. -/
def liveBefore (aliases : AliasMap) (seed : Nat) : List Step → Nat
  | [] => seed
  | s :: rest =>
    let set := (emitInputs aliases (liveBefore aliases seed rest) s.Instr.In).1
    match s.Instr.Out with
    | some o => setBit set o.ID false
    | none => set

/-- The values released after each step of `steps` by the backward loop started from `seed`,
in the order in which their `GC` steps follow the step. -/
def releasedAfter (aliases : AliasMap) (seed : Nat) : List Step → List (List Value)
  | [] => []
  | s :: rest =>
    (emitInputs aliases (liveBefore aliases seed rest) s.Instr.In).2.reverse ::
      releasedAfter aliases seed rest

/-- The value `a` is a direct alias of the value with id `n`: it is the output of an aliasing
step (`Lshift`, `Rshift`, `Srshift`, `Slice`, `Mov`, `Smov`, `Amov`) that takes a
non-constant input with id `n`. -/
def IsAliasOf (steps : List Step) (a : Value) (n : Nat) : Prop :=
  ∃ t ∈ steps, isAliasOp t.Instr.Op = true ∧ t.Instr.Out = some a ∧
    ∃ w ∈ t.Instr.In, w.Const = false ∧ w.ID = n

/-- The condition under which `Program.GC` panics. -/
def GCPanics (prog : Program) : Prop :=
  prog.Steps = [] ∨ (∃ last ∈ prog.Steps.getLast?, last.Instr.Op ≠ Operand.Ret) ∨
    (∃ s ∈ prog.Steps, isAliasOp s.Instr.Op = true ∧ s.Instr.Out = none ∧
      ∃ w ∈ s.Instr.In, w.Const = false) ∨
    prog.Params = none

instance (prog : Program) : Decidable (GCPanics prog) := by
  unfold GCPanics; infer_instance

/-- The inputs `ins` split at the first non-constant input with id `n`. -/
def FirstRead (ins pre : List Value) (w : Value) (post : List Value) (n : Nat) : Prop :=
  ins = pre ++ w :: post ∧ w.Const = false ∧ w.ID = n ∧
    ∀ u ∈ pre, u.Const = false → u.ID ≠ n

/-! ## Blocks and `Block.ReturnBinding` -/

/-- A `*Block` pointer: an index into the heap of blocks (`none` is nil). -/
abbrev Ptr := Nat

/-- Modelled from the spec: the `Bindings` of a block, "a mapping from name to Value inside
the environment of a block" (`bindings.go` is not among the sources), kept as an
association list whose first match wins. -/
abbrev Bindings := List (String × Value)

/-- Modelled from the spec: `Bindings.Get(name)` followed by `bind.Value(retBlock, gen)`,
the value bound to `name`, if any. -/
def Bindings.Get (b : Bindings) (name : String) : Option Value :=
  (b.find? (fun p => p.1 == name)).map (fun p => p.2)

/-- A basic block (`ssa.Block`). -/
structure Block where
  ID : Nat
  Name : String
  From : List Ptr
  Next : Option Ptr
  BranchCond : Value
  Branch : Option Ptr
  Instr : List Instr
  Bindings : Bindings
  Dead : Bool
  Processed : Bool
deriving DecidableEq, Repr, Inhabited

/-- The heap of blocks that `*Block` pointers point into. -/
abbrev Heap := List Block

/-- Cache key of the return-binding context. -/
structure returnBindingKey where
  BlockID : Nat
  Name : String
deriving DecidableEq, Repr, Inhabited

/-- Cached result of a return-binding resolution. -/
structure ReturnBindingValue where
  v : Value
  diff : Bool
  ok : Bool
deriving DecidableEq, Repr, Inhabited

/-- The context of a return-binding resolution: the Go map `cache`, kept as an
association list whose first match wins. -/
structure ReturnBindingCTX where
  cache : List (returnBindingKey × ReturnBindingValue)
deriving DecidableEq, Repr, Inhabited

/-- The method `ctx.Get(b, name)` for a non-nil block `b`. -/
def ReturnBindingCTX.Get (ctx : ReturnBindingCTX) (b : Block) (name : String) :
    Option ReturnBindingValue :=
  (ctx.cache.find? (fun p => p.1 = { BlockID := b.ID, Name := name })).map (fun p => p.2)

/-- The method `ctx.Set(b, name, v, diff, ok)` for a non-nil block `b`. -/
def ReturnBindingCTX.Set (ctx : ReturnBindingCTX) (b : Block) (name : String) (v : Value)
    (diff ok : Bool) : ReturnBindingCTX :=
  { cache := ({ BlockID := b.ID, Name := name }, { v := v, diff := diff, ok := ok }) :: ctx.cache }

/-- The function `NewReturnBindingCTX()`. -/
def NewReturnBindingCTX : ReturnBindingCTX := { cache := [] }

/-- Modelled from the spec: the value `Generator` ("`id` is a globally unique, monotonically
increasing identifier produced by a `Generator`"; `generator.go` is not among the
sources): the next unused value id. -/
structure Generator where
  nextID : Nat
deriving DecidableEq, Repr, Inhabited

/-- Modelled from the spec: `gen.AnonVal(t)`, "a fresh anonymous value" of type `t`, and
the generator after the allocation. -/
def Generator.AnonVal (gen : Generator) (t : Info) : Value × Generator :=
  ({ Name := "%_", Scope := 0, ID := gen.nextID, TypeInfo := t, Const := false },
   { nextID := gen.nextID + 1 })

/-- Modelled from the spec: `Value.Equal`, "`vTrue == vFalse` (same SSA id)" (`value.go` is
not among the sources). -/
def Value.Equal (v o : Value) : Bool := v.ID == o.ID

/-- Modelled from the spec: `NewPhiInstr(cond, l, r, v)`, the instruction
`Phi(cond, l, r) → v` (`instr.go` is not among the sources). -/
def NewPhiInstr (cond l r v : Value) : Instr :=
  { Op := Operand.Phi, In := [cond, l, r], Out := some v }

/-- A frame of the work stack of `returnBinding`. -/
structure BindingStackState where
  block : Option Ptr
  r : Nat
  vTrue : Value
  diffTrue : Bool
  parent : Option Ptr
deriving DecidableEq, Repr, Inhabited

/-- The mutable state of `returnBinding`: the work stack (top first), the named results
`v`, `diff`, `ok`, the context, the instruction list of `retBlock` (the only part of
`retBlock` the function touches) and the generator. -/
structure RBState where
  stack : List BindingStackState
  v : Value
  diff : Bool
  ok : Bool
  ctx : ReturnBindingCTX
  retBlock : List Instr
  gen : Generator
deriving DecidableEq, Repr, Inhabited

/-- Outcome of a loop run with a bound on the number of iterations. -/
inductive Outcome (α : Type) where
  | done (a : α)
  | panic
  | timeout
deriving DecidableEq, Repr

/-- The `switch s.r` at the end of one iteration of `returnBinding`; `p` points to
`b = s.block`, and `st` holds the stack after the pop.  Dereferencing a nil
`s.parent` panics (`none`). -/
def returnBindingSwitch (heap : Heap) (name : String) (s : BindingStackState) (p : Ptr)
    (b : Block) (st : RBState) : Option RBState :=
  match s.r with
  | 1 =>
    match s.parent.bind (fun q => heap[q]?) with
    | none => none
    | some parent =>
      if st.ok then
        some { st with ctx := st.ctx.Set parent name st.v st.diff true }
      else
        match parent.Bindings.Get name with
        | none =>
          some { st with ctx := st.ctx.Set parent name st.v false false, diff := false, ok := false }
        | some bind =>
          some { st with v := bind, ctx := st.ctx.Set parent name bind false true,
                         diff := false, ok := true }
  | 2 =>
    if !st.ok then
      match s.parent.bind (fun q => heap[q]?) with
      | none => none
      | some parent =>
        some { st with ctx := st.ctx.Set parent name st.v false false, diff := false, ok := false }
    else
      some { st with stack := { block := b.Next, r := 3, vTrue := st.v, diffTrue := st.diff,
                                parent := some p } :: st.stack }
  | 3 =>
    match s.parent.bind (fun q => heap[q]?) with
    | none => none
    | some parent =>
      if !st.ok then
        some { st with ctx := st.ctx.Set parent name st.v false false, diff := false, ok := false }
      else if s.vTrue.Equal st.v then
        some { st with ctx := st.ctx.Set parent name s.vTrue (s.diffTrue || st.diff) true,
                       v := s.vTrue, diff := s.diffTrue || st.diff, ok := true }
      else
        let rType := if s.vTrue.TypeInfo.Bits > st.v.TypeInfo.Bits then s.vTrue.TypeInfo
                     else st.v.TypeInfo
        let vFalse := st.v
        let (v, gen) := st.gen.AnonVal rType
        let diff := (s.vTrue.TypeInfo.Bits != vFalse.TypeInfo.Bits) || s.diffTrue || st.diff
        some { st with v := v, gen := gen,
                       retBlock := st.retBlock ++ [NewPhiInstr parent.BranchCond s.vTrue vFalse v],
                       diff := diff, ctx := st.ctx.Set parent name v diff true, ok := true }
  | _ => some st

/-- One iteration of the work-stack loop of `returnBinding` (the stack is non-empty):
pop the top frame, resolve its block from the cache or its bindings, or push the
frame of a successor and `continue`; then run the `switch`.  The lookup
`bind, ok := b.Bindings.Get(name)` declares a new `ok` in its own scope, so the
assignments `ok = false` / `ok = true` after it do not change the named result `ok`.
A nil `s.block` panics in `ctx.Get`. -/
def returnBindingIter (heap : Heap) (name : String) (st : RBState) : Option RBState :=
  match st.stack with
  | [] => some st
  | s :: stack =>
    match s.block with
    | none => none
    | some p =>
      match heap[p]? with
      | none => none
      | some b =>
        match st.ctx.Get b name with
        | some binding =>
          returnBindingSwitch heap name s p b
            { st with stack := stack, v := binding.v, diff := binding.diff, ok := binding.ok }
        | none =>
          if b.Branch = none ∨ b.Next = b.Branch then
            match b.Next with
            | some nxt =>
              some { st with stack := { block := some nxt, r := 1, vTrue := default,
                                        diffTrue := false, parent := some p } :: stack }
            | none =>
              match b.Bindings.Get name with
              | none =>
                returnBindingSwitch heap name s p b
                  { st with stack := stack, ctx := st.ctx.Set b name st.v false false,
                            diff := false }
              | some bind =>
                returnBindingSwitch heap name s p b
                  { st with stack := stack, v := bind, ctx := st.ctx.Set b name bind false true,
                            diff := false }
          else
            some { st with stack := { block := b.Branch, r := 2, vTrue := default,
                                      diffTrue := false, parent := none } :: stack }

/-- The loop `for len(stack) > 0` of `returnBinding`, run for at most `fuel` iterations. -/
def returnBindingLoop (heap : Heap) (name : String) : Nat → RBState → Outcome RBState
  | 0, st => if st.stack.isEmpty then Outcome.done st else Outcome.timeout
  | fuel + 1, st =>
    if st.stack.isEmpty then Outcome.done st
    else
      match returnBindingIter heap name st with
      | none => Outcome.panic
      | some st1 => returnBindingLoop heap name fuel st1

/-- The method `Block.ReturnBinding` (and `returnBinding`, which it calls) of the block at `bl`:
the final state carries the results `v`, `diff`, `ok`, the context, the instructions of
`retBlock` and the generator. -/
def ReturnBinding (heap : Heap) (fuel : Nat) (bl : Ptr) (ctx : ReturnBindingCTX)
    (name : String) (retBlock : List Instr) (gen : Generator) : Outcome RBState :=
  match heap[bl]? with
  | none => Outcome.panic
  | some b =>
    match ctx.Get b name with
    | some binding =>
      Outcome.done { stack := [], v := binding.v, diff := binding.diff, ok := binding.ok,
                     ctx := ctx, retBlock := retBlock, gen := gen }
    | none =>
      returnBindingLoop heap name fuel
        { stack := [{ block := some bl, r := 0, vTrue := default, diffTrue := false,
                      parent := none }],
          v := default, diff := false, ok := false,
          ctx := ctx, retBlock := retBlock, gen := gen }

/-! ## `Block.Serialize` -/

/-- The steps emitted for one block: its instructions in order, the first labelled with the
block name. -/
def blockSteps (b : Block) : List Step :=
  match b.Instr with
  | [] => []
  | i :: rest =>
    { Label := b.Name, Instr := i, Live := [] } ::
      rest.map (fun j => { Label := "", Instr := j, Live := [] })

/-- The loop of `Block.serialize`, run for at most `fuel` iterations; the stack has its top
first and `seen` lists the block ids mapped to `true`.  The loop over `b.From`
("Have all predecessors been processed?") only `continue`s its own iteration, so it
leaves the state unchanged and has no counterpart here. -/
def serializeLoop (heap : Heap) : Nat → List Ptr → List Step → List Nat → Outcome (List Step)
  | 0, stack, code, _ => if stack.isEmpty then Outcome.done code else Outcome.timeout
  | fuel + 1, stack, code, seen =>
    match stack with
    | [] => Outcome.done code
    | p :: rest =>
      match heap[p]? with
      | none => Outcome.panic
      | some b =>
        if b.ID ∈ seen then serializeLoop heap fuel rest code seen
        else
          let stack1 := match b.Next with
            | some n => n :: rest
            | none => rest
          let stack2 := match b.Branch with
            | some n => n :: stack1
            | none => stack1
          serializeLoop heap fuel stack2 (code ++ blockSteps b) (b.ID :: seen)

/-- The method `Block.Serialize` of the block at `bl`. -/
def Serialize (heap : Heap) (fuel : Nat) (bl : Ptr) : Outcome (List Step) :=
  serializeLoop heap fuel [bl] [] []

/-! ## Vocabulary for the properties of `Block.ReturnBinding` -/

/-- An instruction `Phi(c, t, f) → o` whose true and false operands have different ids. -/
def IsPhiOfDistinct (i : Instr) : Prop :=
  ∃ c t f o : Value, i = NewPhiInstr c t f o ∧ t.ID ≠ f.ID

/-- What one iteration of the loop of `returnBinding` may do to the instructions of
`retBlock`: nothing, or append one `Phi` with operands of different ids. -/
def AppendsAtMostPhi (before after : List Instr) : Prop :=
  after = before ∨
    ∃ c t f o : Value, after = before ++ [NewPhiInstr c t f o] ∧ t.ID ≠ f.ID

/-! ## Concrete programs and control-flow graphs -/

/-- A non-constant 8-bit value with the given name and id. -/
def exVal (name : String) (id : Nat) : Value :=
  { Name := name, Scope := 0, ID := id, TypeInfo := { Kind := 0, Bits := 8 }, Const := false }

/-- An instruction with the given opcode, inputs and output. -/
def exInstr (op : Operand) (ins : List Value) (out : Option Value) : Instr :=
  { Op := op, In := ins, Out := out }

/-- An unlabelled step with the given opcode, inputs and output. -/
def exStep (op : Operand) (ins : List Value) (out : Option Value) : Step :=
  { Label := "", Instr := exInstr op ins out, Live := [] }

/-- A block with branch condition `c`. -/
def exBlock (id : Nat) (name : String) (preds : List Ptr) (next branch : Option Ptr)
    (instr : List Instr) (bindings : Bindings) : Block :=
  { ID := id, Name := name, From := preds, Next := next, BranchCond := exVal "c" 1,
    Branch := branch, Instr := instr, Bindings := bindings, Dead := false, Processed := false }

/-- The program `t = a + b; u = t * t; return u`. -/
def straightProgram : List Step :=
  [ exStep Operand.Add [exVal "a" 1, exVal "b" 2] (some (exVal "t" 3)),
    exStep Operand.Mul [exVal "t" 3, exVal "t" 3] (some (exVal "u" 4)),
    exStep Operand.Ret [exVal "u" 4] none ]

/-- The output of `Program.GC` on `straightProgram`. -/
def straightProgramGC : List Step :=
  [ exStep Operand.Add [exVal "a" 1, exVal "b" 2] (some (exVal "t" 3)),
    releaseStep (exVal "b" 2),
    releaseStep (exVal "a" 1),
    exStep Operand.Mul [exVal "t" 3, exVal "t" 3] (some (exVal "u" 4)),
    releaseStep (exVal "t" 3),
    exStep Operand.Ret [exVal "u" 4] none ]

/-- The program `y = mov x; z = y + y; return z`: `y` aliases `x`. -/
def aliasedProgram : List Step :=
  [ exStep Operand.Mov [exVal "x" 1] (some (exVal "y" 2)),
    exStep Operand.Add [exVal "y" 2, exVal "y" 2] (some (exVal "z" 3)),
    exStep Operand.Ret [exVal "z" 3] none ]

/-- The program `y = mov x; z = mov y; t = x + x; u = z + z; return u, t`: `z` aliases `y`,
which aliases `x`. -/
def aliasChainProgram : List Step :=
  [ exStep Operand.Mov [exVal "x" 1] (some (exVal "y" 2)),
    exStep Operand.Mov [exVal "y" 2] (some (exVal "z" 3)),
    exStep Operand.Add [exVal "x" 1, exVal "x" 1] (some (exVal "t" 4)),
    exStep Operand.Add [exVal "z" 3, exVal "z" 3] (some (exVal "u" 5)),
    exStep Operand.Ret [exVal "u" 5, exVal "t" 4] none ]

/-- A two-step list whose `Mov` has a non-constant input and a nil output. -/
def nilOutputProgram : List Step :=
  [ exStep Operand.Mov [exVal "x" 1] none,
    exStep Operand.Ret [] none ]

/-- The program with the steps `steps` and non-nil parameters. -/
def exProgram (steps : List Step) : Program :=
  { Params := some { Diagnostics := false }, Steps := steps }

/-- The program `a = mov v; t = v + a; return t`: the step that reads `v` last reads its
alias `a` after it. -/
def aliasLaterProgram : List Step :=
  [ exStep Operand.Mov [exVal "v" 1] (some (exVal "a" 2)),
    exStep Operand.Add [exVal "v" 1, exVal "a" 2] (some (exVal "t" 3)),
    exStep Operand.Ret [exVal "t" 3] none ]

/-- The program `a = mov v; t = a + v; return t`: the step that reads `v` last reads its
alias `a` before it. -/
def aliasEarlierProgram : List Step :=
  [ exStep Operand.Mov [exVal "v" 1] (some (exVal "a" 2)),
    exStep Operand.Add [exVal "a" 2, exVal "v" 1] (some (exVal "t" 3)),
    exStep Operand.Ret [exVal "t" 3] none ]

/-- The output of `Program.GC` on `aliasLaterProgram`. -/
def aliasLaterProgramGC : List Step :=
  [ exStep Operand.Mov [exVal "v" 1] (some (exVal "a" 2)),
    exStep Operand.Add [exVal "v" 1, exVal "a" 2] (some (exVal "t" 3)),
    releaseStep (exVal "a" 2),
    releaseStep (exVal "v" 1),
    exStep Operand.Ret [exVal "t" 3] none ]

/-- The output of `Program.GC` on `aliasEarlierProgram`. -/
def aliasEarlierProgramGC : List Step :=
  [ exStep Operand.Mov [exVal "v" 1] (some (exVal "a" 2)),
    exStep Operand.Add [exVal "a" 2, exVal "v" 1] (some (exVal "t" 3)),
    releaseStep (exVal "a" 2),
    exStep Operand.Ret [exVal "t" 3] none ]

/-- The control-flow graph of `if c { x = a } else { x = b }; return x`: block 0 branches to
block 1 (then, binds `x` to `a`) and falls through to block 2 (else, binds `x` to `b`);
both continue to the join block 3. -/
def diamondHeap : Heap :=
  [ exBlock 0 "entry" [] (some 2) (some 1)
      [exInstr Operand.Sub [exVal "p" 4, exVal "q" 5] (some (exVal "c" 1))] [],
    exBlock 1 "then" [0] (some 3) none
      [exInstr Operand.Mov [exVal "p" 4] (some (exVal "a" 2))] [("x", exVal "a" 2)],
    exBlock 2 "else" [0] (some 3) none
      [exInstr Operand.Mov [exVal "q" 5] (some (exVal "b" 3))] [("x", exVal "b" 3)],
    exBlock 3 "join" [1, 2] none none
      [exInstr Operand.Ret [exVal "r" 6] none] [] ]

/-- The context left by the first resolution of `x` from block 0 of `diamondHeap`. -/
def diamondCtx : ReturnBindingCTX :=
  { cache := [({ BlockID := 1, Name := "x" }, { v := exVal "a" 2, diff := false, ok := true }),
              ({ BlockID := 3, Name := "x" }, { v := default, diff := false, ok := false })] }

/-- A single terminal block that binds `x` to `a`. -/
def terminalHeap : Heap :=
  [ exBlock 0 "entry" [] none none [] [("x", exVal "a" 2)] ]

/-- A sequential block 0 that binds `x` to `a`, followed by the terminal block 1 in which `x`
is unbound. -/
def fallbackHeap : Heap :=
  [ exBlock 0 "entry" [] (some 1) none [] [("x", exVal "a" 2)],
    exBlock 1 "exit" [0] none none [] [] ]

/-- Block 0 of `fallbackHeap`. -/
def fallbackEntry : Block :=
  exBlock 0 "entry" [] (some 1) none [] [("x", exVal "a" 2)]

/-- A context in which block 1 is memoized for `x` as unresolved (`ok = false`). -/
def nextUnbound : ReturnBindingCTX :=
  { cache := [({ BlockID := 1, Name := "x" }, { v := default, diff := false, ok := false })] }

/-- A context in which block 1 is memoized for `x` with the value `b`. -/
def nextMemoized : ReturnBindingCTX :=
  { cache := [({ BlockID := 1, Name := "x" }, { v := exVal "b" 3, diff := false, ok := true })] }

/-- Block 0 branches to block 1, which binds `x` to `a` and continues to block 2, which binds
`x` to `b`. -/
def phiHeap : Heap :=
  [ exBlock 0 "entry" [] (some 2) (some 1) [] [],
    exBlock 1 "then" [0] (some 2) none [] [("x", exVal "a" 2)],
    exBlock 2 "join" [0, 1] none none [] [("x", exVal "b" 3)] ]

/-- The context left by resolving `x` from block 1 of `phiHeap`. -/
def phiCtx : ReturnBindingCTX :=
  { cache := [({ BlockID := 1, Name := "x" }, { v := exVal "a" 2, diff := false, ok := true }),
              ({ BlockID := 2, Name := "x" }, { v := exVal "b" 3, diff := false, ok := true })] }

/-- The fresh value that the generator `{ nextID := 10 }` hands out for an 8-bit type. -/
def phiValue : Value :=
  { Name := "%_", Scope := 0, ID := 10, TypeInfo := { Kind := 0, Bits := 8 }, Const := false }

/-- The final state of `ReturnBinding` for `x` from block 0 of `phiHeap` under `phiCtx`. -/
def phiResult : RBState :=
  { stack := [], v := phiValue, diff := false, ok := true,
    ctx := { cache := ({ BlockID := 1, Name := "x" },
                       { v := phiValue, diff := false, ok := true }) :: phiCtx.cache },
    retBlock := [NewPhiInstr (exVal "c" 1) (exVal "a" 2) (exVal "b" 3) phiValue],
    gen := { nextID := 11 } }

/-- A state of the loop of `returnBinding` on `phiHeap` whose only frame is in phase 3 with
`vTrue = b`, the value memoized for block 2. -/
def equalState : RBState :=
  { stack := [{ block := some 2, r := 3, vTrue := exVal "b" 3, diffTrue := false,
                parent := some 1 }],
    v := exVal "b" 3, diff := false, ok := true, ctx := phiCtx, retBlock := [],
    gen := { nextID := 10 } }

/-! ## Block edges (`SetNext`, `SetBranch`, `addFrom`) -/

/-- Result of a call of `SetNext` or `SetBranch`: the heap after a normal return, the heap at
the `panic`, or a fault when a pointer does not point into the heap (which Go rules out). -/
inductive EdgeResult where
  | done (h : Heap)
  | panic (h : Heap)
  | fault
deriving DecidableEq, Repr

/-- The loop of `addFrom`: whether some block of `froms` has the ID `id` (`f.Equals(o)` is
`f.ID == o.ID`); `none` when a pointer of the list does not point into the heap. -/
def fromContains (h : Heap) (id : Nat) : List Ptr → Option Bool
  | [] => some false
  | f :: rest =>
    match h[f]? with
    | none => none
    | some fb => if fb.ID = id then some true else fromContains h id rest

/-- The method `b.addFrom(o)` on non-nil pointers `b` and `o`. -/
def Block.addFrom (h : Heap) (b o : Ptr) : Option Heap :=
  match h[b]?, h[o]? with
  | some bb, some ob =>
    match fromContains h ob.ID bb.From with
    | none => none
    | some true => some h
    | some false => some (h.set b { bb with From := bb.From ++ [o] })
  | _, _ => none

/-- The method `b.SetNext(o)` on non-nil pointers `b` and `o`. -/
def Block.SetNext (h : Heap) (b o : Ptr) : EdgeResult :=
  match h[b]?, h[o]? with
  | some bb, some ob =>
    let link : EdgeResult :=
      match Block.addFrom (h.set b { bb with Next := some o }) o b with
      | some h2 => EdgeResult.done h2
      | none => EdgeResult.fault
    match bb.Next with
    | none => link
    | some n =>
      match h[n]? with
      | none => EdgeResult.fault
      | some nb => if nb.ID ≠ ob.ID then EdgeResult.panic h else link
  | _, _ => EdgeResult.fault

/-- The method `b.SetBranch(o)` on non-nil pointers `b` and `o`. -/
def Block.SetBranch (h : Heap) (b o : Ptr) : EdgeResult :=
  match h[b]?, h[o]? with
  | some bb, some ob =>
    let link : EdgeResult :=
      match Block.addFrom (h.set b { bb with Branch := some o }) o b with
      | some h2 => EdgeResult.done h2
      | none => EdgeResult.fault
    match bb.Branch with
    | none => link
    | some n =>
      match h[n]? with
      | none => EdgeResult.fault
      | some nb => if nb.ID ≠ ob.ID then EdgeResult.panic h else link
  | _, _ => EdgeResult.fault

/-- Every pointer stored in a block of the heap points into the heap. -/
def ValidHeap (h : Heap) : Prop :=
  ∀ blk ∈ h, (∀ f ∈ blk.From, f < h.length) ∧ (∀ n ∈ blk.Next, n < h.length) ∧
    (∀ n ∈ blk.Branch, n < h.length)

instance (h : Heap) : Decidable (ValidHeap h) := by
  unfold ValidHeap; infer_instance

/-- The ID of the block `p` points to. -/
def idOf (h : Heap) (p : Ptr) : Option Nat := (h[p]?).map (fun blk => blk.ID)

/-- The IDs of the blocks in the `From` list of the block `x` points to. -/
def fromIDs (h : Heap) (x : Ptr) : List Nat :=
  match h[x]? with
  | some xb => xb.From.filterMap (idOf h)
  | none => []

/-- The `From` list of the block `x` points to. -/
def fromOf (h : Heap) (x : Ptr) : Option (List Ptr) := (h[x]?).map (fun blk => blk.From)

/-- The `Next` field of the block `x` points to. -/
def nextOf (h : Heap) (x : Ptr) : Option (Option Ptr) := (h[x]?).map (fun blk => blk.Next)

/-- The `Branch` field of the block `x` points to. -/
def branchOf (h : Heap) (x : Ptr) : Option (Option Ptr) := (h[x]?).map (fun blk => blk.Branch)

/-- Three blocks: block 0 with `Next` block 1, and the unlinked block 2. -/
def edgeHeap : Heap :=
  [ exBlock 0 "b" [] (some 1) none [] [],
    exBlock 1 "o" [0] none none [] [],
    exBlock 2 "p" [] none none [] [] ]

/-! ## Circuits (`circuit/circuit.go`) -/

/-- Gate functions and statistics slots (`circuit.Operation`, the constants `XOR` to
`MaxWidth`). -/
inductive Operation where
  | XOR | XNOR | AND | OR | INV | Count | NumLevels | MaxWidth
deriving DecidableEq, Repr, Inhabited, Fintype

/-- The statistics array `Stats [MaxWidth + 1]uint64`, indexed by `Operation`. -/
abbrev Stats := Operation → Nat

/-- The indices of the loops `for i := XOR; i < Count; i++`. -/
def gateOps : List Operation :=
  [Operation.XOR, Operation.XNOR, Operation.AND, Operation.OR, Operation.INV]

/-- The method `Stats.Count`: the sum of the per-opcode counters, in `uint64` arithmetic. -/
def Stats.Count (stats : Stats) : Nat :=
  gateOps.foldl (fun result i => (result + stats i) % 2 ^ 64) 0

/-- The method `Stats.Cost`: `(stats[AND]+stats[INV])*2 + stats[OR]*3` in `uint64`
arithmetic. -/
def Stats.Cost (stats : Stats) : Nat :=
  (((stats Operation.AND + stats Operation.INV) % 2 ^ 64 * 2) % 2 ^ 64 +
    (stats Operation.OR * 3) % 2 ^ 64) % 2 ^ 64

/-- A wire id (`circuit.Wire`, a `uint32`). -/
abbrev Wire := Fin (2 ^ 32)

/-- The constant `InvalidWire`, `math.MaxUint32`. -/
def InvalidWire : Wire := Fin.last _

/-- A boolean gate (`circuit.Gate`); `Level` is a `uint32`. -/
structure Gate where
  Input0 : Wire
  Input1 : Wire
  Output : Wire
  Op : Operation
  Level : Nat
deriving DecidableEq, Repr, Inhabited

/-- The method `Gate.Inputs`: the input wires of a gate; an unsupported gate type panics. -/
def Gate.Inputs (g : Gate) : Option (List Wire) :=
  match g.Op with
  | Operation.XOR | Operation.XNOR | Operation.AND | Operation.OR => some [g.Input0, g.Input1]
  | Operation.INV => some [g.Input0]
  | _ => none

/-- Circuit input or output argument (`circuit.IOArg`): a name and a type. -/
structure IOArg where
  Name : String
  TypeInfo : Info
deriving DecidableEq, Repr, Inhabited

/-- A boolean circuit (`circuit.Circuit`). -/
structure Circuit where
  NumGates : Int
  NumWires : Int
  Inputs : List IOArg
  Outputs : List IOArg
  Gates : List Gate
  Stats : Stats

/-- The method `Circuit.Cost`. -/
def Circuit.Cost (c : Circuit) : Nat := c.Stats.Cost

/-- The local state of the loop of `AssignLevels`: the gates visited so far with their
`Level` assigned, the slices `levels` and `countByLevel`, and `max`. -/
structure LevelState where
  gates : List Gate
  levels : List Nat
  countByLevel : List Nat
  max : Nat
deriving DecidableEq, Repr, Inhabited

/-- The level computed for a gate from the levels of its input wires: `levels[gate.Input0]`,
raised to `levels[gate.Input1]` unless the gate is an `INV`.  An index out of range
panics. -/
def inputLevel (levels : List Nat) (gate : Gate) : Option Nat :=
  match levels[gate.Input0.val]? with
  | none => none
  | some level =>
    if gate.Op ≠ Operation.INV then
      match levels[gate.Input1.val]? with
      | none => none
      | some l1 => if l1 > level then some l1 else some level
    else some level

/-- The body of the loop of `AssignLevels` for one gate; `level++` and `countByLevel[level]++`
are `uint32` increments, and an index out of range panics. -/
def assignLevel (st : LevelState) (gate : Gate) : Option LevelState :=
  match inputLevel st.levels gate with
  | none => none
  | some level =>
    match st.countByLevel[level]? with
    | none => none
    | some count =>
      if gate.Output.val < st.levels.length then
        let next := (level + 1) % 2 ^ 32
        some { gates := st.gates ++ [{ gate with Level := level }],
               levels := st.levels.set gate.Output.val next,
               countByLevel := st.countByLevel.set level ((count + 1) % 2 ^ 32),
               max := if next > st.max then next else st.max }
      else none

/-- The loop `for idx, gate := range c.Gates` of `AssignLevels`. -/
def assignLoop : List Gate → LevelState → Option LevelState
  | [], st => some st
  | gate :: rest, st =>
    match assignLevel st gate with
    | none => none
    | some st1 => assignLoop rest st1

/-- The loop that computes `maxWidth` from `countByLevel`. -/
def maxCount (countByLevel : List Nat) : Nat :=
  countByLevel.foldl (fun maxWidth count => if count > maxWidth then count else maxWidth) 0

/-- The method `Circuit.AssignLevels`; `none` is a panic (a negative `NumWires` in `make`, or an
index out of range). -/
def AssignLevels (c : Circuit) : Option Circuit :=
  if c.NumWires < 0 then none
  else
    match assignLoop c.Gates
        { gates := [], levels := List.replicate c.NumWires.toNat 0,
          countByLevel := List.replicate c.NumWires.toNat 0, max := 0 } with
    | none => none
    | some st =>
      some { c with
        Gates := st.gates,
        Stats := Function.update
          (Function.update c.Stats Operation.NumLevels (st.max % 2 ^ 64))
          Operation.MaxWidth (maxCount st.countByLevel % 2 ^ 64) }

/-! ### Vocabulary for the properties of `AssignLevels` -/

/-- The wires whose levels `AssignLevels` reads for a gate: `Input0`, and `Input1` unless the
gate is an `INV`. -/
def Gate.levelInputs (g : Gate) : List Wire :=
  if g.Op ≠ Operation.INV then [g.Input0, g.Input1] else [g.Input0]

/-- The level of wire `w` after the gates `done`: 0 when none of them writes `w`, and
otherwise the `Level` plus one (as a `uint32`) of the last of them that writes `w`. -/
def wireLevel (done : List Gate) (w : Wire) : Nat :=
  done.foldl (fun level g => if g.Output = w then (g.Level + 1) % 2 ^ 32 else level) 0

/-- The maximum of the levels of the input wires of `g` after the gates `done`. -/
def inputsLevel (done : List Gate) (g : Gate) : Nat :=
  if g.Op ≠ Operation.INV then Nat.max (wireLevel done g.Input0) (wireLevel done g.Input1)
  else wireLevel done g.Input0

/-- Every wire is written by at most one gate. -/
def SingleWriter (gates : List Gate) : Prop :=
  ∀ i j : Fin gates.length, gates[i].Output = gates[j].Output → i = j

instance (gates : List Gate) : Decidable (SingleWriter gates) := by
  unfold SingleWriter; infer_instance

/-- The wire `w`, read by gate `k`, is written by no gate (a circuit input wire) or by a gate
before gate `k`. -/
def InputReady (gates : List Gate) (k : Fin gates.length) (w : Wire) : Prop :=
  (∀ j : Fin gates.length, gates[j].Output ≠ w) ∨
  (∃ j : Fin gates.length, j < k ∧ gates[j].Output = w)

/-- Topological order: every input wire of a gate (`Input0`, and `Input1` unless the gate is an
`INV`) is written by no gate or by an earlier gate. -/
def Topological (gates : List Gate) : Prop :=
  ∀ k : Fin gates.length,
    InputReady gates k gates[k].Input0 ∧
    (gates[k].Op ≠ Operation.INV → InputReady gates k gates[k].Input1)

instance (gates : List Gate) : Decidable (Topological gates) := by
  unfold Topological InputReady; infer_instance

/-- Gate `j` produces an input of gate `k`. -/
def Feeds (gates : List Gate) (j k : Nat) : Prop :=
  ∃ gj gk, gates[j]? = some gj ∧ gates[k]? = some gk ∧ gj.Output ∈ gk.levelInputs

/-- A path from a circuit input wire to a gate output: a non-empty sequence of gates, each
producing an input of the next, whose first gate reads a wire that no gate writes. -/
def IsPath (gates : List Gate) (p : List Nat) : Prop :=
  List.Chain' (Feeds gates) p ∧
  ∃ g, (p.head?.bind fun k => gates[k]?) = some g ∧
    ∃ w ∈ g.levelInputs, ∀ g2 ∈ gates, g2.Output ≠ w

/-- The number of gates whose `Level` is `l`. -/
def levelCount (gates : List Gate) (l : Nat) : Nat :=
  gates.countP (fun g => g.Level == l)

/-- The `Level` of gate `k`, and 0 when there is no gate `k`. -/
def levelAt (gates : List Gate) (k : Nat) : Nat :=
  match gates[k]? with
  | some g => g.Level
  | none => 0

/-- The largest wire level the gates `gates` write: the value of `max` in `AssignLevels`. -/
def maxWireLevel (gates : List Gate) : Nat :=
  gates.foldl (fun m g => if (g.Level + 1) % 2 ^ 32 > m then (g.Level + 1) % 2 ^ 32 else m) 0

/-- The invariant of the loop of `AssignLevels`: `levels` holds the wire levels of the gates
done so far, `countByLevel` their number per level (as `uint32`), and `max` the largest wire
level written. -/
structure LevelInv (st : LevelState) : Prop where
  levels : ∀ w : Wire, w.val < st.levels.length → st.levels[w.val]? = some (wireLevel st.gates w)
  length : st.countByLevel.length = st.levels.length
  counts : ∀ l, l < st.countByLevel.length →
    st.countByLevel[l]? = some (levelCount st.gates l % 2 ^ 32)
  bound : ∀ g ∈ st.gates, g.Level < st.countByLevel.length
  max : st.max = maxWireLevel st.gates

/-! ### Concrete circuits -/

/-- A gate of operation `op` reading wires `i0` and `i1` and writing wire `o`, with `Level` 0. -/
def exGate (op : Operation) (i0 i1 o : Wire) : Gate :=
  { Input0 := i0, Input1 := i1, Output := o, Op := op, Level := 0 }

/-- The gate `w2 = w0 AND w1`. -/
def wideGate : Gate := exGate Operation.AND ⟨0, by decide⟩ ⟨1, by decide⟩ ⟨2, by decide⟩

/-- The circuit of the single gate `w2 = w0 AND w1`. -/
def andCircuit : Circuit :=
  { NumGates := 1, NumWires := 3, Inputs := [], Outputs := [],
    Gates := [wideGate], Stats := fun _ => 0 }

/-- The circuit `w2 = w0 AND w1; w3 = INV w2; w4 = w2 XOR w3; w5 = w0 OR w1`. -/
def chainCircuit : Circuit :=
  { NumGates := 4, NumWires := 6, Inputs := [], Outputs := [],
    Gates := [wideGate,
      exGate Operation.INV ⟨2, by decide⟩ ⟨0, by decide⟩ ⟨3, by decide⟩,
      exGate Operation.XOR ⟨2, by decide⟩ ⟨3, by decide⟩ ⟨4, by decide⟩,
      exGate Operation.OR ⟨0, by decide⟩ ⟨1, by decide⟩ ⟨5, by decide⟩],
    Stats := fun _ => 0 }

/-- The circuit `chainCircuit` after `AssignLevels`. -/
def chainLeveled : Circuit :=
  { chainCircuit with
    Gates := [wideGate,
      { exGate Operation.INV ⟨2, by decide⟩ ⟨0, by decide⟩ ⟨3, by decide⟩ with Level := 1 },
      { exGate Operation.XOR ⟨2, by decide⟩ ⟨3, by decide⟩ ⟨4, by decide⟩ with Level := 2 },
      exGate Operation.OR ⟨0, by decide⟩ ⟨1, by decide⟩ ⟨5, by decide⟩],
    Stats := Function.update (Function.update chainCircuit.Stats Operation.NumLevels 3)
      Operation.MaxWidth 2 }

/-- A circuit of `2 ^ 32` copies of the gate `w2 = w0 AND w1`. -/
def wideCircuit : Circuit :=
  { NumGates := 2 ^ 32, NumWires := 3, Inputs := [], Outputs := [],
    Gates := List.replicate (2 ^ 32) wideGate, Stats := fun _ => 0 }

/-! ## Native circuits (`nativeCircuit` in `compiler/ast/builtin.go`) -/

/-- The method `Block.AddInstr`; the check `instr.Check()` (`instr.go` is not among the
sources) is taken to pass. -/
def Block.AddInstr (b : Block) (instr : Bedlam.Instr) : Block :=
  { b with Instr := b.Instr ++ [instr] }

/-- Modelled from the spec: the type tag `types.TUndefined` (`types` is not among the
sources). -/
def TUndefined : Nat := 0

/-- Modelled from the spec: `NewCircInstr(args, circ, result)`, the `Circ` instruction that
"inlines" the native circuit `circ` with inputs `args` (`instr.go` is not among the sources);
the circuit and the result vector have no field in this model of `Instr`. -/
def NewCircInstr (args : List Value) (_circ : Circuit) (_result : List Value) : Instr :=
  { Op := Operand.Circ, In := args, Out := none }

/-- The part of the code generator context (`ast.Codegen`) that `nativeCircuit` uses: the Go
map `Native` from file path to parsed circuit, kept as an association list whose first match
wins. -/
structure Codegen where
  Native : List (String × Circuit)

/-- The map lookup `ctx.Native[fp]`. -/
def Codegen.lookup (ctx : Codegen) (fp : String) : Option Circuit :=
  (ctx.Native.find? (fun p => p.1 == fp)).map (fun p => p.2)

/-- Outcome of the first part of `nativeCircuit`. -/
inductive NativeLoad where
  | loaded (circ : Circuit) (ctx : Codegen)
  | failed
  | panic

/-- The first part of `nativeCircuit`: the circuit cached for `fp`, or else the circuit that
`circuit.Parse(fp)` returns (the parameter `parse`, `none` for an error), after
`AssignLevels`, which is then cached. -/
def loadNative (parse : String → Option Circuit) (fp : String) (ctx : Codegen) : NativeLoad :=
  match ctx.lookup fp with
  | some circ => NativeLoad.loaded circ ctx
  | none =>
    match parse fp with
    | none => NativeLoad.failed
    | some circ =>
      match AssignLevels circ with
      | none => NativeLoad.panic
      | some circ2 => NativeLoad.loaded circ2 { ctx with Native := (fp, circ2) :: ctx.Native }

/-- The loop of `nativeCircuit` that checks the argument types, from index `idx` on: `none`
for an index out of range, `some false` when an argument is rejected. -/
def checkArgs (args : List Value) : List IOArg → Nat → Option Bool
  | [], _ => some true
  | io :: rest, idx =>
    match args[idx]? with
    | none => none
    | some arg =>
      if io.TypeInfo.Bits < arg.TypeInfo.Bits ||
          io.TypeInfo.Bits > arg.TypeInfo.Bits && !arg.Const then some false
      else checkArgs args rest (idx + 1)

/-- The loop of `nativeCircuit` that allocates one anonymous value for every output. -/
def allocResults : List IOArg → List Value → Generator → List Value × Generator
  | [], result, gen => (result, gen)
  | io :: rest, result, gen =>
    let r := gen.AnonVal { Kind := TUndefined, Bits := io.TypeInfo.Bits }
    allocResults rest (result ++ [r.1]) r.2

/-- Outcome of `nativeCircuit`: the block, the results, the context and the generator after a
successful call; the block and the context after an error return; or a panic. -/
inductive NativeResult where
  | ok (block : Block) (result : List Value) (ctx : Codegen) (gen : Generator)
  | error (block : Block) (ctx : Codegen)
  | panic

/-- The function `nativeCircuit`; `fp` is the path `path.Join(path.Dir(loc.Source), name)`
and `parse` is `circuit.Parse`. -/
def nativeCircuit (parse : String → Option Circuit) (fp : String) (block : Block)
    (ctx : Codegen) (gen : Generator) (args : List Value) : NativeResult :=
  match loadNative parse fp ctx with
  | NativeLoad.failed => NativeResult.error block ctx
  | NativeLoad.panic => NativeResult.panic
  | NativeLoad.loaded circ ctx2 =>
    if circ.Inputs.length > args.length then NativeResult.error block ctx2
    else if circ.Inputs.length < args.length then NativeResult.error block ctx2
    else
      match checkArgs args circ.Inputs 0 with
      | none => NativeResult.panic
      | some false => NativeResult.error block ctx2
      | some true =>
        let r := allocResults circ.Outputs [] gen
        NativeResult.ok (block.AddInstr (NewCircInstr args circ r.1)) r.1 ctx2 r.2

/-- The argument list `args` fits the inputs of `circ`: as many arguments as inputs, and every
argument has the width of its input, or is narrower and a constant. -/
def NativeAccepts (circ : Circuit) (args : List Value) : Prop :=
  args.length = circ.Inputs.length ∧
  ∀ idx : Fin args.length, ∀ io ∈ circ.Inputs[idx.val]?,
    args[idx].TypeInfo.Bits = io.TypeInfo.Bits ∨
    (args[idx].TypeInfo.Bits < io.TypeInfo.Bits ∧ args[idx].Const = true)

instance (circ : Circuit) (args : List Value) : Decidable (NativeAccepts circ args) := by
  unfold NativeAccepts; infer_instance

/-- The values `result` are fresh values for the outputs `outs`: one value per output, with
the width of that output and the next unused ids of the generator `gen`. -/
def FreshFor (gen : Generator) (outs : List IOArg) (result : List Value) : Prop :=
  result.length = outs.length ∧
  ∀ i : Fin result.length, result[i].ID = gen.nextID + i.val ∧
    ∀ io ∈ outs[i.val]?, result[i].TypeInfo.Bits = io.TypeInfo.Bits

instance (gen : Generator) (outs : List IOArg) (result : List Value) :
    Decidable (FreshFor gen outs result) := by
  unfold FreshFor; infer_instance

/-- A one-bit variable. -/
def bitVal (name : String) (id : Nat) : Value :=
  { Name := name, Scope := 0, ID := id, TypeInfo := { Kind := 1, Bits := 1 }, Const := false }

/-- The circuit `andCircuit` with its one-bit inputs `a` and `b` and its one-bit output `c`. -/
def nativeExample : Circuit :=
  { andCircuit with
    Inputs := [{ Name := "a", TypeInfo := { Kind := 1, Bits := 1 } },
               { Name := "b", TypeInfo := { Kind := 1, Bits := 1 } }],
    Outputs := [{ Name := "c", TypeInfo := { Kind := 1, Bits := 1 } }] }

/-- A context in which `nativeExample` is cached for the path `and.circ`. -/
def nativeCtx : Codegen := { Native := [("and.circ", nativeExample)] }

/-! ## `Program.liveness` -/

/-- Modelled from the spec: `Set.Add(v)` on a set of values (`Set` is a Go map from value id
to value, see `delete(live, id)`; `set.go` is not among the sources): the entry with the id
of `v` becomes `v`.  A set is kept as a list with at most one value per id; the order of the
list stands for the unspecified iteration order of the map. -/
def setAdd (s : List Value) (v : Value) : List Value :=
  if s.any (fun u => u.ID == v.ID) then s.map (fun u => if u.ID == v.ID then v else u)
  else s ++ [v]

/-- The builtin `delete(live, id)`. -/
def setDelete (s : List Value) (id : Nat) : List Value :=
  s.filter (fun u => u.ID != id)

/-- The alias table `map[ValueID]Value` of `Program.liveness`: the latest assignment is
first. -/
abbrev LiveAliases := List (Nat × Value)

/-- The lookup `aliases[id]`. -/
def LiveAliases.get (m : LiveAliases) (id : Nat) : Option Value :=
  (m.find? (fun p => p.1 == id)).map (fun p => p.2)

/-- The body of the loop "Collect value aliases" of `Program.liveness` for one step; an index
out of range and a nil output panic (`none`). -/
def liveAliasStep (m : LiveAliases) (s : Step) : Option LiveAliases :=
  match s.Instr.Op with
  | Operand.Slice | Operand.Mov =>
    match s.Instr.In[0]? with
    | none => none
    | some in0 =>
      if !in0.Const then
        match s.Instr.Out with
        | none => none
        | some o => some ((o.ID, in0) :: m)
      else some m
  | Operand.Amov =>
    match s.Instr.In[0]? with
    | none => none
    | some in0 =>
      let m1 : Option LiveAliases :=
        if !in0.Const && false then
          match s.Instr.Out with
          | none => none
          | some o => some ((o.ID, in0) :: m)
        else some m
      match m1 with
      | none => none
      | some m1 =>
        match s.Instr.In[1]? with
        | none => none
        | some in1 =>
          if !in1.Const then
            match s.Instr.Out with
            | none => none
            | some o => some ((o.ID, in1) :: m1)
          else some m1
  | _ => some m

/-- The loop "Collect value aliases" of `Program.liveness`. -/
def collectLiveAliases : List Step → LiveAliases → Option LiveAliases
  | [], m => some m
  | s :: rest, m =>
    match liveAliasStep m s with
    | none => none
    | some m1 => collectLiveAliases rest m1

/-- The loop "Follow alias chains" of `Program.liveness`, run for at most `fuel`
iterations. -/
def followAliases (aliases : LiveAliases) : Nat → Value → List Value → Outcome (List Value)
  | 0, _, _ => Outcome.timeout
  | fuel + 1, fromV, acc =>
    match aliases.get fromV.ID with
    | none => Outcome.done acc
    | some toV => followAliases aliases fuel toV (setAdd acc toV)

/-- The loop `for _, v := range live` of `Program.liveness`, which fills `step.Live`. -/
def closeLive (aliases : LiveAliases) (fuel : Nat) : List Value → List Value →
    Outcome (List Value)
  | [], acc => Outcome.done acc
  | v :: rest, acc =>
    match followAliases aliases fuel v (setAdd acc v) with
    | Outcome.done acc1 => closeLive aliases fuel rest acc1
    | Outcome.panic => Outcome.panic
    | Outcome.timeout => Outcome.timeout

/-- The set `live` after the loop over the inputs of a step and the removal of its output. -/
def liveStep (live : List Value) (s : Step) : List Value :=
  let live1 := s.Instr.In.foldl (fun l v => if v.Const then l else setAdd l v) live
  match s.Instr.Out with
  | some o => setDelete live1 o.ID
  | none => live1

/-- The backward loop of `Program.liveness` over `steps`: the set `live` after the first of
the steps has been visited, and the steps with their new `Live` sets. -/
def livenessLoop (aliases : LiveAliases) (fuel : Nat) :
    List Step → Outcome (List Value × List Step)
  | [] => Outcome.done ([], [])
  | s :: rest =>
    match livenessLoop aliases fuel rest with
    | Outcome.done r =>
      match closeLive aliases fuel (liveStep r.1 s) [] with
      | Outcome.done stepLive =>
        Outcome.done (liveStep r.1 s, { s with Live := stepLive } :: r.2)
      | Outcome.panic => Outcome.panic
      | Outcome.timeout => Outcome.timeout
    | Outcome.panic => Outcome.panic
    | Outcome.timeout => Outcome.timeout

/-- The method `Program.liveness` on the step list, with at most `fuel` iterations of each
alias chain loop: the steps with their new `Live` sets. -/
def liveness (fuel : Nat) (steps : List Step) : Outcome (List Step) :=
  match collectLiveAliases steps [] with
  | none => Outcome.panic
  | some aliases =>
    match livenessLoop aliases fuel steps with
    | Outcome.done r => Outcome.done r.2
    | Outcome.panic => Outcome.panic
    | Outcome.timeout => Outcome.timeout

/-- The program `y = x << 2; z = y + y; return z`. -/
def shiftProgram : List Step :=
  [ exStep Operand.Lshift [exVal "x" 1, { exVal "$2" 0 with Const := true }]
      (some (exVal "y" 2)),
    exStep Operand.Add [exVal "y" 2, exVal "y" 2] (some (exVal "z" 3)),
    exStep Operand.Ret [exVal "z" 3] none ]

/-- The alias table links the id `a` to the id `b`: `aliases[a]` is a value with id `b`. -/
def AliasLink (m : LiveAliases) (a b : Nat) : Prop :=
  ∃ toV, m.get a = some toV ∧ toV.ID = b

/-- The value id `n` is live at step `i`: some step `j ≥ i` reads a non-constant value with
id `n`, and no step from `i` to `j` has a value with id `n` as its output. -/
def LiveAt (steps : List Step) (i n : Nat) : Prop :=
  ∃ (j : Nat) (s : Step) (w : Value), i ≤ j ∧ steps[j]? = some s ∧ w ∈ s.Instr.In ∧
    w.Const = false ∧ w.ID = n ∧
    ∀ (k : Nat) (t : Step), i ≤ k → k ≤ j → steps[k]? = some t → ∀ o ∈ t.Instr.Out, o.ID ≠ n

/-- Where the entries of the alias table come from: an entry `(a, u)` was recorded for a step
with an output of id `a` and the non-constant input `u`. -/
def AliasFrom (steps : List Step) (a : Nat) (u : Value) : Prop :=
  ∃ (k : Nat) (s : Step) (o : Value), steps[k]? = some s ∧ s.Instr.Out = some o ∧ o.ID = a ∧
    u ∈ s.Instr.In ∧ u.Const = false

/-! ## `IO.Size` and `IO.Split` -/

/-- The method `IO.Size`: the sum of the bit widths of the arguments.  (`IO` names a namespace of
Lean, hence `IOSize`; the Go `int` sum is a natural number here, as is the counter `bit` of
`IO.Split`: they stay below 2^63 unless `io` has more than 2^32 arguments.) -/
def IOSize (io : List IOArg) : Nat :=
  io.foldl (fun sum a => sum + a.TypeInfo.Bits) 0

/-- The inner loop of `IO.Split` with `n` iterations left: bit `i` of `r` is set when bit
`bit` of `inp` is 1; the result is `r` and `bit` after the loop. -/
def splitBits (inp : Int) : Nat → Nat → Nat → Nat → Nat × Nat
  | 0, _, r, bit => (r, bit)
  | n + 1, i, r, bit =>
    splitBits inp n (i + 1) (if inp.testBit bit then setBit r i true else r) (bit + 1)

/-- The method `IO.Split`; `inp.testBit` is `in.Bit`, which reads a negative integer in
two-complement form, and the results are non-negative because each starts at 0 and only
gets bits set. -/
def IOSplit (io : List IOArg) (inp : Int) : List Nat :=
  (io.foldl (fun (acc : List Nat × Nat) arg =>
      let r := splitBits inp arg.TypeInfo.Bits 0 0 acc.2
      (acc.1 ++ [r.1], r.2)) ([], 0)).1

/-- The sum of the bit widths of the arguments before argument `k`. -/
def argOffset (io : List IOArg) (k : Nat) : Nat :=
  ((io.take k).map (fun a => a.TypeInfo.Bits)).sum

/-- The values that `IO.Split` computes for the arguments `io` when the first of them
starts at bit `off`. -/
def splitFrom (inp : Int) : List IOArg → Nat → List Nat
  | [], _ => []
  | a :: rest, off =>
    (inp / 2 ^ off % 2 ^ a.TypeInfo.Bits).toNat :: splitFrom inp rest (off + a.TypeInfo.Bits)

/-! ## `Stats.Add` and the wires of a circuit -/

/-- The wires that `AssignLevels` uses are below `NumWires`: `Input0` and `Output` of every
gate, and `Input1` of every gate that is not an `INV`. -/
def WiresInRange (c : Circuit) : Prop :=
  ∀ k : Fin c.Gates.length,
    (c.Gates[k].Input0.val : Int) < c.NumWires ∧ (c.Gates[k].Output.val : Int) < c.NumWires ∧
    (c.Gates[k].Op ≠ Operation.INV → (c.Gates[k].Input1.val : Int) < c.NumWires)

instance (c : Circuit) : Decidable (WiresInRange c) := by
  unfold WiresInRange; infer_instance

/-- The circuit `w2 = w0 AND w1; w3 = INV w2`, whose `INV` gate has `Input1 = InvalidWire`. -/
def invCircuit : Circuit :=
  { NumGates := 2, NumWires := 4, Inputs := [], Outputs := [],
    Gates := [wideGate, exGate Operation.INV ⟨2, by decide⟩ InvalidWire ⟨3, by decide⟩],
    Stats := fun _ => 0 }

/-- The method `Stats.Add`: the per-opcode counters are added (in `uint64` arithmetic), the
slot `Count` is incremented, and the slots `NumLevels` and `MaxWidth` are raised to those of
`o`. -/
def Stats.Add (stats o : Stats) : Stats :=
  let s1 := gateOps.foldl (fun s i => Function.update s i ((s i + o i) % 2 ^ 64)) stats
  let s2 := Function.update s1 Operation.Count ((s1 Operation.Count + 1) % 2 ^ 64)
  [Operation.NumLevels, Operation.MaxWidth].foldl
    (fun s i => if o i > s i then Function.update s i (o i) else s) s2

/-! ## Vocabulary for the `Phi` of `Block.ReturnBinding` and for `Block.Serialize` -/

/-- The state `st1` has one more instruction in `retBlock` than `before`: a `Phi` whose output
has the type of the operand with the larger bit width (of the false operand when the widths
are equal), with `diff` set when the widths differ. -/
def AppendsTypedPhi (before : List Instr) (st1 : RBState) : Prop :=
  ∃ c t f o : Value, st1.retBlock = before ++ [NewPhiInstr c t f o] ∧
    o.TypeInfo = (if t.TypeInfo.Bits > f.TypeInfo.Bits then t.TypeInfo else f.TypeInfo) ∧
    (t.TypeInfo.Bits ≠ f.TypeInfo.Bits → st1.diff = true)

/-- Values `a` (8 bits) and `w` (16 bits) memoized for the blocks 1 and 2 of `phiHeap`. -/
def wideCtx : ReturnBindingCTX :=
  { cache := [({ BlockID := 1, Name := "x" }, { v := exVal "a" 2, diff := false, ok := true }),
              ({ BlockID := 2, Name := "x" },
               { v := { exVal "w" 3 with TypeInfo := { Kind := 0, Bits := 16 } },
                 diff := false, ok := true })] }

/-- The fresh value that the generator `{ nextID := 10 }` hands out for a 16-bit type. -/
def wideValue : Value :=
  { Name := "%_", Scope := 0, ID := 10, TypeInfo := { Kind := 0, Bits := 16 }, Const := false }

/-- The final state of `ReturnBinding` for `x` from block 0 of `phiHeap` under `wideCtx`. -/
def wideResult : RBState :=
  { stack := [], v := wideValue, diff := true, ok := true,
    ctx := { cache := ({ BlockID := 1, Name := "x" },
                       { v := wideValue, diff := true, ok := true }) :: wideCtx.cache },
    retBlock := [NewPhiInstr (exVal "c" 1) (exVal "a" 2)
      { exVal "w" 3 with TypeInfo := { Kind := 0, Bits := 16 } } wideValue],
    gen := { nextID := 11 } }

/-- The block at `p` has the successor `q` through its `Next` or `Branch` edge. -/
def Edge (heap : Heap) (p q : Ptr) : Prop :=
  ∃ b, heap[p]? = some b ∧ (b.Next = some q ∨ b.Branch = some q)

/-- The block at `p` is reachable from the block at `bl` through `Next` and `Branch` edges. -/
def Reachable (heap : Heap) (bl p : Ptr) : Prop :=
  Relation.ReflTransGen (Edge heap) bl p

/-- Block ids are unique (`BlockID` "defines unique block IDs"): different blocks of the heap
have different ids. -/
def UniqueIDs (heap : Heap) : Prop :=
  ∀ i j : Fin heap.length, heap[i].ID = heap[j].ID → i = j

instance (heap : Heap) : Decidable (UniqueIDs heap) := by
  unfold UniqueIDs; infer_instance

/-- The steps emitted for the block at `p`. -/
def blockStepsAt (heap : Heap) (p : Ptr) : List Step :=
  match heap[p]? with
  | some b => blockSteps b
  | none => []

/-- The invariant of the loop of `Block.serialize`: `visited` lists the emitted blocks in
order. -/
structure SerializeInv (heap : Heap) (bl : Ptr) (stack : List Ptr) (code : List Step)
    (seen : List Nat) (visited : List Ptr) : Prop where
  code : code = (visited.map (blockStepsAt heap)).flatten
  seen : ∀ id, id ∈ seen ↔ ∃ p ∈ visited, idOf heap p = some id
  nodup : visited.Nodup
  valid : (∀ p ∈ visited, p < heap.length) ∧ ∀ p ∈ stack, p < heap.length
  reach : (∀ p ∈ visited, Reachable heap bl p) ∧ ∀ p ∈ stack, Reachable heap bl p
  closed : ∀ p ∈ visited, ∀ q, Edge heap p q → q ∈ visited ∨ q ∈ stack
  start : bl ∈ visited ∨ bl ∈ stack

/-- A loop: block 0 falls into block 1, which branches back to block 0 or leaves to block 2;
block 3 is not reachable from block 0. -/
def loopHeap : Heap :=
  [ exBlock 0 "head" [1] (some 1) none
      [exInstr Operand.Add [exVal "i" 1, exVal "n" 2] (some (exVal "j" 3)),
       exInstr Operand.Sub [exVal "j" 3, exVal "n" 2] (some (exVal "c" 4))] [],
    exBlock 1 "body" [0] (some 2) (some 0)
      [exInstr Operand.Mov [exVal "j" 3] (some (exVal "k" 5))] [],
    exBlock 2 "exit" [1] none none
      [exInstr Operand.Ret [exVal "k" 5] none] [],
    exBlock 3 "dead" [] (some 0) none
      [exInstr Operand.Ret [exVal "i" 1] none] [] ]

/-- The number of instructions of the block at `p`. -/
def instrCount (heap : Heap) (p : Ptr) : Nat :=
  match heap[p]? with
  | some b => b.Instr.length
  | none => 0

/-! ## Vocabulary for the termination of `Block.returnBinding` -/

/-- Every path of the graph of `Next` and `Branch` edges has at most `l` edges: the graph is
acyclic and `l` bounds the length of its longest path. -/
def PathsWithin (heap : Heap) (l : Nat) : Prop :=
  ∀ path : List Ptr, path.Chain' (Edge heap) → path.length ≤ l + 1

/-- The function `rank` decreases along every edge of the heap and is at most `l` on its
blocks. -/
def RankedHeap (heap : Heap) (rank : Ptr → Nat) (l : Nat) : Prop :=
  ∀ i : Fin heap.length, rank i ≤ l ∧ (∀ q ∈ heap[i].Next, rank q < rank i) ∧
    (∀ q ∈ heap[i].Branch, rank q < rank i)

instance (heap : Heap) (rank : Ptr → Nat) (l : Nat) : Decidable (RankedHeap heap rank l) := by
  unfold RankedHeap; infer_instance

/-- Block 0 branches to block 1 and falls through to block 2; both bind `x` and have no
`Next`. -/
def forkHeap : Heap :=
  [ exBlock 0 "entry" [] (some 2) (some 1) [] [],
    exBlock 1 "then" [0] none none [] [("x", exVal "a" 2)],
    exBlock 2 "else" [0] none none [] [("x", exVal "b" 3)] ]

/-- The context left by `ReturnBinding` for `x` on block 1 of `forkHeap`. -/
def forkCtx : ReturnBindingCTX :=
  { cache := [({ BlockID := 1, Name := "x" }, { v := exVal "a" 2, diff := false, ok := true })] }

/-- CFG of `if c { x = a } else { x = a }` with two terminal sides: block 0 branches to
block 1 and falls through to block 2, both bind `x` to `a` and have no `Next`. -/
def sameForkHeap : Heap :=
  [ exBlock 0 "entry" [] (some 2) (some 1) [] [],
    exBlock 1 "then" [0] none none [] [("x", exVal "a" 2)],
    exBlock 2 "else" [0] none none [] [("x", exVal "a" 2)] ]

/-- The context in which both sides of `sameForkHeap` are memoized. -/
def sameForkCtx : ReturnBindingCTX :=
  { cache := [({ BlockID := 1, Name := "x" }, { v := exVal "a" 2, diff := false, ok := true }),
              ({ BlockID := 2, Name := "x" }, { v := exVal "a" 2, diff := false, ok := true })] }

/-- The rank of the blocks of `forkHeap`: the number of edges of the longest path from the
block. -/
def forkRank (p : Ptr) : Nat := if p = 0 then 1 else 0

/-- The rank of the blocks of `diamondHeap`: the number of edges of the longest path from
the block. -/
def diamondRank (p : Ptr) : Nat := if p = 0 then 2 else if p = 3 then 0 else 1

/-! ## The builtin `copy` (`copySSA` in `compiler/ast/builtin.go`)

The builtins read the full type information of a value, the value of a constant and the
container of a pointer, which the model of `ssa.Value` above leaves out; the namespace `Ast`
holds a model of values with these fields. -/

namespace Ast

/-- Modelled from the spec: the type tags (`types.Type`) that the sources name (`types` is not
among the sources). -/
inductive TypeTag where
  | TUndefined | TInt | TUint | TString | TStruct | TArray | TPtr
deriving DecidableEq, Repr, Inhabited

/-- One `types.Info` without its `ElementType` pointer: the tag, and `Bits` and `ArraySize`
(of type `types.Size`, an `int32`). -/
structure InfoHead where
  Tag : TypeTag
  Bits : Int
  ArraySize : Int
deriving DecidableEq, Repr, Inhabited

/-- Modelled from the spec: the type information `types.Info` with the fields that the
builtins read.  The chain of `ElementType` pointers is kept as a list: the empty list is a nil
pointer, the head is the element type and the tail is the chain of the element type. -/
structure Info where
  Tag : TypeTag
  Bits : Int
  ArraySize : Int
  ElementType : List InfoHead
deriving DecidableEq, Repr, Inhabited

/-- The dereference of `t.ElementType`; `none` for a nil pointer. -/
def Info.elem (t : Info) : Option Info :=
  match t.ElementType with
  | [] => none
  | e :: rest =>
    some { Tag := e.Tag, Bits := e.Bits, ArraySize := e.ArraySize, ElementType := rest }

/-- Modelled from the spec: `Info.Equal`, equality of types. -/
def Info.Equal (t o : Info) : Bool := decide (t = o)

/-- Modelled from the spec: the type `types.Uint32`. -/
def Uint32 : Info := { Tag := TypeTag.TUint, Bits := 32, ArraySize := 0, ElementType := [] }

/-- Modelled from the spec: the type `types.Int32`. -/
def Int32 : Info := { Tag := TypeTag.TInt, Bits := 32, ArraySize := 0, ElementType := [] }

/-- The value of the integer `x` as an `int32` (two's complement wrap-around). -/
def int32 (x : Int) : Int := (x + 2 ^ 31) % 2 ^ 32 - 2 ^ 31

/-- Modelled from the spec: `ssa.PtrInfo`, the container a pointer value points into: name,
scope and type of the container, the bit offset into it, and a pointer to the bindings that
hold it (an index into the store of bindings). -/
structure PtrInfo where
  Name : String
  Scope : Nat
  Offset : Int
  ContainerType : Info
  Bindings : Nat
deriving DecidableEq, Repr, Inhabited

/-- An SSA value (`ssa.Value`) with the fields that the builtins read: as `Bedlam.Value`, with
the full type information, the value of a constant and the pointer information (`PtrInfo` is
a Go pointer, `none` is nil). -/
structure Value where
  Name : String
  Scope : Nat
  ID : Nat
  TypeInfo : Info
  Const : Bool
  ConstValue : Option Int
  PtrInfo : Option PtrInfo
deriving DecidableEq, Repr, Inhabited

/-- An SSA instruction over these values. -/
structure Instr where
  Op : Operand
  In : List Value
  Out : Option Value
deriving DecidableEq, Repr, Inhabited

/-- Modelled from the spec: `ssa.Bindings`, an association list whose first match wins. -/
abbrev Bindings := List (String × Value)

/-- Modelled from the spec: `Bindings.Get(name)` followed by `b.Value(block, gen)`, the value
bound to `name`, if any. -/
def Bindings.Get (b : Bindings) (name : String) : Option Value :=
  (b.find? (fun p => p.1 == name)).map (fun p => p.2)

/-- Modelled from the spec: `Bindings.Set(v, nil)`, which binds the name of `v` to `v`. -/
def Bindings.Set (b : Bindings) (v : Value) : Bindings := (v.Name, v) :: b

/-- The fields of a basic block that the builtins touch: the instructions and the pointer
`Bindings` (an index into the store of bindings). -/
structure Block where
  Instr : List Instr
  Bindings : Nat
deriving DecidableEq, Repr, Inhabited

/-- The method `Block.AddInstr`; the check `instr.Check()` is taken to pass. -/
def Block.AddInstr (b : Block) (instr : Ast.Instr) : Block :=
  { b with Instr := b.Instr ++ [instr] }

/-- Modelled from the spec: the value generator, with the next unused value id and the table
of constants. -/
structure Generator where
  nextID : Nat
  constants : List Value
deriving DecidableEq, Repr, Inhabited

/-- Modelled from the spec: `gen.Constant(value, ti)`, the constant `value` of type `ti`. -/
def Generator.Constant (_gen : Generator) (value : Int) (ti : Info) : Value :=
  { Name := "$", Scope := 0, ID := 0, TypeInfo := ti, Const := true,
    ConstValue := some value, PtrInfo := none }

/-- Modelled from the spec: `gen.AddConstant(v)`, which records the constant `v`. -/
def Generator.AddConstant (gen : Generator) (v : Value) : Generator :=
  { gen with constants := gen.constants ++ [v] }

/-- Modelled from the spec: `gen.NewVal(name, ti, scope)`, a fresh value with the given name,
type and scope, and the generator after the allocation. -/
def Generator.NewVal (gen : Generator) (name : String) (ti : Info) (scope : Nat) :
    Value × Generator :=
  ({ Name := name, Scope := scope, ID := gen.nextID, TypeInfo := ti, Const := false,
     ConstValue := none, PtrInfo := none },
   { gen with nextID := gen.nextID + 1 })

/-- Modelled from the spec: `gen.AnonVal(ti)`, a fresh anonymous value of type `ti`. -/
def Generator.AnonVal (gen : Generator) (ti : Info) : Value × Generator :=
  gen.NewVal "%_" ti 0

/-- Modelled from the spec: `NewSliceInstr(v, from, to, o)`, the instruction
`Slice(v, from, to) → o`. -/
def NewSliceInstr (v fromV toV o : Value) : Instr :=
  { Op := Operand.Slice, In := [v, fromV, toV], Out := some o }

/-- Modelled from the spec: `NewAmovInstr(v, arr, from, to, o)`, the "array-slice move"
`Amov(v, arr, from, to) → o` that writes `v` into the bits `[from, to)` of the array `arr`. -/
def NewAmovInstr (v arr fromV toV o : Value) : Instr :=
  { Op := Operand.Amov, In := [v, arr, fromV, toV], Out := some o }

/-- The state a builtin works on: the block, the generator and the store of the bindings that
`*Bindings` pointers point into. -/
structure State where
  block : Block
  gen : Generator
  store : List Bindings
deriving DecidableEq, Repr, Inhabited

/-- Outcome of a builtin: the state and the values after a successful call, an error return,
or a panic. -/
inductive Result where
  | ok (st : State) (vals : List Value)
  | error
  | panic
deriving DecidableEq, Repr

/-- The part of `copySSA` after the `switch` on the type of `dst`. -/
def copyInto (st : State) (dst src : Value) (baseName : String) (baseType : Info)
    (baseScope : Nat) (baseBindings : Nat) (dstOffset : Int) (elementType : Info)
    (base : Value) : Result :=
  let srcType : Option Info :=
    if src.TypeInfo.Tag = TypeTag.TPtr then src.TypeInfo.elem else some src.TypeInfo
  match srcType with
  | none => Result.panic
  | some srcType =>
    if srcType.Tag ≠ TypeTag.TArray then Result.error
    else
      match srcType.elem with
      | none => Result.panic
      | some srcElem =>
        if !elementType.Equal srcElem then Result.error
        else
          let dstBits := dst.TypeInfo.Bits
          let srcBits := src.TypeInfo.Bits
          let sliced : Block × Generator × Value × Int × Int :=
            if srcBits > dstBits then
              let fromConst := st.gen.Constant (int32 0) Uint32
              let toConst := st.gen.Constant (int32 dstBits) Uint32
              let tmp := st.gen.AnonVal dst.TypeInfo
              (st.block.AddInstr (NewSliceInstr src fromConst toConst tmp.1), tmp.2, tmp.1,
                dstBits, dst.TypeInfo.ArraySize)
            else (st.block, st.gen, src, srcBits, src.TypeInfo.ArraySize)
          let block := sliced.1
          let gen := sliced.2.1
          let src := sliced.2.2.1
          let srcBits := sliced.2.2.2.1
          let copied := sliced.2.2.2.2
          let lValue := gen.NewVal baseName baseType baseScope
          let fromConst := lValue.2.Constant (int32 dstOffset) Uint32
          let toConst := lValue.2.Constant (int32 (dstOffset + srcBits)) Uint32
          let block := block.AddInstr (NewAmovInstr src base fromConst toConst lValue.1)
          match st.store[baseBindings]? with
          | none => Result.panic
          | some bindings =>
            let v := lValue.2.Constant (int32 copied) Int32
            Result.ok
              { block := block, gen := lValue.2.AddConstant v,
                store := st.store.set baseBindings (bindings.Set lValue.1) }
              [v]

/-- The builtin `copySSA`. -/
def copySSA (st : State) (args : List Value) : Result :=
  match args with
  | [dst, src] =>
    match dst.TypeInfo.Tag with
    | TypeTag.TArray =>
      match dst.TypeInfo.elem with
      | none => Result.panic
      | some elementType =>
        copyInto st dst src dst.Name dst.TypeInfo dst.Scope st.block.Bindings 0 elementType dst
    | TypeTag.TPtr =>
      match dst.TypeInfo.elem with
      | none => Result.panic
      | some elementType =>
        if elementType.Tag ≠ TypeTag.TArray then Result.error
        else
          match dst.PtrInfo with
          | none => Result.panic
          | some ptr =>
            match elementType.elem with
            | none => Result.panic
            | some elementType =>
              match st.store[ptr.Bindings]? with
              | none => Result.panic
              | some baseBindings =>
                match baseBindings.Get ptr.Name with
                | none => Result.error
                | some base =>
                  copyInto st dst src ptr.Name ptr.ContainerType ptr.Scope ptr.Bindings
                    ptr.Offset elementType base
    | _ => Result.error
  | _ => Result.error

/-- The element type of the array that `dst` is or points to, as `copySSA` computes it. -/
def dstElement (dst : Value) : Option Info :=
  match dst.TypeInfo.Tag with
  | TypeTag.TArray => dst.TypeInfo.elem
  | TypeTag.TPtr =>
    dst.TypeInfo.elem.bind (fun e => if e.Tag = TypeTag.TArray then e.elem else none)
  | _ => none

/-- The element type of the array that `src` is or points to, as `copySSA` computes it. -/
def srcElement (src : Value) : Option Info :=
  (if src.TypeInfo.Tag = TypeTag.TPtr then src.TypeInfo.elem else some src.TypeInfo).bind
    (fun t => if t.Tag = TypeTag.TArray then t.elem else none)

/-- The bindings that hold the base array of `dst`: those of the block for an array, those of
the container for a pointer; `none` when the pointer to them is nil. -/
def dstBindings (st : State) (dst : Value) : Option Bindings :=
  match dst.TypeInfo.Tag, dst.PtrInfo with
  | TypeTag.TArray, _ => st.store[st.block.Bindings]?
  | TypeTag.TPtr, some ptr => st.store[ptr.Bindings]?
  | _, _ => none

/-- The bit offset of `dst` in its base array: 0 for an array, `PtrInfo.Offset` for a
pointer. -/
def dstOffset (dst : Value) : Int :=
  match dst.TypeInfo.Tag, dst.PtrInfo with
  | TypeTag.TPtr, some ptr => ptr.Offset
  | _, _ => 0

/-- The base array of `dst`: `dst` itself for an array, and the value bound to the name of
the container for a pointer. -/
def dstBase (st : State) (dst : Value) : Option Value :=
  match dst.TypeInfo.Tag, dst.PtrInfo with
  | TypeTag.TArray, _ => some dst
  | TypeTag.TPtr, some ptr => (st.store[ptr.Bindings]?).bind (fun b => b.Get ptr.Name)
  | _, _ => none

/-- The head of the type `uint4`. -/
def uint4 : InfoHead := { Tag := TypeTag.TUint, Bits := 4, ArraySize := 0 }

/-- The array type `[n]uint4`. -/
def arrayOfUint4 (n : Int) : Info :=
  { Tag := TypeTag.TArray, Bits := n * 4, ArraySize := n, ElementType := [uint4] }

/-- A variable of type `ti`. -/
def exVar (name : String) (id : Nat) (ti : Info) : Value :=
  { Name := name, Scope := 0, ID := id, TypeInfo := ti, Const := false, ConstValue := none,
    PtrInfo := none }

/-- The slice `dst[2:5]` of `dst : [6]uint4`: a pointer to three elements at bit offset 8. -/
def sliceOfDst : Value :=
  { Name := "%ptr", Scope := 0, ID := 3,
    TypeInfo := { Tag := TypeTag.TPtr, Bits := 12, ArraySize := 3,
                  ElementType := [{ Tag := TypeTag.TArray, Bits := 12, ArraySize := 3 }, uint4] },
    Const := false, ConstValue := none,
    PtrInfo := some { Name := "dst", Scope := 0, Offset := 8, ContainerType := arrayOfUint4 6,
                      Bindings := 0 } }

/-- The state before `copy(dst[2:5], src)`: `dst : [6]uint4` is bound in the bindings of the
block. -/
def copyState : State :=
  { block := { Instr := [], Bindings := 0 },
    gen := { nextID := 4, constants := [] },
    store := [[("dst", exVar "dst" 1 (arrayOfUint4 6)), ("src", exVar "src" 2 (arrayOfUint4 3))]] }

/-- The type `uint4`. -/
def uint4Info : Info := { Tag := TypeTag.TUint, Bits := 4, ArraySize := 0, ElementType := [] }

/-- The variable `src : [3]uint4`. -/
def srcVal : Value := exVar "src" 2 (arrayOfUint4 3)

/-- The variable `dst : [6]uint4`. -/
def dstVal : Value := exVar "dst" 1 (arrayOfUint4 6)

/-- The state after `copy(dst[2:5], src)` in `copyState`: one `Amov` of `src` into the bits
`[8, 20)` of `dst`, a new binding of `dst`, and the constant 3. -/
def copyStateAfter : State :=
  { block := { Instr := [NewAmovInstr srcVal (exVar "dst" 1 (arrayOfUint4 6))
                  (copyState.gen.Constant 8 Uint32) (copyState.gen.Constant 20 Uint32)
                  (exVar "dst" 4 (arrayOfUint4 6))],
               Bindings := 0 },
    gen := { nextID := 5, constants := [copyState.gen.Constant 3 Int32] },
    store := [[("dst", exVar "dst" 4 (arrayOfUint4 6)),
               ("dst", exVar "dst" 1 (arrayOfUint4 6)), ("src", srcVal)]] }

/-! ### The builtin `floorPow2` (`floorPow2Eval` in `compiler/ast/builtin.go`) -/

/-- Outcome of the `Eval` function of a builtin, `(ssa.Value, bool, error)`: the value, the
flag and the generator after a successful call, an error return, or a loop that is still
running when the bound on its iterations is reached. -/
inductive EvalResult where
  | ok (v : Value) (b : Bool) (gen : Generator)
  | error
  | timeout
deriving DecidableEq, Repr

/-- The loop `for i = 1; i <= val; i <<= 1 {}` of `floorPow2Eval` from the value `i` on, run
for at most `fuel` tests of its condition; `i` is a `types.Size`, an `int32`, so the shift
wraps around.  The result is `i` after the loop, `none` when the bound is reached. -/
def floorPow2Loop (val : Int) : Nat → Int → Option Int
  | 0, _ => none
  | fuel + 1, i => if i ≤ val then floorPow2Loop val fuel (int32 (i * 2)) else some i

/-- The function `floorPow2Eval`.  The evaluation `args[0].Eval(env, ctx, gen)` and the
method `Value.ConstInt` are outside the sources and are the parameters `eval` and
`constInt`, with `none` for an error; `i >>= 1` is the division by 2 that rounds down. -/
def floorPow2Eval {α : Type} (eval : α → Generator → Option (Value × Generator))
    (constInt : Value → Option Int) (fuel : Nat) (args : List α) (gen : Generator) :
    EvalResult :=
  match args with
  | [arg] =>
    match eval arg gen with
    | none => EvalResult.error
    | some (constVal, gen1) =>
      match constInt constVal with
      | none => EvalResult.error
      | some val =>
        match floorPow2Loop val fuel 1 with
        | none => EvalResult.timeout
        | some i => EvalResult.ok (gen1.Constant (int32 (i / 2)) Int32) true gen1
  | _ => EvalResult.error

/-- An instance of the parameter `eval`: the argument is a value already. -/
def evalValue (a : Value) (gen : Generator) : Option (Value × Generator) := some (a, gen)

/-- An instance of the parameter `constInt`: the value of a constant. -/
def constValueOf (v : Value) : Option Int := if v.Const then v.ConstValue else none

/-- A generator with no constants. -/
def exGen : Generator := { nextID := 1, constants := [] }

end Ast

/-! ## Lemmas about `Program.GC` and `Block.ReturnBinding` -/

theorem testBit_setBit (x i j : Nat) (b : Bool) :
    (setBit x i b).testBit j = if j = i then b else x.testBit j := by
  unfold setBit
  by_cases hj : j = i
  · subst hj
    cases b <;> simp [Nat.testBit_or, Nat.testBit_xor, Nat.testBit_and, Nat.testBit_two_pow]
  · have hne : ¬ i = j := fun h => hj h.symm
    cases b <;> simp [Nat.testBit_or, Nat.testBit_xor, Nat.testBit_and, Nat.testBit_two_pow, hj, hne]

theorem foldl_gcInput (aliases : AliasMap) (ins : List Value) (set : Nat) (acc : List Step) :
    ins.foldl (gcInput aliases) (set, acc) =
      ((emitInputs aliases set ins).1, acc ++ (emitInputs aliases set ins).2.map releaseStep) := by
  induction ins generalizing set acc with
  | nil => simp [emitInputs]
  | cons v rest ih =>
    simp only [List.foldl_cons, emitInputs]
    by_cases hc : v.Const = true
    · simp [gcInput, hc, ih]
    · by_cases hb : set.testBit v.ID = false
      · by_cases hl : (aliases.get v.ID).any (fun a => set.testBit a.ID) = false
        · simp [gcInput, hc, hb, hl, ih]
        · simp [gcInput, hc, hb, hl, ih]
      · simp [gcInput, hc, hb, ih]

theorem foldl_gcVisit (aliases : AliasMap) (seed : Nat) (steps : List Step) :
    steps.reverse.foldl (gcVisit aliases) (seed, []) =
      (liveBefore aliases seed steps,
        (withReleases steps (releasedAfter aliases seed steps)).reverse) := by
  induction steps with
  | nil => simp [liveBefore, withReleases]
  | cons s rest ih =>
    rw [List.reverse_cons, List.foldl_append, ih]
    simp only [List.foldl_cons, List.foldl_nil, gcVisit, foldl_gcInput, liveBefore,
      releasedAfter, withReleases]
    refine Prod.ext ?_ ?_
    · cases s.Instr.Out <;> rfl
    · simp [List.reverse_append, List.map_reverse]


theorem GC_eq_some (steps out : List Step) :
    GC steps = some out ↔
      ∃ last aliases, steps.getLast? = some last ∧ last.Instr.Op = Operand.Ret ∧
        collectAliases steps [] = some aliases ∧
        out = withReleases steps (releasedAfter aliases (retSeed last) steps) := by
  unfold GC
  cases hl : steps.getLast? with
  | none => simp
  | some last =>
    by_cases hop : last.Instr.Op = Operand.Ret
    · cases ha : collectAliases steps [] with
      | none => simp [hop]
      | some aliases =>
        simp only [hop, ne_eq, not_true_eq_false, if_false, foldl_gcVisit,
          List.reverse_reverse, Option.some.injEq]
        constructor
        · intro h
          exact ⟨last, aliases, rfl, hop, rfl, h.symm⟩
        · rintro ⟨last1, aliases1, h1, -, h2, h3⟩
          cases h1; cases h2; exact h3.symm
    · simp [hop]

theorem testBit_emitInputs (aliases : AliasMap) (ins : List Value) (set n : Nat) :
    (emitInputs aliases set ins).1.testBit n =
      (set.testBit n || ins.any (fun w => !w.Const && w.ID == n)) := by
  induction ins generalizing set with
  | nil => simp [emitInputs]
  | cons v rest ih =>
    simp only [emitInputs]
    by_cases hc : v.Const = true
    · simp [hc, ih]
    · have hc2 : v.Const = false := by simpa using hc
      have key : (emitInputs aliases (setBit set v.ID true) rest).1.testBit n =
          (set.testBit n || (v :: rest).any (fun w => !w.Const && w.ID == n)) := by
        rw [ih, testBit_setBit]
        by_cases hn : n = v.ID
        · simp [hn, hc2]
        · have hn2 : (v.ID == n) = false := by
            simpa using fun h : v.ID = n => hn h.symm
          simp [hn, hn2, hc2]
      simp only [hc, if_false, Bool.false_eq_true]
      split <;> exact key

theorem mem_emitInputs (aliases : AliasMap) (ins : List Value) (set : Nat) (v : Value)
    (h : v ∈ (emitInputs aliases set ins).2) :
    v ∈ ins ∧ v.Const = false ∧ set.testBit v.ID = false := by
  induction ins generalizing set with
  | nil => simp [emitInputs] at h
  | cons v0 rest ih =>
    simp only [emitInputs] at h
    by_cases hc : v0.Const = true
    · simp only [hc, if_true] at h
      obtain ⟨h1, h2, h3⟩ := ih set h
      exact ⟨List.mem_cons_of_mem _ h1, h2, h3⟩
    · simp only [hc, if_false, Bool.false_eq_true] at h
      have hc2 : v0.Const = false := by simpa using hc
      have tail : v ∈ (emitInputs aliases (setBit set v0.ID true) rest).2 →
          v ∈ v0 :: rest ∧ v.Const = false ∧ set.testBit v.ID = false := by
        intro hv
        obtain ⟨h1, h2, h3⟩ := ih _ hv
        refine ⟨List.mem_cons_of_mem _ h1, h2, ?_⟩
        rw [testBit_setBit] at h3
        by_cases hid : v.ID = v0.ID
        · simp [hid] at h3
        · simpa [hid] using h3
      split at h
      · rename_i hcond
        rcases List.mem_cons.mp h with h0 | h0
        · subst h0
          exact ⟨List.mem_cons_self _ _, hc2, hcond.1⟩
        · exact tail h0
      · exact tail h

theorem nodup_emitInputs (aliases : AliasMap) (ins : List Value) (set : Nat) :
    ((emitInputs aliases set ins).2.map Value.ID).Nodup := by
  induction ins generalizing set with
  | nil => simp [emitInputs]
  | cons v0 rest ih =>
    simp only [emitInputs]
    by_cases hc : v0.Const = true
    · simpa [hc] using ih set
    · simp only [hc, if_false, Bool.false_eq_true]
      split
      · simp only [List.map_cons, List.nodup_cons]
        refine ⟨?_, ih _⟩
        intro hmem
        obtain ⟨v, hv, hid⟩ := List.mem_map.mp hmem
        have h3 := (mem_emitInputs aliases rest _ v hv).2.2
        rw [testBit_setBit] at h3
        simp [hid] at h3
      · exact ih _

theorem exists_emitInputs (aliases : AliasMap) (ins : List Value) (set : Nat) (w : Value)
    (hw : w ∈ ins) (hc : w.Const = false) (hbit : set.testBit w.ID = false)
    (hal : ∀ a ∈ aliases.get w.ID, set.testBit a.ID = false ∧ ∀ u ∈ ins, u.ID ≠ a.ID) :
    ∃ v ∈ (emitInputs aliases set ins).2, v.ID = w.ID := by
  induction ins generalizing set with
  | nil => simp at hw
  | cons v0 rest ih =>
    simp only [emitInputs]
    by_cases hc0 : v0.Const = true
    · have hne : w ≠ v0 := fun h => by simp [h, hc0] at hc
      have hw2 : w ∈ rest := by
        rcases List.mem_cons.mp hw with h | h
        · exact absurd h hne
        · exact h
      simp only [hc0, if_true]
      exact ih set hw2 hbit (fun a ha => ⟨(hal a ha).1, fun u hu => (hal a ha).2 u (List.mem_cons_of_mem _ hu)⟩)
    · simp only [hc0, if_false, Bool.false_eq_true]
      by_cases hid : v0.ID = w.ID
      · have hcond : set.testBit v0.ID = false ∧
            (aliases.get v0.ID).any (fun a => set.testBit a.ID) = false := by
          refine ⟨by rw [hid]; exact hbit, ?_⟩
          rw [hid, List.any_eq_false]
          intro a ha
          simp [(hal a ha).1]
        rw [if_pos hcond]
        exact ⟨v0, List.mem_cons_self _ _, hid⟩
      · have hw2 : w ∈ rest := by
          rcases List.mem_cons.mp hw with h | h
          · exact absurd (by rw [h]) hid
          · exact h
        have hbit2 : (setBit set v0.ID true).testBit w.ID = false := by
          rw [testBit_setBit]
          have : ¬ w.ID = v0.ID := fun h => hid h.symm
          simp [this, hbit]
        have hal2 : ∀ a ∈ aliases.get w.ID,
            (setBit set v0.ID true).testBit a.ID = false ∧ ∀ u ∈ rest, u.ID ≠ a.ID := by
          intro a ha
          refine ⟨?_, fun u hu => (hal a ha).2 u (List.mem_cons_of_mem _ hu)⟩
          rw [testBit_setBit]
          have : ¬ a.ID = v0.ID := fun h => (hal a ha).2 v0 (List.mem_cons_self _ _) h.symm
          simp [this, (hal a ha).1]
        obtain ⟨v, hv, hvid⟩ := ih _ hw2 hbit2 hal2
        split
        · exact ⟨v, List.mem_cons_of_mem _ hv, hvid⟩
        · exact ⟨v, hv, hvid⟩


theorem testBit_liveBefore_nodef (aliases : AliasMap) (seed n : Nat) (s : Step)
    (rest : List Step) (hno : ∀ o ∈ s.Instr.Out, o.ID ≠ n) :
    (liveBefore aliases seed (s :: rest)).testBit n =
      ((liveBefore aliases seed rest).testBit n ||
        s.Instr.In.any (fun w => !w.Const && w.ID == n)) := by
  simp only [liveBefore]
  cases ho : s.Instr.Out with
  | none => simp [testBit_emitInputs]
  | some o =>
    have hne : ¬ n = o.ID := fun h => hno o (by simp [ho]) h.symm
    simp [testBit_setBit, hne, testBit_emitInputs]

theorem testBit_liveBefore_imp (aliases : AliasMap) (seed n : Nat) (steps : List Step)
    (h : (liveBefore aliases seed steps).testBit n = true) :
    seed.testBit n = true ∨ ∃ t ∈ steps, ∃ w ∈ t.Instr.In, w.Const = false ∧ w.ID = n := by
  induction steps with
  | nil => exact Or.inl h
  | cons s rest ih =>
    have h2 : ((liveBefore aliases seed rest).testBit n ||
        s.Instr.In.any (fun w => !w.Const && w.ID == n)) = true := by
      simp only [liveBefore] at h
      cases ho : s.Instr.Out with
      | none => simpa [ho, testBit_emitInputs] using h
      | some o =>
        rw [ho] at h
        simp only [testBit_setBit] at h
        by_cases hn : n = o.ID
        · simp [hn] at h
        · simpa [hn, testBit_emitInputs] using h
    rcases Bool.or_eq_true _ _ ▸ h2 with h3 | h3
    · rcases ih h3 with h4 | ⟨t, ht, w, hw, hc, hid⟩
      · exact Or.inl h4
      · exact Or.inr ⟨t, List.mem_cons_of_mem _ ht, w, hw, hc, hid⟩
    · obtain ⟨w, hw, hcw⟩ := List.any_eq_true.mp h3
      simp at hcw
      exact Or.inr ⟨s, List.mem_cons_self _ _, w, hw, hcw.1, hcw.2⟩

theorem testBit_liveBefore_of (aliases : AliasMap) (seed n : Nat) (steps : List Step)
    (hno : ∀ t ∈ steps, ∀ o ∈ t.Instr.Out, o.ID ≠ n)
    (h : seed.testBit n = true ∨ ∃ t ∈ steps, ∃ w ∈ t.Instr.In, w.Const = false ∧ w.ID = n) :
    (liveBefore aliases seed steps).testBit n = true := by
  induction steps with
  | nil =>
    rcases h with h | ⟨t, ht, _⟩
    · exact h
    · simp at ht
  | cons s rest ih =>
    rw [testBit_liveBefore_nodef aliases seed n s rest (hno s (List.mem_cons_self _ _))]
    have hno2 : ∀ t ∈ rest, ∀ o ∈ t.Instr.Out, o.ID ≠ n :=
      fun t ht => hno t (List.mem_cons_of_mem _ ht)
    rcases h with h | ⟨t, ht, w, hw, hc, hid⟩
    · simp [ih hno2 (Or.inl h)]
    · rcases List.mem_cons.mp ht with h0 | h0
      · rw [h0] at hw
        have : s.Instr.In.any (fun w => !w.Const && w.ID == n) = true :=
          List.any_eq_true.mpr ⟨w, hw, by simp [hc, hid]⟩
        simp [this]
      · simp [ih hno2 (Or.inr ⟨t, h0, w, hw, hc, hid⟩)]

theorem testBit_foldl_setBit (ins : List Value) (init n : Nat) :
    (ins.foldl (fun s v => setBit s v.ID true) init).testBit n =
      (init.testBit n || ins.any (fun w => w.ID == n)) := by
  induction ins generalizing init with
  | nil => simp
  | cons v rest ih =>
    simp only [List.foldl_cons, ih, testBit_setBit, List.any_cons]
    by_cases hn : n = v.ID
    · simp [hn]
    · have hn2 : (v.ID == n) = false := by simpa using fun h : v.ID = n => hn h.symm
      simp [hn, hn2]

theorem testBit_retSeed (last : Step) (n : Nat) :
    (retSeed last).testBit n = last.Instr.In.any (fun w => w.ID == n) := by
  unfold retSeed
  rw [testBit_foldl_setBit]
  simp

theorem length_releasedAfter (aliases : AliasMap) (seed : Nat) (steps : List Step) :
    (releasedAfter aliases seed steps).length = steps.length := by
  induction steps with
  | nil => rfl
  | cons s rest ih => simp [releasedAfter, ih]

theorem releasedAfter_getElem? (aliases : AliasMap) (seed : Nat) (steps : List Step)
    (i : Nat) (vs : List Value) (h : (releasedAfter aliases seed steps)[i]? = some vs) :
    ∃ s rest, steps.drop i = s :: rest ∧
      vs = (emitInputs aliases (liveBefore aliases seed rest) s.Instr.In).2.reverse := by
  induction steps generalizing i with
  | nil => simp [releasedAfter] at h
  | cons s rest ih =>
    cases i with
    | zero =>
      simp only [releasedAfter, List.getElem?_cons_zero, Option.some.injEq] at h
      exact ⟨s, rest, rfl, h.symm⟩
    | succ k =>
      simp only [releasedAfter, List.getElem?_cons_succ] at h
      simpa using ih k h


theorem SSAForm.read_after_def {steps : List Step} (hssa : SSAForm steps) {i j : Nat}
    {si sj : Step} {o w : Value} (hi : steps[i]? = some si) (hj : steps[j]? = some sj)
    (ho : si.Instr.Out = some o) (hw : w ∈ sj.Instr.In) (hid : w.ID = o.ID) : i < j := by
  obtain ⟨hil, hie⟩ := List.getElem?_eq_some.mp hi
  obtain ⟨hjl, hje⟩ := List.getElem?_eq_some.mp hj
  have h := (hssa ⟨i, hil⟩ o (by simp [Fin.getElem_fin, hie, ho])).2 ⟨j, hjl⟩ w
    (by simp [Fin.getElem_fin, hje, hw]) hid
  simpa using h

theorem SSAForm.def_unique {steps : List Step} (hssa : SSAForm steps) {i j : Nat}
    {si sj : Step} {o o2 : Value} (hi : steps[i]? = some si) (hj : steps[j]? = some sj)
    (ho : si.Instr.Out = some o) (ho2 : sj.Instr.Out = some o2) (hid : o2.ID = o.ID) :
    j = i := by
  obtain ⟨hil, hie⟩ := List.getElem?_eq_some.mp hi
  obtain ⟨hjl, hje⟩ := List.getElem?_eq_some.mp hj
  have h := (hssa ⟨i, hil⟩ o (by simp [Fin.getElem_fin, hie, ho])).1 ⟨j, hjl⟩ o2
    (by simp [Fin.getElem_fin, hje, ho2]) hid
  simpa using h

theorem SSAForm.no_def_from {steps : List Step} (hssa : SSAForm steps) {i : Nat} {s : Step}
    {rest : List Step} (hd : steps.drop i = s :: rest) {w : Value} (hw : w ∈ s.Instr.In) :
    ∀ t ∈ s :: rest, ∀ o ∈ t.Instr.Out, o.ID ≠ w.ID := by
  intro t ht o ho hid
  have hs : steps[i]? = some s := by
    have := congrArg (fun l => l[0]?) hd
    simpa using this
  obtain ⟨k, hk⟩ := List.mem_iff_getElem?.mp ht
  have ht2 : steps[i + k]? = some t := by
    have := congrArg (fun l => l[k]?) hd
    simp only [List.getElem?_drop] at this
    rw [this]; exact hk
  have := hssa.read_after_def ht2 hs (by simpa using ho) hw hid.symm
  omega


theorem drop_eq_cons_getElem? {steps : List Step} {i : Nat} {s : Step} {rest : List Step}
    (hd : steps.drop i = s :: rest) : steps[i]? = some s := by
  have := congrArg (fun l => l[0]?) hd
  simpa using this

theorem mem_rest_of_lt {steps : List Step} {i j : Nat} {s t : Step} {rest : List Step}
    (hd : steps.drop i = s :: rest) (hij : i < j) (hj : steps[j]? = some t) : t ∈ rest := by
  have h := congrArg (fun l => l[j - i]?) hd
  simp only [List.getElem?_drop] at h
  have e : i + (j - i) = j := by omega
  rw [e, hj] at h
  obtain ⟨k, hk⟩ : ∃ k, j - i = k + 1 := ⟨j - i - 1, by omega⟩
  rw [hk, List.getElem?_cons_succ] at h
  exact List.mem_iff_getElem?.mpr ⟨k, h.symm⟩

theorem mem_releasedAfter_flatten (aliases : AliasMap) (seed : Nat) (steps : List Step)
    (u : Value) (h : u ∈ (releasedAfter aliases seed steps).flatten) :
    ∃ t ∈ steps, u ∈ t.Instr.In ∧ u.Const = false := by
  induction steps with
  | nil => simp [releasedAfter] at h
  | cons s rest ih =>
    simp only [releasedAfter, List.flatten_cons, List.mem_append, List.mem_reverse] at h
    rcases h with h | h
    · obtain ⟨h1, h2, -⟩ := mem_emitInputs _ _ _ _ h
      exact ⟨s, List.mem_cons_self _ _, h1, h2⟩
    · obtain ⟨t, ht, h1, h2⟩ := ih h
      exact ⟨t, List.mem_cons_of_mem _ ht, h1, h2⟩

theorem nodup_releasedAfter_drop (aliases : AliasMap) (seed : Nat) {steps : List Step}
    (hssa : SSAForm steps) (suf : List Step) (i : Nat) (hd : steps.drop i = suf) :
    ((releasedAfter aliases seed suf).flatten.map Value.ID).Nodup := by
  induction suf generalizing i with
  | nil => simp [releasedAfter]
  | cons s rest ih =>
    have hd2 : steps.drop (i + 1) = rest := by
      rw [← List.drop_drop, hd]
      rfl
    simp only [releasedAfter, List.flatten_cons, List.map_append, List.map_reverse]
    refine List.Nodup.append ?_ (ih (i + 1) hd2) ?_
    · exact List.nodup_reverse.mpr (nodup_emitInputs _ _ _)
    · intro n h1 h2
      rw [List.mem_reverse] at h1
      obtain ⟨v, hv, hvn⟩ := List.mem_map.mp h1
      obtain ⟨u, hu, hun⟩ := List.mem_map.mp h2
      obtain ⟨hin, -, hbit⟩ := mem_emitInputs _ _ _ _ hv
      obtain ⟨t, ht, hut, huc⟩ := mem_releasedAfter_flatten _ _ _ _ hu
      have hno : ∀ t ∈ rest, ∀ o ∈ t.Instr.Out, o.ID ≠ v.ID :=
        fun t ht => hssa.no_def_from hd hin t (List.mem_cons_of_mem _ ht)
      have := testBit_liveBefore_of aliases seed v.ID rest hno
        (Or.inr ⟨t, ht, u, hut, huc, by rw [hun, hvn]⟩)
      rw [hbit] at this
      exact Bool.false_ne_true this

theorem nodup_releasedAfter (aliases : AliasMap) (seed : Nat) {steps : List Step}
    (hssa : SSAForm steps) :
    ((releasedAfter aliases seed steps).flatten.map Value.ID).Nodup :=
  nodup_releasedAfter_drop aliases seed hssa steps 0 rfl


theorem aliasInputs_eq_none (out : Option Value) (ins : List Value) (m : AliasMap) :
    aliasInputs out ins m = none ↔ out = none ∧ ∃ w ∈ ins, w.Const = false := by
  induction ins generalizing m with
  | nil => simp [aliasInputs]
  | cons v rest ih =>
    simp only [aliasInputs]
    by_cases hc : v.Const = true
    · simp [hc, ih]
    · have hc2 : v.Const = false := by simpa using hc
      cases out with
      | none => simp [hc2]
      | some o => simp [hc2, ih]

theorem collectAliases_eq_none (steps : List Step) (m : AliasMap) :
    collectAliases steps m = none ↔
      ∃ s ∈ steps, isAliasOp s.Instr.Op = true ∧ s.Instr.Out = none ∧
        ∃ w ∈ s.Instr.In, w.Const = false := by
  induction steps generalizing m with
  | nil => simp [collectAliases]
  | cons s rest ih =>
    simp only [collectAliases]
    by_cases hop : isAliasOp s.Instr.Op = true
    · simp only [hop, if_true]
      cases ha : aliasInputs s.Instr.Out s.Instr.In m with
      | none =>
        have := (aliasInputs_eq_none _ _ _).mp ha
        simp only [true_iff]
        exact ⟨s, List.mem_cons_self _ _, hop, this.1, this.2⟩
      | some m1 =>
        have hn : ¬ (s.Instr.Out = none ∧ ∃ w ∈ s.Instr.In, w.Const = false) := by
          intro h
          rw [(aliasInputs_eq_none _ _ m).mpr h] at ha
          exact Option.noConfusion ha
        simp only [ih, List.mem_cons, exists_eq_or_imp]
        constructor
        · intro h; exact Or.inr h
        · rintro (h | h)
          · exact absurd ⟨h.2.1, h.2.2⟩ hn
          · exact h
    · rw [if_neg hop, ih]
      simp only [List.mem_cons, exists_eq_or_imp]
      constructor
      · intro h; exact Or.inr h
      · rintro (h | h)
        · exact absurd h.1 hop
        · exact h

theorem mem_aliasInputs (out : Option Value) (ins : List Value) (m m1 : AliasMap)
    (h : aliasInputs out ins m = some m1) (p : Nat × Value) (hp : p ∈ m1) :
    p ∈ m ∨ (out = some p.2 ∧ ∃ w ∈ ins, w.Const = false ∧ w.ID = p.1) := by
  induction ins generalizing m with
  | nil =>
    simp only [aliasInputs, Option.some.injEq] at h
    subst h; exact Or.inl hp
  | cons v rest ih =>
    simp only [aliasInputs] at h
    by_cases hc : v.Const = true
    · simp only [hc, if_true] at h
      rcases ih m h with h1 | ⟨h1, w, hw, h2⟩
      · exact Or.inl h1
      · exact Or.inr ⟨h1, w, List.mem_cons_of_mem _ hw, h2⟩
    · have hc2 : v.Const = false := by simpa using hc
      simp only [hc, if_false, Bool.false_eq_true] at h
      cases out with
      | none => simp at h
      | some o =>
        simp only at h
        rcases ih _ h with h1 | ⟨h1, w, hw, h2⟩
        · rcases List.mem_append.mp h1 with h3 | h3
          · exact Or.inl h3
          · simp only [List.mem_singleton] at h3
            subst h3
            exact Or.inr ⟨rfl, v, List.mem_cons_self _ _, hc2, rfl⟩
        · exact Or.inr ⟨h1, w, List.mem_cons_of_mem _ hw, h2⟩

theorem mem_collectAliases (steps : List Step) (m m1 : AliasMap)
    (h : collectAliases steps m = some m1) (p : Nat × Value) (hp : p ∈ m1) :
    p ∈ m ∨ IsAliasOf steps p.2 p.1 := by
  induction steps generalizing m with
  | nil =>
    simp only [collectAliases, Option.some.injEq] at h
    subst h; exact Or.inl hp
  | cons s rest ih =>
    simp only [collectAliases] at h
    have lift : IsAliasOf rest p.2 p.1 → IsAliasOf (s :: rest) p.2 p.1 := by
      rintro ⟨t, ht, h1⟩
      exact ⟨t, List.mem_cons_of_mem _ ht, h1⟩
    by_cases hop : isAliasOp s.Instr.Op = true
    · simp only [hop, if_true] at h
      cases ha : aliasInputs s.Instr.Out s.Instr.In m with
      | none => simp [ha] at h
      | some m2 =>
        simp only [ha] at h
        rcases ih m2 h with h1 | h1
        · rcases mem_aliasInputs _ _ _ _ ha p h1 with h2 | ⟨h2, h3⟩
          · exact Or.inl h2
          · exact Or.inr ⟨s, List.mem_cons_self _ _, hop, h2, h3⟩
        · exact Or.inr (lift h1)
    · simp only [hop, if_false, Bool.false_eq_true] at h
      rcases ih m h with h1 | h1
      · exact Or.inl h1
      · exact Or.inr (lift h1)

theorem isAliasOf_of_get {steps : List Step} {aliases : AliasMap}
    (h : collectAliases steps [] = some aliases) {a : Value} {n : Nat}
    (ha : a ∈ aliases.get n) : IsAliasOf steps a n := by
  unfold AliasMap.get at ha
  obtain ⟨p, hp, hpa⟩ := List.mem_map.mp ha
  obtain ⟨hp1, hp2⟩ := List.mem_filter.mp hp
  rcases mem_collectAliases steps [] aliases h p hp1 with h1 | h1
  · simp at h1
  · have e : p.1 = n := by simpa using hp2
    rw [← hpa, ← e]; exact h1


theorem getLast?_releasedAfter (aliases : AliasMap) (seed : Nat) (steps : List Step)
    (vs : List Value) (h : (releasedAfter aliases seed steps).getLast? = some vs) :
    ∃ last, steps.getLast? = some last ∧
      vs = (emitInputs aliases seed last.Instr.In).2.reverse := by
  induction steps with
  | nil => simp [releasedAfter] at h
  | cons s rest ih =>
    cases rest with
    | nil =>
      simp only [releasedAfter, liveBefore, List.getLast?_singleton, Option.some.injEq] at h
      exact ⟨s, by simp, h.symm⟩
    | cons s2 rest2 =>
      have h2 : (releasedAfter aliases seed (s2 :: rest2)).getLast? = some vs := by
        rw [releasedAfter] at h
        rw [releasedAfter] at h ⊢
        simpa [List.getLast?_cons_cons] using h
      obtain ⟨last, hl, hv⟩ := ih h2
      exact ⟨last, by simpa [List.getLast?_cons_cons] using hl, hv⟩

theorem emitInputs_retSeed (aliases : AliasMap) (last : Step) :
    (emitInputs aliases (retSeed last) last.Instr.In).2 = [] := by
  apply List.eq_nil_iff_forall_not_mem.mpr
  intro v hv
  obtain ⟨hin, -, hbit⟩ := mem_emitInputs _ _ _ _ hv
  rw [testBit_retSeed] at hbit
  have : last.Instr.In.any (fun w => w.ID == v.ID) = true :=
    List.any_eq_true.mpr ⟨v, hin, by simp⟩
  rw [hbit] at this
  exact Bool.false_ne_true this

theorem getLast?_withReleases (steps : List Step) (rel : List (List Value))
    (hlen : rel.length = steps.length) (hlast : ∀ vs ∈ rel.getLast?, vs = []) :
    (withReleases steps rel).getLast? = steps.getLast? := by
  induction steps generalizing rel with
  | nil => cases rel <;> simp [withReleases]
  | cons s rest ih =>
    cases rel with
    | nil => simp at hlen
    | cons vs rel1 =>
      cases rest with
      | nil =>
        have hr : rel1 = [] := by
          cases rel1 with
          | nil => rfl
          | cons a b => simp at hlen
        subst hr
        have : vs = [] := hlast vs (by simp)
        subst this
        simp [withReleases]
      | cons s2 rest2 =>
        cases rel1 with
        | nil => simp at hlen
        | cons vs2 rel2 =>
          have hlen2 : (vs2 :: rel2).length = (s2 :: rest2).length := by simpa using hlen
          have hlast2 : ∀ vs ∈ (vs2 :: rel2).getLast?, vs = [] := by
            intro x hx
            exact hlast x (by simpa [List.getLast?_cons_cons] using hx)
          have := ih (vs2 :: rel2) hlen2 hlast2
          rw [List.getLast?_cons_cons, ← this]
          simp only [withReleases]
          rw [List.getLast?_cons, List.getLast?_append]
          simp [List.getLast?_cons]

theorem exists_last_of_exists {Q : Step → Prop} (steps : List Step) (h : ∃ t ∈ steps, Q t) :
    ∃ i s rest, steps.drop i = s :: rest ∧ Q s ∧ ∀ t ∈ rest, ¬ Q t := by
  induction steps with
  | nil => simp at h
  | cons s rest ih =>
    by_cases hr : ∃ t ∈ rest, Q t
    · obtain ⟨i, s1, rest1, hd, hq, hn⟩ := ih hr
      exact ⟨i + 1, s1, rest1, by simpa using hd, hq, hn⟩
    · obtain ⟨t, ht, hq⟩ := h
      rcases List.mem_cons.mp ht with h0 | h0
      · subst h0
        exact ⟨0, t, rest, rfl, hq, fun u hu hqu => hr ⟨u, hu, hqu⟩⟩
      · exact absurd ⟨t, h0, hq⟩ hr

theorem getElem?_of_mem_drop {steps : List Step} {i : Nat} {suf : List Step}
    (hd : steps.drop i = suf) {t : Step} (ht : t ∈ suf) :
    ∃ j, i ≤ j ∧ steps[j]? = some t := by
  obtain ⟨k, hk⟩ := List.mem_iff_getElem?.mp ht
  refine ⟨i + k, Nat.le_add_right _ _, ?_⟩
  have := congrArg (fun l => l[k]?) hd
  simp only [List.getElem?_drop] at this
  rw [this]; exact hk

theorem getLast?_mem_drop {steps : List Step} {i : Nat} {s last : Step} {rest : List Step}
    (hd : steps.drop i = s :: rest) (hl : steps.getLast? = some last) : last ∈ s :: rest := by
  have h := @List.getLast?_drop _ i steps
  rw [hd] at h
  have hlen : ¬ steps.length ≤ i := by
    intro hle
    rw [List.drop_eq_nil_of_le hle] at hd
    exact List.noConfusion hd
  rw [if_neg hlen, hl] at h
  exact List.mem_of_getLast?_eq_some h

theorem releasedAfter_of_drop (aliases : AliasMap) (seed : Nat) (steps : List Step)
    (i : Nat) {s : Step} {rest : List Step} (hd : steps.drop i = s :: rest) :
    (releasedAfter aliases seed steps)[i]? =
      some (emitInputs aliases (liveBefore aliases seed rest) s.Instr.In).2.reverse := by
  induction steps generalizing i with
  | nil => simp at hd
  | cons s0 rest0 ih =>
    cases i with
    | zero =>
      simp only [List.drop_zero, List.cons.injEq] at hd
      obtain ⟨h1, h2⟩ := hd
      subst h1; subst h2
      simp [releasedAfter]
    | succ k =>
      simp only [List.drop_succ_cons] at hd
      simpa [releasedAfter] using ih k hd

theorem returnBindingSwitch_retBlock (heap : Heap) (name : String) (s : BindingStackState)
    (p : Ptr) (b : Block) (st st1 : RBState)
    (h : returnBindingSwitch heap name s p b st = some st1) :
    AppendsAtMostPhi st.retBlock st1.retBlock := by
  unfold returnBindingSwitch at h
  split at h
  · split at h
    · exact Option.noConfusion h
    · split at h
      · cases h; exact Or.inl rfl
      · split at h <;> (cases h; exact Or.inl rfl)
  · split at h
    · split at h
      · exact Option.noConfusion h
      · cases h; exact Or.inl rfl
    · cases h; exact Or.inl rfl
  · split at h
    · exact Option.noConfusion h
    · split at h
      · cases h; exact Or.inl rfl
      · split at h
        · cases h; exact Or.inl rfl
        · rename_i hne
          cases h
          refine Or.inr ⟨_, s.vTrue, st.v, _, rfl, ?_⟩
          simpa [Value.Equal] using hne
  · cases h; exact Or.inl rfl

theorem returnBindingIter_retBlock (heap : Heap) (name : String) (st st1 : RBState)
    (h : returnBindingIter heap name st = some st1) :
    AppendsAtMostPhi st.retBlock st1.retBlock := by
  unfold returnBindingIter at h
  split at h
  · cases h; exact Or.inl rfl
  · split at h
    · exact Option.noConfusion h
    · split at h
      · exact Option.noConfusion h
      · split at h
        · exact (returnBindingSwitch_retBlock _ _ _ _ _ _ _ h :)
        · split at h
          · split at h
            · cases h; exact Or.inl rfl
            · split at h
              · exact (returnBindingSwitch_retBlock _ _ _ _ _ _ _ h :)
              · exact (returnBindingSwitch_retBlock _ _ _ _ _ _ _ h :)
          · cases h; exact Or.inl rfl


theorem returnBindingLoop_of_empty (heap : Heap) (name : String) (fuel : Nat) (st : RBState)
    (h : st.stack = []) : returnBindingLoop heap name fuel st = Outcome.done st := by
  cases fuel <;> simp [returnBindingLoop, h]

theorem returnBindingLoop_retBlock (heap : Heap) (name : String) (fuel : Nat)
    (st st1 : RBState) (h : returnBindingLoop heap name fuel st = Outcome.done st1) :
    ∃ added, st1.retBlock = st.retBlock ++ added ∧ ∀ i ∈ added, IsPhiOfDistinct i := by
  induction fuel generalizing st with
  | zero =>
    simp only [returnBindingLoop] at h
    split at h
    · cases h; exact ⟨[], by simp, by simp⟩
    · exact Outcome.noConfusion h
  | succ n ih =>
    simp only [returnBindingLoop] at h
    split at h
    · cases h; exact ⟨[], by simp, by simp⟩
    · cases hi : returnBindingIter heap name st with
      | none => rw [hi] at h; exact Outcome.noConfusion h
      | some st2 =>
        rw [hi] at h
        obtain ⟨added, h1, h2⟩ := ih st2 h
        rcases returnBindingIter_retBlock heap name st st2 hi with h3 | ⟨c, t, f, o, h3, h4⟩
        · exact ⟨added, by rw [h1, h3], h2⟩
        · refine ⟨NewPhiInstr c t f o :: added, by rw [h1, h3]; simp, ?_⟩
          intro i hi2
          rcases List.mem_cons.mp hi2 with h5 | h5
          · exact ⟨c, t, f, o, h5, h4⟩
          · exact h2 i h5

theorem ReturnBinding_retBlock (heap : Heap) (fuel : Nat) (bl : Ptr) (ctx : ReturnBindingCTX)
    (name : String) (retBlock : List Instr) (gen : Generator) (st : RBState)
    (h : ReturnBinding heap fuel bl ctx name retBlock gen = Outcome.done st) :
    ∃ added, st.retBlock = retBlock ++ added ∧ ∀ i ∈ added, IsPhiOfDistinct i := by
  unfold ReturnBinding at h
  split at h
  · exact Outcome.noConfusion h
  · split at h
    · cases h; exact ⟨[], by simp, by simp⟩
    · exact (returnBindingLoop_retBlock heap name fuel _ st h :)

theorem returnBindingLoop_phase3_equal (heap : Heap) (name : String) (fuel : Nat)
    (st : RBState) (s : BindingStackState) (p q : Ptr) (b parent : Block)
    (r : ReturnBindingValue) (hst : st.stack = [s]) (hr3 : s.r = 3) (hb : s.block = some p)
    (hp : heap[p]? = some b) (hq : s.parent = some q) (hpar : heap[q]? = some parent)
    (hget : st.ctx.Get b name = some r) (hok : r.ok = true) (heq : s.vTrue.ID = r.v.ID) :
    returnBindingLoop heap name (fuel + 1) st =
      Outcome.done { st with stack := [], v := s.vTrue, diff := s.diffTrue || r.diff, ok := true,
                             ctx := st.ctx.Set parent name s.vTrue (s.diffTrue || r.diff) true } := by
  have hiter : returnBindingIter heap name st =
      some { st with stack := [], v := s.vTrue, diff := s.diffTrue || r.diff, ok := true,
                     ctx := st.ctx.Set parent name s.vTrue (s.diffTrue || r.diff) true } := by
    simp [returnBindingIter, hst, hb, hp, hget, returnBindingSwitch, hr3, hq, hpar, hok,
      Value.Equal, heq]
  simp only [returnBindingLoop, hst, List.isEmpty_cons, Bool.false_eq_true, if_false, hiter]
  exact returnBindingLoop_of_empty _ _ _ _ rfl



/-! ## The claims -/

/-- Claim C1: for a step list in SSA form on which `Program.GC` produces `out` (which requires
the last step to be `Ret`), `out` is the original list with, right after each original step,
the `GC` steps of the values released after it (`withReleases steps rel`).  Every value `v`
released after step `i` is a non-constant input of step `i`, and no later original step has
a non-constant input with the id of `v`; no value id is released twice.  So each inserted
`GC(v)` sits immediately after the last original step that reads `v`, separated from it only
by other `GC` steps of that step, and nothing after it reads `v`. -/
theorem GC_releases_after_last_use (steps out : List Step) (hssa : SSAForm steps)
    (hgc : GC steps = some out) :
    ∃ rel : List (List Value), rel.length = steps.length ∧ out = withReleases steps rel ∧
      (rel.flatten.map Value.ID).Nodup ∧
      ∀ (i : Nat) (s : Step) (vs : List Value) (v : Value),
        steps[i]? = some s → rel[i]? = some vs → v ∈ vs →
          v ∈ s.Instr.In ∧ v.Const = false ∧
          ∀ (j : Nat) (t : Step), i < j → steps[j]? = some t →
            ∀ w ∈ t.Instr.In, w.Const = false → w.ID ≠ v.ID := by
  obtain ⟨last, aliases, -, -, -, hout⟩ := (GC_eq_some steps out).mp hgc
  refine ⟨releasedAfter aliases (retSeed last) steps, length_releasedAfter _ _ _, hout,
    nodup_releasedAfter aliases (retSeed last) hssa, ?_⟩
  intro i s vs v hs hvs hv
  obtain ⟨s1, rest, hd, hvs2⟩ := releasedAfter_getElem? _ _ _ _ _ hvs
  have hs1 : s1 = s := by
    have := drop_eq_cons_getElem? hd
    rw [hs] at this
    exact (Option.some.inj this).symm
  subst hs1
  rw [hvs2, List.mem_reverse] at hv
  obtain ⟨hin, hc, hbit⟩ := mem_emitInputs _ _ _ _ hv
  refine ⟨hin, hc, ?_⟩
  intro j t hij ht w hw hwc hid
  have htr : t ∈ rest := mem_rest_of_lt hd hij ht
  have hno : ∀ t ∈ rest, ∀ o ∈ t.Instr.Out, o.ID ≠ v.ID :=
    fun t ht => hssa.no_def_from hd hin t (List.mem_cons_of_mem _ ht)
  have := testBit_liveBefore_of aliases (retSeed last) v.ID rest hno
    (Or.inr ⟨t, htr, w, hw, hwc, hid⟩)
  rw [hbit] at this
  exact Bool.false_ne_true this



/-- Witness of C1 on `t = a + b; u = t * t; return u`. -/
theorem GC_releases_after_last_use_witness :
    SSAForm straightProgram ∧ GC straightProgram = some straightProgramGC ∧
    ∃ rel : List (List Value), rel.length = straightProgram.length ∧
      straightProgramGC = withReleases straightProgram rel ∧
      (rel.flatten.map Value.ID).Nodup ∧
      ∀ (i : Nat) (s : Step) (vs : List Value) (v : Value),
        straightProgram[i]? = some s → rel[i]? = some vs → v ∈ vs →
          v ∈ s.Instr.In ∧ v.Const = false ∧
          ∀ (j : Nat) (t : Step), i < j → straightProgram[j]? = some t →
            ∀ w ∈ t.Instr.In, w.Const = false → w.ID ≠ v.ID :=
  ⟨by decide, by decide,
    GC_releases_after_last_use straightProgram straightProgramGC (by decide) (by decide)⟩

/-- Claim C2 (defect in the code): on `y = mov x; z = mov y; t = x + x; u = z + z; return u, t`,
a list in SSA form ending in `Ret`, `Program.GC` puts `GC(x)` right after `t = x + x`, before
the step `u = z + z` that reads `z`, an alias of the alias `y` of `x`: only the direct aliases
of an input are tested for liveness. -/
theorem GC_releases_under_transitive_alias :
    SSAForm aliasChainProgram ∧ EndsInRet aliasChainProgram ∧
    GC aliasChainProgram = some
      [ exStep Operand.Mov [exVal "x" 1] (some (exVal "y" 2)),
        exStep Operand.Mov [exVal "y" 2] (some (exVal "z" 3)),
        exStep Operand.Add [exVal "x" 1, exVal "x" 1] (some (exVal "t" 4)),
        releaseStep (exVal "x" 1),
        exStep Operand.Add [exVal "z" 3, exVal "z" 3] (some (exVal "u" 5)),
        releaseStep (exVal "z" 3),
        exStep Operand.Ret [exVal "u" 5, exVal "t" 4] none ] := by
  decide

/-- Claim C3, counterexample: in `y = mov x; z = y + y; return z` the non-constant value `x` is
read by the first step and is not an input of the final `Ret`, yet the output of `Program.GC`
has no `GC` step for it: its alias `y` is live when `x` is last read. -/
theorem GC_skips_aliased_value :
    SSAForm aliasedProgram ∧ EndsInRet aliasedProgram ∧
    (exVal "x" 1).Const = false ∧ (∃ s ∈ aliasedProgram, exVal "x" 1 ∈ s.Instr.In) ∧
    (∀ last ∈ aliasedProgram.getLast?, ∀ r ∈ last.Instr.In, r.ID ≠ (exVal "x" 1).ID) ∧
    GC aliasedProgram = some
      [ exStep Operand.Mov [exVal "x" 1] (some (exVal "y" 2)),
        exStep Operand.Add [exVal "y" 2, exVal "y" 2] (some (exVal "z" 3)),
        releaseStep (exVal "y" 2),
        exStep Operand.Ret [exVal "z" 3] none ] ∧
    ¬ ∃ out, GC aliasedProgram = some out ∧
        ∃ g ∈ out, g.Instr.Op = Operand.GC ∧ ∃ w ∈ g.Instr.In, w.ID = (exVal "x" 1).ID := by
  refine ⟨by decide, by decide, by decide, by decide, by decide, by decide, ?_⟩
  rintro ⟨out, hout, hg⟩
  have h : GC aliasedProgram = some
      [ exStep Operand.Mov [exVal "x" 1] (some (exVal "y" 2)),
        exStep Operand.Add [exVal "y" 2, exVal "y" 2] (some (exVal "z" 3)),
        releaseStep (exVal "y" 2),
        exStep Operand.Ret [exVal "z" 3] none ] := by decide
  rw [h] at hout
  cases hout
  revert hg
  decide

theorem aliasInputs_mono (out : Option Value) (ins : List Value) (m m1 : AliasMap)
    (h : aliasInputs out ins m = some m1) (p : Nat × Value) (hp : p ∈ m) : p ∈ m1 := by
  induction ins generalizing m with
  | nil =>
    simp only [aliasInputs, Option.some.injEq] at h
    subst h; exact hp
  | cons v rest ih =>
    simp only [aliasInputs] at h
    by_cases hc : v.Const = true
    · simp only [hc, if_true] at h
      exact ih m h hp
    · simp only [hc, if_false, Bool.false_eq_true] at h
      cases out with
      | none => simp at h
      | some o =>
        simp only at h
        exact ih _ h (List.mem_append_left _ hp)

theorem aliasInputs_adds (o : Value) (ins : List Value) (m m1 : AliasMap)
    (h : aliasInputs (some o) ins m = some m1) (w : Value) (hw : w ∈ ins)
    (hc : w.Const = false) : (w.ID, o) ∈ m1 := by
  induction ins generalizing m with
  | nil => cases hw
  | cons v rest ih =>
    simp only [aliasInputs] at h
    by_cases hcv : v.Const = true
    · simp only [hcv, if_true] at h
      rcases List.mem_cons.mp hw with e | hw2
      · rw [e, hcv] at hc; cases hc
      · exact ih m h hw2
    · simp only [hcv, if_false, Bool.false_eq_true] at h
      rcases List.mem_cons.mp hw with e | hw2
      · subst e
        exact aliasInputs_mono _ _ _ _ h _ (List.mem_append_right _ (List.mem_singleton_self _))
      · exact ih _ h hw2

theorem collectAliases_mono (steps : List Step) (m m1 : AliasMap)
    (h : collectAliases steps m = some m1) (p : Nat × Value) (hp : p ∈ m) : p ∈ m1 := by
  induction steps generalizing m with
  | nil =>
    simp only [collectAliases, Option.some.injEq] at h
    subst h; exact hp
  | cons s rest ih =>
    simp only [collectAliases] at h
    by_cases hop : isAliasOp s.Instr.Op = true
    · simp only [hop, if_true] at h
      cases ha : aliasInputs s.Instr.Out s.Instr.In m with
      | none => simp [ha] at h
      | some m2 =>
        simp only [ha] at h
        exact ih m2 h (aliasInputs_mono _ _ _ _ ha p hp)
    · simp only [hop, if_false, Bool.false_eq_true] at h
      exact ih m h hp

theorem get_of_isAliasOf {steps : List Step} {aliases : AliasMap} (m : AliasMap)
    (h : collectAliases steps m = some aliases) {a : Value} {n : Nat}
    (ha : IsAliasOf steps a n) : a ∈ aliases.get n := by
  have key : (n, a) ∈ aliases := by
    induction steps generalizing m with
    | nil =>
      obtain ⟨t, ht, -⟩ := ha
      cases ht
    | cons s rest ih =>
      obtain ⟨t, ht, hop, hout, w, hw, hwc, hwid⟩ := ha
      simp only [collectAliases] at h
      rcases List.mem_cons.mp ht with e | ht2
      · subst e
        simp only [hop, if_true] at h
        cases hai : aliasInputs t.Instr.Out t.Instr.In m with
        | none => simp [hai] at h
        | some m2 =>
          simp only [hai] at h
          rw [hout] at hai
          have := aliasInputs_adds a _ _ _ hai w hw hwc
          rw [hwid] at this
          exact collectAliases_mono _ _ _ h _ this
      · have ha2 : IsAliasOf rest a n := ⟨t, ht2, hop, hout, w, hw, hwc, hwid⟩
        by_cases hops : isAliasOp s.Instr.Op = true
        · simp only [hops, if_true] at h
          cases hai : aliasInputs s.Instr.Out s.Instr.In m with
          | none => simp [hai] at h
          | some m2 =>
            simp only [hai] at h
            exact ih m2 h ha2
        · simp only [hops, if_false, Bool.false_eq_true] at h
          exact ih m h ha2
  unfold AliasMap.get
  exact List.mem_map.mpr ⟨(n, a), List.mem_filter.mpr ⟨key, by simp⟩, rfl⟩

theorem exists_firstRead (ins : List Value) (n : Nat)
    (h : ∃ w ∈ ins, w.Const = false ∧ w.ID = n) :
    ∃ pre w post, FirstRead ins pre w post n := by
  induction ins with
  | nil => obtain ⟨w, hw, -⟩ := h; cases hw
  | cons v rest ih =>
    by_cases hv : v.Const = false ∧ v.ID = n
    · exact ⟨[], v, rest, rfl, hv.1, hv.2, fun u hu => by cases hu⟩
    · obtain ⟨w, hw, hwc, hwid⟩ := h
      rcases List.mem_cons.mp hw with e | hw2
      · subst e; exact absurd ⟨hwc, hwid⟩ hv
      · obtain ⟨pre, w1, post, h1, h2, h3, h4⟩ := ih ⟨w, hw2, hwc, hwid⟩
        refine ⟨v :: pre, w1, post, by rw [h1]; rfl, h2, h3, ?_⟩
        intro u hu huc
        rcases List.mem_cons.mp hu with e | hu2
        · subst e
          intro hid
          exact hv ⟨huc, hid⟩
        · exact h4 u hu2 huc

theorem firstRead_unique {ins pre pre2 post post2 : List Value} {w w2 : Value} {n : Nat}
    (h1 : FirstRead ins pre w post n) (h2 : FirstRead ins pre2 w2 post2 n) : pre = pre2 := by
  induction ins generalizing pre pre2 with
  | nil =>
    obtain ⟨e, -⟩ := h1
    cases pre <;> cases e
  | cons v rest ih =>
    obtain ⟨e1, a1, b1, c1⟩ := h1
    obtain ⟨e2, a2, b2, c2⟩ := h2
    cases pre with
    | nil =>
      cases pre2 with
      | nil => rfl
      | cons x pre2 =>
        simp only [List.nil_append, List.cons_append, List.cons.injEq] at e1 e2
        exfalso
        have hx : x = w := by rw [← e1.1, e2.1]
        exact c2 x (List.mem_cons_self _ _) (by rw [hx]; exact a1) (by rw [hx]; exact b1)
    | cons x pre =>
      cases pre2 with
      | nil =>
        simp only [List.nil_append, List.cons_append, List.cons.injEq] at e1 e2
        exfalso
        have hx : x = w2 := by rw [← e1.1, e2.1]
        exact c1 x (List.mem_cons_self _ _) (by rw [hx]; exact a2) (by rw [hx]; exact b2)
      | cons y pre2 =>
        simp only [List.cons_append, List.cons.injEq] at e1 e2
        have hxy : x = y := by rw [← e1.1, e2.1]
        have h3 : FirstRead rest pre w post n :=
          ⟨e1.2, a1, b1, fun u hu => c1 u (List.mem_cons_of_mem _ hu)⟩
        have h4 : FirstRead rest pre2 w2 post2 n :=
          ⟨e2.2, a2, b2, fun u hu => c2 u (List.mem_cons_of_mem _ hu)⟩
        rw [hxy, ih h3 h4]

theorem emitInputs_released_iff (aliases : AliasMap) (ins : List Value) (set n : Nat) :
    (∃ x ∈ (emitInputs aliases set ins).2, x.ID = n) ↔
      ∃ pre w post, FirstRead ins pre w post n ∧ set.testBit n = false ∧
        ∀ a ∈ aliases.get n, set.testBit a.ID = false ∧
          ∀ u ∈ pre, u.Const = false → u.ID ≠ a.ID := by
  induction ins generalizing set with
  | nil =>
    simp only [emitInputs, List.not_mem_nil, false_and, exists_false, false_iff]
    rintro ⟨pre, w, post, ⟨e, -⟩, -⟩
    cases pre <;> cases e
  | cons v rest ih =>
    simp only [emitInputs]
    by_cases hc : v.Const = true
    · simp only [hc, if_true]
      rw [ih set]
      constructor
      · rintro ⟨pre, w, post, ⟨e, a1, b1, c1⟩, hb, hal⟩
        refine ⟨v :: pre, w, post, ⟨by rw [e]; rfl, a1, b1, ?_⟩, hb, ?_⟩
        · intro u hu huc
          rcases List.mem_cons.mp hu with e2 | hu2
          · rw [e2, hc] at huc; cases huc
          · exact c1 u hu2 huc
        · intro a ha
          refine ⟨(hal a ha).1, ?_⟩
          intro u hu huc
          rcases List.mem_cons.mp hu with e2 | hu2
          · rw [e2, hc] at huc; cases huc
          · exact (hal a ha).2 u hu2 huc
      · rintro ⟨pre, w, post, ⟨e, a1, b1, c1⟩, hb, hal⟩
        cases pre with
        | nil =>
          simp only [List.nil_append, List.cons.injEq] at e
          rw [← e.1, hc] at a1; cases a1
        | cons x pre =>
          simp only [List.cons_append, List.cons.injEq] at e
          exact ⟨pre, w, post, ⟨e.2, a1, b1, fun u hu => c1 u (List.mem_cons_of_mem _ hu)⟩, hb,
            fun a ha => ⟨(hal a ha).1, fun u hu => (hal a ha).2 u (List.mem_cons_of_mem _ hu)⟩⟩
    · have hcf : v.Const = false := by simpa using hc
      simp only [hc, if_false, Bool.false_eq_true]
      by_cases hid : v.ID = n
      · -- the first non-constant input with id `n` is `v`
        have hfirst : ∀ pre w post, FirstRead (v :: rest) pre w post n → pre = [] := by
          intro pre w post h
          exact (firstRead_unique h ⟨rfl, hcf, hid, fun u hu => by cases hu⟩)
        have hno : ¬ ∃ x ∈ (emitInputs aliases (setBit set v.ID true) rest).2, x.ID = n := by
          rw [ih]
          rintro ⟨pre, w, post, -, hb, -⟩
          rw [testBit_setBit, if_pos hid.symm] at hb
          cases hb
        by_cases hg : set.testBit v.ID = false ∧
            (aliases.get v.ID).any (fun a => set.testBit a.ID) = false
        · rw [if_pos hg]
          constructor
          · intro _
            refine ⟨[], v, rest, ⟨rfl, hcf, hid, fun u hu => by cases hu⟩, by rw [← hid]; exact hg.1,
              ?_⟩
            intro a ha
            refine ⟨?_, fun u hu => by cases hu⟩
            have := List.any_eq_false.mp hg.2 a (by rw [hid]; exact ha)
            simpa using this
          · intro _
            exact ⟨v, List.mem_cons_self _ _, hid⟩
        · rw [if_neg hg]
          constructor
          · intro h; exact absurd h hno
          · rintro ⟨pre, w, post, hf, hb, hal⟩
            exfalso
            apply hg
            refine ⟨by rw [hid]; exact hb, ?_⟩
            rw [List.any_eq_false]
            intro a ha
            have := (hal a (by rw [← hid]; exact ha)).1
            simp [this]
      · -- `v` has another id
        have hstep : (∃ x ∈ (if set.testBit v.ID = false ∧
              (aliases.get v.ID).any (fun a => set.testBit a.ID) = false
            then ((emitInputs aliases (setBit set v.ID true) rest).1,
              v :: (emitInputs aliases (setBit set v.ID true) rest).2)
            else emitInputs aliases (setBit set v.ID true) rest).2, x.ID = n) ↔
            ∃ x ∈ (emitInputs aliases (setBit set v.ID true) rest).2, x.ID = n := by
          split
          · constructor
            · rintro ⟨x, hx, hxid⟩
              rcases List.mem_cons.mp hx with e | hx2
              · rw [e] at hxid; exact absurd hxid hid
              · exact ⟨x, hx2, hxid⟩
            · rintro ⟨x, hx, hxid⟩
              exact ⟨x, List.mem_cons_of_mem _ hx, hxid⟩
          · exact Iff.rfl
        rw [hstep, ih]
        have hbn : (setBit set v.ID true).testBit n = set.testBit n := by
          rw [testBit_setBit, if_neg (fun h => hid h.symm)]
        constructor
        · rintro ⟨pre, w, post, ⟨e, a1, b1, c1⟩, hb, hal⟩
          refine ⟨v :: pre, w, post, ⟨by rw [e]; rfl, a1, b1, ?_⟩, by rw [← hbn]; exact hb, ?_⟩
          · intro u hu huc
            rcases List.mem_cons.mp hu with e2 | hu2
            · rw [e2]; exact hid
            · exact c1 u hu2 huc
          · intro a ha
            have h1 := (hal a ha).1
            rw [testBit_setBit] at h1
            by_cases hav : a.ID = v.ID
            · rw [if_pos hav] at h1; cases h1
            · rw [if_neg hav] at h1
              refine ⟨h1, ?_⟩
              intro u hu huc
              rcases List.mem_cons.mp hu with e2 | hu2
              · rw [e2]; exact fun h => hav h.symm
              · exact (hal a ha).2 u hu2 huc
        · rintro ⟨pre, w, post, ⟨e, a1, b1, c1⟩, hb, hal⟩
          cases pre with
          | nil =>
            simp only [List.nil_append, List.cons.injEq] at e
            rw [← e.1] at b1; exact absurd b1 hid
          | cons x pre =>
            simp only [List.cons_append, List.cons.injEq] at e
            refine ⟨pre, w, post, ⟨e.2, a1, b1, fun u hu => c1 u (List.mem_cons_of_mem _ hu)⟩,
              by rw [hbn]; exact hb, ?_⟩
            intro a ha
            refine ⟨?_, fun u hu => (hal a ha).2 u (List.mem_cons_of_mem _ hu)⟩
            rw [testBit_setBit]
            have hav : ¬ a.ID = v.ID := by
              intro h
              exact (hal a ha).2 x (List.mem_cons_self _ _) (by rw [← e.1]; exact hcf)
                (by rw [← e.1]; exact h.symm)
            rw [if_neg hav]
            exact (hal a ha).1

/-- Claim C3, amended: for a step list in SSA form on which `Program.GC` produces `out`, every
non-constant value `v` that is read by some step and is not an input of the final `Ret` is
released at most once.  With `i` its last reading step and `pre` the inputs of step `i` before
the first non-constant input with the id of `v`, it is released exactly once if and only if
every direct alias `a` of `v` has an id that no input of the final `Ret` has, that no
non-constant input of a step after `i` has, and that no non-constant input in `pre` has;
otherwise it is not released. -/
theorem GC_releases_at_most_once (steps out : List Step) (v : Value) (hssa : SSAForm steps)
    (hgc : GC steps = some out) (hc : v.Const = false)
    (hread : ∃ s ∈ steps, v ∈ s.Instr.In)
    (hnret : ∀ last ∈ steps.getLast?, ∀ r ∈ last.Instr.In, r.ID ≠ v.ID) :
    ∃ rel : List (List Value), rel.length = steps.length ∧ out = withReleases steps rel ∧
      (rel.flatten.map Value.ID).count v.ID ≤ 1 ∧
      ∃ (i : Nat) (s : Step) (pre : List Value) (w : Value) (post : List Value),
        steps[i]? = some s ∧ FirstRead s.Instr.In pre w post v.ID ∧
        (∀ (j : Nat) (t : Step), i < j → steps[j]? = some t →
          ∀ u ∈ t.Instr.In, u.Const = false → u.ID ≠ v.ID) ∧
        ((rel.flatten.map Value.ID).count v.ID = 1 ↔
          ∀ a, IsAliasOf steps a v.ID →
            (∀ last ∈ steps.getLast?, ∀ r ∈ last.Instr.In, r.ID ≠ a.ID) ∧
            (∀ (j : Nat) (t : Step), i < j → steps[j]? = some t →
              ∀ u ∈ t.Instr.In, u.Const = false → u.ID ≠ a.ID) ∧
            (∀ u ∈ pre, u.Const = false → u.ID ≠ a.ID)) := by
  obtain ⟨last, aliases, hl, -, hal, hout⟩ := (GC_eq_some steps out).mp hgc
  have hnd := nodup_releasedAfter aliases (retSeed last) hssa
  have hle := List.nodup_iff_count_le_one.mp hnd v.ID
  refine ⟨releasedAfter aliases (retSeed last) steps, length_releasedAfter _ _ _, hout, hle, ?_⟩
  have hex : ∃ t ∈ steps, ∃ w ∈ t.Instr.In, w.Const = false ∧ w.ID = v.ID := by
    obtain ⟨s, hs, hv⟩ := hread
    exact ⟨s, hs, v, hv, hc, rfl⟩
  obtain ⟨i, s, rest, hd, hQ, hlast⟩ := exists_last_of_exists steps hex
  obtain ⟨w0, hw0, hw0c, hw0id⟩ := hQ
  obtain ⟨pre, w, post, hfr⟩ := exists_firstRead s.Instr.In v.ID ⟨w0, hw0, hw0c, hw0id⟩
  have hs : steps[i]? = some s := drop_eq_cons_getElem? hd
  have hlater : ∀ (j : Nat) (t : Step), i < j → steps[j]? = some t →
      ∀ u ∈ t.Instr.In, u.Const = false → u.ID ≠ v.ID := by
    intro j t hij ht u hu huc huid
    exact hlast t (mem_rest_of_lt hd hij ht) ⟨u, hu, huc, huid⟩
  refine ⟨i, s, pre, w, post, hs, hfr, hlater, ?_⟩
  have hnoseed : ∀ n, (∀ r ∈ last.Instr.In, r.ID ≠ n) → (retSeed last).testBit n = false := by
    intro n hn
    rw [testBit_retSeed, List.any_eq_false]
    intro r hr
    simpa using hn r hr
  have hbit : (liveBefore aliases (retSeed last) rest).testBit v.ID = false := by
    by_contra hb
    have hb2 : (liveBefore aliases (retSeed last) rest).testBit v.ID = true := by
      simpa using hb
    rcases testBit_liveBefore_imp _ _ _ _ hb2 with h1 | ⟨t, ht, u, hu, huc, huid⟩
    · rw [hnoseed v.ID (fun r hr => hnret last (by simp [hl]) r hr)] at h1
      exact Bool.false_ne_true h1
    · exact hlast t ht ⟨u, hu, huc, huid⟩
  -- the values with the id of `v` are released after step `i` only
  have hat : (∃ x ∈ (releasedAfter aliases (retSeed last) steps).flatten, x.ID = v.ID) ↔
      ∃ x ∈ (emitInputs aliases (liveBefore aliases (retSeed last) rest) s.Instr.In).2,
        x.ID = v.ID := by
    constructor
    · rintro ⟨x, hx, hxid⟩
      obtain ⟨vs, hvs, hxvs⟩ := List.mem_flatten.mp hx
      obtain ⟨j, hj⟩ := List.mem_iff_getElem?.mp hvs
      obtain ⟨sj, restj, hdj, hvsj⟩ := releasedAfter_getElem? _ _ _ _ _ hj
      rw [hvsj, List.mem_reverse] at hxvs
      obtain ⟨hxin, hxc, hxbit⟩ := mem_emitInputs _ _ _ _ hxvs
      have hsj : steps[j]? = some sj := drop_eq_cons_getElem? hdj
      rcases Nat.lt_trichotomy j i with hji | hji | hji
      · exfalso
        have hsr : s ∈ restj := mem_rest_of_lt hdj hji hs
        have hno : ∀ t ∈ restj, ∀ o ∈ t.Instr.Out, o.ID ≠ x.ID :=
          fun t ht => hssa.no_def_from hdj hxin t (List.mem_cons_of_mem _ ht)
        have := testBit_liveBefore_of aliases (retSeed last) x.ID restj hno
          (Or.inr ⟨s, hsr, w0, hw0, hw0c, by rw [hw0id, hxid]⟩)
        rw [hxbit] at this
        exact Bool.false_ne_true this
      · subst hji
        rw [hd] at hdj
        cases hdj
        exact ⟨x, hxvs, hxid⟩
      · exfalso
        exact hlater j sj hji hsj x hxin hxc hxid
    · rintro ⟨x, hx, hxid⟩
      refine ⟨x, List.mem_flatten.mpr ⟨_, ?_, List.mem_reverse.mpr hx⟩, hxid⟩
      exact List.mem_iff_getElem?.mpr ⟨i, releasedAfter_of_drop _ _ _ _ hd⟩
  have hcount : ((releasedAfter aliases (retSeed last) steps).flatten.map Value.ID).count v.ID
      = 1 ↔ ∃ x ∈ (releasedAfter aliases (retSeed last) steps).flatten, x.ID = v.ID := by
    constructor
    · intro h1
      have hpos : 0 < ((releasedAfter aliases (retSeed last) steps).flatten.map
          Value.ID).count v.ID := by omega
      obtain ⟨x, hx, hxid⟩ := List.mem_map.mp (List.count_pos_iff.mp hpos)
      exact ⟨x, hx, hxid⟩
    · rintro ⟨x, hx, hxid⟩
      have := List.one_le_count_iff.mpr (List.mem_map.mpr ⟨x, hx, hxid⟩)
      omega
  -- no step after step `i` defines a direct alias of `v`
  have hnodef : ∀ a, IsAliasOf steps a v.ID → ∀ t ∈ rest, ∀ o ∈ t.Instr.Out, o.ID ≠ a.ID := by
    rintro a ⟨t0, ht0, -, hout0, u, hu, huc, huid⟩ t ht o ho hid
    obtain ⟨k, hk⟩ := List.mem_iff_getElem?.mp ht0
    obtain ⟨j, -, hj⟩ := getElem?_of_mem_drop hd (List.mem_cons_of_mem s ht)
    have hjk : j = k := hssa.def_unique hk hj hout0 (by simpa using ho) hid
    subst hjk
    rw [hk] at hj
    cases hj
    exact hlast t0 ht ⟨u, hu, huc, huid⟩
  rw [hcount, hat, emitInputs_released_iff]
  constructor
  · rintro ⟨pre2, w2, post2, hfr2, -, hguard⟩ a ha
    have hpre : pre2 = pre := firstRead_unique hfr2 hfr
    subst hpre
    have hget := get_of_isAliasOf [] hal ha
    obtain ⟨hclear, hprec⟩ := hguard a hget
    refine ⟨?_, ?_, hprec⟩
    · intro last1 hl1 r hr hid
      rw [Option.mem_def, hl] at hl1
      cases hl1
      have hseed : (retSeed last).testBit a.ID = true := by
        rw [testBit_retSeed]
        exact List.any_eq_true.mpr ⟨r, hr, by simp [hid]⟩
      have := testBit_liveBefore_of aliases (retSeed last) a.ID rest (hnodef a ha)
        (Or.inl hseed)
      rw [hclear] at this
      exact Bool.false_ne_true this
    · intro j t hij ht u hu huc huid
      have := testBit_liveBefore_of aliases (retSeed last) a.ID rest (hnodef a ha)
        (Or.inr ⟨t, mem_rest_of_lt hd hij ht, u, hu, huc, huid⟩)
      rw [hclear] at this
      exact Bool.false_ne_true this
  · intro hall
    refine ⟨pre, w, post, hfr, hbit, ?_⟩
    intro a ha
    obtain ⟨h1, h2, h3⟩ := hall a (isAliasOf_of_get hal ha)
    refine ⟨?_, h3⟩
    by_contra hb
    have hb2 : (liveBefore aliases (retSeed last) rest).testBit a.ID = true := by
      simpa using hb
    rcases testBit_liveBefore_imp _ _ _ _ hb2 with h4 | ⟨t, ht, u, hu, huc, huid⟩
    · rw [hnoseed a.ID (fun r hr => h1 last (by simp [hl]) r hr)] at h4
      exact Bool.false_ne_true h4
    · -- `t` is in `rest`, so its index is after `i`
      obtain ⟨j2, hj2⟩ := List.mem_iff_getElem?.mp ht
      have hdrop : steps[i + 1 + j2]? = some t := by
        have : rest = steps.drop (i + 1) := by
          have := congrArg List.tail hd
          simpa [List.tail_drop] using this.symm
        rw [this, List.getElem?_drop] at hj2
        exact hj2
      exact h2 (i + 1 + j2) t (by omega) hdrop u hu huc huid

/-- Witness of the amended C3 on `a = mov v; t = v + a; return t` and the value `v`, whose
last reading step reads the alias `a` after `v`. -/
theorem GC_releases_at_most_once_witness :
    SSAForm aliasLaterProgram ∧ GC aliasLaterProgram = some aliasLaterProgramGC ∧
    (exVal "v" 1).Const = false ∧ (∃ s ∈ aliasLaterProgram, exVal "v" 1 ∈ s.Instr.In) ∧
    (∀ last ∈ aliasLaterProgram.getLast?, ∀ r ∈ last.Instr.In, r.ID ≠ (exVal "v" 1).ID) ∧
    ∃ rel : List (List Value), rel.length = aliasLaterProgram.length ∧
      aliasLaterProgramGC = withReleases aliasLaterProgram rel ∧
      (rel.flatten.map Value.ID).count (exVal "v" 1).ID ≤ 1 ∧
      ∃ (i : Nat) (s : Step) (pre : List Value) (w : Value) (post : List Value),
        aliasLaterProgram[i]? = some s ∧ FirstRead s.Instr.In pre w post (exVal "v" 1).ID ∧
        (∀ (j : Nat) (t : Step), i < j → aliasLaterProgram[j]? = some t →
          ∀ u ∈ t.Instr.In, u.Const = false → u.ID ≠ (exVal "v" 1).ID) ∧
        ((rel.flatten.map Value.ID).count (exVal "v" 1).ID = 1 ↔
          ∀ a, IsAliasOf aliasLaterProgram a (exVal "v" 1).ID →
            (∀ last ∈ aliasLaterProgram.getLast?, ∀ r ∈ last.Instr.In, r.ID ≠ a.ID) ∧
            (∀ (j : Nat) (t : Step), i < j → aliasLaterProgram[j]? = some t →
              ∀ u ∈ t.Instr.In, u.Const = false → u.ID ≠ a.ID) ∧
            (∀ u ∈ pre, u.Const = false → u.ID ≠ a.ID)) :=
  ⟨by decide, by decide, by decide, by decide, by decide,
    GC_releases_at_most_once aliasLaterProgram aliasLaterProgramGC (exVal "v" 1)
      (by decide) (by decide) (by decide) (by decide) (by decide)⟩

/-- The alias test of `Program.GC` sees the inputs that come before the tested input: in
`a = mov v; t = v + a; return t` the value `v` is released although the same step reads its
alias `a`, and in `a = mov v; t = a + v; return t` it is not released. -/
theorem GC_alias_guard_order :
    GC aliasLaterProgram = some aliasLaterProgramGC ∧
    GC aliasEarlierProgram = some aliasEarlierProgramGC := by
  decide

/-- Claim C4: for a step list in SSA form on which `Program.GC` produces `out`, no value
released by `Program.GC` has the id of an input of the final `Ret`, and the last step of
`out` is the last step of the input, the final `Ret`. -/
theorem GC_keeps_return_values (steps out : List Step) (hssa : SSAForm steps)
    (hgc : GC steps = some out) :
    ∃ rel : List (List Value), rel.length = steps.length ∧ out = withReleases steps rel ∧
      (∀ last ∈ steps.getLast?, ∀ r ∈ last.Instr.In, ∀ v ∈ rel.flatten, v.ID ≠ r.ID) ∧
      out.getLast? = steps.getLast? := by
  obtain ⟨last, aliases, hl, -, -, hout⟩ := (GC_eq_some steps out).mp hgc
  refine ⟨releasedAfter aliases (retSeed last) steps, length_releasedAfter _ _ _, hout, ?_, ?_⟩
  · intro last1 hl1 r hr v hv hid
    rw [Option.mem_def, hl] at hl1
    cases hl1
    obtain ⟨vs, hvs, hvvs⟩ := List.mem_flatten.mp hv
    obtain ⟨i, hi⟩ := List.mem_iff_getElem?.mp hvs
    obtain ⟨s, rest, hd, hvs2⟩ := releasedAfter_getElem? _ _ _ _ _ hi
    rw [hvs2, List.mem_reverse] at hvvs
    obtain ⟨hin, -, hbit⟩ := mem_emitInputs _ _ _ _ hvvs
    have hno : ∀ t ∈ rest, ∀ o ∈ t.Instr.Out, o.ID ≠ v.ID :=
      fun t ht => hssa.no_def_from hd hin t (List.mem_cons_of_mem _ ht)
    have hseed : (retSeed last).testBit v.ID = true := by
      rw [testBit_retSeed]
      exact List.any_eq_true.mpr ⟨r, hr, by simp [hid]⟩
    have := testBit_liveBefore_of aliases (retSeed last) v.ID rest hno (Or.inl hseed)
    rw [hbit] at this
    exact Bool.false_ne_true this
  · rw [hout]
    apply getLast?_withReleases _ _ (length_releasedAfter _ _ _)
    intro vs hvs
    obtain ⟨last1, hl1, hv⟩ := getLast?_releasedAfter _ _ _ _ hvs
    rw [hl] at hl1
    cases hl1
    rw [hv, emitInputs_retSeed]
    rfl



/-- Witness of C4 on `t = a + b; u = t * t; return u`. -/
theorem GC_keeps_return_values_witness :
    SSAForm straightProgram ∧ GC straightProgram = some straightProgramGC ∧
    ∃ rel : List (List Value), rel.length = straightProgram.length ∧
      straightProgramGC = withReleases straightProgram rel ∧
      (∀ last ∈ straightProgram.getLast?, ∀ r ∈ last.Instr.In,
        ∀ v ∈ rel.flatten, v.ID ≠ r.ID) ∧
      straightProgramGC.getLast? = straightProgram.getLast? :=
  ⟨by decide, by decide,
    GC_keeps_return_values straightProgram straightProgramGC (by decide) (by decide)⟩

/-- The list `[Mov x → nil, Ret]` is non-empty and ends in `Ret`, yet the step list part of
`Program.GC` panics on it: collecting the aliases dereferences the nil output of the `Mov`. -/
theorem GC_panics_on_nil_output :
    nilOutputProgram ≠ [] ∧ EndsInRet nilOutputProgram ∧ GC nilOutputProgram = none := by
  decide

/-- The step list part of `Program.GC` panics if and only if the step list is empty, or its
last step is not a `Ret`, or some aliasing step with a non-constant input has a nil output. -/
theorem GC_panics_iff (steps : List Step) :
    GC steps = none ↔
      steps = [] ∨ (∃ last ∈ steps.getLast?, last.Instr.Op ≠ Operand.Ret) ∨
        ∃ s ∈ steps, isAliasOp s.Instr.Op = true ∧ s.Instr.Out = none ∧
          ∃ w ∈ s.Instr.In, w.Const = false := by
  unfold GC
  cases hl : steps.getLast? with
  | none =>
    have : steps = [] := List.getLast?_eq_none_iff.mp hl
    simp [this]
  | some last =>
    have hne : steps ≠ [] := by
      intro h; rw [h] at hl; simp at hl
    by_cases hop : last.Instr.Op = Operand.Ret
    · cases ha : collectAliases steps [] with
      | none =>
        have := (collectAliases_eq_none steps []).mp ha
        simp only [hop, ne_eq, not_true_eq_false, if_false, true_iff]
        exact Or.inr (Or.inr this)
      | some aliases =>
        have hn : ¬ ∃ s ∈ steps, isAliasOp s.Instr.Op = true ∧ s.Instr.Out = none ∧
            ∃ w ∈ s.Instr.In, w.Const = false := by
          intro h
          rw [(collectAliases_eq_none steps []).mpr h] at ha
          exact Option.noConfusion ha
        simp only [hop, ne_eq, not_true_eq_false, if_false, reduceCtorEq, false_iff]
        rintro (h | ⟨l1, hl1, h⟩ | h)
        · exact hne h
        · rw [Option.mem_def] at hl1
          cases hl1
          exact h hop
        · exact hn h
    · simp [hop]



/-- Claim C5, counterexample: the program with the steps `[Mov x → nil, Ret]` and non-nil
parameters has a non-empty step list that ends in `Ret`, yet `Program.GC` panics on it:
collecting the aliases dereferences the nil output of the `Mov`.  And on
`t = a + b; u = t * t; return u` with nil parameters `Program.GC` panics as well, after it has
replaced the steps. -/
theorem Program_GC_panics_on_nil_pointer :
    (exProgram nilOutputProgram).Steps ≠ [] ∧ EndsInRet (exProgram nilOutputProgram).Steps ∧
    Program.GC (exProgram nilOutputProgram) = GCResult.panic (exProgram nilOutputProgram) ∧
    EndsInRet straightProgram ∧
    Program.GC { Params := none, Steps := straightProgram }
      = GCResult.panic { Params := none, Steps := straightProgramGC } := by
  decide

/-- Claim C5, amended: `Program.GC` panics if and only if the step list is empty, or its last
step is not a `Ret`, or some aliasing step with a non-constant input has a nil output, or
`prog.Params` is nil; a nil `prog.Params` alone makes it panic after it has replaced the
steps; in every other case it returns with the new step list in `prog.Steps` and nothing
else changed. -/
theorem Program_GC_panics_iff (prog : Program) :
    ((∃ p, Program.GC prog = GCResult.panic p) ↔ GCPanics prog) ∧
    (∀ steps, GC prog.Steps = some steps → prog.Params = none →
      Program.GC prog = GCResult.panic { prog with Steps := steps }) ∧
    (¬ GCPanics prog →
      ∃ steps, GC prog.Steps = some steps ∧
        Program.GC prog = GCResult.done { prog with Steps := steps }) := by
  have hiff := GC_panics_iff prog.Steps
  unfold GCPanics
  refine ⟨?_, ?_, ?_⟩
  · unfold Program.GC
    cases hg : GC prog.Steps with
    | none =>
      refine ⟨fun _ => ?_, fun _ => ⟨_, rfl⟩⟩
      rcases hiff.mp hg with h | h | h
      · exact Or.inl h
      · exact Or.inr (Or.inl h)
      · exact Or.inr (Or.inr (Or.inl h))
    | some steps =>
      have hn : ¬ (prog.Steps = [] ∨
          (∃ last ∈ prog.Steps.getLast?, last.Instr.Op ≠ Operand.Ret) ∨
          ∃ s ∈ prog.Steps, isAliasOp s.Instr.Op = true ∧ s.Instr.Out = none ∧
            ∃ w ∈ s.Instr.In, w.Const = false) := by
        intro h
        rw [hiff.mpr h] at hg
        cases hg
      cases hp : prog.Params with
      | none =>
        exact ⟨fun _ => Or.inr (Or.inr (Or.inr rfl)), fun _ => ⟨_, rfl⟩⟩
      | some params =>
        constructor
        · rintro ⟨p, hpp⟩
          cases hpp
        · rintro (h | h | h | h)
          · exact absurd (Or.inl h) hn
          · exact absurd (Or.inr (Or.inl h)) hn
          · exact absurd (Or.inr (Or.inr h)) hn
          · cases h
  · intro steps hg hp
    unfold Program.GC
    rw [hg, hp]
  · intro hn
    cases hg : GC prog.Steps with
    | none =>
      exfalso
      apply hn
      rcases hiff.mp hg with h | h | h
      · exact Or.inl h
      · exact Or.inr (Or.inl h)
      · exact Or.inr (Or.inr (Or.inl h))
    | some steps =>
      refine ⟨steps, rfl, ?_⟩
      unfold Program.GC
      rw [hg]
      cases hp : prog.Params with
      | none => exact absurd (Or.inr (Or.inr (Or.inr hp))) hn
      | some params => rfl

/-- Witness of the amended C5 on `t = a + b; u = t * t; return u` with non-nil parameters:
`Program.GC` returns. -/
theorem Program_GC_panics_iff_witness :
    ¬ GCPanics (exProgram straightProgram) ∧
    Program.GC (exProgram straightProgram) = GCResult.done (exProgram straightProgramGC) ∧
    ∃ steps, GC (exProgram straightProgram).Steps = some steps ∧
      Program.GC (exProgram straightProgram)
        = GCResult.done { exProgram straightProgram with Steps := steps } :=
  ⟨by decide, by decide, (Program_GC_panics_iff (exProgram straightProgram)).2.2 (by decide)⟩

/-- Claim C6 (defect in the code): in the control-flow graph of
`if c { x = a } else { x = b }; return x`, resolving `x` from the then-block gives `a` and
from the else-block gives `b`, both with `ok = true` and with different ids; resolving `x`
from the branching block 0 nevertheless returns `a` itself, appends no `Phi` to `retBlock`
and takes no value from the generator.  The frame of a block is popped before its successor
is resolved and never pushed back, so the phases 2 and 3 of a branching block are lost. -/
theorem ReturnBinding_diamond_no_phi :
    ReturnBinding diamondHeap 8 1 NewReturnBindingCTX "x" [] { nextID := 10 } =
      Outcome.done
        { stack := [], v := exVal "a" 2, diff := false, ok := true,
          ctx := { cache := [({ BlockID := 1, Name := "x" },
                              { v := exVal "a" 2, diff := false, ok := true }),
                             ({ BlockID := 3, Name := "x" },
                              { v := default, diff := false, ok := false })] },
          retBlock := [], gen := { nextID := 10 } } ∧
    ReturnBinding diamondHeap 8 2 NewReturnBindingCTX "x" [] { nextID := 10 } =
      Outcome.done
        { stack := [], v := exVal "b" 3, diff := false, ok := true,
          ctx := { cache := [({ BlockID := 2, Name := "x" },
                              { v := exVal "b" 3, diff := false, ok := true }),
                             ({ BlockID := 3, Name := "x" },
                              { v := default, diff := false, ok := false })] },
          retBlock := [], gen := { nextID := 10 } } ∧
    ReturnBinding diamondHeap 8 0 NewReturnBindingCTX "x" [] { nextID := 10 } =
      Outcome.done
        { stack := [], v := exVal "a" 2, diff := false, ok := true,
          ctx := { cache := [({ BlockID := 1, Name := "x" },
                              { v := exVal "a" 2, diff := false, ok := true }),
                             ({ BlockID := 3, Name := "x" },
                              { v := default, diff := false, ok := false })] },
          retBlock := [], gen := { nextID := 10 } } := by
  decide

/-- Claim C7 (defect in the code): two calls of `ReturnBinding` with the same context, block
and name return different results.  For a single terminal block that binds `x`, the first
call with a new context returns `ok = false` (the lookup assigns a shadowed `ok`, so the named
result keeps its old value) and memoizes `ok = true`, which the second call returns.  On the
if/else diamond the first call from block 0 returns `a` with `ok = true` and leaves block 0
unmemoized; the second call with the resulting context returns the zero value with
`ok = false`. -/
theorem ReturnBinding_second_call_differs :
    ReturnBinding terminalHeap 8 0 NewReturnBindingCTX "x" [] { nextID := 10 } =
      Outcome.done
        { stack := [], v := exVal "a" 2, diff := false, ok := false,
          ctx := { cache := [({ BlockID := 0, Name := "x" },
                              { v := exVal "a" 2, diff := false, ok := true })] },
          retBlock := [], gen := { nextID := 10 } } ∧
    ReturnBinding terminalHeap 8 0
        { cache := [({ BlockID := 0, Name := "x" },
                     { v := exVal "a" 2, diff := false, ok := true })] }
        "x" [] { nextID := 10 } =
      Outcome.done
        { stack := [], v := exVal "a" 2, diff := false, ok := true,
          ctx := { cache := [({ BlockID := 0, Name := "x" },
                              { v := exVal "a" 2, diff := false, ok := true })] },
          retBlock := [], gen := { nextID := 10 } } ∧
    ReturnBinding diamondHeap 8 0 NewReturnBindingCTX "x" [] { nextID := 10 } =
      Outcome.done
        { stack := [], v := exVal "a" 2, diff := false, ok := true,
          ctx := diamondCtx, retBlock := [], gen := { nextID := 10 } } ∧
    ReturnBinding diamondHeap 8 0 diamondCtx "x" [] { nextID := 10 } =
      Outcome.done
        { stack := [], v := default, diff := false, ok := false,
          ctx := { cache := ({ BlockID := 1, Name := "x" },
                             { v := default, diff := false, ok := false }) ::
                            diamondCtx.cache },
          retBlock := [], gen := { nextID := 10 } } := by
  decide

/-- Claim C8, counterexample: block 0 of `fallbackHeap` is sequential with `Next` block 1, in
which `x` is unbound.  Resolving `x` from block 1 returns `ok = false` (with a new context as
well as with a context that memoizes that result), while resolving `x` from block 0 returns
the own binding `a` of block 0 with `ok = true`. -/
theorem ReturnBinding_falls_back_to_own_binding :
    fallbackHeap[0]? = some fallbackEntry ∧ fallbackEntry.Branch = none ∧
    fallbackEntry.Next = some 1 ∧
    ReturnBinding fallbackHeap 8 1 NewReturnBindingCTX "x" [] { nextID := 10 } =
      Outcome.done
        { stack := [], v := default, diff := false, ok := false,
          ctx := nextUnbound, retBlock := [], gen := { nextID := 10 } } ∧
    ReturnBinding fallbackHeap 8 0 NewReturnBindingCTX "x" [] { nextID := 10 } =
      Outcome.done
        { stack := [], v := exVal "a" 2, diff := false, ok := true,
          ctx := { cache := ({ BlockID := 0, Name := "x" },
                             { v := exVal "a" 2, diff := false, ok := true }) ::
                            nextUnbound.cache },
          retBlock := [], gen := { nextID := 10 } } ∧
    ReturnBinding fallbackHeap 8 1 nextUnbound "x" [] { nextID := 10 } =
      Outcome.done
        { stack := [], v := default, diff := false, ok := false,
          ctx := nextUnbound, retBlock := [], gen := { nextID := 10 } } ∧
    ReturnBinding fallbackHeap 8 0 nextUnbound "x" [] { nextID := 10 } =
      Outcome.done
        { stack := [], v := exVal "a" 2, diff := false, ok := true,
          ctx := { cache := ({ BlockID := 0, Name := "x" },
                             { v := exVal "a" 2, diff := false, ok := true }) ::
                            nextUnbound.cache },
          retBlock := [], gen := { nextID := 10 } } := by
  decide

/-- Claim C8, amended: for a sequential block `b` that is not yet memoized for `name`:
if `b` has no `Next`, `ReturnBinding` terminates without touching `retBlock`, with
`diff = false` and with the own binding of `name` as its value (and with the zero value and
`ok = false` when `name` is unbound in `b.Bindings`); if `b` has a `Next` that is already
memoized for `name`, `ReturnBinding` returns the memoized value and `diff` of `Next` with
`ok = true` when that result is ok, and otherwise falls back to the own binding of `name`
(`ok = true`, `diff = false`), or to `ok = false` when `name` is unbound in `b.Bindings`. -/
theorem ReturnBinding_sequential (heap : Heap) (fuel : Nat) (bl : Ptr) (b : Block)
    (ctx : ReturnBindingCTX) (name : String) (retBlock : List Instr) (gen : Generator)
    (hb : heap[bl]? = some b) (hseq : b.Branch = none ∨ b.Next = b.Branch)
    (hmiss : ctx.Get b name = none) :
    (b.Next = none →
      ∃ st, ReturnBinding heap (fuel + 1) bl ctx name retBlock gen = Outcome.done st ∧
        st.diff = false ∧ st.retBlock = retBlock ∧
        (∀ x, b.Bindings.Get name = some x → st.v = x) ∧
        (b.Bindings.Get name = none → st.v = default ∧ st.ok = false)) ∧
    (∀ (n : Ptr) (nb : Block) (r : ReturnBindingValue),
      b.Next = some n → heap[n]? = some nb → ctx.Get nb name = some r →
      ∃ st, ReturnBinding heap (fuel + 2) bl ctx name retBlock gen = Outcome.done st ∧
        st.retBlock = retBlock ∧
        (r.ok = true → st.v = r.v ∧ st.diff = r.diff ∧ st.ok = true) ∧
        (r.ok = false → ∀ x, b.Bindings.Get name = some x →
          st.v = x ∧ st.diff = false ∧ st.ok = true) ∧
        (r.ok = false → b.Bindings.Get name = none →
          st.v = r.v ∧ st.diff = false ∧ st.ok = false)) := by
  constructor
  · intro hnext
    have hseq1 : b.Branch = none ∨ none = b.Branch := by
      rcases hseq with h | h
      · exact Or.inl h
      · exact Or.inr (hnext ▸ h)
    cases hbind : b.Bindings.Get name with
    | none =>
      refine ⟨{ stack := [], v := default, diff := false, ok := false,
                ctx := ctx.Set b name default false false, retBlock := retBlock,
                gen := gen }, ?_, ?_⟩
      · simp only [ReturnBinding, hb, hmiss, returnBindingLoop, List.isEmpty_cons,
          Bool.false_eq_true, if_false, returnBindingIter, hseq1, if_true, hnext, hbind,
          returnBindingSwitch]
        refine returnBindingLoop_of_empty _ _ _ _ ?_; rfl
      · simp
    | some x =>
      refine ⟨{ stack := [], v := x, diff := false, ok := false,
                ctx := ctx.Set b name x false true, retBlock := retBlock,
                gen := gen }, ?_, ?_⟩
      · simp only [ReturnBinding, hb, hmiss, returnBindingLoop, List.isEmpty_cons,
          Bool.false_eq_true, if_false, returnBindingIter, hseq1, if_true, hnext, hbind,
          returnBindingSwitch]
        refine returnBindingLoop_of_empty _ _ _ _ ?_; rfl
      · simp
  · intro n nb r hnext hn hget
    have hseq2 : b.Branch = none ∨ some n = b.Branch := by
      rcases hseq with h | h
      · exact Or.inl h
      · exact Or.inr (hnext ▸ h)
    by_cases hok : r.ok = true
    · refine ⟨{ stack := [], v := r.v, diff := r.diff, ok := true,
                ctx := ctx.Set b name r.v r.diff true, retBlock := retBlock,
                gen := gen }, ?_, ?_⟩
      · simp only [ReturnBinding, hb, hmiss, returnBindingLoop, List.isEmpty_cons,
          Bool.false_eq_true, if_false, returnBindingIter, hseq2, if_true, hnext, hn, hget,
          returnBindingSwitch, Option.some_bind, Option.bind_some, hok]
        refine returnBindingLoop_of_empty _ _ _ _ ?_; rfl
      · simp [hok]
    · have hok2 : r.ok = false := by simpa using hok
      cases hbind : b.Bindings.Get name with
      | none =>
        refine ⟨{ stack := [], v := r.v, diff := false, ok := false,
                  ctx := ctx.Set b name r.v false false, retBlock := retBlock,
                  gen := gen }, ?_, ?_⟩
        · simp only [ReturnBinding, hb, hmiss, returnBindingLoop, List.isEmpty_cons,
            Bool.false_eq_true, if_false, returnBindingIter, hseq2, if_true, hnext, hn, hget,
            returnBindingSwitch, Option.some_bind, Option.bind_some, hok2, hbind]
          refine returnBindingLoop_of_empty _ _ _ _ ?_; rfl
        · simp [hok2]
      | some x =>
        refine ⟨{ stack := [], v := x, diff := false, ok := true,
                  ctx := ctx.Set b name x false true, retBlock := retBlock,
                  gen := gen }, ?_, ?_⟩
        · simp only [ReturnBinding, hb, hmiss, returnBindingLoop, List.isEmpty_cons,
            Bool.false_eq_true, if_false, returnBindingIter, hseq2, if_true, hnext, hn, hget,
            returnBindingSwitch, Option.some_bind, Option.bind_some, hok2, hbind]
          refine returnBindingLoop_of_empty _ _ _ _ ?_; rfl
        · simp [hok2]


/-- Witness of the amended C8 on block 0 of `fallbackHeap`, with block 1 memoized. -/
theorem ReturnBinding_sequential_witness :
    fallbackHeap[0]? = some fallbackEntry ∧
    (fallbackEntry.Branch = none ∨ fallbackEntry.Next = fallbackEntry.Branch) ∧
    nextMemoized.Get fallbackEntry "x" = none ∧
    ((fallbackEntry.Next = none →
      ∃ st, ReturnBinding fallbackHeap (0 + 1) 0 nextMemoized "x" [] { nextID := 10 } =
          Outcome.done st ∧
        st.diff = false ∧ st.retBlock = [] ∧
        (∀ x, fallbackEntry.Bindings.Get "x" = some x → st.v = x) ∧
        (fallbackEntry.Bindings.Get "x" = none → st.v = default ∧ st.ok = false)) ∧
    (∀ (n : Ptr) (nb : Block) (r : ReturnBindingValue),
      fallbackEntry.Next = some n → fallbackHeap[n]? = some nb →
      nextMemoized.Get nb "x" = some r →
      ∃ st, ReturnBinding fallbackHeap (0 + 2) 0 nextMemoized "x" [] { nextID := 10 } =
          Outcome.done st ∧
        st.retBlock = [] ∧
        (r.ok = true → st.v = r.v ∧ st.diff = r.diff ∧ st.ok = true) ∧
        (r.ok = false → ∀ x, fallbackEntry.Bindings.Get "x" = some x →
          st.v = x ∧ st.diff = false ∧ st.ok = true) ∧
        (r.ok = false → fallbackEntry.Bindings.Get "x" = none →
          st.v = r.v ∧ st.diff = false ∧ st.ok = false))) :=
  ⟨by decide, by decide, by decide,
    ReturnBinding_sequential fallbackHeap 0 0 fallbackEntry nextMemoized "x" []
      { nextID := 10 } (by decide) (by decide) (by decide)⟩

/-- The part of C9 that holds: `ReturnBinding` never appends a `Phi` whose true and false
operands have the same id.  Every iteration of its loop leaves `retBlock` unchanged or appends one `Phi` whose
operands have different ids, so every run that returns has only appended such `Phi`s; and
when the loop runs the phase-3 frame of a branch whose value `vTrue` has the same id as the
ok value memoized for the next side, it appends nothing and returns `vTrue` with
`ok = true`. -/
theorem ReturnBinding_no_phi_of_equal_values (heap : Heap) (name : String) :
    (∀ st st1 : RBState, returnBindingIter heap name st = some st1 →
      AppendsAtMostPhi st.retBlock st1.retBlock) ∧
    (∀ (fuel : Nat) (bl : Ptr) (ctx : ReturnBindingCTX) (retBlock : List Instr)
        (gen : Generator) (st : RBState),
      ReturnBinding heap fuel bl ctx name retBlock gen = Outcome.done st →
      ∃ added, st.retBlock = retBlock ++ added ∧ ∀ i ∈ added, IsPhiOfDistinct i) ∧
    (∀ (fuel : Nat) (st : RBState) (s : BindingStackState) (p q : Ptr) (b parent : Block)
        (r : ReturnBindingValue),
      st.stack = [s] → s.r = 3 → s.block = some p → heap[p]? = some b →
      s.parent = some q → heap[q]? = some parent →
      st.ctx.Get b name = some r → r.ok = true → s.vTrue.ID = r.v.ID →
      returnBindingLoop heap name (fuel + 1) st =
        Outcome.done { st with stack := [], v := s.vTrue, diff := s.diffTrue || r.diff,
                               ok := true,
                               ctx := st.ctx.Set parent name s.vTrue
                                 (s.diffTrue || r.diff) true }) :=
  ⟨returnBindingIter_retBlock heap name,
   fun fuel bl ctx retBlock gen st h => ReturnBinding_retBlock heap fuel bl ctx name retBlock gen st h,
   fun fuel st s p q b parent r h1 h2 h3 h4 h5 h6 h7 h8 h9 =>
     returnBindingLoop_phase3_equal heap name fuel st s p q b parent r h1 h2 h3 h4 h5 h6 h7 h8 h9⟩

/-- An instance of these facts: a run on `phiHeap` that appends one `Phi` with operands `a`
and `b`, and a phase-3 frame whose `vTrue` equals the memoized value of the next side. -/
theorem ReturnBinding_no_phi_of_equal_values_witness :
    ReturnBinding phiHeap 8 0 phiCtx "x" [] { nextID := 10 } = Outcome.done phiResult ∧
    (∃ added, phiResult.retBlock = [] ++ added ∧ ∀ i ∈ added, IsPhiOfDistinct i) ∧
    returnBindingLoop phiHeap "x" (0 + 1) equalState =
      Outcome.done
        { stack := [], v := exVal "b" 3, diff := false, ok := true,
          ctx := { cache := ({ BlockID := 1, Name := "x" },
                             { v := exVal "b" 3, diff := false, ok := true }) :: phiCtx.cache },
          retBlock := [], gen := { nextID := 10 } } :=
  ⟨by decide,
   (ReturnBinding_no_phi_of_equal_values phiHeap "x").2.1 8 0 phiCtx [] { nextID := 10 }
     phiResult (by decide),
   (ReturnBinding_no_phi_of_equal_values phiHeap "x").2.2 0 equalState
     { block := some 2, r := 3, vTrue := exVal "b" 3, diffTrue := false, parent := some 1 }
     2 1 (exBlock 2 "join" [0, 1] none none [] [("x", exVal "b" 3)])
     (exBlock 1 "then" [0] (some 2) none [] [("x", exVal "a" 2)])
     { v := exVal "b" 3, diff := false, ok := true }
     (by decide) (by decide) (by decide) (by decide) (by decide) (by decide) (by decide)
     (by decide) (by decide)⟩

/-- Claim C9 (defect in the code): in the control-flow graph of
`if c { x = a } else { x = a }` whose two sides are terminal blocks, each side resolves `x`
to the same value `a`, yet `ReturnBinding` on the branching block panics instead of returning
`a` with `ok = true`: from a new context the phase-2 frame of the branch side has no parent
and `ok` is still false after the shadowed lookup, so the `switch` dereferences the nil
parent; with both sides memoized phase 2 pushes the nil `Next` of the branch block and the
next iteration dereferences it. -/
theorem ReturnBinding_equal_sides_panics :
    (∃ st, ReturnBinding sameForkHeap 8 1 NewReturnBindingCTX "x" [] { nextID := 10 }
        = Outcome.done st ∧ st.v = exVal "a" 2 ∧ st.retBlock = []) ∧
    (∃ st, ReturnBinding sameForkHeap 8 2 NewReturnBindingCTX "x" [] { nextID := 10 }
        = Outcome.done st ∧ st.v = exVal "a" 2 ∧ st.retBlock = []) ∧
    (∀ fuel, 2 ≤ fuel →
      ReturnBinding sameForkHeap fuel 0 NewReturnBindingCTX "x" [] { nextID := 10 }
        = Outcome.panic) ∧
    (∀ fuel, 3 ≤ fuel →
      ReturnBinding sameForkHeap fuel 0 sameForkCtx "x" [] { nextID := 10 }
        = Outcome.panic) := by
  refine ⟨⟨_, rfl, rfl, rfl⟩, ⟨_, rfl, rfl, rfl⟩, ?_, ?_⟩
  · intro fuel hf
    obtain ⟨k, rfl⟩ : ∃ k, fuel = k + 2 := ⟨fuel - 2, by omega⟩
    rfl
  · intro fuel hf
    obtain ⟨k, rfl⟩ : ∃ k, fuel = k + 3 := ⟨fuel - 3, by omega⟩
    rfl

/-- Claim C10 (defect in the code): on the if/else diamond, `Block.Serialize` emits the step of
the join block before the step of the else block, although the else block is in the `From`
list of the join block and is reachable from the start block.  The loop that tests the
predecessors of a block only `continue`s its own iteration, so a block is emitted as soon as
it is popped. -/
theorem Serialize_diamond_join_before_else :
    (∃ join ∈ diamondHeap[3]?, 2 ∈ join.From) ∧
    Serialize diamondHeap 8 0 = Outcome.done
      [ { Label := "entry",
          Instr := exInstr Operand.Sub [exVal "p" 4, exVal "q" 5] (some (exVal "c" 1)),
          Live := [] },
        { Label := "then",
          Instr := exInstr Operand.Mov [exVal "p" 4] (some (exVal "a" 2)), Live := [] },
        { Label := "join", Instr := exInstr Operand.Ret [exVal "r" 6] none, Live := [] },
        { Label := "else",
          Instr := exInstr Operand.Mov [exVal "q" 5] (some (exVal "b" 3)), Live := [] } ] := by
  decide

/-! ## Lemmas about `AssignLevels` -/

theorem wireLevel_append (done : List Gate) (g : Gate) (w : Wire) :
    wireLevel (done ++ [g]) w =
      if g.Output = w then (g.Level + 1) % 2 ^ 32 else wireLevel done w := by
  simp [wireLevel, List.foldl_append]

theorem levelCount_append (done : List Gate) (g : Gate) (l : Nat) :
    levelCount (done ++ [g]) l = levelCount done l + if g.Level = l then 1 else 0 := by
  simp [levelCount, List.countP_append, List.countP_cons]

theorem maxWireLevel_append (done : List Gate) (g : Gate) :
    maxWireLevel (done ++ [g]) =
      if (g.Level + 1) % 2 ^ 32 > maxWireLevel done then (g.Level + 1) % 2 ^ 32
      else maxWireLevel done := by
  simp [maxWireLevel, List.foldl_append]

theorem inputLevel_eq {st : LevelState} (hinv : LevelInv st) {g : Gate} {level : Nat}
    (h : inputLevel st.levels g = some level) : level = inputsLevel st.gates g := by
  unfold inputLevel at h
  unfold inputsLevel
  cases h0 : st.levels[g.Input0.val]? with
  | none => simp [h0] at h
  | some l0 =>
    have hl0 : g.Input0.val < st.levels.length := (List.getElem?_eq_some.mp h0).1
    have e0 := hinv.levels g.Input0 hl0
    rw [h0] at e0
    have e0 : l0 = wireLevel st.gates g.Input0 := Option.some.inj e0
    rw [h0] at h
    simp only at h
    by_cases hop : g.Op ≠ Operation.INV
    · rw [if_pos hop] at h
      rw [if_pos hop]
      cases h1 : st.levels[g.Input1.val]? with
      | none => simp [h1] at h
      | some l1 =>
        have hl1 : g.Input1.val < st.levels.length := (List.getElem?_eq_some.mp h1).1
        have e1 := hinv.levels g.Input1 hl1
        rw [h1] at e1
        have e1 : l1 = wireLevel st.gates g.Input1 := Option.some.inj e1
        rw [h1] at h
        simp only at h
        rw [← e0, ← e1]
        by_cases hgt : l1 > l0
        · rw [if_pos hgt] at h
          have := Option.some.inj h
          rw [← this]
          exact (Nat.max_eq_right (Nat.le_of_lt hgt)).symm
        · rw [if_neg hgt] at h
          have := Option.some.inj h
          rw [← this]
          exact (Nat.max_eq_left (Nat.le_of_not_lt hgt)).symm
    · rw [if_neg hop] at h
      rw [if_neg hop]
      have := Option.some.inj h
      rw [← this, e0]

theorem assignLevel_spec {st st1 : LevelState} (hinv : LevelInv st) {g : Gate}
    (h : assignLevel st g = some st1) :
    LevelInv st1 ∧ st1.gates = st.gates ++ [{ g with Level := inputsLevel st.gates g }] ∧
      st1.levels.length = st.levels.length := by
  unfold assignLevel at h
  cases hl : inputLevel st.levels g with
  | none => simp [hl] at h
  | some level =>
    have hlev := inputLevel_eq hinv hl
    rw [hl] at h
    simp only at h
    cases hc : st.countByLevel[level]? with
    | none => simp [hc] at h
    | some count =>
      rw [hc] at h
      simp only at h
      have hlt : level < st.countByLevel.length := (List.getElem?_eq_some.mp hc).1
      have hcount : count = levelCount st.gates level % 2 ^ 32 := by
        have := hinv.counts level hlt
        rw [hc] at this
        exact Option.some.inj this
      by_cases ho : g.Output.val < st.levels.length
      · rw [if_pos ho] at h
        have h := Option.some.inj h
        subst h
        subst hlev
        refine ⟨⟨?_, ?_, ?_, ?_, ?_⟩, rfl, by simp⟩
        · intro w hw
          simp only [List.length_set] at hw
          simp only [wireLevel_append]
          by_cases hw2 : g.Output = w
          · subst hw2
            simp [List.getElem?_set, ho]
          · have hne : ¬ g.Output.val = w.val := fun e => hw2 (Fin.ext e)
            simp only [List.getElem?_set, hne, if_false, hw2]
            exact hinv.levels w hw
        · simp [hinv.length]
        · intro l hl2
          simp only [List.length_set] at hl2
          simp only [levelCount_append]
          by_cases hl3 : inputsLevel st.gates g = l
          · subst hl3
            simp only [List.getElem?_set, if_true, hl2, hcount]
            simp [Nat.add_mod]
          · simp only [List.getElem?_set, hl3, if_false, Nat.add_zero]
            exact hinv.counts l hl2
        · intro g2 hg2
          simp only [List.length_set]
          rcases List.mem_append.mp hg2 with h1 | h1
          · exact hinv.bound g2 h1
          · simp only [List.mem_singleton] at h1
            subst h1
            exact hlt
        · simp only [maxWireLevel_append, hinv.max]
      · rw [if_neg ho] at h
        exact Option.noConfusion h

theorem assignLoop_spec (gates : List Gate) {st st1 : LevelState} (hinv : LevelInv st)
    (h : assignLoop gates st = some st1) :
    LevelInv st1 ∧ st1.levels.length = st.levels.length ∧
      ∃ new, st1.gates = st.gates ++ new ∧ new.length = gates.length ∧
        ∀ (k : Nat) (g g2 : Gate), gates[k]? = some g → new[k]? = some g2 →
          g2 = { g with Level := inputsLevel (st.gates ++ new.take k) g } := by
  induction gates generalizing st with
  | nil =>
    simp only [assignLoop, Option.some.injEq] at h
    subst h
    exact ⟨hinv, rfl, [], by simp, rfl, by simp⟩
  | cons g rest ih =>
    simp only [assignLoop] at h
    cases hs : assignLevel st g with
    | none => simp [hs] at h
    | some st2 =>
      rw [hs] at h
      simp only at h
      obtain ⟨hinv2, hg2, hlen2⟩ := assignLevel_spec hinv hs
      obtain ⟨hinv1, hlen1, new, hnew, hnl, hk⟩ := ih hinv2 h
      refine ⟨hinv1, by rw [hlen1, hlen2], { g with Level := inputsLevel st.gates g } :: new,
        by rw [hnew, hg2]; simp, by simp [hnl], ?_⟩
      intro k a a2 ha ha2
      cases k with
      | zero =>
        simp only [List.getElem?_cons_zero, Option.some.injEq] at ha ha2
        subst ha; subst ha2
        simp
      | succ k =>
        simp only [List.getElem?_cons_succ] at ha ha2
        have := hk k a a2 ha ha2
        rw [this, hg2]
        simp

theorem levelInv_init (n : Nat) :
    LevelInv { gates := [], levels := List.replicate n 0,
               countByLevel := List.replicate n 0, max := 0 } := by
  refine ⟨?_, by simp, ?_, by simp, rfl⟩
  · intro w hw
    simp only [List.length_replicate] at hw
    simp [wireLevel, List.getElem?_replicate, hw]
  · intro l hl
    simp only [List.length_replicate] at hl
    simp [levelCount, List.getElem?_replicate, hl]

theorem AssignLevels_spec {c c2 : Circuit} (h : AssignLevels c = some c2) :
    ∃ st : LevelState, LevelInv st ∧ st.levels.length = c.NumWires.toNat ∧
      c2.Gates = st.gates ∧ c2.Gates.length = c.Gates.length ∧
      (∀ (k : Nat) (g g2 : Gate), c.Gates[k]? = some g → c2.Gates[k]? = some g2 →
        g2 = { g with Level := inputsLevel (c2.Gates.take k) g }) ∧
      c2.Stats Operation.NumLevels = st.max % 2 ^ 64 ∧
      c2.Stats Operation.MaxWidth = maxCount st.countByLevel % 2 ^ 64 := by
  unfold AssignLevels at h
  by_cases hn : c.NumWires < 0
  · simp [hn] at h
  · rw [if_neg hn] at h
    cases hl : assignLoop c.Gates
        { gates := [], levels := List.replicate c.NumWires.toNat 0,
          countByLevel := List.replicate c.NumWires.toNat 0, max := 0 } with
    | none => simp [hl] at h
    | some st =>
      rw [hl] at h
      have h := Option.some.inj h
      subst h
      obtain ⟨hinv, hlen, new, hnew, hnl, hk⟩ :=
        assignLoop_spec c.Gates (levelInv_init c.NumWires.toNat) hl
      simp only [List.nil_append] at hnew hk
      refine ⟨st, hinv, by simpa using hlen, rfl, by simp [hnew, hnl], ?_, ?_, ?_⟩
      · intro k g g2 hg hg2
        simp only [hnew] at hg2 ⊢
        exact hk k g g2 hg hg2
      · simp [Function.update]
      · simp [Function.update]

theorem wireFold_of_not_written (l : List Gate) (w : Wire) (acc : Nat)
    (h : ∀ g ∈ l, g.Output ≠ w) :
    l.foldl (fun level g => if g.Output = w then (g.Level + 1) % 2 ^ 32 else level) acc = acc := by
  induction l generalizing acc with
  | nil => rfl
  | cons g rest ih =>
    simp only [List.foldl_cons, h g (List.mem_cons_self _ _), if_false]
    exact ih acc (fun g2 hg2 => h g2 (List.mem_cons_of_mem _ hg2))

theorem wireLevel_of_not_written (done : List Gate) (w : Wire)
    (h : ∀ g ∈ done, g.Output ≠ w) : wireLevel done w = 0 :=
  wireFold_of_not_written done w 0 h

theorem wireLevel_of_last (l1 l2 : List Gate) (g : Gate) (w : Wire) (hg : g.Output = w)
    (h : ∀ g2 ∈ l2, g2.Output ≠ w) :
    wireLevel (l1 ++ g :: l2) w = (g.Level + 1) % 2 ^ 32 := by
  simp only [wireLevel, List.foldl_append, List.foldl_cons, hg, if_true]
  exact wireFold_of_not_written l2 w _ h

theorem wireLevel_cases (done : List Gate) (w : Wire) :
    ((∀ g ∈ done, g.Output ≠ w) ∧ wireLevel done w = 0) ∨
    ∃ (j : Nat) (g : Gate), done[j]? = some g ∧ g.Output = w ∧
      wireLevel done w = (g.Level + 1) % 2 ^ 32 := by
  induction done using List.reverseRecOn with
  | nil => exact Or.inl ⟨by simp, rfl⟩
  | append_singleton l g ih =>
    rw [wireLevel_append]
    by_cases hg : g.Output = w
    · refine Or.inr ⟨l.length, g, by simp, hg, by simp [hg]⟩
    · rcases ih with ⟨h1, h2⟩ | ⟨j, g1, h1, h2, h3⟩
      · refine Or.inl ⟨?_, by simp [hg, h2]⟩
        intro g2 hg2
        rcases List.mem_append.mp hg2 with h | h
        · exact h1 g2 h
        · simp only [List.mem_singleton] at h
          rw [h]; exact hg
      · refine Or.inr ⟨j, g1, ?_, h2, by simp [hg, h3]⟩
        have hj : j < l.length := (List.getElem?_eq_some.mp h1).1
        rw [List.getElem?_append_left hj]
        exact h1

theorem gates_of_AssignLevels {c c2 : Circuit} (h : AssignLevels c = some c2) {k : Nat}
    {g2 : Gate} (hg2 : c2.Gates[k]? = some g2) :
    ∃ g, c.Gates[k]? = some g ∧ g2 = { g with Level := inputsLevel (c2.Gates.take k) g } := by
  obtain ⟨st, -, -, -, hlen, hk, -, -⟩ := AssignLevels_spec h
  have hk2 : k < c.Gates.length := by
    rw [← hlen]; exact (List.getElem?_eq_some.mp hg2).1
  exact ⟨c.Gates[k], List.getElem?_eq_getElem hk2,
    hk k _ g2 (List.getElem?_eq_getElem hk2) hg2⟩

theorem outputs_of_AssignLevels {c c2 : Circuit} (h : AssignLevels c = some c2) {g2 : Gate}
    (hg2 : g2 ∈ c2.Gates) : ∃ g ∈ c.Gates, g.Output = g2.Output := by
  obtain ⟨k, hk⟩ := List.mem_iff_getElem?.mp hg2
  obtain ⟨g, hg, e⟩ := gates_of_AssignLevels h hk
  exact ⟨g, List.mem_iff_getElem?.mpr ⟨k, hg⟩, by rw [e]⟩

theorem wireLevel_le (done : List Gate) (w : Wire)
    (h : ∀ (i : Nat) (g : Gate), done[i]? = some g → g.Level ≤ i) :
    wireLevel done w ≤ done.length := by
  rcases wireLevel_cases done w with ⟨-, h2⟩ | ⟨j, g, h1, -, h3⟩
  · rw [h2]; exact Nat.zero_le _
  · rw [h3]
    have hj : j < done.length := (List.getElem?_eq_some.mp h1).1
    have := h j g h1
    have := Nat.mod_le (g.Level + 1) (2 ^ 32)
    omega

theorem inputsLevel_le (done : List Gate) (g : Gate)
    (h : ∀ (i : Nat) (g : Gate), done[i]? = some g → g.Level ≤ i) :
    inputsLevel done g ≤ done.length := by
  unfold inputsLevel
  split
  · exact Nat.max_le.mpr ⟨wireLevel_le done _ h, wireLevel_le done _ h⟩
  · exact wireLevel_le done _ h

theorem level_le_index {c c2 : Circuit} (h : AssignLevels c = some c2) :
    ∀ (k : Nat) (g2 : Gate), c2.Gates[k]? = some g2 → g2.Level ≤ k := by
  intro k
  induction k using Nat.strong_induction_on with
  | _ k ih =>
    intro g2 hg2
    obtain ⟨g, -, e⟩ := gates_of_AssignLevels h hg2
    have hk : k < c2.Gates.length := (List.getElem?_eq_some.mp hg2).1
    have hb := inputsLevel_le (c2.Gates.take k) g (by
      intro i a ha
      have hi : i < (c2.Gates.take k).length := (List.getElem?_eq_some.mp ha).1
      have hik : i < k := by
        rw [List.length_take] at hi
        omega
      rw [List.getElem?_take_of_lt hik] at ha
      exact ih i hik a ha)
    rw [List.length_take] at hb
    have : g2.Level = inputsLevel (c2.Gates.take k) g := by rw [e]
    omega

theorem SingleWriter.eq_of {gates : List Gate} (hsw : SingleWriter gates) {i j : Nat}
    {a b : Gate} (hi : gates[i]? = some a) (hj : gates[j]? = some b)
    (ho : a.Output = b.Output) : i = j := by
  obtain ⟨hil, hie⟩ := List.getElem?_eq_some.mp hi
  obtain ⟨hjl, hje⟩ := List.getElem?_eq_some.mp hj
  have := hsw ⟨i, hil⟩ ⟨j, hjl⟩ (by simp [Fin.getElem_fin, hie, hje, ho])
  simpa using this

theorem length_lt_of_topological {gates : List Gate} (hsw : SingleWriter gates)
    (htop : Topological gates) : gates.length < 2 ^ 32 := by
  cases hg : gates with
  | nil => simp
  | cons g0 rest =>
    rw [← hg]
    have hpos : 0 < gates.length := by rw [hg]; simp
    let f : Fin gates.length → Wire := fun i => gates[i].Output
    have hinj : Function.Injective f := fun i j hij => hsw i j hij
    have hnot : gates[(⟨0, hpos⟩ : Fin gates.length)].Input0 ∉ Set.range f := by
      rintro ⟨j, hj⟩
      rcases (htop ⟨0, hpos⟩).1 with h1 | ⟨j2, hj2, -⟩
      · exact h1 j hj
      · exact absurd hj2 (by simp [Fin.lt_def])
    have := Fintype.card_lt_of_injective_of_not_mem f hinj hnot
    rw [Fintype.card_fin, Fintype.card_fin] at this
    exact this

theorem producer_earlier {gates : List Gate} (hsw : SingleWriter gates)
    (htop : Topological gates) {j k : Nat} {gj gk : Gate} (hj : gates[j]? = some gj)
    (hk : gates[k]? = some gk) (hin : gj.Output ∈ gk.levelInputs) : j < k := by
  obtain ⟨hkl, hke⟩ := List.getElem?_eq_some.mp hk
  obtain ⟨hjl, hje⟩ := List.getElem?_eq_some.mp hj
  have hready : InputReady gates ⟨k, hkl⟩ gj.Output := by
    have ht := htop ⟨k, hkl⟩
    simp only [Fin.getElem_fin, hke] at ht
    unfold Gate.levelInputs at hin
    by_cases hop : gk.Op ≠ Operation.INV
    · rw [if_pos hop] at hin
      simp only [List.mem_cons, List.mem_singleton, List.not_mem_nil, or_false] at hin
      rcases hin with e | e
      · rw [e]; exact ht.1
      · rw [e]; exact ht.2 hop
    · rw [if_neg hop] at hin
      simp only [List.mem_singleton] at hin
      rw [hin]; exact ht.1
  rcases hready with h1 | ⟨j2, hj2, ho⟩
  · exact absurd (by simp [Fin.getElem_fin, hje]) (h1 ⟨j, hjl⟩)
  · have := hsw j2 ⟨j, hjl⟩ (by
      simp only [Fin.getElem_fin] at ho ⊢
      rw [hje]; exact ho)
    rw [this] at hj2
    simpa [Fin.lt_def] using hj2

theorem wireLevel_le_inputsLevel (done : List Gate) (g : Gate) {w : Wire}
    (hw : w ∈ g.levelInputs) : wireLevel done w ≤ inputsLevel done g := by
  unfold Gate.levelInputs at hw
  unfold inputsLevel
  by_cases hop : g.Op ≠ Operation.INV
  · rw [if_pos hop] at hw ⊢
    simp only [List.mem_cons, List.mem_singleton, List.not_mem_nil, or_false] at hw
    rcases hw with e | e
    · rw [e]; exact Nat.le_max_left _ _
    · rw [e]; exact Nat.le_max_right _ _
  · rw [if_neg hop] at hw ⊢
    simp only [List.mem_singleton] at hw
    rw [hw]

theorem levelInputs_of_AssignLevels {g : Gate} (l : Nat) :
    ({ g with Level := l } : Gate).levelInputs = g.levelInputs := rfl

theorem wireLevel_of_writer {c c2 : Circuit} (h : AssignLevels c = some c2)
    (hsw : SingleWriter c.Gates) {j k : Nat} {gj : Gate} (hj : c2.Gates[j]? = some gj)
    (hjk : j < k) :
    wireLevel (c2.Gates.take k) gj.Output = (gj.Level + 1) % 2 ^ 32 := by
  rcases wireLevel_cases (c2.Gates.take k) gj.Output with ⟨h1, -⟩ | ⟨i, g, h1, h2, h3⟩
  · exfalso
    refine h1 gj (List.mem_iff_getElem?.mpr ⟨j, ?_⟩) rfl
    rw [List.getElem?_take_of_lt hjk]; exact hj
  · have hi : i < (c2.Gates.take k).length := (List.getElem?_eq_some.mp h1).1
    have hik : i < k := by
      rw [List.length_take] at hi
      omega
    rw [List.getElem?_take_of_lt hik] at h1
    obtain ⟨a, ha, ea⟩ := gates_of_AssignLevels h h1
    obtain ⟨b, hb, eb⟩ := gates_of_AssignLevels h hj
    have hij : i = j := hsw.eq_of ha hb (by
      have e1 : g.Output = a.Output := by rw [ea]
      have e2 : gj.Output = b.Output := by rw [eb]
      rw [← e1, ← e2]; exact h2)
    subst hij
    rw [hj] at h1
    cases h1
    exact h3

theorem level_succ_le (c c2 : Circuit) (h : AssignLevels c = some c2)
    (hsw : SingleWriter c.Gates) (htop : Topological c.Gates) :
    ∀ (j k : Nat) (gj gk : Gate), c2.Gates[j]? = some gj → c2.Gates[k]? = some gk →
      gj.Output ∈ gk.levelInputs → gj.Level + 1 ≤ gk.Level := by
  intro j k gj gk hj hk hin
  obtain ⟨a, ha, ea⟩ := gates_of_AssignLevels h hj
  obtain ⟨b, hb, eb⟩ := gates_of_AssignLevels h hk
  have hin2 : a.Output ∈ b.levelInputs := by
    have e1 : gj.Output = a.Output := by rw [ea]
    have e2 : gk.levelInputs = b.levelInputs := by rw [eb]; rfl
    rw [← e1, ← e2]; exact hin
  have hjk : j < k := producer_earlier hsw htop ha hb hin2
  have hw := wireLevel_of_writer h hsw hj hjk
  have hlev : gk.Level = inputsLevel (c2.Gates.take k) b := by rw [eb]
  have hge := wireLevel_le_inputsLevel (c2.Gates.take k) b hin2
  have e1 : gj.Output = a.Output := by rw [ea]
  rw [← e1, hw] at hge
  have hjl := level_le_index h j gj hj
  have hlen := length_lt_of_topological hsw htop
  have hkl : k < c.Gates.length := (List.getElem?_eq_some.mp hb).1
  rw [Nat.mod_eq_of_lt (by omega)] at hge
  omega

theorem chain_level_bound (R : Nat → Nat → Prop) (L : Nat → Nat)
    (hR : ∀ j k, R j k → L j + 1 ≤ L k) :
    ∀ (p : List Nat) (n : Nat), List.Chain' R p → (∀ a ∈ p.head?, n ≤ L a) →
      ∀ z ∈ p.getLast?, n + p.length ≤ L z + 1 := by
  intro p
  induction p with
  | nil => intro n _ _ z hz; simp at hz
  | cons a rest ih =>
    intro n hc hh z hz
    cases rest with
    | nil =>
      simp only [List.getLast?_singleton, Option.mem_def, Option.some.injEq] at hz
      subst hz
      have := hh a (by simp)
      simp only [List.length_singleton]
      omega
    | cons b r =>
      rw [List.chain'_cons] at hc
      have hab := hR a b hc.1
      have ha := hh a (by simp)
      have := ih (n + 1) hc.2 (by
        intro x hx
        simp only [List.head?_cons, Option.mem_def, Option.some.injEq] at hx
        subst hx
        omega) z (by
        rw [List.getLast?_cons_cons] at hz
        exact hz)
      simp only [List.length_cons] at this ⊢
      omega

theorem maxWireLevel_ge (gates : List Gate) :
    ∀ g ∈ gates, (g.Level + 1) % 2 ^ 32 ≤ maxWireLevel gates := by
  induction gates using List.reverseRecOn with
  | nil => intro g hg; simp at hg
  | append_singleton l a ih =>
    intro g hg
    rw [maxWireLevel_append]
    rcases List.mem_append.mp hg with h | h
    · have := ih g h
      split <;> omega
    · simp only [List.mem_singleton] at h
      subst h
      split <;> omega

theorem maxWireLevel_attained (gates : List Gate) (hne : gates ≠ []) :
    ∃ g ∈ gates, maxWireLevel gates = (g.Level + 1) % 2 ^ 32 := by
  induction gates using List.reverseRecOn with
  | nil => exact absurd rfl hne
  | append_singleton l a ih =>
    rw [maxWireLevel_append]
    by_cases hl : l = []
    · subst hl
      refine ⟨a, by simp, ?_⟩
      have : maxWireLevel [] = 0 := rfl
      rw [this]
      split <;> omega
    · obtain ⟨g, hg, e⟩ := ih hl
      by_cases hgt : (a.Level + 1) % 2 ^ 32 > maxWireLevel l
      · exact ⟨a, by simp, by rw [if_pos hgt]⟩
      · exact ⟨g, by simp [hg], by rw [if_neg hgt]; exact e⟩

theorem feeds_level {c c2 : Circuit} (h : AssignLevels c = some c2)
    (hsw : SingleWriter c.Gates) (htop : Topological c.Gates) (j k : Nat)
    (hf : Feeds c.Gates j k) : levelAt c2.Gates j + 1 ≤ levelAt c2.Gates k := by
  obtain ⟨a, b, ha, hb, hin⟩ := hf
  obtain ⟨st, -, -, -, hlen, hk, -, -⟩ := AssignLevels_spec h
  have hjl : j < c2.Gates.length := by rw [hlen]; exact (List.getElem?_eq_some.mp ha).1
  have hkl : k < c2.Gates.length := by rw [hlen]; exact (List.getElem?_eq_some.mp hb).1
  have hj2 := List.getElem?_eq_getElem hjl
  have hk2 := List.getElem?_eq_getElem hkl
  have ea := hk j a _ ha hj2
  have eb := hk k b _ hb hk2
  have := level_succ_le c c2 h hsw htop j k _ _ hj2 hk2 (by
    rw [ea, eb]; exact hin)
  unfold levelAt
  rw [hj2, hk2]
  exact this

theorem IsPath.valid {gates : List Gate} {p : List Nat} (hp : IsPath gates p) :
    ∀ k ∈ p, k < gates.length := by
  obtain ⟨hc, g, hg, -⟩ := hp
  cases p with
  | nil => intro k hk; simp at hk
  | cons a rest =>
    simp only [List.head?_cons, Option.some_bind] at hg
    have ha : a < gates.length := (List.getElem?_eq_some.mp hg).1
    clear hg
    induction rest generalizing a with
    | nil =>
      intro k hk
      simp only [List.mem_singleton] at hk
      rw [hk]; exact ha
    | cons b r ih =>
      intro k hk
      rw [List.chain'_cons] at hc
      rcases List.mem_cons.mp hk with e | e
      · rw [e]; exact ha
      · obtain ⟨-, gb, -, hb, -⟩ := hc.1
        exact ih b hc.2 (List.getElem?_eq_some.mp hb).1 k e

theorem numLevels_eq {c c2 : Circuit} (h : AssignLevels c = some c2) :
    c2.Stats Operation.NumLevels = maxWireLevel c2.Gates := by
  obtain ⟨st, hinv, -, hg, hlen, -, hn, -⟩ := AssignLevels_spec h
  rw [hn, hinv.max, ← hg]
  apply Nat.mod_eq_of_lt
  by_cases hne : c2.Gates = []
  · rw [hne]; exact Nat.lt_of_lt_of_le (by decide : maxWireLevel [] < 1) (by norm_num)
  · obtain ⟨g, -, e⟩ := maxWireLevel_attained c2.Gates hne
    rw [e]
    exact Nat.lt_of_lt_of_le (Nat.mod_lt _ (by norm_num)) (by norm_num)

theorem wireLevel_succ {c c2 : Circuit} (h : AssignLevels c = some c2)
    (hsw : SingleWriter c.Gates) (htop : Topological c.Gates) {k : Nat} {g : Gate}
    (hg : c2.Gates[k]? = some g) : (g.Level + 1) % 2 ^ 32 = g.Level + 1 := by
  have h1 := level_le_index h k g hg
  have h2 := length_lt_of_topological hsw htop
  obtain ⟨st, -, -, -, hlen, -, -, -⟩ := AssignLevels_spec h
  have h3 : k < c2.Gates.length := (List.getElem?_eq_some.mp hg).1
  exact Nat.mod_eq_of_lt (by omega)

theorem exists_input_at_level (done : List Gate) (g : Gate) :
    ∃ w ∈ g.levelInputs, wireLevel done w = inputsLevel done g := by
  unfold inputsLevel Gate.levelInputs
  by_cases hop : g.Op ≠ Operation.INV
  · rw [if_pos hop, if_pos hop]
    rcases Nat.le_total (wireLevel done g.Input0) (wireLevel done g.Input1) with hle | hle
    · exact ⟨g.Input1, by simp, (Nat.max_eq_right hle).symm⟩
    · exact ⟨g.Input0, by simp, (Nat.max_eq_left hle).symm⟩
  · rw [if_neg hop, if_neg hop]
    exact ⟨g.Input0, by simp, rfl⟩

theorem inputReady_of_mem {gates : List Gate} (htop : Topological gates) {k : Nat}
    {g : Gate} (hk : gates[k]? = some g) {w : Wire} (hw : w ∈ g.levelInputs) :
    (∀ g2 ∈ gates, g2.Output ≠ w) ∨
      ∃ (j : Nat) (gj : Gate), j < k ∧ gates[j]? = some gj ∧ gj.Output = w := by
  obtain ⟨hkl, hke⟩ := List.getElem?_eq_some.mp hk
  have hready : InputReady gates ⟨k, hkl⟩ w := by
    have ht := htop ⟨k, hkl⟩
    simp only [Fin.getElem_fin, hke] at ht
    unfold Gate.levelInputs at hw
    by_cases hop : g.Op ≠ Operation.INV
    · rw [if_pos hop] at hw
      simp only [List.mem_cons, List.mem_singleton, List.not_mem_nil, or_false] at hw
      rcases hw with e | e
      · rw [e]; exact ht.1
      · rw [e]; exact ht.2 hop
    · rw [if_neg hop] at hw
      simp only [List.mem_singleton] at hw
      rw [hw]; exact ht.1
  rcases hready with h1 | ⟨j, hj, ho⟩
  · left
    intro g2 hg2
    obtain ⟨i, hi, e⟩ := List.mem_iff_getElem.mp hg2
    rw [← e]
    exact h1 ⟨i, hi⟩
  · right
    exact ⟨j.val, gates[j.val], by simpa [Fin.lt_def] using hj,
      List.getElem?_eq_getElem j.isLt, by simpa [Fin.getElem_fin] using ho⟩

theorem path_to_gate {c c2 : Circuit} (h : AssignLevels c = some c2)
    (hsw : SingleWriter c.Gates) (htop : Topological c.Gates) :
    ∀ (k : Nat) (g2 : Gate), c2.Gates[k]? = some g2 →
      ∃ p, IsPath c.Gates p ∧ p.getLast? = some k ∧ p.length = g2.Level + 1 := by
  intro k
  induction k using Nat.strong_induction_on with
  | _ k ih =>
    intro g2 hg2
    obtain ⟨g, hg, e⟩ := gates_of_AssignLevels h hg2
    have hlev : g2.Level = inputsLevel (c2.Gates.take k) g := by rw [e]
    obtain ⟨w, hw, hwl⟩ := exists_input_at_level (c2.Gates.take k) g
    rcases wireLevel_cases (c2.Gates.take k) w with ⟨h1, h2⟩ | ⟨j, gj, h1, h2, h3⟩
    · rcases inputReady_of_mem htop hg hw with hfree | ⟨j, a, hjk, ha, hao⟩
      · refine ⟨[k], ⟨List.chain'_singleton k, g, by simpa using hg, w, hw, hfree⟩,
          rfl, ?_⟩
        rw [hlev, ← hwl, h2]; rfl
      · exfalso
        obtain ⟨st, -, -, -, hlen, hk, -, -⟩ := AssignLevels_spec h
        have hjl : j < c2.Gates.length := by
          rw [hlen]; exact (List.getElem?_eq_some.mp ha).1
        have hj2 := List.getElem?_eq_getElem hjl
        have ea := hk j a _ ha hj2
        refine h1 c2.Gates[j] (List.mem_iff_getElem?.mpr ⟨j, ?_⟩) ?_
        · rw [List.getElem?_take_of_lt hjk]; exact hj2
        · rw [ea]; exact hao
    · have hj : j < (c2.Gates.take k).length := (List.getElem?_eq_some.mp h1).1
      have hjk : j < k := by
        rw [List.length_take] at hj
        omega
      rw [List.getElem?_take_of_lt hjk] at h1
      obtain ⟨p, hp, hlast, hplen⟩ := ih j hjk gj h1
      obtain ⟨a, ha, ea⟩ := gates_of_AssignLevels h h1
      have hne : p ≠ [] := by
        intro hnil
        rw [hnil] at hplen
        simp at hplen
      refine ⟨p ++ [k], ⟨?_, ?_⟩, by simp, ?_⟩
      · refine List.Chain'.append hp.1 (List.chain'_singleton k) ?_
        intro x hx y hy
        rw [hlast] at hx
        simp only [Option.mem_def, Option.some.injEq] at hx
        simp only [List.head?_cons, Option.mem_def, Option.some.injEq] at hy
        subst hx; subst hy
        exact ⟨a, g, ha, hg, by
          have : gj.Output = a.Output := by rw [ea]
          rw [← this, h2]; exact hw⟩
      · obtain ⟨-, g0, hg0, hrest⟩ := hp
        refine ⟨g0, ?_, hrest⟩
        cases p with
        | nil => exact absurd rfl hne
        | cons x xs => simpa using hg0
      · rw [List.length_append, hplen, hlev, ← hwl, h3, wireLevel_succ h hsw htop h1]
        rfl

theorem maxFold_ge (l : List Nat) : ∀ acc : Nat,
    acc ≤ l.foldl (fun maxWidth count => if count > maxWidth then count else maxWidth) acc ∧
    ∀ x ∈ l, x ≤ l.foldl (fun maxWidth count => if count > maxWidth then count else maxWidth)
      acc := by
  induction l with
  | nil => intro acc; exact ⟨Nat.le_refl _, by simp⟩
  | cons a rest ih =>
    intro acc
    simp only [List.foldl_cons]
    obtain ⟨h1, h2⟩ := ih (if a > acc then a else acc)
    have h3 : acc ≤ (if a > acc then a else acc) ∧ a ≤ (if a > acc then a else acc) := by
      split <;> omega
    refine ⟨Nat.le_trans h3.1 h1, ?_⟩
    intro x hx
    rcases List.mem_cons.mp hx with e | e
    · rw [e]; exact Nat.le_trans h3.2 h1
    · exact h2 x e

theorem maxCount_ge (l : List Nat) : ∀ x ∈ l, x ≤ maxCount l := (maxFold_ge l 0).2

theorem maxFold_mem (l : List Nat) : ∀ acc : Nat,
    l.foldl (fun maxWidth count => if count > maxWidth then count else maxWidth) acc = acc ∨
    l.foldl (fun maxWidth count => if count > maxWidth then count else maxWidth) acc ∈ l := by
  induction l with
  | nil => intro acc; exact Or.inl rfl
  | cons a rest ih =>
    intro acc
    simp only [List.foldl_cons]
    rcases ih (if a > acc then a else acc) with h | h
    · rw [h]
      by_cases hgt : a > acc
      · rw [if_pos hgt]; exact Or.inr (List.mem_cons_self _ _)
      · rw [if_neg hgt]; exact Or.inl rfl
    · exact Or.inr (List.mem_cons_of_mem _ h)

theorem maxCount_mem (l : List Nat) : maxCount l = 0 ∨ maxCount l ∈ l := maxFold_mem l 0

theorem levelCount_le_length (gates : List Gate) (l : Nat) :
    levelCount gates l ≤ gates.length := List.countP_le_length _

theorem levelCount_pos {gates : List Gate} {g : Gate} (hg : g ∈ gates) :
    1 ≤ levelCount gates g.Level := by
  unfold levelCount
  exact List.countP_pos_iff.mpr ⟨g, hg, by simp⟩

theorem levelCount_eq_zero {gates : List Gate} {l : Nat} (h : ∀ g ∈ gates, g.Level ≠ l) :
    levelCount gates l = 0 := by
  unfold levelCount
  rw [List.countP_eq_zero]
  intro g hg
  simpa using h g hg

theorem sum_levelCount (gates : List Gate) (n : Nat) (h : ∀ g ∈ gates, g.Level < n) :
    ∑ l ∈ Finset.range n, levelCount gates l = gates.length := by
  induction gates with
  | nil => simp [levelCount]
  | cons a rest ih =>
    have hrest := ih (fun g hg => h g (List.mem_cons_of_mem _ hg))
    have ha := h a (List.mem_cons_self _ _)
    have hstep : ∀ l, levelCount (a :: rest) l
        = levelCount rest l + (if a.Level = l then 1 else 0) := by
      intro l
      unfold levelCount
      rw [List.countP_cons]
      simp
    simp only [hstep, Finset.sum_add_distrib, hrest, List.length_cons]
    rw [Finset.sum_ite_eq, if_pos (Finset.mem_range.mpr ha)]

theorem maxWidth_spec {c c2 : Circuit} (h : AssignLevels c = some c2)
    (hlen : c.Gates.length < 2 ^ 32) :
    ∃ cb : List Nat, cb.length = c.NumWires.toNat ∧
      c2.Stats Operation.MaxWidth = maxCount cb ∧
      (∀ l, l < cb.length → cb[l]? = some (levelCount c2.Gates l)) ∧
      (∀ g ∈ c2.Gates, g.Level < cb.length) := by
  obtain ⟨st, hinv, hl, hg, hlen2, -, -, hw⟩ := AssignLevels_spec h
  have hcounts : ∀ l, l < st.countByLevel.length →
      st.countByLevel[l]? = some (levelCount c2.Gates l) := by
    intro l hlt
    rw [hinv.counts l hlt, hg]
    congr 1
    apply Nat.mod_eq_of_lt
    have h1 := levelCount_le_length st.gates l
    have h2 : st.gates.length < 2 ^ 32 := by rw [← hg, hlen2]; exact hlen
    omega
  refine ⟨st.countByLevel, by rw [hinv.length, hl], ?_, hcounts, by rw [hg]; exact hinv.bound⟩
  rw [hw]
  apply Nat.mod_eq_of_lt
  rcases maxCount_mem st.countByLevel with e | e
  · rw [e]; norm_num
  · obtain ⟨l, hlt, e2⟩ := List.mem_iff_getElem.mp e
    have h1 := hcounts l hlt
    rw [List.getElem?_eq_getElem hlt, e2] at h1
    have h2 : maxCount st.countByLevel = levelCount c2.Gates l := Option.some.inj h1
    have h3 := levelCount_le_length c2.Gates l
    rw [hlen2] at h3
    have h64 : (2 : Nat) ^ 32 < 2 ^ 64 := by norm_num
    omega

theorem assignLevel_wide (st : LevelState) (a c0 : Nat)
    (hl : st.levels = [0, 0, a]) (hc : st.countByLevel = [c0, 0, 0]) :
    assignLevel st wideGate = some
      { gates := st.gates ++ [wideGate], levels := [0, 0, 1],
        countByLevel := [(c0 + 1) % 2 ^ 32, 0, 0],
        max := if 1 > st.max then 1 else st.max } := by
  unfold assignLevel inputLevel
  rw [hl, hc]
  simp [wideGate, exGate]

theorem assignLoop_wide (n : Nat) : ∀ (st : LevelState) (a c0 : Nat), c0 < 2 ^ 32 →
    st.levels = [0, 0, a] → st.countByLevel = [c0, 0, 0] →
    ∃ st1, assignLoop (List.replicate n wideGate) st = some st1 ∧
      st1.countByLevel = [(c0 + n) % 2 ^ 32, 0, 0] ∧
      st1.gates = st.gates ++ List.replicate n wideGate := by
  induction n with
  | zero =>
    intro st a c0 hlt hl hc
    refine ⟨st, rfl, ?_, by simp⟩
    rw [hc, Nat.add_zero, Nat.mod_eq_of_lt hlt]
  | succ n ih =>
    intro st a c0 hlt hl hc
    obtain ⟨st1, h1, h2, h3⟩ := ih
      { gates := st.gates ++ [wideGate], levels := [0, 0, 1],
        countByLevel := [(c0 + 1) % 2 ^ 32, 0, 0],
        max := if 1 > st.max then 1 else st.max } 1 ((c0 + 1) % 2 ^ 32)
      (Nat.mod_lt _ (by norm_num)) rfl rfl
    refine ⟨st1, ?_, ?_, ?_⟩
    · rw [List.replicate_succ]
      show (match assignLevel st wideGate with
        | none => none
        | some st1 => assignLoop (List.replicate n wideGate) st1) = some st1
      rw [assignLevel_wide st a c0 hl hc]
      exact h1
    · rw [h2]
      congr 1
      omega
    · rw [h3, List.replicate_succ]
      simp

theorem levelCount_replicate (n : Nat) : levelCount (List.replicate n wideGate) 0 = n := by
  induction n with
  | zero => rfl
  | succ n ih =>
    unfold levelCount at ih ⊢
    rw [List.replicate_succ, List.countP_cons, ih]
    rfl

theorem AssignLevels_of_loop (c : Circuit) (st : LevelState) (hn : ¬ c.NumWires < 0)
    (h : assignLoop c.Gates
      { gates := [], levels := List.replicate c.NumWires.toNat 0,
        countByLevel := List.replicate c.NumWires.toNat 0, max := 0 } = some st) :
    AssignLevels c = some { c with
      Gates := st.gates,
      Stats := Function.update (Function.update c.Stats Operation.NumLevels
        (st.max % 2 ^ 64)) Operation.MaxWidth (maxCount st.countByLevel % 2 ^ 64) } := by
  unfold AssignLevels
  rw [if_neg hn, h]

theorem wideCircuit_gates : wideCircuit.Gates = List.replicate (2 ^ 32) wideGate := rfl

theorem wideCircuit_wires : wideCircuit.NumWires = 3 := rfl

/-! ## The claims about circuits -/

/-- Claim C11, counterexample: the single gate of `andCircuit` reads only circuit input wires,
the circuit is in topological order, and `AssignLevels` gives the gate `Level` 0, not 1. -/
theorem AssignLevels_input_gate_level_zero :
    Topological andCircuit.Gates ∧
    (∀ w ∈ wideGate.levelInputs, ∀ g ∈ andCircuit.Gates, g.Output ≠ w) ∧
    (AssignLevels andCircuit).map (fun c => c.Gates.map Gate.Level) = some [0] := by
  refine ⟨by decide, ?_, by decide⟩
  intro w hw g hg
  simp only [andCircuit, List.mem_singleton] at hg
  subst hg
  simp only [Gate.levelInputs, wideGate, exGate] at hw ⊢
  intro e
  subst e
  revert hw
  decide

/-- Claim C11, amended: when `AssignLevels` completes on `c` with result `c2`, the gates of
`c2` are those of `c` with only `Level` changed, and the `Level` of every gate is the maximum
of the levels of its input wires (only `Input0` for `INV`), where a wire that no earlier gate
writes has level 0 and a wire written by an earlier gate has the `Level` of that gate plus one
(as a `uint32`).  A gate all of whose input wires are written by no gate has `Level` 0. -/
theorem AssignLevels_gate_level (c c2 : Circuit) (h : AssignLevels c = some c2) :
    c2.Gates.length = c.Gates.length ∧
    ∀ (k : Nat) (g g2 : Gate), c.Gates[k]? = some g → c2.Gates[k]? = some g2 →
      g2 = { g with Level := g2.Level } ∧
      g2.Level = inputsLevel (c2.Gates.take k) g ∧
      ((∀ w ∈ g.levelInputs, ∀ g1 ∈ c.Gates, g1.Output ≠ w) → g2.Level = 0) := by
  obtain ⟨st, -, -, -, hlen, hk, -, -⟩ := AssignLevels_spec h
  refine ⟨hlen, ?_⟩
  intro k g g2 hg hg2
  have e := hk k g g2 hg hg2
  have hlev : g2.Level = inputsLevel (c2.Gates.take k) g := by rw [e]
  refine ⟨by rw [e], hlev, ?_⟩
  intro hin
  have hz : ∀ w ∈ g.levelInputs, wireLevel (c2.Gates.take k) w = 0 := by
    intro w hw
    apply wireLevel_of_not_written
    intro g1 hg1 ho
    obtain ⟨g0, hg0, e0⟩ := outputs_of_AssignLevels h (List.mem_of_mem_take hg1)
    exact hin w hw g0 hg0 (by rw [e0, ho])
  rw [hlev]
  unfold inputsLevel
  unfold Gate.levelInputs at hz
  by_cases hop : g.Op ≠ Operation.INV
  · rw [if_pos hop] at hz ⊢
    rw [hz g.Input0 (by simp), hz g.Input1 (by simp)]
    rfl
  · rw [if_neg hop] at hz ⊢
    exact hz g.Input0 (by simp)

/-- Witness of the amended C11 on `chainCircuit`. -/
theorem AssignLevels_gate_level_witness :
    AssignLevels chainCircuit = some chainLeveled ∧
    (chainLeveled.Gates.length = chainCircuit.Gates.length ∧
    ∀ (k : Nat) (g g2 : Gate), chainCircuit.Gates[k]? = some g →
      chainLeveled.Gates[k]? = some g2 →
      g2 = { g with Level := g2.Level } ∧
      g2.Level = inputsLevel (chainLeveled.Gates.take k) g ∧
      ((∀ w ∈ g.levelInputs, ∀ g1 ∈ chainCircuit.Gates, g1.Output ≠ w) → g2.Level = 0)) :=
  ⟨rfl, AssignLevels_gate_level chainCircuit chainLeveled rfl⟩

/-- Claim C12: when `AssignLevels` completes on a circuit in which every wire is written by at
most one gate and every gate input is written by no gate or by an earlier gate, the `Level` of
a gate is at least the `Level` plus one of every gate that produces one of its inputs. -/
theorem AssignLevels_level_monotone (c c2 : Circuit) (h : AssignLevels c = some c2)
    (hsw : SingleWriter c.Gates) (htop : Topological c.Gates) :
    ∀ (j k : Nat) (gj gk : Gate), c2.Gates[j]? = some gj → c2.Gates[k]? = some gk →
      gj.Output ∈ gk.levelInputs → gj.Level + 1 ≤ gk.Level :=
  level_succ_le c c2 h hsw htop

/-- Witness of C12 on `chainCircuit`. -/
theorem AssignLevels_level_monotone_witness :
    AssignLevels chainCircuit = some chainLeveled ∧ SingleWriter chainCircuit.Gates ∧
    Topological chainCircuit.Gates ∧
    ∀ (j k : Nat) (gj gk : Gate), chainLeveled.Gates[j]? = some gj →
      chainLeveled.Gates[k]? = some gk →
      gj.Output ∈ gk.levelInputs → gj.Level + 1 ≤ gk.Level :=
  ⟨rfl, by decide, by decide,
    AssignLevels_level_monotone chainCircuit chainLeveled rfl (by decide) (by decide)⟩

/-- Claim C13: when `AssignLevels` completes on a topologically ordered circuit in which every
wire is written by at most one gate, `Stats[NumLevels]` is the circuit depth: it is 0 for a
circuit with no gates, no path from a circuit input wire has more gates than `Stats[NumLevels]`,
and a circuit with a gate has a path from a circuit input wire with exactly that many gates. -/
theorem AssignLevels_numLevels_depth (c c2 : Circuit) (h : AssignLevels c = some c2)
    (hsw : SingleWriter c.Gates) (htop : Topological c.Gates) :
    (c.Gates = [] → c2.Stats Operation.NumLevels = 0) ∧
    (∀ p, IsPath c.Gates p → p.length ≤ c2.Stats Operation.NumLevels) ∧
    (c.Gates ≠ [] → ∃ p, IsPath c.Gates p ∧ p.length = c2.Stats Operation.NumLevels) := by
  have hnum := numLevels_eq h
  obtain ⟨st, -, -, -, hlen, -, -, -⟩ := AssignLevels_spec h
  refine ⟨?_, ?_, ?_⟩
  · intro hnil
    have : c2.Gates = [] := by
      apply List.eq_nil_of_length_eq_zero
      rw [hlen, hnil]; rfl
    rw [hnum, this]; rfl
  · intro p hp
    cases hl : p.getLast? with
    | none =>
      have : p = [] := List.getLast?_eq_none_iff.mp hl
      rw [this]; exact Nat.zero_le _
    | some z =>
      have hb := chain_level_bound (Feeds c.Gates) (levelAt c2.Gates)
        (feeds_level h hsw htop) p 0 hp.1 (fun _ _ => Nat.zero_le _) z hl
      have hz : z < c2.Gates.length := by
        rw [hlen]
        exact hp.valid z (List.mem_of_getLast?_eq_some hl)
      have hz2 := List.getElem?_eq_getElem hz
      have hge := maxWireLevel_ge c2.Gates c2.Gates[z] (List.getElem_mem hz)
      rw [wireLevel_succ h hsw htop hz2] at hge
      have : levelAt c2.Gates z = c2.Gates[z].Level := by
        unfold levelAt; rw [hz2]
      rw [hnum]
      omega
  · intro hne
    have hne2 : c2.Gates ≠ [] := by
      intro hnil
      apply hne
      apply List.eq_nil_of_length_eq_zero
      rw [← hlen, hnil]; rfl
    obtain ⟨g, hg, e⟩ := maxWireLevel_attained c2.Gates hne2
    obtain ⟨k, hk⟩ := List.mem_iff_getElem?.mp hg
    obtain ⟨p, hp, -, hplen⟩ := path_to_gate h hsw htop k g hk
    exact ⟨p, hp, by rw [hplen, hnum, e, wireLevel_succ h hsw htop hk]⟩

/-- Witness of C13 on `chainCircuit`, whose depth is 3. -/
theorem AssignLevels_numLevels_depth_witness :
    AssignLevels chainCircuit = some chainLeveled ∧ SingleWriter chainCircuit.Gates ∧
    Topological chainCircuit.Gates ∧ chainLeveled.Stats Operation.NumLevels = 3 ∧
    ((chainCircuit.Gates = [] → chainLeveled.Stats Operation.NumLevels = 0) ∧
    (∀ p, IsPath chainCircuit.Gates p → p.length ≤ chainLeveled.Stats Operation.NumLevels) ∧
    (chainCircuit.Gates ≠ [] →
      ∃ p, IsPath chainCircuit.Gates p ∧ p.length = chainLeveled.Stats Operation.NumLevels)) :=
  ⟨rfl, by decide, by decide, rfl,
    AssignLevels_numLevels_depth chainCircuit chainLeveled rfl (by decide) (by decide)⟩

/-- Claim C14, counterexample: `AssignLevels` completes on the `2 ^ 32` gates of `wideCircuit`
and gives every gate `Level` 0, so `2 ^ 32` gates have that level, yet `Stats[MaxWidth]` is 0:
the counter `countByLevel[0]` is a `uint32` and has wrapped around. -/
theorem AssignLevels_maxWidth_wraps :
    ∃ c2, AssignLevels wideCircuit = some c2 ∧ c2.Gates.length = 2 ^ 32 ∧
      levelCount c2.Gates 0 = 2 ^ 32 ∧ c2.Stats Operation.MaxWidth = 0 := by
  obtain ⟨st1, h1, h2, h3⟩ := assignLoop_wide (2 ^ 32)
    { gates := [], levels := [0, 0, 0], countByLevel := [0, 0, 0], max := 0 } 0 0
    (by norm_num) rfl rfl
  have hrun := AssignLevels_of_loop wideCircuit st1
    (by rw [wideCircuit_wires]; decide)
    (by
      rw [wideCircuit_gates, wideCircuit_wires]
      exact h1)
  refine ⟨_, hrun, ?_, ?_, ?_⟩
  · show st1.gates.length = 2 ^ 32
    rw [h3, List.nil_append, List.length_replicate]
  · show levelCount st1.gates 0 = 2 ^ 32
    rw [h3, List.nil_append, levelCount_replicate]
  · show Function.update (Function.update wideCircuit.Stats Operation.NumLevels
        (st1.max % 2 ^ 64)) Operation.MaxWidth (maxCount st1.countByLevel % 2 ^ 64)
      Operation.MaxWidth = 0
    rw [Function.update_same, h2]
    have : (0 + 2 ^ 32) % 2 ^ 32 = 0 := by norm_num
    rw [this]
    rfl

/-- Claim C14, amended: when `AssignLevels` completes on a circuit with fewer than `2 ^ 32`
gates, `Stats[MaxWidth]` is the maximum over all levels of the number of gates with that
`Level`: no level has more gates, some level has exactly that many when there is a gate, and
it is 0 when there is none.  The per-level counts sum to the number of gates, so
`1 ≤ MaxWidth ≤ len(Gates)` when there is a gate. -/
theorem AssignLevels_maxWidth (c c2 : Circuit) (h : AssignLevels c = some c2)
    (hlen : c.Gates.length < 2 ^ 32) :
    (∀ l, levelCount c2.Gates l ≤ c2.Stats Operation.MaxWidth) ∧
    (c.Gates ≠ [] → ∃ l, levelCount c2.Gates l = c2.Stats Operation.MaxWidth) ∧
    (c.Gates = [] → c2.Stats Operation.MaxWidth = 0) ∧
    (∑ l ∈ Finset.range c.NumWires.toNat, levelCount c2.Gates l = c.Gates.length) ∧
    (c.Gates ≠ [] →
      1 ≤ c2.Stats Operation.MaxWidth ∧ c2.Stats Operation.MaxWidth ≤ c.Gates.length) := by
  obtain ⟨cb, hcl, hw, hcounts, hbound⟩ := maxWidth_spec h hlen
  obtain ⟨st, -, -, -, hlen2, -, -, -⟩ := AssignLevels_spec h
  have hall : ∀ l, levelCount c2.Gates l ≤ c2.Stats Operation.MaxWidth := by
    intro l
    rw [hw]
    by_cases hlt : l < cb.length
    · apply maxCount_ge
      have h1 := hcounts l hlt
      rw [List.getElem?_eq_getElem hlt] at h1
      rw [← Option.some.inj h1]
      exact List.getElem_mem hlt
    · rw [levelCount_eq_zero]
      · exact Nat.zero_le _
      · intro g hg e
        have := hbound g hg
        omega
  have hne2 : c.Gates ≠ [] → c2.Gates ≠ [] := by
    intro hne hnil
    apply hne
    apply List.eq_nil_of_length_eq_zero
    rw [← hlen2, hnil]; rfl
  have hattain : c.Gates ≠ [] → ∃ l, levelCount c2.Gates l = c2.Stats Operation.MaxWidth := by
    intro hne
    obtain ⟨g, hg⟩ := List.exists_mem_of_ne_nil _ (hne2 hne)
    rcases maxCount_mem cb with e | e
    · exfalso
      have h1 := levelCount_pos hg
      have h2 := hall g.Level
      rw [hw, e] at h2
      omega
    · obtain ⟨l, hlt, e2⟩ := List.mem_iff_getElem.mp e
      have h1 := hcounts l hlt
      rw [List.getElem?_eq_getElem hlt, e2] at h1
      exact ⟨l, by rw [hw]; exact (Option.some.inj h1).symm⟩
  refine ⟨hall, hattain, ?_, ?_, ?_⟩
  · intro hnil
    have hnil2 : c2.Gates = [] := by
      apply List.eq_nil_of_length_eq_zero
      rw [hlen2, hnil]; rfl
    rw [hw]
    rcases maxCount_mem cb with e | e
    · exact e
    · obtain ⟨l, hlt, e2⟩ := List.mem_iff_getElem.mp e
      have h1 := hcounts l hlt
      rw [List.getElem?_eq_getElem hlt, e2, hnil2] at h1
      exact Option.some.inj h1
  · rw [← hlen2, ← hcl]
    exact sum_levelCount c2.Gates cb.length hbound
  · intro hne
    obtain ⟨l, hl⟩ := hattain hne
    obtain ⟨g, hg⟩ := List.exists_mem_of_ne_nil _ (hne2 hne)
    refine ⟨Nat.le_trans (levelCount_pos hg) (hall g.Level), ?_⟩
    rw [← hl, ← hlen2]
    exact levelCount_le_length _ _

/-- Witness of the amended C14 on `chainCircuit`, where two gates have `Level` 0. -/
theorem AssignLevels_maxWidth_witness :
    AssignLevels chainCircuit = some chainLeveled ∧ chainCircuit.Gates.length < 2 ^ 32 ∧
    chainLeveled.Stats Operation.MaxWidth = 2 ∧
    ((∀ l, levelCount chainLeveled.Gates l ≤ chainLeveled.Stats Operation.MaxWidth) ∧
    (chainCircuit.Gates ≠ [] →
      ∃ l, levelCount chainLeveled.Gates l = chainLeveled.Stats Operation.MaxWidth) ∧
    (chainCircuit.Gates = [] → chainLeveled.Stats Operation.MaxWidth = 0) ∧
    (∑ l ∈ Finset.range chainCircuit.NumWires.toNat, levelCount chainLeveled.Gates l
      = chainCircuit.Gates.length) ∧
    (chainCircuit.Gates ≠ [] →
      1 ≤ chainLeveled.Stats Operation.MaxWidth ∧
      chainLeveled.Stats Operation.MaxWidth ≤ chainCircuit.Gates.length)) :=
  ⟨rfl, by decide, rfl, AssignLevels_maxWidth chainCircuit chainLeveled rfl (by decide)⟩

/-- Claim C15: for every `Stats` value, `Cost` is `2*AND + 2*INV + 3*OR` modulo `2 ^ 64`; it
does not change when the `XOR` or `XNOR` counter or the `Count`, `NumLevels` or `MaxWidth` slot
is overwritten, and `Circuit.Cost` is the `Cost` of the `Stats` of the circuit. -/
theorem Stats_Cost_formula (stats : Stats) (v : Nat) (c : Circuit) :
    stats.Cost
      = (2 * stats Operation.AND + 2 * stats Operation.INV + 3 * stats Operation.OR) % 2 ^ 64 ∧
    Stats.Cost (Function.update stats Operation.XOR v) = stats.Cost ∧
    Stats.Cost (Function.update stats Operation.XNOR v) = stats.Cost ∧
    Stats.Cost (Function.update stats Operation.Count v) = stats.Cost ∧
    Stats.Cost (Function.update stats Operation.NumLevels v) = stats.Cost ∧
    Stats.Cost (Function.update stats Operation.MaxWidth v) = stats.Cost ∧
    c.Cost = c.Stats.Cost := by
  refine ⟨?_, ?_, ?_, ?_, ?_, ?_, rfl⟩
  · unfold Stats.Cost
    omega
  all_goals
    unfold Stats.Cost
    simp [Function.update]

/-- Claim C16: for every `Stats` value, `Count` is `XOR + XNOR + AND + OR + INV` modulo
`2 ^ 64`, and it does not change when the `Count`, `NumLevels` or `MaxWidth` slot is
overwritten. -/
theorem Stats_Count_formula (stats : Stats) (v : Nat) :
    stats.Count
      = (stats Operation.XOR + stats Operation.XNOR + stats Operation.AND + stats Operation.OR
          + stats Operation.INV) % 2 ^ 64 ∧
    Stats.Count (Function.update stats Operation.Count v) = stats.Count ∧
    Stats.Count (Function.update stats Operation.NumLevels v) = stats.Count ∧
    Stats.Count (Function.update stats Operation.MaxWidth v) = stats.Count := by
  refine ⟨?_, ?_, ?_, ?_⟩
  · unfold Stats.Count gateOps
    simp only [List.foldl_cons, List.foldl_nil]
    omega
  all_goals
    unfold Stats.Count gateOps
    simp [Function.update]

/-! ## Lemmas about `SetNext` and `SetBranch` -/

theorem set_eq_self {h : Heap} {b : Ptr} {bb : Block} (hb : h[b]? = some bb) :
    h.set b bb = h := by
  apply List.ext_getElem?
  intro n
  rw [List.getElem?_set]
  by_cases e : b = n
  · subst e
    rw [if_pos rfl, if_pos (List.getElem?_eq_some.mp hb).1, hb]
  · rw [if_neg e]

theorem idOf_set {h : Heap} {b : Ptr} {bb : Block} (bb2 : Block) (hb : h[b]? = some bb)
    (hid : bb2.ID = bb.ID) (p : Ptr) : idOf (h.set b bb2) p = idOf h p := by
  unfold idOf
  rw [List.getElem?_set]
  by_cases e : b = p
  · subst e
    rw [if_pos rfl, if_pos (List.getElem?_eq_some.mp hb).1, hb]
    simp [hid]
  · rw [if_neg e]

theorem fromContains_congr {h1 h : Heap} (hid : ∀ p, idOf h1 p = idOf h p) (id : Nat)
    (l : List Ptr) : fromContains h1 id l = fromContains h id l := by
  induction l with
  | nil => rfl
  | cons f rest ih =>
    have hf := hid f
    unfold idOf at hf
    unfold fromContains
    cases e1 : h1[f]? with
    | none =>
      cases e : h[f]? with
      | none => rfl
      | some fb => rw [e1, e] at hf; simp at hf
    | some fb1 =>
      cases e : h[f]? with
      | none => rw [e1, e] at hf; simp at hf
      | some fb =>
        rw [e1, e] at hf
        simp only [Option.map_some', Option.some.injEq] at hf
        simp only [hf, ih]

theorem fromContains_eq (h : Heap) (id : Nat) (l : List Ptr) (hl : ∀ f ∈ l, f < h.length) :
    fromContains h id l = some (decide (id ∈ l.filterMap (idOf h))) := by
  induction l with
  | nil => simp [fromContains]
  | cons f rest ih =>
    have hf := hl f (List.mem_cons_self _ _)
    have ih2 := ih (fun x hx => hl x (List.mem_cons_of_mem _ hx))
    unfold fromContains
    have e : h[f]? = some h[f] := List.getElem?_eq_getElem hf
    rw [e]
    have e2 : idOf h f = some h[f].ID := by unfold idOf; rw [e]; rfl
    rw [List.filterMap_cons_some e2]
    by_cases hid : h[f].ID = id
    · simp [hid]
    · simp only [if_neg hid, ih2, List.mem_cons]
      congr 1
      have : ¬ id = h[f].ID := fun e3 => hid e3.symm
      simp [this]

theorem validHeap_set {h : Heap} (hv : ValidHeap h) (i : Ptr) (blk : Block)
    (hf : ∀ f ∈ blk.From, f < h.length) (hn : ∀ n ∈ blk.Next, n < h.length)
    (hbr : ∀ n ∈ blk.Branch, n < h.length) : ValidHeap (h.set i blk) := by
  intro x hx
  rw [List.length_set]
  rcases List.mem_or_eq_of_mem_set hx with h1 | h1
  · exact hv x h1
  · rw [h1]; exact ⟨hf, hn, hbr⟩

theorem fromIDs_eq (h : Heap) (x : Ptr) :
    fromIDs h x = ((fromOf h x).getD []).filterMap (idOf h) := by
  unfold fromIDs fromOf
  cases h[x]? <;> rfl

theorem fromIDs_congr {h2 h : Heap} (hid : ∀ p, idOf h2 p = idOf h p) {x : Ptr}
    (hfrom : fromOf h2 x = fromOf h x) : fromIDs h2 x = fromIDs h x := by
  rw [fromIDs_eq, fromIDs_eq, hfrom]
  congr 1
  funext p
  exact hid p

/-- The effect of `b.X = o; o.addFrom(b)` once the new block `bb2` of `b` is fixed. -/
theorem addFrom_link {h : Heap} {b o : Ptr} {bb ob : Block} (bb2 : Block) (hv : ValidHeap h)
    (hb : h[b]? = some bb) (ho : h[o]? = some ob) (hid : bb2.ID = bb.ID)
    (hfrom : bb2.From = bb.From) (hn : ∀ n ∈ bb2.Next, n < h.length)
    (hbr : ∀ n ∈ bb2.Branch, n < h.length) :
    ∃ h2, Block.addFrom (h.set b bb2) o b = some h2 ∧ ValidHeap h2 ∧
      (∀ p, idOf h2 p = idOf h p) ∧
      nextOf h2 b = some bb2.Next ∧ branchOf h2 b = some bb2.Branch ∧
      (∀ x, x ≠ o → fromOf h2 x = fromOf h x) ∧
      fromOf h2 o = some (if bb.ID ∈ fromIDs h o then ob.From else ob.From ++ [b]) := by
  have hbl : b < h.length := (List.getElem?_eq_some.mp hb).1
  have hol : o < h.length := (List.getElem?_eq_some.mp ho).1
  have hbv := hv bb (List.getElem?_mem hb)
  have hov := hv ob (List.getElem?_mem ho)
  have hv1 : ValidHeap (h.set b bb2) :=
    validHeap_set hv b bb2 (by rw [hfrom]; exact hbv.1) hn hbr
  have hid1 : ∀ p, idOf (h.set b bb2) p = idOf h p := idOf_set bb2 hb hid
  have hb1 : (h.set b bb2)[b]? = some bb2 := List.getElem?_set_self hbl
  obtain ⟨ob1, ho1, hob1f, hob1n⟩ : ∃ ob1, (h.set b bb2)[o]? = some ob1 ∧
      ob1.From = ob.From ∧ (o = b → ob1 = bb2) := by
    by_cases e : b = o
    · subst e
      rw [hb] at ho
      cases ho
      exact ⟨bb2, hb1, hfrom, fun _ => rfl⟩
    · refine ⟨ob, ?_, rfl, fun e2 => absurd e2.symm e⟩
      rw [List.getElem?_set_ne e]; exact ho
  have hfo : fromIDs h o = ob.From.filterMap (idOf h) := by
    unfold fromIDs; rw [ho]
  have hfrom1 : ∀ x, fromOf (h.set b bb2) x = fromOf h x := by
    intro x
    unfold fromOf
    by_cases e : b = x
    · subst e
      rw [hb1, hb]; simp [hfrom]
    · rw [List.getElem?_set_ne e]
  have hcont : fromContains (h.set b bb2) bb2.ID ob1.From
      = some (decide (bb.ID ∈ fromIDs h o)) := by
    rw [fromContains_congr hid1, hob1f, hid, fromContains_eq h bb.ID ob.From hov.1, hfo]
  unfold Block.addFrom
  simp only [ho1, hb1, hcont]
  by_cases hmem : bb.ID ∈ fromIDs h o
  · refine ⟨h.set b bb2, by simp [hmem], hv1, hid1, ?_, ?_, fun x _ => hfrom1 x, ?_⟩
    · unfold nextOf; rw [hb1]; rfl
    · unfold branchOf; rw [hb1]; rfl
    · rw [hfrom1, if_pos hmem]
      unfold fromOf; rw [ho]; rfl
  · have hol1 : o < (h.set b bb2).length := by rw [List.length_set]; exact hol
    refine ⟨(h.set b bb2).set o { ob1 with From := ob1.From ++ [b] }, by simp [hmem], ?_, ?_,
      ?_, ?_, ?_, ?_⟩
    · apply validHeap_set hv1
      · intro f hf
        rw [List.length_set]
        rcases List.mem_append.mp hf with h1 | h1
        · rw [hob1f] at h1; exact hov.1 f h1
        · simp only [List.mem_singleton] at h1
          rw [h1]; exact hbl
      · exact (hv1 ob1 (List.getElem?_mem ho1)).2.1
      · exact (hv1 ob1 (List.getElem?_mem ho1)).2.2
    · intro p
      rw [idOf_set { ob1 with From := ob1.From ++ [b] } ho1 rfl, hid1]
    · unfold nextOf
      by_cases e : o = b
      · have := hob1n e
        subst e
        rw [List.getElem?_set_self hol1, this]; rfl
      · rw [List.getElem?_set_ne e, hb1]; rfl
    · unfold branchOf
      by_cases e : o = b
      · have := hob1n e
        subst e
        rw [List.getElem?_set_self hol1, this]; rfl
      · rw [List.getElem?_set_ne e, hb1]; rfl
    · intro x hx
      rw [← hfrom1 x]
      unfold fromOf
      rw [List.getElem?_set_ne (fun e => hx e.symm)]
    · rw [if_neg hmem]
      unfold fromOf
      rw [List.getElem?_set_self hol1]
      simp [hob1f]


theorem addFrom_of_mem {h : Heap} {b o : Ptr} {bb ob : Block} (hv : ValidHeap h)
    (hb : h[b]? = some bb) (ho : h[o]? = some ob) (hmem : bb.ID ∈ fromIDs h o) :
    Block.addFrom h o b = some h := by
  have hfo : fromIDs h o = ob.From.filterMap (idOf h) := by
    unfold fromIDs; rw [ho]
  unfold Block.addFrom
  simp only [ho, hb]
  rw [fromContains_eq h bb.ID ob.From (hv ob (List.getElem?_mem ho)).1, ← hfo]
  simp [hmem]

theorem SetNext_spec {h : Heap} {b o : Ptr} {bb ob : Block} (hv : ValidHeap h)
    (hb : h[b]? = some bb) (ho : h[o]? = some ob) :
    ((∃ n nb, bb.Next = some n ∧ h[n]? = some nb ∧ nb.ID ≠ ob.ID) ∧
      Block.SetNext h b o = EdgeResult.panic h) ∨
    ((¬ ∃ n nb, bb.Next = some n ∧ h[n]? = some nb ∧ nb.ID ≠ ob.ID) ∧
      ∃ h2, Block.SetNext h b o = EdgeResult.done h2 ∧ ValidHeap h2 ∧
        (∀ p, idOf h2 p = idOf h p) ∧
        nextOf h2 b = some (some o) ∧ branchOf h2 b = some bb.Branch ∧
        (∀ x, x ≠ o → fromOf h2 x = fromOf h x) ∧
        fromOf h2 o = some (if bb.ID ∈ fromIDs h o then ob.From else ob.From ++ [b])) := by
  have hbv := hv bb (List.getElem?_mem hb)
  have hol : o < h.length := (List.getElem?_eq_some.mp ho).1
  obtain ⟨h2, hadd, hrest⟩ := addFrom_link { bb with Next := some o } hv hb ho rfl rfl
    (by intro n hn; simp only [Option.mem_def, Option.some.injEq] at hn; rw [← hn]; exact hol)
    hbv.2.2
  have hlink : (match Block.addFrom (h.set b { bb with Next := some o }) o b with
      | some h2 => EdgeResult.done h2
      | none => EdgeResult.fault) = EdgeResult.done h2 := by rw [hadd]
  unfold Block.SetNext
  simp only [hb, ho]
  cases hnext : bb.Next with
  | none =>
    right
    refine ⟨?_, h2, hlink, hrest⟩
    rintro ⟨n, nb, h1, -⟩
    cases h1
  | some n =>
    have hnl : n < h.length := hbv.2.1 n (by rw [hnext]; rfl)
    have hn : h[n]? = some h[n] := List.getElem?_eq_getElem hnl
    simp only [hn]
    by_cases hid : h[n].ID = ob.ID
    · right
      refine ⟨?_, h2, by rw [if_neg (by simpa using hid)]; exact hlink, hrest⟩
      rintro ⟨n2, nb, h1, h3, h4⟩
      cases h1
      rw [hn] at h3
      cases h3
      exact h4 hid
    · left
      exact ⟨⟨n, h[n], rfl, hn, hid⟩, by rw [if_pos hid]⟩

theorem SetBranch_spec {h : Heap} {b o : Ptr} {bb ob : Block} (hv : ValidHeap h)
    (hb : h[b]? = some bb) (ho : h[o]? = some ob) :
    ((∃ n nb, bb.Branch = some n ∧ h[n]? = some nb ∧ nb.ID ≠ ob.ID) ∧
      Block.SetBranch h b o = EdgeResult.panic h) ∨
    ((¬ ∃ n nb, bb.Branch = some n ∧ h[n]? = some nb ∧ nb.ID ≠ ob.ID) ∧
      ∃ h2, Block.SetBranch h b o = EdgeResult.done h2 ∧ ValidHeap h2 ∧
        (∀ p, idOf h2 p = idOf h p) ∧
        nextOf h2 b = some bb.Next ∧ branchOf h2 b = some (some o) ∧
        (∀ x, x ≠ o → fromOf h2 x = fromOf h x) ∧
        fromOf h2 o = some (if bb.ID ∈ fromIDs h o then ob.From else ob.From ++ [b])) := by
  have hbv := hv bb (List.getElem?_mem hb)
  have hol : o < h.length := (List.getElem?_eq_some.mp ho).1
  obtain ⟨h2, hadd, hrest⟩ := addFrom_link { bb with Branch := some o } hv hb ho rfl rfl
    hbv.2.1
    (by intro n hn; simp only [Option.mem_def, Option.some.injEq] at hn; rw [← hn]; exact hol)
  have hlink : (match Block.addFrom (h.set b { bb with Branch := some o }) o b with
      | some h2 => EdgeResult.done h2
      | none => EdgeResult.fault) = EdgeResult.done h2 := by rw [hadd]
  unfold Block.SetBranch
  simp only [hb, ho]
  cases hnext : bb.Branch with
  | none =>
    right
    refine ⟨?_, h2, hlink, hrest⟩
    rintro ⟨n, nb, h1, -⟩
    cases h1
  | some n =>
    have hnl : n < h.length := hbv.2.2 n (by rw [hnext]; rfl)
    have hn : h[n]? = some h[n] := List.getElem?_eq_getElem hnl
    simp only [hn]
    by_cases hid : h[n].ID = ob.ID
    · right
      refine ⟨?_, h2, by rw [if_neg (by simpa using hid)]; exact hlink, hrest⟩
      rintro ⟨n2, nb, h1, h3, h4⟩
      cases h1
      rw [hn] at h3
      cases h3
      exact h4 hid
    · left
      exact ⟨⟨n, h[n], rfl, hn, hid⟩, by rw [if_pos hid]⟩

theorem link_fromIDs {h h1 : Heap} {b o : Ptr} {bb ob : Block} (hb : h[b]? = some bb)
    (ho : h[o]? = some ob) (hid : ∀ p, idOf h1 p = idOf h p)
    (hx : ∀ x, x ≠ o → fromOf h1 x = fromOf h x)
    (hfo : fromOf h1 o = some (if bb.ID ∈ fromIDs h o then ob.From else ob.From ++ [b])) :
    (∀ x, x ≠ o → fromIDs h1 x = fromIDs h x) ∧
    fromIDs h1 o = (if bb.ID ∈ fromIDs h o then fromIDs h o else fromIDs h o ++ [bb.ID]) := by
  refine ⟨fun x hne => fromIDs_congr hid (hx x hne), ?_⟩
  have hfun : idOf h1 = idOf h := funext hid
  have hfo0 : fromIDs h o = ob.From.filterMap (idOf h) := by
    unfold fromIDs; rw [ho]
  have hidb : idOf h b = some bb.ID := by unfold idOf; rw [hb]; rfl
  rw [fromIDs_eq h1 o, hfo, hfun]
  by_cases hmem : bb.ID ∈ fromIDs h o
  · rw [if_pos hmem, if_pos hmem, hfo0]; rfl
  · rw [if_neg hmem, if_neg hmem, hfo0]
    simp only [Option.getD_some, List.filterMap_append]
    congr 1
    rw [List.filterMap_cons_some hidb]
    rfl

theorem link_dedup {h h1 : Heap} {o : Ptr} {bb : Block}
    (hx : ∀ x, x ≠ o → fromIDs h1 x = fromIDs h x)
    (hfo : fromIDs h1 o = (if bb.ID ∈ fromIDs h o then fromIDs h o else fromIDs h o ++ [bb.ID])) :
    bb.ID ∈ fromIDs h1 o ∧
    ((fromIDs h o).Nodup → (fromIDs h1 o).count bb.ID = 1) ∧
    ∀ x, (fromIDs h x).Nodup → (fromIDs h1 x).Nodup := by
  have hmem1 : bb.ID ∈ fromIDs h1 o := by
    rw [hfo]
    by_cases hmem : bb.ID ∈ fromIDs h o
    · rw [if_pos hmem]; exact hmem
    · rw [if_neg hmem]; simp
  have hnd : ∀ x, (fromIDs h x).Nodup → (fromIDs h1 x).Nodup := by
    intro x hndx
    by_cases e : x = o
    · subst e
      rw [hfo]
      by_cases hmem : bb.ID ∈ fromIDs h x
      · rw [if_pos hmem]; exact hndx
      · rw [if_neg hmem]
        refine List.Nodup.append hndx (List.nodup_singleton _) ?_
        intro a ha ha2
        simp only [List.mem_singleton] at ha2
        rw [ha2] at ha
        exact hmem ha
    · rw [hx x e]; exact hndx
  exact ⟨hmem1, fun hndo => List.count_eq_one_of_mem (hnd o hndo) hmem1, hnd⟩

theorem SetNext_again {h1 : Heap} {b o : Ptr} {b1 o1 : Block} (hv : ValidHeap h1)
    (hb : h1[b]? = some b1) (ho : h1[o]? = some o1) (hnext : b1.Next = some o)
    (hmem : b1.ID ∈ fromIDs h1 o) : Block.SetNext h1 b o = EdgeResult.done h1 := by
  have hself : ({ b1 with Next := some o } : Block) = b1 := by
    cases b1
    simp only at hnext
    simp [hnext]
  unfold Block.SetNext
  simp only [hb, ho, hnext, hself, set_eq_self hb, addFrom_of_mem hv hb ho hmem]
  simp

theorem SetBranch_again {h1 : Heap} {b o : Ptr} {b1 o1 : Block} (hv : ValidHeap h1)
    (hb : h1[b]? = some b1) (ho : h1[o]? = some o1) (hnext : b1.Branch = some o)
    (hmem : b1.ID ∈ fromIDs h1 o) : Block.SetBranch h1 b o = EdgeResult.done h1 := by
  have hself : ({ b1 with Branch := some o } : Block) = b1 := by
    cases b1
    simp only at hnext
    simp [hnext]
  unfold Block.SetBranch
  simp only [hb, ho, hnext, hself, set_eq_self hb, addFrom_of_mem hv hb ho hmem]
  simp

theorem block_of_idOf {h1 h : Heap} {b : Ptr} {bb : Block} (hb : h[b]? = some bb)
    (hid : ∀ p, idOf h1 p = idOf h p) : ∃ b1, h1[b]? = some b1 ∧ b1.ID = bb.ID := by
  have := hid b
  unfold idOf at this
  rw [hb] at this
  cases e : h1[b]? with
  | none => rw [e] at this; simp at this
  | some b1 =>
    rw [e] at this
    simp only [Option.map_some', Option.some.injEq] at this
    exact ⟨b1, rfl, this⟩

theorem SetNext_then {h : Heap} {b o : Ptr} {bb ob : Block} (hv : ValidHeap h)
    (hb : h[b]? = some bb) (ho : h[o]? = some ob) (hnd : (fromIDs h o).Nodup)
    (hnext : bb.Next = none ∨ bb.Next = some o) :
    ∃ h1, Block.SetNext h b o = EdgeResult.done h1 ∧
      nextOf h1 b = some (some o) ∧
      (fromIDs h1 o).count bb.ID = 1 ∧
      Block.SetNext h1 b o = EdgeResult.done h1 ∧
      Block.SetBranch h1 b o ≠ EdgeResult.fault ∧
      (∀ h2, Block.SetBranch h1 b o = EdgeResult.done h2 ∨
          Block.SetBranch h1 b o = EdgeResult.panic h2 → fromOf h2 o = fromOf h1 o) ∧
      (∀ x, (fromIDs h x).Nodup → (fromIDs h1 x).Nodup) := by
  rcases SetNext_spec hv hb ho with ⟨⟨n, nb, h1, h2, h3⟩, -⟩ | ⟨-, h1, hdone, hv1, hid, hn, -, hx, hfo⟩
  · exfalso
    rcases hnext with e | e
    · rw [e] at h1; cases h1
    · rw [e] at h1
      cases h1
      rw [ho] at h2
      cases h2
      exact h3 rfl
  · obtain ⟨hx2, hfo2⟩ := link_fromIDs hb ho hid hx hfo
    obtain ⟨hmem1, hcount, hnodup⟩ := link_dedup hx2 hfo2
    obtain ⟨b1, hb1, hb1id⟩ := block_of_idOf hb hid
    obtain ⟨o1, ho1, -⟩ := block_of_idOf ho hid
    have hb1n : b1.Next = some o := by
      unfold nextOf at hn
      rw [hb1] at hn
      simpa using hn
    rw [← hb1id] at hmem1
    refine ⟨h1, hdone, hn, hcount hnd, SetNext_again hv1 hb1 ho1 hb1n hmem1, ?_, ?_, hnodup⟩
    · rcases SetBranch_spec hv1 hb1 ho1 with ⟨-, e⟩ | ⟨-, h2, e, -⟩
      · rw [e]; exact fun e2 => by cases e2
      · rw [e]; exact fun e2 => by cases e2
    · intro h2 hh2
      rcases SetBranch_spec hv1 hb1 ho1 with ⟨-, e⟩ | ⟨-, h3, e, -, -, -, -, -, hfo3⟩
      · rw [e] at hh2
        rcases hh2 with e2 | e2
        · cases e2
        · cases e2; rfl
      · rw [e] at hh2
        rcases hh2 with e2 | e2
        · cases e2
          rw [hfo3, if_pos hmem1]
          unfold fromOf; rw [ho1]; rfl
        · cases e2

theorem SetBranch_then {h : Heap} {b o : Ptr} {bb ob : Block} (hv : ValidHeap h)
    (hb : h[b]? = some bb) (ho : h[o]? = some ob) (hnd : (fromIDs h o).Nodup)
    (hnext : bb.Branch = none ∨ bb.Branch = some o) :
    ∃ h1, Block.SetBranch h b o = EdgeResult.done h1 ∧
      branchOf h1 b = some (some o) ∧
      (fromIDs h1 o).count bb.ID = 1 ∧
      Block.SetBranch h1 b o = EdgeResult.done h1 ∧
      Block.SetNext h1 b o ≠ EdgeResult.fault ∧
      (∀ h2, Block.SetNext h1 b o = EdgeResult.done h2 ∨
          Block.SetNext h1 b o = EdgeResult.panic h2 → fromOf h2 o = fromOf h1 o) ∧
      (∀ x, (fromIDs h x).Nodup → (fromIDs h1 x).Nodup) := by
  rcases SetBranch_spec hv hb ho with ⟨⟨n, nb, h1, h2, h3⟩, -⟩ | ⟨-, h1, hdone, hv1, hid, -, hn, hx, hfo⟩
  · exfalso
    rcases hnext with e | e
    · rw [e] at h1; cases h1
    · rw [e] at h1
      cases h1
      rw [ho] at h2
      cases h2
      exact h3 rfl
  · obtain ⟨hx2, hfo2⟩ := link_fromIDs hb ho hid hx hfo
    obtain ⟨hmem1, hcount, hnodup⟩ := link_dedup hx2 hfo2
    obtain ⟨b1, hb1, hb1id⟩ := block_of_idOf hb hid
    obtain ⟨o1, ho1, -⟩ := block_of_idOf ho hid
    have hb1n : b1.Branch = some o := by
      unfold branchOf at hn
      rw [hb1] at hn
      simpa using hn
    rw [← hb1id] at hmem1
    refine ⟨h1, hdone, hn, hcount hnd, SetBranch_again hv1 hb1 ho1 hb1n hmem1, ?_, ?_, hnodup⟩
    · rcases SetNext_spec hv1 hb1 ho1 with ⟨-, e⟩ | ⟨-, h2, e, -⟩
      · rw [e]; exact fun e2 => by cases e2
      · rw [e]; exact fun e2 => by cases e2
    · intro h2 hh2
      rcases SetNext_spec hv1 hb1 ho1 with ⟨-, e⟩ | ⟨-, h3, e, -, -, -, -, -, hfo3⟩
      · rw [e] at hh2
        rcases hh2 with e2 | e2
        · cases e2
        · cases e2; rfl
      · rw [e] at hh2
        rcases hh2 with e2 | e2
        · cases e2
          rw [hfo3, if_pos hmem1]
          unfold fromOf; rw [ho1]; rfl
        · cases e2

/-! ## The claims about block edges -/

/-- Claim C17: on a heap whose pointers are valid, `b.SetNext(o)` panics if and only if
`b.Next` is set to a block whose ID differs from the ID of `o`, and `b.SetBranch(o)` panics if
and only if `b.Branch` is set to a block whose ID differs from the ID of `o`; the heap at the
panic is the heap before the call, so `b.Next`, `b.Branch` and `o.From` are unchanged; a call
that does not panic returns. -/
theorem SetNext_SetBranch_panic_iff (h : Heap) (b o : Ptr) (bb ob : Block) (hv : ValidHeap h)
    (hb : h[b]? = some bb) (ho : h[o]? = some ob) :
    ((∃ h2, Block.SetNext h b o = EdgeResult.panic h2) ↔
      ∃ n nb, bb.Next = some n ∧ h[n]? = some nb ∧ nb.ID ≠ ob.ID) ∧
    ((∃ h2, Block.SetBranch h b o = EdgeResult.panic h2) ↔
      ∃ n nb, bb.Branch = some n ∧ h[n]? = some nb ∧ nb.ID ≠ ob.ID) ∧
    (∀ h2, Block.SetNext h b o = EdgeResult.panic h2 → h2 = h) ∧
    (∀ h2, Block.SetBranch h b o = EdgeResult.panic h2 → h2 = h) ∧
    Block.SetNext h b o ≠ EdgeResult.fault ∧ Block.SetBranch h b o ≠ EdgeResult.fault := by
  have hN := SetNext_spec hv hb ho
  have hB := SetBranch_spec hv hb ho
  refine ⟨⟨?_, ?_⟩, ⟨?_, ?_⟩, ?_, ?_, ?_, ?_⟩
  · rintro ⟨h2, e⟩
    rcases hN with ⟨h1, -⟩ | ⟨-, h3, e3, -⟩
    · exact h1
    · rw [e3] at e; cases e
  · intro hc
    rcases hN with ⟨-, e⟩ | ⟨h1, -⟩
    · exact ⟨h, e⟩
    · exact absurd hc h1
  · rintro ⟨h2, e⟩
    rcases hB with ⟨h1, -⟩ | ⟨-, h3, e3, -⟩
    · exact h1
    · rw [e3] at e; cases e
  · intro hc
    rcases hB with ⟨-, e⟩ | ⟨h1, -⟩
    · exact ⟨h, e⟩
    · exact absurd hc h1
  · intro h2 e
    rcases hN with ⟨-, e1⟩ | ⟨-, h3, e3, -⟩
    · rw [e1] at e; cases e; rfl
    · rw [e3] at e; cases e
  · intro h2 e
    rcases hB with ⟨-, e1⟩ | ⟨-, h3, e3, -⟩
    · rw [e1] at e; cases e; rfl
    · rw [e3] at e; cases e
  · rcases hN with ⟨-, e1⟩ | ⟨-, h3, e3, -⟩
    · rw [e1]; exact fun e => by cases e
    · rw [e3]; exact fun e => by cases e
  · rcases hB with ⟨-, e1⟩ | ⟨-, h3, e3, -⟩
    · rw [e1]; exact fun e => by cases e
    · rw [e3]; exact fun e => by cases e

/-- Witness of C17 on `edgeHeap`: block 0 has `Next` block 1, so `SetNext` to block 2 panics,
and its `Branch` is unset, so `SetBranch` to block 2 returns. -/
theorem SetNext_SetBranch_panic_iff_witness :
    ValidHeap edgeHeap ∧
    Block.SetNext edgeHeap 0 2 = EdgeResult.panic edgeHeap ∧
    Block.SetBranch edgeHeap 0 2 = EdgeResult.done
      [ exBlock 0 "b" [] (some 1) (some 2) [] [],
        exBlock 1 "o" [0] none none [] [],
        exBlock 2 "p" [0] none none [] [] ] ∧
    (((∃ h2, Block.SetNext edgeHeap 0 2 = EdgeResult.panic h2) ↔
      ∃ n nb, (exBlock 0 "b" [] (some 1) none [] []).Next = some n ∧ edgeHeap[n]? = some nb ∧
        nb.ID ≠ (exBlock 2 "p" [] none none [] []).ID) ∧
    ((∃ h2, Block.SetBranch edgeHeap 0 2 = EdgeResult.panic h2) ↔
      ∃ n nb, (exBlock 0 "b" [] (some 1) none [] []).Branch = some n ∧
        edgeHeap[n]? = some nb ∧ nb.ID ≠ (exBlock 2 "p" [] none none [] []).ID) ∧
    (∀ h2, Block.SetNext edgeHeap 0 2 = EdgeResult.panic h2 → h2 = edgeHeap) ∧
    (∀ h2, Block.SetBranch edgeHeap 0 2 = EdgeResult.panic h2 → h2 = edgeHeap) ∧
    Block.SetNext edgeHeap 0 2 ≠ EdgeResult.fault ∧
    Block.SetBranch edgeHeap 0 2 ≠ EdgeResult.fault) :=
  ⟨by decide, by decide, by decide,
    SetNext_SetBranch_panic_iff edgeHeap 0 2 (exBlock 0 "b" [] (some 1) none [] [])
      (exBlock 2 "p" [] none none [] []) (by decide) rfl rfl⟩

/-- Claim C18: on a heap whose pointers are valid and where the `From` list of `o` holds no
two blocks with the same ID, `b.SetNext(o)` on a block whose `Next` is unset or already `o`
returns with `b.Next = o` and exactly one block with the ID of `b` in `o.From`; repeating the
call leaves the heap as it is; `b.SetBranch(o)` after it, whether it returns or panics, leaves
`o.From` as it is; and every `From` list without two blocks of the same ID is still without
them.  The same holds with `SetBranch` and `SetNext` exchanged. -/
theorem SetNext_SetBranch_idempotent (h : Heap) (b o : Ptr) (bb ob : Block)
    (hv : ValidHeap h) (hb : h[b]? = some bb) (ho : h[o]? = some ob)
    (hnd : (fromIDs h o).Nodup) :
    (bb.Next = none ∨ bb.Next = some o →
      ∃ h1, Block.SetNext h b o = EdgeResult.done h1 ∧
        nextOf h1 b = some (some o) ∧
        (fromIDs h1 o).count bb.ID = 1 ∧
        Block.SetNext h1 b o = EdgeResult.done h1 ∧
        Block.SetBranch h1 b o ≠ EdgeResult.fault ∧
        (∀ h2, Block.SetBranch h1 b o = EdgeResult.done h2 ∨
            Block.SetBranch h1 b o = EdgeResult.panic h2 → fromOf h2 o = fromOf h1 o) ∧
        (∀ x, (fromIDs h x).Nodup → (fromIDs h1 x).Nodup)) ∧
    (bb.Branch = none ∨ bb.Branch = some o →
      ∃ h1, Block.SetBranch h b o = EdgeResult.done h1 ∧
        branchOf h1 b = some (some o) ∧
        (fromIDs h1 o).count bb.ID = 1 ∧
        Block.SetBranch h1 b o = EdgeResult.done h1 ∧
        Block.SetNext h1 b o ≠ EdgeResult.fault ∧
        (∀ h2, Block.SetNext h1 b o = EdgeResult.done h2 ∨
            Block.SetNext h1 b o = EdgeResult.panic h2 → fromOf h2 o = fromOf h1 o) ∧
        (∀ x, (fromIDs h x).Nodup → (fromIDs h1 x).Nodup)) :=
  ⟨SetNext_then hv hb ho hnd, SetBranch_then hv hb ho hnd⟩

/-- Witness of C18 on `edgeHeap`, with the unlinked block 2 as `b` and block 1 as `o`. -/
theorem SetNext_SetBranch_idempotent_witness :
    ValidHeap edgeHeap ∧ (fromIDs edgeHeap 1).Nodup ∧
    (∃ h1, Block.SetNext edgeHeap 2 1 = EdgeResult.done h1 ∧
        nextOf h1 2 = some (some 1) ∧
        (fromIDs h1 1).count (exBlock 2 "p" [] none none [] []).ID = 1 ∧
        Block.SetNext h1 2 1 = EdgeResult.done h1 ∧
        Block.SetBranch h1 2 1 ≠ EdgeResult.fault ∧
        (∀ h2, Block.SetBranch h1 2 1 = EdgeResult.done h2 ∨
            Block.SetBranch h1 2 1 = EdgeResult.panic h2 → fromOf h2 1 = fromOf h1 1) ∧
        (∀ x, (fromIDs edgeHeap x).Nodup → (fromIDs h1 x).Nodup)) ∧
    (∃ h1, Block.SetBranch edgeHeap 2 1 = EdgeResult.done h1 ∧
        branchOf h1 2 = some (some 1) ∧
        (fromIDs h1 1).count (exBlock 2 "p" [] none none [] []).ID = 1 ∧
        Block.SetBranch h1 2 1 = EdgeResult.done h1 ∧
        Block.SetNext h1 2 1 ≠ EdgeResult.fault ∧
        (∀ h2, Block.SetNext h1 2 1 = EdgeResult.done h2 ∨
            Block.SetNext h1 2 1 = EdgeResult.panic h2 → fromOf h2 1 = fromOf h1 1) ∧
        (∀ x, (fromIDs edgeHeap x).Nodup → (fromIDs h1 x).Nodup)) :=
  ⟨by decide, by decide,
    (SetNext_SetBranch_idempotent edgeHeap 2 1 (exBlock 2 "p" [] none none [] [])
      (exBlock 1 "o" [0] none none [] []) (by decide) rfl rfl (by decide)).1 (Or.inl rfl),
    (SetNext_SetBranch_idempotent edgeHeap 2 1 (exBlock 2 "p" [] none none [] [])
      (exBlock 1 "o" [0] none none [] []) (by decide) rfl rfl (by decide)).2 (Or.inl rfl)⟩

/-! ## Native circuits: lemmas and the claim -/

theorem checkArgs_spec (args : List Value) : ∀ (ios : List IOArg) (idx : Nat),
    idx + ios.length = args.length →
    checkArgs args ios idx = some (decide (∀ k : Fin ios.length, ∀ arg ∈ args[idx + k.val]?,
      arg.TypeInfo.Bits = ios[k].TypeInfo.Bits ∨
      (arg.TypeInfo.Bits < ios[k].TypeInfo.Bits ∧ arg.Const = true))) := by
  intro ios
  induction ios with
  | nil => intro idx _; simp [checkArgs]
  | cons io rest ih =>
    intro idx hlen
    simp only [List.length_cons] at hlen
    have hidx : idx < args.length := by omega
    unfold checkArgs
    rw [List.getElem?_eq_getElem hidx]
    simp only
    by_cases hbad : (io.TypeInfo.Bits < args[idx].TypeInfo.Bits ||
        io.TypeInfo.Bits > args[idx].TypeInfo.Bits && !args[idx].Const) = true
    · rw [if_pos hbad]
      congr 1
      symm
      rw [decide_eq_false_iff_not]
      intro hall
      have h0 := hall ⟨0, by simp⟩ args[idx] (by simp [List.getElem?_eq_getElem hidx])
      simp only [List.getElem_cons_zero, Fin.getElem_fin] at h0
      simp only [Bool.or_eq_true, decide_eq_true_eq, Bool.and_eq_true, Bool.not_eq_true',
        gt_iff_lt] at hbad
      rcases hbad with h1 | ⟨h1, h2⟩
      · rcases h0 with h3 | ⟨h3, -⟩ <;> omega
      · rcases h0 with h3 | ⟨-, h3⟩
        · omega
        · rw [h2] at h3; cases h3
    · rw [if_neg hbad, ih (idx + 1) (by omega)]
      congr 1
      simp only [Bool.or_eq_true, decide_eq_true_eq, Bool.and_eq_true, Bool.not_eq_true',
        gt_iff_lt, not_or, not_and, not_lt, Bool.not_eq_false] at hbad
      apply decide_eq_decide.mpr
      constructor
      · intro hall k arg harg
        rcases k with ⟨k, hk⟩
        cases k with
        | zero =>
          simp only [Nat.add_zero, List.getElem?_eq_getElem hidx, Option.mem_def,
            Option.some.injEq] at harg
          subst harg
          simp only [Fin.getElem_fin, List.getElem_cons_zero]
          rcases Nat.lt_or_ge args[idx].TypeInfo.Bits io.TypeInfo.Bits with h1 | h1
          · exact Or.inr ⟨h1, hbad.2 h1⟩
          · exact Or.inl (by omega)
        | succ k =>
          have := hall ⟨k, by simpa using hk⟩ arg (by
            have e : idx + 1 + k = idx + (k + 1) := by omega
            simpa [e] using harg)
          simpa using this
      · intro hall k arg harg
        have := hall ⟨k.val + 1, by simp⟩ arg (by
          have e : idx + (k.val + 1) = idx + 1 + k.val := by omega
          simpa [e] using harg)
        simpa using this


theorem accepts_iff_check (circ : Circuit) (args : List Value)
    (hlen : args.length = circ.Inputs.length) :
    NativeAccepts circ args ↔
      ∀ k : Fin circ.Inputs.length, ∀ arg ∈ args[0 + k.val]?,
        arg.TypeInfo.Bits = circ.Inputs[k].TypeInfo.Bits ∨
        (arg.TypeInfo.Bits < circ.Inputs[k].TypeInfo.Bits ∧ arg.Const = true) := by
  unfold NativeAccepts
  constructor
  · rintro ⟨-, hall⟩ k arg harg
    have hk : k.val < args.length := by rw [hlen]; exact k.isLt
    simp only [Nat.zero_add, List.getElem?_eq_getElem hk, Option.mem_def,
      Option.some.injEq] at harg
    subst harg
    exact hall ⟨k.val, hk⟩ circ.Inputs[k] (by simp [List.getElem?_eq_getElem k.isLt])
  · intro hall
    refine ⟨hlen, ?_⟩
    intro idx io hio
    have hk : idx.val < circ.Inputs.length := by rw [← hlen]; exact idx.isLt
    simp only [List.getElem?_eq_getElem hk, Option.mem_def, Option.some.injEq] at hio
    subst hio
    exact hall ⟨idx.val, hk⟩ args[idx] (by simp [List.getElem?_eq_getElem idx.isLt])

theorem allocResults_spec : ∀ (outs : List IOArg) (acc : List Value) (gen : Generator),
    ∃ new, (allocResults outs acc gen).1 = acc ++ new ∧
      (allocResults outs acc gen).2.nextID = gen.nextID + outs.length ∧
      FreshFor gen outs new := by
  intro outs
  induction outs with
  | nil =>
    intro acc gen
    exact ⟨[], by simp [allocResults], by simp [allocResults], rfl, fun i => i.elim0⟩
  | cons io rest ih =>
    intro acc gen
    obtain ⟨new, h1, h2, h3, h4⟩ := ih
      (acc ++ [(gen.AnonVal { Kind := TUndefined, Bits := io.TypeInfo.Bits }).1])
      (gen.AnonVal { Kind := TUndefined, Bits := io.TypeInfo.Bits }).2
    refine ⟨(gen.AnonVal { Kind := TUndefined, Bits := io.TypeInfo.Bits }).1 :: new,
      ?_, ?_, ?_, ?_⟩
    · unfold allocResults
      simp only [h1, List.append_assoc, List.singleton_append]
    · unfold allocResults
      simp only
      rw [h2]
      simp only [Generator.AnonVal, List.length_cons]
      omega
    · simp [h3]
    · rintro ⟨i, hi⟩
      cases i with
      | zero =>
        refine ⟨rfl, ?_⟩
        intro io2 hio2
        simp only [List.getElem?_cons_zero, Option.mem_def, Option.some.injEq] at hio2
        subst hio2
        rfl
      | succ i =>
        have hi2 : i < new.length := by simpa using hi
        have := h4 ⟨i, hi2⟩
        simp only [Fin.getElem_fin, Generator.AnonVal] at this
        refine ⟨?_, ?_⟩
        · simp only [Fin.getElem_fin, List.getElem_cons_succ]
          rw [this.1]
          omega
        · intro io2 hio2
          simp only [List.getElem?_cons_succ] at hio2
          simp only [Fin.getElem_fin, List.getElem_cons_succ]
          exact this.2 io2 hio2

/-- Claim C19: when the native circuit is loaded (cached, or parsed with `AssignLevels`
completing) as `circ`, `nativeCircuit` accepts the call if and only if there are as many
arguments as circuit inputs and every argument has the bit width of its input, or a smaller
width and is a constant; otherwise it returns an error and the block is unchanged.  On
acceptance the block gets exactly one more instruction, a `Circ` instruction on the arguments,
and the result is one fresh value per circuit output with the bit width of that output. -/
theorem nativeCircuit_accepts_iff (parse : String → Option Circuit) (fp : String)
    (block : Block) (ctx : Codegen) (gen : Generator) (args : List Value) (circ : Circuit)
    (ctx2 : Codegen) (hload : loadNative parse fp ctx = NativeLoad.loaded circ ctx2) :
    ((∃ b r c g, nativeCircuit parse fp block ctx gen args = NativeResult.ok b r c g) ↔
      NativeAccepts circ args) ∧
    (¬ NativeAccepts circ args →
      nativeCircuit parse fp block ctx gen args = NativeResult.error block ctx2) ∧
    (NativeAccepts circ args →
      ∃ result gen2,
        nativeCircuit parse fp block ctx gen args
          = NativeResult.ok { block with Instr := block.Instr ++
              [{ Op := Operand.Circ, In := args, Out := none }] } result ctx2 gen2 ∧
        FreshFor gen circ.Outputs result ∧ gen2.nextID = gen.nextID + circ.Outputs.length) := by
  have hno : ¬ NativeAccepts circ args →
      nativeCircuit parse fp block ctx gen args = NativeResult.error block ctx2 := by
    intro hna
    unfold nativeCircuit
    rw [hload]
    simp only
    by_cases h1 : circ.Inputs.length > args.length
    · rw [if_pos h1]
    · rw [if_neg h1]
      by_cases h2 : circ.Inputs.length < args.length
      · rw [if_pos h2]
      · rw [if_neg h2]
        have hlen : args.length = circ.Inputs.length := by omega
        rw [checkArgs_spec args circ.Inputs 0 (by omega)]
        rw [decide_eq_false ((accepts_iff_check circ args hlen).not.mp hna)]
  have hyes : NativeAccepts circ args →
      ∃ result gen2,
        nativeCircuit parse fp block ctx gen args
          = NativeResult.ok { block with Instr := block.Instr ++
              [{ Op := Operand.Circ, In := args, Out := none }] } result ctx2 gen2 ∧
        FreshFor gen circ.Outputs result ∧
        gen2.nextID = gen.nextID + circ.Outputs.length := by
    intro ha
    have hlen := ha.1
    obtain ⟨new, h1, h2, h3⟩ := allocResults_spec circ.Outputs [] gen
    refine ⟨(allocResults circ.Outputs [] gen).1, (allocResults circ.Outputs [] gen).2,
      ?_, ?_, h2⟩
    · unfold nativeCircuit
      rw [hload]
      simp only
      rw [if_neg (by omega), if_neg (by omega),
        checkArgs_spec args circ.Inputs 0 (by omega),
        decide_eq_true ((accepts_iff_check circ args hlen).mp ha)]
      rfl
    · rw [h1, List.nil_append]; exact h3
  refine ⟨⟨?_, ?_⟩, hno, hyes⟩
  · rintro ⟨b, r, c, g, e⟩
    by_contra hna
    rw [hno hna] at e
    cases e
  · intro ha
    obtain ⟨result, gen2, e, -⟩ := hyes ha
    exact ⟨_, _, _, _, e⟩

/-- Witness of C19: two one-bit arguments for the cached circuit `nativeExample`. -/
theorem nativeCircuit_accepts_iff_witness :
    loadNative (fun _ => none) "and.circ" nativeCtx
      = NativeLoad.loaded nativeExample nativeCtx ∧
    NativeAccepts nativeExample [bitVal "x" 1, bitVal "y" 2] ∧
    (((∃ b r c g, nativeCircuit (fun _ => none) "and.circ" (exBlock 0 "entry" [] none none [] [])
        nativeCtx { nextID := 3 } [bitVal "x" 1, bitVal "y" 2] = NativeResult.ok b r c g) ↔
      NativeAccepts nativeExample [bitVal "x" 1, bitVal "y" 2]) ∧
    (¬ NativeAccepts nativeExample [bitVal "x" 1, bitVal "y" 2] →
      nativeCircuit (fun _ => none) "and.circ" (exBlock 0 "entry" [] none none [] [])
        nativeCtx { nextID := 3 } [bitVal "x" 1, bitVal "y" 2]
        = NativeResult.error (exBlock 0 "entry" [] none none [] []) nativeCtx) ∧
    (NativeAccepts nativeExample [bitVal "x" 1, bitVal "y" 2] →
      ∃ result gen2,
        nativeCircuit (fun _ => none) "and.circ" (exBlock 0 "entry" [] none none [] [])
          nativeCtx { nextID := 3 } [bitVal "x" 1, bitVal "y" 2]
          = NativeResult.ok { exBlock 0 "entry" [] none none [] [] with
              Instr := (exBlock 0 "entry" [] none none [] []).Instr ++
                [{ Op := Operand.Circ, In := [bitVal "x" 1, bitVal "y" 2], Out := none }] }
              result nativeCtx gen2 ∧
        FreshFor { nextID := 3 } nativeExample.Outputs result ∧
        gen2.nextID = ({ nextID := 3 } : Generator).nextID + nativeExample.Outputs.length)) :=
  ⟨rfl, by decide,
    nativeCircuit_accepts_iff (fun _ => none) "and.circ" (exBlock 0 "entry" [] none none [] [])
      nativeCtx { nextID := 3 } [bitVal "x" 1, bitVal "y" 2] nativeExample nativeCtx rfl⟩

/-! ## The builtin `copy`: lemmas and the claim -/

namespace Ast

theorem int32_eq {x : Int} (h0 : 0 ≤ x) (h1 : x < 2 ^ 31) : int32 x = x := by
  unfold int32
  omega

theorem copyInto_spec {st st2 : State} {dst src : Value} {baseName : String}
    {baseType : Info} {baseScope baseBindings : Nat} {off : Int} {elem : Info} {base : Value}
    {vals : List Value}
    (hok : copyInto st dst src baseName baseType baseScope baseBindings off elem base
      = Result.ok st2 vals)
    (hpos : 0 < elem.Bits)
    (hdst : dst.TypeInfo.Bits = dst.TypeInfo.ArraySize * elem.Bits)
    (hsrc : src.TypeInfo.Bits = src.TypeInfo.ArraySize * elem.Bits)
    (hnd : 0 ≤ dst.TypeInfo.ArraySize) (hns : 0 ≤ src.TypeInfo.ArraySize)
    (hoff : 0 ≤ off) (hfit : off + dst.TypeInfo.Bits < 2 ^ 31) :
    ∃ pre s fromV toV lValue v,
      vals = [v] ∧ v.Const = true ∧ v.TypeInfo = Int32 ∧
      v.ConstValue = some (min dst.TypeInfo.ArraySize src.TypeInfo.ArraySize) ∧
      st2.block.Instr = st.block.Instr ++ pre ++ [NewAmovInstr s base fromV toV lValue] ∧
      (∀ i ∈ pre, i.Op = Operand.Slice) ∧
      fromV.ConstValue = some off ∧
      toV.ConstValue
        = some (off + min dst.TypeInfo.ArraySize src.TypeInfo.ArraySize * elem.Bits) ∧
      lValue.Name = baseName ∧ lValue.TypeInfo = baseType := by
  unfold copyInto at hok
  simp only at hok
  split at hok
  · cases hok
  · split at hok
    · cases hok
    · split at hok
      · cases hok
      · split at hok
        · cases hok
        · by_cases hgt : src.TypeInfo.Bits > dst.TypeInfo.Bits
          · simp only [if_pos hgt] at hok
            split at hok
            · cases hok
            · cases hok
              have hlt : dst.TypeInfo.ArraySize < src.TypeInfo.ArraySize := by
                rw [hdst, hsrc] at hgt
                exact lt_of_mul_lt_mul_right hgt (le_of_lt hpos)
              have hmin : min dst.TypeInfo.ArraySize src.TypeInfo.ArraySize
                  = dst.TypeInfo.ArraySize := min_eq_left (le_of_lt hlt)
              have hle : dst.TypeInfo.ArraySize ≤ dst.TypeInfo.Bits := by
                rw [hdst]; nlinarith
              refine ⟨[NewSliceInstr src (st.gen.Constant (int32 0) Uint32)
                  (st.gen.Constant (int32 dst.TypeInfo.Bits) Uint32)
                  (st.gen.AnonVal dst.TypeInfo).1],
                (st.gen.AnonVal dst.TypeInfo).1,
                ((st.gen.AnonVal dst.TypeInfo).2.NewVal baseName baseType baseScope).2.Constant
                  (int32 off) Uint32,
                ((st.gen.AnonVal dst.TypeInfo).2.NewVal baseName baseType baseScope).2.Constant
                  (int32 (off + dst.TypeInfo.Bits)) Uint32,
                ((st.gen.AnonVal dst.TypeInfo).2.NewVal baseName baseType baseScope).1,
                _, rfl, rfl, rfl, ?_, ?_, ?_, ?_, ?_, rfl, rfl⟩
              · rw [hmin]
                simp only [Generator.Constant]
                rw [int32_eq hnd (by omega)]
              · rfl
              · intro i hi
                simp only [List.mem_singleton] at hi
                rw [hi]; rfl
              · simp only [Generator.Constant]
                rw [int32_eq hoff (by omega)]
              · rw [hmin, ← hdst]
                simp only [Generator.Constant]
                rw [int32_eq (by omega) hfit]
          · simp only [if_neg hgt] at hok
            split at hok
            · cases hok
            · cases hok
              have hle0 : src.TypeInfo.ArraySize ≤ dst.TypeInfo.ArraySize := by
                rw [hdst, hsrc] at hgt
                exact le_of_mul_le_mul_right (not_lt.mp hgt) hpos
              have hmin : min dst.TypeInfo.ArraySize src.TypeInfo.ArraySize
                  = src.TypeInfo.ArraySize := min_eq_right hle0
              have hle : src.TypeInfo.ArraySize ≤ src.TypeInfo.Bits := by
                rw [hsrc]; nlinarith
              have hsb : 0 ≤ src.TypeInfo.Bits := by omega
              refine ⟨[], src,
                (st.gen.NewVal baseName baseType baseScope).2.Constant (int32 off) Uint32,
                (st.gen.NewVal baseName baseType baseScope).2.Constant
                  (int32 (off + src.TypeInfo.Bits)) Uint32,
                (st.gen.NewVal baseName baseType baseScope).1,
                _, rfl, rfl, rfl, ?_, ?_, ?_, ?_, ?_, rfl, rfl⟩
              · rw [hmin]
                simp only [Generator.Constant]
                rw [int32_eq hns (by omega)]
              · simp only [Block.AddInstr, List.append_nil]
              · intro i hi
                cases hi
              · simp only [Generator.Constant]
                rw [int32_eq hoff (by omega)]
              · rw [hmin, ← hsrc]
                simp only [Generator.Constant]
                rw [int32_eq (by omega) (by omega)]


theorem copyInto_ok (st : State) (dst src : Value) (baseName : String) (baseType : Info)
    (baseScope baseBindings : Nat) (off : Int) (elem : Info) (base : Value)
    (bindings : Bindings) (hsrc : srcElement src = some elem)
    (hstore : st.store[baseBindings]? = some bindings) :
    ∃ st2 vals, copyInto st dst src baseName baseType baseScope baseBindings off elem base
      = Result.ok st2 vals := by
  unfold srcElement at hsrc
  unfold copyInto
  simp only
  cases hty : (if src.TypeInfo.Tag = TypeTag.TPtr then src.TypeInfo.elem
      else some src.TypeInfo) with
  | none => rw [hty] at hsrc; cases hsrc
  | some srcType =>
    rw [hty] at hsrc
    simp only [Option.some_bind] at hsrc
    by_cases htag : srcType.Tag = TypeTag.TArray
    · rw [if_pos htag] at hsrc
      simp only [htag, ne_eq, not_true_eq_false, if_false, hsrc, Info.Equal, decide_True,
        Bool.not_true, Bool.false_eq_true, hstore]
      exact ⟨_, _, rfl⟩
    · rw [if_neg htag] at hsrc
      cases hsrc

/-- Claim C20: for a call `copy(dst, src)` where `dst` is an array, or a pointer into an
array, with element type `elem`, `src` is an array, or a pointer to one, with the same
element type, and the base array of `dst` and the bindings that hold it exist (the valid
calls; `Bits` is `ArraySize` times the positive element width, and the destination range
fits an `int32`), `copySSA` returns the constant `min(len(dst), len(src))`, and the block
gets, after at most one `Slice`, exactly one `Amov` into the base array of `dst` whose bit
range starts at the offset of `dst` and whose width is that count times the element
width. -/
theorem copySSA_returns_min (st : State) (dst src : Value) (elem : Info) (base : Value)
    (bindings : Bindings)
    (helem : dstElement dst = some elem) (hselem : srcElement src = some elem)
    (hbase : dstBase st dst = some base) (hbind : dstBindings st dst = some bindings)
    (hpos : 0 < elem.Bits)
    (hdst : dst.TypeInfo.Bits = dst.TypeInfo.ArraySize * elem.Bits)
    (hsrc : src.TypeInfo.Bits = src.TypeInfo.ArraySize * elem.Bits)
    (hnd : 0 ≤ dst.TypeInfo.ArraySize) (hns : 0 ≤ src.TypeInfo.ArraySize)
    (hoff : 0 ≤ dstOffset dst) (hfit : dstOffset dst + dst.TypeInfo.Bits < 2 ^ 31) :
    ∃ st2 pre s fromV toV lValue v,
      copySSA st [dst, src] = Result.ok st2 [v] ∧
      v.Const = true ∧ v.TypeInfo = Int32 ∧
      v.ConstValue = some (min dst.TypeInfo.ArraySize src.TypeInfo.ArraySize) ∧
      st2.block.Instr = st.block.Instr ++ pre ++ [NewAmovInstr s base fromV toV lValue] ∧
      (∀ i ∈ pre, i.Op = Operand.Slice) ∧
      fromV.ConstValue = some (dstOffset dst) ∧
      toV.ConstValue = some (dstOffset dst
        + min dst.TypeInfo.ArraySize src.TypeInfo.ArraySize * elem.Bits) := by
  unfold copySSA
  simp only
  unfold dstElement at helem
  unfold dstOffset at hoff hfit ⊢
  unfold dstBase at hbase
  unfold dstBindings at hbind
  cases htag : dst.TypeInfo.Tag <;> simp only [htag] at helem hoff hfit hbase hbind ⊢ <;>
    try (cases helem)
  · -- the case `types.TArray`
    cases hbase
    rw [helem]
    simp only
    obtain ⟨st2, vals, hok⟩ := copyInto_ok st dst src dst.Name dst.TypeInfo dst.Scope
      st.block.Bindings 0 elem dst bindings hselem hbind
    obtain ⟨pre, s, fromV, toV, lValue, v, h1, h2, h3, h4, h5, h6, h7, h8, -, -⟩ :=
      copyInto_spec hok hpos hdst hsrc hnd hns hoff hfit
    rw [h1] at hok
    exact ⟨st2, pre, s, fromV, toV, lValue, v, hok, h2, h3, h4, h5, h6, h7, h8⟩
  · -- the case `types.TPtr`
    cases he : dst.TypeInfo.elem with
    | none => rw [he] at helem; cases helem
    | some e1 =>
      rw [he] at helem
      simp only [Option.some_bind] at helem
      by_cases ht : e1.Tag = TypeTag.TArray
      · rw [if_pos ht] at helem
        cases hp : dst.PtrInfo with
        | none => rw [hp] at hbase; cases hbase
        | some ptr =>
          rw [hp] at hbase hbind
          simp only [hp] at hoff hfit ⊢
          simp only at hbase hbind
          rw [hbind] at hbase
          simp only [Option.some_bind] at hbase
          simp only [ht, ne_eq, not_true_eq_false, if_false, helem, hbind, hbase]
          obtain ⟨st2, vals, hok⟩ := copyInto_ok st dst src ptr.Name ptr.ContainerType
            ptr.Scope ptr.Bindings ptr.Offset elem base bindings hselem hbind
          obtain ⟨pre, s, fromV, toV, lValue, v, h1, h2, h3, h4, h5, h6, h7, h8, -, -⟩ :=
            copyInto_spec hok hpos hdst hsrc hnd hns hoff hfit
          rw [h1] at hok
          exact ⟨st2, pre, s, fromV, toV, lValue, v, hok, h2, h3, h4, h5, h6, h7, h8⟩
      · rw [if_neg ht] at helem
        cases helem

/-- Witness of C20: `copy(dst[2:5], src)` with `src : [3]uint4` and `dst : [6]uint4` returns
the constant 3 and emits one `Amov` into the bits `[8, 20)` of `dst`, and `copy(dst, src)`
with the whole array `dst` returns 3 as well. -/
theorem copySSA_returns_min_witness :
    (copySSA copyState [sliceOfDst, srcVal]
      = Result.ok copyStateAfter [copyState.gen.Constant 3 Int32] ∧
    ∃ st2 pre s fromV toV lValue v,
      copySSA copyState [sliceOfDst, srcVal] = Result.ok st2 [v] ∧
      v.Const = true ∧ v.TypeInfo = Int32 ∧
      v.ConstValue = some (min sliceOfDst.TypeInfo.ArraySize srcVal.TypeInfo.ArraySize) ∧
      st2.block.Instr
        = copyState.block.Instr ++ pre ++ [NewAmovInstr s dstVal fromV toV lValue] ∧
      (∀ i ∈ pre, i.Op = Operand.Slice) ∧
      fromV.ConstValue = some (dstOffset sliceOfDst) ∧
      toV.ConstValue = some (dstOffset sliceOfDst
        + min sliceOfDst.TypeInfo.ArraySize srcVal.TypeInfo.ArraySize * uint4Info.Bits)) ∧
    ∃ st2 pre s fromV toV lValue v,
      copySSA copyState [dstVal, srcVal] = Result.ok st2 [v] ∧
      v.Const = true ∧ v.TypeInfo = Int32 ∧
      v.ConstValue = some (min dstVal.TypeInfo.ArraySize srcVal.TypeInfo.ArraySize) ∧
      st2.block.Instr
        = copyState.block.Instr ++ pre ++ [NewAmovInstr s dstVal fromV toV lValue] ∧
      (∀ i ∈ pre, i.Op = Operand.Slice) ∧
      fromV.ConstValue = some (dstOffset dstVal) ∧
      toV.ConstValue = some (dstOffset dstVal
        + min dstVal.TypeInfo.ArraySize srcVal.TypeInfo.ArraySize * uint4Info.Bits) :=
  ⟨⟨by decide,
    copySSA_returns_min copyState sliceOfDst srcVal uint4Info dstVal
      [("dst", dstVal), ("src", srcVal)]
      (by decide) (by decide) (by decide) (by decide) (by decide) (by decide) (by decide)
      (by decide) (by decide) (by decide) (by decide)⟩,
    copySSA_returns_min copyState dstVal srcVal uint4Info dstVal
      [("dst", dstVal), ("src", srcVal)]
      (by decide) (by decide) (by decide) (by decide) (by decide) (by decide) (by decide)
      (by decide) (by decide) (by decide) (by decide)⟩

end Ast

/-! ## `IO.Split`: lemmas and the claim -/

theorem testBit_toNat_ediv_emod (inp : Int) (bit n j : Nat) :
    ((inp / 2 ^ bit % 2 ^ n).toNat).testBit j = (decide (j < n) && inp.testBit (bit + j)) := by
  cases inp with
  | ofNat m =>
    have h1 : (Int.ofNat m / 2 ^ bit % 2 ^ n) = ((m / 2 ^ bit % 2 ^ n : Nat) : Int) := by
      push_cast
      rfl
    rw [h1, Int.toNat_natCast, Nat.testBit_mod_two_pow, ← Nat.shiftRight_eq_div_pow,
      Nat.testBit_shiftRight]
    rfl
  | negSucc m =>
    have hp : (0 : Int) < 2 ^ bit := by positivity
    have hq : (0 : Int) < 2 ^ n := by positivity
    have h1 : (Int.negSucc m / 2 ^ bit) = Int.negSucc (m / 2 ^ bit) := by
      rw [Int.negSucc_ediv m hp, Int.negSucc_eq]
      push_cast
      rfl
    have hlt : m / 2 ^ bit % 2 ^ n < 2 ^ n := Nat.mod_lt _ (by positivity)
    have h2 : (Int.negSucc (m / 2 ^ bit) % 2 ^ n).toNat
        = 2 ^ n - (m / 2 ^ bit % 2 ^ n + 1) := by
      rw [Int.negSucc_emod _ hq]
      have : ((2 : Int) ^ n - 1 - ((m / 2 ^ bit : Nat) : Int) % 2 ^ n)
          = ((2 ^ n - (m / 2 ^ bit % 2 ^ n + 1) : Nat) : Int) := by
        push_cast [Nat.cast_sub (Nat.succ_le_of_lt hlt)]
        ring
      rw [this, Int.toNat_natCast]
    rw [h1, h2, Nat.testBit_two_pow_sub_succ hlt, Nat.testBit_mod_two_pow,
      ← Nat.shiftRight_eq_div_pow, Nat.testBit_shiftRight]
    by_cases hj : j < n <;> simp [hj, Int.testBit]

theorem splitBits_spec (inp : Int) : ∀ (n i r bit : Nat),
    (splitBits inp n i r bit).2 = bit + n ∧
    ∀ j, (splitBits inp n i r bit).1.testBit j =
      if i ≤ j ∧ j < i + n then (inp.testBit (bit + (j - i)) || r.testBit j)
      else r.testBit j := by
  intro n
  induction n with
  | zero =>
    intro i r bit
    refine ⟨rfl, ?_⟩
    intro j
    simp only [splitBits]
    rw [if_neg (by omega)]
  | succ n ih =>
    intro i r bit
    obtain ⟨h1, h2⟩ := ih (i + 1) (if inp.testBit bit then setBit r i true else r) (bit + 1)
    refine ⟨by simp only [splitBits]; omega, ?_⟩
    intro j
    simp only [splitBits]
    rw [h2 j]
    have hr : (if inp.testBit bit then setBit r i true else r).testBit j
        = if j = i then (inp.testBit bit || r.testBit j) else r.testBit j := by
      by_cases hb : inp.testBit bit = true
      · rw [if_pos hb, testBit_setBit]
        by_cases hj : j = i <;> simp [hj, hb]
      · rw [if_neg hb]
        by_cases hj : j = i <;> simp [hj, hb]
    rw [hr]
    by_cases hji : j = i
    · subst hji
      rw [if_neg (by omega), if_pos rfl, if_pos (by omega)]
      simp
    · rw [if_neg hji]
      by_cases h3 : i + 1 ≤ j ∧ j < i + 1 + n
      · rw [if_pos h3, if_pos (by omega)]
        have : bit + 1 + (j - (i + 1)) = bit + (j - i) := by omega
        rw [this]
      · rw [if_neg h3, if_neg (by omega)]

theorem splitBits_zero (inp : Int) (n bit : Nat) :
    splitBits inp n 0 0 bit = ((inp / 2 ^ bit % 2 ^ n).toNat, bit + n) := by
  obtain ⟨h1, h2⟩ := splitBits_spec inp n 0 0 bit
  refine Prod.ext ?_ h1
  apply Nat.eq_of_testBit_eq
  intro j
  rw [h2 j, testBit_toNat_ediv_emod]
  by_cases hj : j < n
  · rw [if_pos (by omega)]
    simp [hj]
  · rw [if_neg (by omega)]
    simp [hj]

theorem foldl_split (inp : Int) : ∀ (io : List IOArg) (acc : List Nat × Nat),
    (io.foldl (fun (acc : List Nat × Nat) arg =>
      let r := splitBits inp arg.TypeInfo.Bits 0 0 acc.2
      (acc.1 ++ [r.1], r.2)) acc).1 = acc.1 ++ splitFrom inp io acc.2 := by
  intro io
  induction io with
  | nil => intro acc; simp [splitFrom]
  | cons a rest ih =>
    intro acc
    simp only [List.foldl_cons, splitFrom]
    rw [ih, splitBits_zero]
    simp

theorem IOSplit_eq (io : List IOArg) (inp : Int) : IOSplit io inp = splitFrom inp io 0 := by
  unfold IOSplit
  rw [foldl_split]
  rfl

theorem length_splitFrom (inp : Int) : ∀ (io : List IOArg) (off : Nat),
    (splitFrom inp io off).length = io.length := by
  intro io
  induction io with
  | nil => intro off; rfl
  | cons a rest ih => intro off; simp [splitFrom, ih]

theorem argOffset_zero (io : List IOArg) : argOffset io 0 = 0 := by
  simp [argOffset]

theorem argOffset_succ (a : IOArg) (rest : List IOArg) (k : Nat) :
    argOffset (a :: rest) (k + 1) = a.TypeInfo.Bits + argOffset rest k := by
  simp [argOffset]

theorem getElem?_splitFrom (inp : Int) : ∀ (io : List IOArg) (off k : Nat) (h : k < io.length),
    (splitFrom inp io off)[k]? =
      some ((inp / 2 ^ (off + argOffset io k) % 2 ^ io[k].TypeInfo.Bits).toNat) := by
  intro io
  induction io with
  | nil => intro off k h; simp at h
  | cons a rest ih =>
    intro off k h
    cases k with
    | zero => simp [splitFrom, argOffset_zero]
    | succ k =>
      have hk : k < rest.length := by simpa using h
      simp only [splitFrom, List.getElem?_cons_succ, List.getElem_cons_succ, argOffset_succ]
      rw [ih (off + a.TypeInfo.Bits) k hk, Nat.add_assoc]

theorem IOSize_cons (a : IOArg) (rest : List IOArg) :
    IOSize (a :: rest) = a.TypeInfo.Bits + IOSize rest := by
  unfold IOSize
  simp only [List.foldl_cons, Nat.zero_add]
  have : ∀ (l : List IOArg) (s : Nat),
      l.foldl (fun sum a => sum + a.TypeInfo.Bits) s
        = s + l.foldl (fun sum a => sum + a.TypeInfo.Bits) 0 := by
    intro l
    induction l with
    | nil => intro s; rfl
    | cons b l ih =>
      intro s
      simp only [List.foldl_cons, Nat.zero_add]
      rw [ih (s + b.TypeInfo.Bits), ih b.TypeInfo.Bits, Nat.add_assoc]
  exact this rest _

theorem toNat_emod_add (inp : Int) (off b n : Nat) :
    (inp / 2 ^ off % 2 ^ (b + n)).toNat
      = (inp / 2 ^ off % 2 ^ b).toNat + 2 ^ b * (inp / 2 ^ (off + b) % 2 ^ n).toNat := by
  have h1 : (inp / 2 ^ off % 2 ^ (b + n)).toNat % 2 ^ b = (inp / 2 ^ off % 2 ^ b).toNat := by
    apply Nat.eq_of_testBit_eq
    intro j
    rw [Nat.testBit_mod_two_pow, testBit_toNat_ediv_emod, testBit_toNat_ediv_emod]
    by_cases hj : j < b
    · have : j < b + n := by omega
      simp [hj, this]
    · simp [hj]
  have h2 : (inp / 2 ^ off % 2 ^ (b + n)).toNat / 2 ^ b
      = (inp / 2 ^ (off + b) % 2 ^ n).toNat := by
    apply Nat.eq_of_testBit_eq
    intro j
    rw [← Nat.shiftRight_eq_div_pow, Nat.testBit_shiftRight, testBit_toNat_ediv_emod,
      testBit_toNat_ediv_emod, Nat.add_assoc]
    by_cases hj : j < n
    · have : b + j < b + n := by omega
      simp [hj, this]
    · have : ¬ b + j < b + n := by omega
      simp [hj, this]
  rw [← h1, ← h2]
  exact (Nat.mod_add_div _ _).symm

theorem sum_splitFrom (inp : Int) : ∀ (io : List IOArg) (off : Nat),
    ∑ k ∈ Finset.range io.length, (splitFrom inp io off).getD k 0 * 2 ^ argOffset io k
      = (inp / 2 ^ off % 2 ^ IOSize io).toNat := by
  intro io
  induction io with
  | nil =>
    intro off
    simp [IOSize]
  | cons a rest ih =>
    intro off
    rw [List.length_cons, Finset.sum_range_succ', IOSize_cons]
    simp only [splitFrom, List.getD_cons_succ, List.getD_cons_zero, argOffset_succ,
      argOffset_zero, pow_zero, Nat.mul_one]
    have : ∀ k, (splitFrom inp rest (off + a.TypeInfo.Bits)).getD k 0
          * 2 ^ (a.TypeInfo.Bits + argOffset rest k)
        = 2 ^ a.TypeInfo.Bits *
          ((splitFrom inp rest (off + a.TypeInfo.Bits)).getD k 0 * 2 ^ argOffset rest k) := by
      intro k
      rw [pow_add]
      ring
    simp only [this]
    rw [← Finset.mul_sum, ih (off + a.TypeInfo.Bits), toNat_emod_add, Nat.add_comm]

/-- Claim C21: `IO.Split(in)` returns one integer per argument of `io`; the integer of
argument `k`, whose bits start at offset `o` (the sum of the widths of the arguments before
it) and whose width is `b`, is `floor(in / 2^o) mod 2^b`; and the sum of the results, each
multiplied by 2 to its offset, is `in mod 2^Size(io)`. -/
theorem IOSplit_spec (io : List IOArg) (inp : Int) :
    (IOSplit io inp).length = io.length ∧
    (∀ k : Fin io.length, ((IOSplit io inp)[k.val]?).map Int.ofNat =
      some (inp / 2 ^ argOffset io k.val % 2 ^ io[k].TypeInfo.Bits)) ∧
    ∑ k ∈ Finset.range io.length, ((IOSplit io inp).getD k 0 : Int) * 2 ^ argOffset io k
      = inp % 2 ^ IOSize io := by
  rw [IOSplit_eq]
  refine ⟨length_splitFrom inp io 0, ?_, ?_⟩
  · intro k
    have h := getElem?_splitFrom inp io 0 k.val k.isLt
    rw [h]
    simp only [Nat.zero_add, Option.map_some', Fin.getElem_fin, Option.some.injEq,
      Int.ofNat_eq_coe]
    exact Int.toNat_of_nonneg (Int.emod_nonneg _ (by positivity))
  · have h := sum_splitFrom inp io 0
    have h2 : (0 : Int) ≤ inp % 2 ^ IOSize io := Int.emod_nonneg _ (by positivity)
    rw [← Int.toNat_of_nonneg h2]
    simp only [pow_zero, Int.ediv_one] at h
    rw [← h]
    push_cast
    rfl

/-! ## `Program.GC` only inserts releases -/

theorem filter_withReleases : ∀ (steps : List Step) (rel : List (List Value)),
    rel.length = steps.length → (∀ s ∈ steps, s.Instr.Op ≠ Operand.GC) →
    (withReleases steps rel).filter (fun s => s.Instr.Op != Operand.GC) = steps ∧
    (withReleases steps rel).filter (fun s => s.Instr.Op == Operand.GC)
      = rel.flatten.map releaseStep := by
  intro steps
  induction steps with
  | nil =>
    intro rel hlen _
    cases rel with
    | nil => simp [withReleases]
    | cons vs rel => simp at hlen
  | cons s steps ih =>
    intro rel hlen hno
    cases rel with
    | nil => simp at hlen
    | cons vs rel =>
      have hs := hno s (List.mem_cons_self _ _)
      obtain ⟨h1, h2⟩ := ih rel (by simpa using hlen)
        (fun t ht => hno t (List.mem_cons_of_mem _ ht))
      have hrel1 : (vs.map releaseStep).filter (fun s => s.Instr.Op != Operand.GC) = [] := by
        rw [List.filter_eq_nil_iff]
        intro t ht
        obtain ⟨v, -, e⟩ := List.mem_map.mp ht
        rw [← e]
        simp [releaseStep, NewGCInstr]
      have hrel2 : (vs.map releaseStep).filter (fun s => s.Instr.Op == Operand.GC)
          = vs.map releaseStep := by
        rw [List.filter_eq_self]
        intro t ht
        obtain ⟨v, -, e⟩ := List.mem_map.mp ht
        rw [← e]
        simp [releaseStep, NewGCInstr]
      constructor
      · simp only [withReleases, List.filter_cons, List.filter_append, hrel1, h1,
          List.nil_append]
        simp [hs]
      · simp only [withReleases, List.filter_cons, List.filter_append, hrel2, h2,
          List.flatten_cons, List.map_append]
        simp [hs]

/-- Claim C23: `Program.GC` only inserts steps: when it returns `out` on a step list with no
`GC` instruction (it returns exactly on a non-empty list that ends in `Ret`, apart from a nil
output of an aliasing step), deleting the `GC` steps from `out` gives the input list. -/
theorem GC_only_inserts (steps out : List Step) (hgc : GC steps = some out)
    (hno : ∀ s ∈ steps, s.Instr.Op ≠ Operand.GC) :
    out.filter (fun s => s.Instr.Op != Operand.GC) = steps := by
  obtain ⟨last, aliases, -, -, -, hout⟩ := (GC_eq_some steps out).mp hgc
  rw [hout]
  exact (filter_withReleases steps _ (length_releasedAfter _ _ _) hno).1

/-- Witness for C23 on `straightProgram`. -/
theorem GC_only_inserts_witness :
    GC straightProgram = some straightProgramGC ∧
    (∀ s ∈ straightProgram, s.Instr.Op ≠ Operand.GC) ∧
    straightProgramGC.filter (fun s => s.Instr.Op != Operand.GC) = straightProgram :=
  ⟨by decide, by decide,
    GC_only_inserts straightProgram straightProgramGC (by decide) (by decide)⟩

/-- Claim C24: on an SSA-form step list (on which `Program.GC` returns, so it ends in
`Ret`) the output is the input with the `GC` steps of the released values `rel`; no two
released values have the same id, also when a step reads a value in several input
positions, and no released value is a constant.  When the input has no `GC` instruction of
its own, the `GC` steps of the output are exactly these releases, one operand each. -/
theorem GC_no_double_release (steps out : List Step) (hssa : SSAForm steps)
    (hgc : GC steps = some out) :
    ∃ rel : List (List Value), rel.length = steps.length ∧ out = withReleases steps rel ∧
      (rel.flatten.map Value.ID).Nodup ∧ (∀ v ∈ rel.flatten, v.Const = false) ∧
      ((∀ s ∈ steps, s.Instr.Op ≠ Operand.GC) →
        (out.filter (fun s => s.Instr.Op == Operand.GC)).map (fun s => s.Instr.In)
          = rel.flatten.map (fun v => [v])) := by
  obtain ⟨last, aliases, -, -, -, hout⟩ := (GC_eq_some steps out).mp hgc
  refine ⟨releasedAfter aliases (retSeed last) steps, length_releasedAfter _ _ _, hout,
    nodup_releasedAfter aliases (retSeed last) hssa, ?_, ?_⟩
  · intro v hv
    obtain ⟨t, -, -, hc⟩ := mem_releasedAfter_flatten _ _ _ _ hv
    exact hc
  · intro hno
    rw [hout, (filter_withReleases steps _ (length_releasedAfter _ _ _) hno).2,
      List.map_map]
    rfl


/-- Witness for C24 on `straightProgram`, whose step `u = t * t` reads `t` twice. -/
theorem GC_no_double_release_witness :
    SSAForm straightProgram ∧ GC straightProgram = some straightProgramGC ∧
    (∀ s ∈ straightProgram, s.Instr.Op ≠ Operand.GC) ∧
    ∃ rel : List (List Value), rel.length = straightProgram.length ∧
      straightProgramGC = withReleases straightProgram rel ∧
      (rel.flatten.map Value.ID).Nodup ∧ (∀ v ∈ rel.flatten, v.Const = false) ∧
      (straightProgramGC.filter (fun s => s.Instr.Op == Operand.GC)).map (fun s => s.Instr.In)
        = rel.flatten.map (fun v => [v]) := by
  obtain ⟨rel, h1, h2, h3, h4, h5⟩ :=
    GC_no_double_release straightProgram straightProgramGC (by decide) (by decide)
  exact ⟨by decide, by decide, by decide, rel, h1, h2, h3, h4, h5 (by decide)⟩

/-! ## `Program.liveness`: lemmas and the claims -/

theorem mem_setAdd {s : List Value} {v u : Value} (h : u ∈ setAdd s v) : u ∈ s ∨ u = v := by
  unfold setAdd at h
  split at h
  · obtain ⟨x, hx, e⟩ := List.mem_map.mp h
    by_cases hid : (x.ID == v.ID) = true
    · rw [if_pos hid] at e
      exact Or.inr e.symm
    · rw [if_neg hid] at e
      rw [← e]; exact Or.inl hx
  · rcases List.mem_append.mp h with h1 | h1
    · exact Or.inl h1
    · exact Or.inr (List.mem_singleton.mp h1)

theorem hasID_setAdd (s : List Value) (v : Value) (n : Nat) :
    (∃ u ∈ setAdd s v, u.ID = n) ↔ (∃ u ∈ s, u.ID = n) ∨ v.ID = n := by
  unfold setAdd
  by_cases hany : s.any (fun u => u.ID == v.ID) = true
  · rw [if_pos hany]
    obtain ⟨x, hx, hxid⟩ := List.any_eq_true.mp hany
    have hxid : x.ID = v.ID := by simpa using hxid
    constructor
    · rintro ⟨u, hu, e⟩
      obtain ⟨y, hy, e2⟩ := List.mem_map.mp hu
      by_cases hid : (y.ID == v.ID) = true
      · rw [if_pos hid] at e2
        right; rw [← e, ← e2]
      · rw [if_neg hid] at e2
        left; exact ⟨y, hy, by rw [← e, ← e2]⟩
    · rintro (⟨u, hu, e⟩ | e)
      · by_cases hid : (u.ID == v.ID) = true
        · refine ⟨v, List.mem_map.mpr ⟨u, hu, by rw [if_pos hid]⟩, ?_⟩
          have : u.ID = v.ID := by simpa using hid
          rw [← this, e]
        · exact ⟨u, List.mem_map.mpr ⟨u, hu, by rw [if_neg hid]⟩, e⟩
      · exact ⟨v, List.mem_map.mpr ⟨x, hx, by simp [hxid]⟩, e⟩
  · rw [if_neg hany]
    constructor
    · rintro ⟨u, hu, e⟩
      rcases List.mem_append.mp hu with h1 | h1
      · exact Or.inl ⟨u, h1, e⟩
      · rw [List.mem_singleton.mp h1] at e
        exact Or.inr e
    · rintro (⟨u, hu, e⟩ | e)
      · exact ⟨u, List.mem_append_left _ hu, e⟩
      · exact ⟨v, List.mem_append_right _ (List.mem_singleton_self _), e⟩

theorem mem_setDelete (s : List Value) (id : Nat) (u : Value) :
    u ∈ setDelete s id ↔ u ∈ s ∧ u.ID ≠ id := by
  unfold setDelete
  simp

theorem hasID_foldInputs (ins : List Value) : ∀ (live : List Value) (n : Nat),
    (∃ u ∈ ins.foldl (fun l v => if v.Const then l else setAdd l v) live, u.ID = n) ↔
      (∃ u ∈ live, u.ID = n) ∨ ∃ w ∈ ins, w.Const = false ∧ w.ID = n := by
  induction ins with
  | nil => intro live n; simp
  | cons v rest ih =>
    intro live n
    simp only [List.foldl_cons]
    rw [ih]
    by_cases hc : v.Const = true
    · rw [if_pos hc]
      constructor
      · rintro (h | ⟨w, hw, h1, h2⟩)
        · exact Or.inl h
        · exact Or.inr ⟨w, List.mem_cons_of_mem _ hw, h1, h2⟩
      · rintro (h | ⟨w, hw, h1, h2⟩)
        · exact Or.inl h
        · rcases List.mem_cons.mp hw with e | e
          · rw [e, hc] at h1; cases h1
          · exact Or.inr ⟨w, e, h1, h2⟩
    · rw [if_neg hc, hasID_setAdd]
      have hc2 : v.Const = false := by simpa using hc
      constructor
      · rintro ((h | h) | ⟨w, hw, h1, h2⟩)
        · exact Or.inl h
        · exact Or.inr ⟨v, List.mem_cons_self _ _, hc2, h⟩
        · exact Or.inr ⟨w, List.mem_cons_of_mem _ hw, h1, h2⟩
      · rintro (h | ⟨w, hw, h1, h2⟩)
        · exact Or.inl (Or.inl h)
        · rcases List.mem_cons.mp hw with e | e
          · rw [e] at h2; exact Or.inl (Or.inr h2)
          · exact Or.inr ⟨w, e, h1, h2⟩

theorem nonconst_foldInputs (ins : List Value) : ∀ (live : List Value),
    (∀ u ∈ live, u.Const = false) →
    ∀ u ∈ ins.foldl (fun l v => if v.Const then l else setAdd l v) live, u.Const = false := by
  induction ins with
  | nil => intro live h; simpa using h
  | cons v rest ih =>
    intro live h
    simp only [List.foldl_cons]
    apply ih
    by_cases hc : v.Const = true
    · rw [if_pos hc]; exact h
    · rw [if_neg hc]
      intro u hu
      rcases mem_setAdd hu with h1 | h1
      · exact h u h1
      · rw [h1]; simpa using hc

theorem hasID_liveStep (live : List Value) (s : Step) (n : Nat) :
    (∃ u ∈ liveStep live s, u.ID = n) ↔
      ((∃ u ∈ live, u.ID = n) ∨ ∃ w ∈ s.Instr.In, w.Const = false ∧ w.ID = n) ∧
      ∀ o ∈ s.Instr.Out, o.ID ≠ n := by
  unfold liveStep
  cases ho : s.Instr.Out with
  | none =>
    simp only [hasID_foldInputs]
    simp
  | some o =>
    simp only [mem_setDelete]
    constructor
    · rintro ⟨u, ⟨hu, hne⟩, e⟩
      refine ⟨(hasID_foldInputs _ _ _).mp ⟨u, hu, e⟩, ?_⟩
      intro o2 ho2
      simp only [Option.mem_def, Option.some.injEq] at ho2
      rw [← ho2, ← e]
      exact fun h => hne h.symm
    · rintro ⟨h, hne⟩
      obtain ⟨u, hu, e⟩ := (hasID_foldInputs _ _ _).mpr h
      refine ⟨u, ⟨hu, ?_⟩, e⟩
      rw [e]
      exact fun h2 => hne o rfl h2.symm

theorem nonconst_liveStep (live : List Value) (s : Step)
    (h : ∀ u ∈ live, u.Const = false) : ∀ u ∈ liveStep live s, u.Const = false := by
  unfold liveStep
  intro u hu
  cases ho : s.Instr.Out with
  | none =>
    rw [ho] at hu
    exact nonconst_foldInputs _ _ h u hu
  | some o =>
    rw [ho] at hu
    exact nonconst_foldInputs _ _ h u ((mem_setDelete _ _ _).mp hu).1

theorem liveAt_nil (i n : Nat) : ¬ LiveAt [] i n := by
  rintro ⟨j, s, w, -, hs, -⟩
  simp at hs

theorem liveAt_cons_zero (s : Step) (rest : List Step) (n : Nat) :
    LiveAt (s :: rest) 0 n ↔
      (LiveAt rest 0 n ∨ ∃ w ∈ s.Instr.In, w.Const = false ∧ w.ID = n) ∧
      ∀ o ∈ s.Instr.Out, o.ID ≠ n := by
  constructor
  · rintro ⟨j, t, w, -, ht, hw, hc, hid, hno⟩
    refine ⟨?_, hno 0 s (Nat.le_refl _) (Nat.zero_le _) (by simp)⟩
    cases j with
    | zero =>
      simp only [List.getElem?_cons_zero, Option.some.injEq] at ht
      subst ht
      exact Or.inr ⟨w, hw, hc, hid⟩
    | succ j =>
      left
      refine ⟨j, t, w, Nat.zero_le _, by simpa using ht, hw, hc, hid, ?_⟩
      intro k t2 _ hk ht2
      exact hno (k + 1) t2 (Nat.zero_le _) (by omega) (by simpa using ht2)
  · rintro ⟨h | ⟨w, hw, hc, hid⟩, hs⟩
    · obtain ⟨j, t, w, -, ht, hw, hc, hid, hno⟩ := h
      refine ⟨j + 1, t, w, Nat.zero_le _, by simpa using ht, hw, hc, hid, ?_⟩
      intro k t2 _ hk ht2
      cases k with
      | zero =>
        simp only [List.getElem?_cons_zero, Option.some.injEq] at ht2
        subst ht2
        exact hs
      | succ k =>
        exact hno k t2 (Nat.zero_le _) (by omega) (by simpa using ht2)
    · refine ⟨0, s, w, Nat.le_refl _, by simp, hw, hc, hid, ?_⟩
      intro k t2 _ hk ht2
      have : k = 0 := by omega
      subst this
      simp only [List.getElem?_cons_zero, Option.some.injEq] at ht2
      subst ht2
      exact hs

theorem liveAt_cons_succ (s : Step) (rest : List Step) (i n : Nat) :
    LiveAt (s :: rest) (i + 1) n ↔ LiveAt rest i n := by
  constructor
  · rintro ⟨j, t, w, hij, ht, hw, hc, hid, hno⟩
    cases j with
    | zero => omega
    | succ j =>
      refine ⟨j, t, w, by omega, by simpa using ht, hw, hc, hid, ?_⟩
      intro k t2 h1 h2 ht2
      exact hno (k + 1) t2 (by omega) (by omega) (by simpa using ht2)
  · rintro ⟨j, t, w, hij, ht, hw, hc, hid, hno⟩
    refine ⟨j + 1, t, w, by omega, by simpa using ht, hw, hc, hid, ?_⟩
    intro k t2 h1 h2 ht2
    cases k with
    | zero => omega
    | succ k => exact hno k t2 (by omega) (by omega) (by simpa using ht2)


theorem transGen_link_of_get {m : LiveAliases} {a : Nat} {toV : Value}
    (h : m.get a = some toV) (n : Nat) :
    Relation.TransGen (AliasLink m) a n ↔ toV.ID = n ∨ Relation.TransGen (AliasLink m) toV.ID n := by
  rw [Relation.TransGen.head'_iff]
  constructor
  · rintro ⟨b, ⟨t, ht, e⟩, hr⟩
    rw [h] at ht
    cases ht
    rw [← e] at hr
    rcases Relation.reflTransGen_iff_eq_or_transGen.mp hr with h1 | h1
    · exact Or.inl h1.symm
    · exact Or.inr h1
  · rintro (h1 | h1)
    · exact ⟨toV.ID, ⟨toV, h, rfl⟩, by rw [h1]⟩
    · exact ⟨toV.ID, ⟨toV, h, rfl⟩, Relation.TransGen.to_reflTransGen h1⟩

theorem not_transGen_of_get_none {m : LiveAliases} {a : Nat} (h : m.get a = none) (n : Nat) :
    ¬ Relation.TransGen (AliasLink m) a n := by
  rw [Relation.TransGen.head'_iff]
  rintro ⟨b, ⟨t, ht, -⟩, -⟩
  rw [h] at ht
  cases ht

theorem followAliases_spec (m : LiveAliases) : ∀ (fuel : Nat) (v : Value)
    (acc acc1 : List Value), followAliases m fuel v acc = Outcome.done acc1 →
    (∀ n, (∃ u ∈ acc1, u.ID = n) ↔
      (∃ u ∈ acc, u.ID = n) ∨ Relation.TransGen (AliasLink m) v.ID n) ∧
    (∀ u ∈ acc1, u ∈ acc ∨ ∃ a, m.get a = some u) := by
  intro fuel
  induction fuel with
  | zero => intro v acc acc1 h; exact Outcome.noConfusion h
  | succ fuel ih =>
    intro v acc acc1 h
    simp only [followAliases] at h
    cases hg : m.get v.ID with
    | none =>
      rw [hg] at h
      cases h
      refine ⟨fun n => ?_, fun u hu => Or.inl hu⟩
      constructor
      · exact fun h1 => Or.inl h1
      · rintro (h1 | h1)
        · exact h1
        · exact absurd h1 (not_transGen_of_get_none hg n)
    | some toV =>
      rw [hg] at h
      obtain ⟨h1, h2⟩ := ih toV (setAdd acc toV) acc1 h
      refine ⟨fun n => ?_, fun u hu => ?_⟩
      · rw [h1 n, hasID_setAdd, transGen_link_of_get hg, or_assoc]
      · rcases h2 u hu with h3 | h3
        · rcases mem_setAdd h3 with h4 | h4
          · exact Or.inl h4
          · exact Or.inr ⟨v.ID, by rw [hg, h4]⟩
        · exact Or.inr h3

theorem closeLive_spec (m : LiveAliases) (fuel : Nat) : ∀ (live acc acc1 : List Value),
    closeLive m fuel live acc = Outcome.done acc1 →
    (∀ n, (∃ u ∈ acc1, u.ID = n) ↔
      (∃ u ∈ acc, u.ID = n) ∨ ∃ v ∈ live, Relation.ReflTransGen (AliasLink m) v.ID n) ∧
    (∀ u ∈ acc1, u ∈ acc ∨ u ∈ live ∨ ∃ a, m.get a = some u) := by
  intro live
  induction live with
  | nil =>
    intro acc acc1 h
    simp only [closeLive] at h
    cases h
    exact ⟨fun n => by simp, fun u hu => Or.inl hu⟩
  | cons v rest ih =>
    intro acc acc1 h
    simp only [closeLive] at h
    cases hf : followAliases m fuel v (setAdd acc v) with
    | panic => rw [hf] at h; exact Outcome.noConfusion h
    | timeout => rw [hf] at h; exact Outcome.noConfusion h
    | done acc2 =>
      rw [hf] at h
      obtain ⟨f1, f2⟩ := followAliases_spec m fuel v _ acc2 hf
      obtain ⟨h1, h2⟩ := ih acc2 acc1 h
      refine ⟨fun n => ?_, fun u hu => ?_⟩
      · rw [h1 n, f1 n, hasID_setAdd]
        constructor
        · rintro (((h3 | h3) | h3) | ⟨w, hw, h3⟩)
          · exact Or.inl h3
          · exact Or.inr ⟨v, List.mem_cons_self _ _, by rw [h3]⟩
          · exact Or.inr ⟨v, List.mem_cons_self _ _, Relation.TransGen.to_reflTransGen h3⟩
          · exact Or.inr ⟨w, List.mem_cons_of_mem _ hw, h3⟩
        · rintro (h3 | ⟨w, hw, h3⟩)
          · exact Or.inl (Or.inl (Or.inl h3))
          · rcases List.mem_cons.mp hw with e | e
            · rw [e] at h3
              rcases Relation.reflTransGen_iff_eq_or_transGen.mp h3 with h4 | h4
              · exact Or.inl (Or.inl (Or.inr h4.symm))
              · exact Or.inl (Or.inr h4)
            · exact Or.inr ⟨w, e, h3⟩
      · rcases h2 u hu with h3 | h3 | h3
        · rcases f2 u h3 with h4 | h4
          · rcases mem_setAdd h4 with h5 | h5
            · exact Or.inl h5
            · exact Or.inr (Or.inl (by rw [h5]; exact List.mem_cons_self _ _))
          · exact Or.inr (Or.inr h4)
        · exact Or.inr (Or.inl (List.mem_cons_of_mem _ h3))
        · exact Or.inr (Or.inr h3)

theorem liveAliasStep_mem {m m1 : LiveAliases} {s : Step} (h : liveAliasStep m s = some m1) :
    ∀ p ∈ m1, p ∈ m ∨ ∃ o, s.Instr.Out = some o ∧ o.ID = p.1 ∧ p.2 ∈ s.Instr.In ∧
      p.2.Const = false := by
  unfold liveAliasStep at h
  split at h
  · -- Slice
    cases h0 : s.Instr.In[0]? with
    | none => rw [h0] at h; cases h
    | some in0 =>
      rw [h0] at h
      simp only at h
      by_cases hc : in0.Const = true
      · simp only [hc, Bool.not_true, Bool.false_eq_true, if_false] at h
        cases h
        exact fun p hp => Or.inl hp
      · simp only [hc, Bool.not_false, if_true] at h
        cases ho : s.Instr.Out with
        | none => rw [ho] at h; cases h
        | some o =>
          rw [ho] at h
          cases h
          intro p hp
          rcases List.mem_cons.mp hp with e | e
          · right
            refine ⟨o, rfl, by rw [e], ?_, ?_⟩
            · rw [e]; exact List.getElem?_mem h0
            · rw [e]; simpa using hc
          · exact Or.inl e
  · -- Mov
    cases h0 : s.Instr.In[0]? with
    | none => rw [h0] at h; cases h
    | some in0 =>
      rw [h0] at h
      simp only at h
      by_cases hc : in0.Const = true
      · simp only [hc, Bool.not_true, Bool.false_eq_true, if_false] at h
        cases h
        exact fun p hp => Or.inl hp
      · simp only [hc, Bool.not_false, if_true] at h
        cases ho : s.Instr.Out with
        | none => rw [ho] at h; cases h
        | some o =>
          rw [ho] at h
          cases h
          intro p hp
          rcases List.mem_cons.mp hp with e | e
          · right
            refine ⟨o, rfl, by rw [e], ?_, ?_⟩
            · rw [e]; exact List.getElem?_mem h0
            · rw [e]; simpa using hc
          · exact Or.inl e
  · -- Amov
    cases h0 : s.Instr.In[0]? with
    | none => rw [h0] at h; cases h
    | some in0 =>
      rw [h0] at h
      simp only [Bool.and_false, Bool.false_eq_true, if_false] at h
      cases h1 : s.Instr.In[1]? with
      | none => rw [h1] at h; cases h
      | some in1 =>
        rw [h1] at h
        simp only at h
        by_cases hc : in1.Const = true
        · simp only [hc, Bool.not_true, Bool.false_eq_true, if_false] at h
          cases h
          exact fun p hp => Or.inl hp
        · simp only [hc, Bool.not_false, if_true] at h
          cases ho : s.Instr.Out with
          | none => rw [ho] at h; cases h
          | some o =>
            rw [ho] at h
            cases h
            intro p hp
            rcases List.mem_cons.mp hp with e | e
            · right
              refine ⟨o, rfl, by rw [e], ?_, ?_⟩
              · rw [e]; exact List.getElem?_mem h1
              · rw [e]; simpa using hc
            · exact Or.inl e
  · cases h
    exact fun p hp => Or.inl hp


theorem collectLiveAliases_mem : ∀ (steps : List Step) (m0 m : LiveAliases),
    collectLiveAliases steps m0 = some m → ∀ p ∈ m, p ∈ m0 ∨ AliasFrom steps p.1 p.2 := by
  intro steps
  induction steps with
  | nil =>
    intro m0 m h p hp
    simp only [collectLiveAliases, Option.some.injEq] at h
    rw [← h] at hp
    exact Or.inl hp
  | cons s rest ih =>
    intro m0 m h p hp
    simp only [collectLiveAliases] at h
    cases h1 : liveAliasStep m0 s with
    | none => rw [h1] at h; cases h
    | some m1 =>
      rw [h1] at h
      rcases ih m1 m h p hp with h2 | ⟨k, t, o, ht, ho, hid, hin, hc⟩
      · rcases liveAliasStep_mem h1 p h2 with h3 | ⟨o, ho, hid, hin, hc⟩
        · exact Or.inl h3
        · exact Or.inr ⟨0, s, o, by simp, ho, hid, hin, hc⟩
      · exact Or.inr ⟨k + 1, t, o, by simpa using ht, ho, hid, hin, hc⟩

theorem aliasFrom_of_get {steps : List Step} {m : LiveAliases}
    (h : collectLiveAliases steps [] = some m) {a : Nat} {u : Value} (hg : m.get a = some u) :
    AliasFrom steps a u := by
  unfold LiveAliases.get at hg
  cases hf : m.find? (fun p => p.1 == a) with
  | none => rw [hf] at hg; cases hg
  | some p =>
    rw [hf] at hg
    simp only [Option.map_some', Option.some.injEq] at hg
    have hp := List.mem_of_find?_eq_some hf
    have ha : p.1 = a := by simpa using List.find?_some hf
    rcases collectLiveAliases_mem steps [] m h p hp with h1 | h1
    · simp at h1
    · rw [ha, hg] at h1
      exact h1

theorem livenessLoop_spec (m : LiveAliases) (fuel : Nat) : ∀ (steps : List Step)
    (r : List Value × List Step), livenessLoop m fuel steps = Outcome.done r →
    (∀ n, (∃ u ∈ r.1, u.ID = n) ↔ LiveAt steps 0 n) ∧ (∀ u ∈ r.1, u.Const = false) ∧
    r.2.length = steps.length ∧
    ∀ (i : Nat) (s1 : Step), r.2[i]? = some s1 →
      (∃ s, steps[i]? = some s ∧ s1 = { s with Live := s1.Live }) ∧
      (∀ n, (∃ u ∈ s1.Live, u.ID = n) ↔
        ∃ a, LiveAt steps i a ∧ Relation.ReflTransGen (AliasLink m) a n) ∧
      (∀ u ∈ s1.Live, u.Const = false ∨ ∃ a, m.get a = some u) := by
  intro steps
  induction steps with
  | nil =>
    intro r h
    simp only [livenessLoop] at h
    cases h
    refine ⟨fun n => ?_, by simp, rfl, by simp⟩
    simp only [List.not_mem_nil, false_and, exists_false, false_iff]
    exact liveAt_nil 0 n
  | cons s rest ih =>
    intro r h
    simp only [livenessLoop] at h
    cases hr : livenessLoop m fuel rest with
    | panic => rw [hr] at h; exact Outcome.noConfusion h
    | timeout => rw [hr] at h; exact Outcome.noConfusion h
    | done r0 =>
      rw [hr] at h
      simp only at h
      obtain ⟨i1, i2, i3, i4⟩ := ih r0 hr
      cases hc : closeLive m fuel (liveStep r0.1 s) [] with
      | panic => rw [hc] at h; exact Outcome.noConfusion h
      | timeout => rw [hc] at h; exact Outcome.noConfusion h
      | done stepLive =>
        rw [hc] at h
        cases h
        obtain ⟨c1, c2⟩ := closeLive_spec m fuel _ _ _ hc
        have hlive : ∀ n, (∃ u ∈ liveStep r0.1 s, u.ID = n) ↔ LiveAt (s :: rest) 0 n := by
          intro n
          rw [hasID_liveStep, liveAt_cons_zero, i1 n]
        have hnc := nonconst_liveStep r0.1 s i2
        refine ⟨hlive, hnc, by simp [i3], ?_⟩
        intro i s1 hs1
        cases i with
        | zero =>
          simp only [List.getElem?_cons_zero, Option.some.injEq] at hs1
          subst hs1
          refine ⟨⟨s, by simp, rfl⟩, fun n => ?_, fun u hu => ?_⟩
          · simp only
            rw [c1 n]
            simp only [List.not_mem_nil, false_and, exists_false, false_or]
            constructor
            · rintro ⟨v, hv, h1⟩
              exact ⟨v.ID, (hlive v.ID).mp ⟨v, hv, rfl⟩, h1⟩
            · rintro ⟨a, ha, h1⟩
              obtain ⟨v, hv, e⟩ := (hlive a).mpr ha
              exact ⟨v, hv, by rw [e]; exact h1⟩
          · rcases c2 u hu with h1 | h1 | h1
            · simp at h1
            · exact Or.inl (hnc u h1)
            · exact Or.inr h1
        | succ i =>
          simp only [List.getElem?_cons_succ] at hs1
          obtain ⟨⟨s0, e1, e2⟩, j2, j3⟩ := i4 i s1 hs1
          refine ⟨⟨s0, by simpa using e1, e2⟩, fun n => ?_, j3⟩
          rw [j2 n]
          simp only [liveAt_cons_succ]


theorem followAliases_terminates {steps : List Step} {m : LiveAliases}
    (hcol : collectLiveAliases steps [] = some m) (hssa : SSAForm steps) :
    ∀ (b fuel : Nat) (v : Value) (acc : List Value), b < fuel →
      (∀ u, m.get v.ID = some u → ∃ (k : Nat) (s : Step) (o : Value), k < b ∧
        steps[k]? = some s ∧ s.Instr.Out = some o ∧ o.ID = v.ID ∧ u ∈ s.Instr.In) →
      ∃ acc1, followAliases m fuel v acc = Outcome.done acc1 := by
  intro b
  induction b using Nat.strong_induction_on with
  | _ b ih =>
    intro fuel v acc hb hv
    cases fuel with
    | zero => omega
    | succ f =>
      simp only [followAliases]
      cases hg : m.get v.ID with
      | none => exact ⟨acc, rfl⟩
      | some toV =>
        simp only
        obtain ⟨k, s, o, hk, hs, ho, hid, hin⟩ := hv toV hg
        apply ih k hk f toV _ (by omega)
        intro u hu
        obtain ⟨k2, s2, o2, hs2, ho2, hid2, hin2, -⟩ := aliasFrom_of_get hcol hu
        exact ⟨k2, s2, o2, hssa.read_after_def hs2 hs ho2 hin hid2.symm, hs2, ho2, hid2, hin2⟩

theorem followAliases_done {steps : List Step} {m : LiveAliases}
    (hcol : collectLiveAliases steps [] = some m) (hssa : SSAForm steps) (v : Value)
    (acc : List Value) :
    ∃ acc1, followAliases m (steps.length + 1) v acc = Outcome.done acc1 := by
  apply followAliases_terminates hcol hssa steps.length _ v acc (Nat.lt_succ_self _)
  intro u hu
  obtain ⟨k, s, o, hs, ho, hid, hin, -⟩ := aliasFrom_of_get hcol hu
  exact ⟨k, s, o, (List.getElem?_eq_some.mp hs).1, hs, ho, hid, hin⟩

theorem closeLive_done {steps : List Step} {m : LiveAliases}
    (hcol : collectLiveAliases steps [] = some m) (hssa : SSAForm steps) :
    ∀ (live acc : List Value),
      ∃ acc1, closeLive m (steps.length + 1) live acc = Outcome.done acc1 := by
  intro live
  induction live with
  | nil => intro acc; exact ⟨acc, rfl⟩
  | cons v rest ih =>
    intro acc
    obtain ⟨acc2, h2⟩ := followAliases_done hcol hssa v (setAdd acc v)
    simp only [closeLive, h2]
    exact ih acc2

theorem livenessLoop_done {steps : List Step} {m : LiveAliases}
    (hcol : collectLiveAliases steps [] = some m) (hssa : SSAForm steps) :
    ∀ (l : List Step), ∃ r, livenessLoop m (steps.length + 1) l = Outcome.done r := by
  intro l
  induction l with
  | nil => exact ⟨_, rfl⟩
  | cons s rest ih =>
    obtain ⟨r0, hr0⟩ := ih
    obtain ⟨sl, hsl⟩ := closeLive_done hcol hssa (liveStep r0.1 s) []
    simp only [livenessLoop, hr0, hsl]
    exact ⟨_, rfl⟩

/-- Claim C25: whenever `Program.liveness` returns, it changes only the `Live` sets, and for
every step `i`: every value id that is read (as a non-constant value) by a step `j ≥ i`
with no step from `i` to `j` having it as output is in the Live set of step `i`; every
member of that Live set is non-constant and is such a value or reached from one by the
recorded alias links.  On an SSA-form step list whose alias collection does not panic,
`Program.liveness` returns (each alias chain ends within `len(steps)` links). -/
theorem liveness_spec (steps : List Step) :
    (∀ (fuel : Nat) (out : List Step), liveness fuel steps = Outcome.done out →
      ∃ aliases, collectLiveAliases steps [] = some aliases ∧ out.length = steps.length ∧
        ∀ (i : Nat) (s1 : Step), out[i]? = some s1 →
          (∃ s, steps[i]? = some s ∧ s1 = { s with Live := s1.Live }) ∧
          (∀ n, LiveAt steps i n → ∃ u ∈ s1.Live, u.ID = n) ∧
          (∀ u ∈ s1.Live, u.Const = false ∧
            ∃ n, LiveAt steps i n ∧ Relation.ReflTransGen (AliasLink aliases) n u.ID)) ∧
    (SSAForm steps → ∀ aliases, collectLiveAliases steps [] = some aliases →
      ∃ out, liveness (steps.length + 1) steps = Outcome.done out) := by
  constructor
  · intro fuel out h
    unfold liveness at h
    cases hcol : collectLiveAliases steps [] with
    | none => rw [hcol] at h; exact Outcome.noConfusion h
    | some m =>
      rw [hcol] at h
      simp only at h
      cases hl : livenessLoop m fuel steps with
      | panic => rw [hl] at h; exact Outcome.noConfusion h
      | timeout => rw [hl] at h; exact Outcome.noConfusion h
      | done r =>
        rw [hl] at h
        cases h
        obtain ⟨-, -, h3, h4⟩ := livenessLoop_spec m fuel steps r hl
        refine ⟨m, rfl, h3, ?_⟩
        intro i s1 hs1
        obtain ⟨j1, j2, j3⟩ := h4 i s1 hs1
        refine ⟨j1, ?_, ?_⟩
        · intro n hn
          exact (j2 n).mpr ⟨n, hn, Relation.ReflTransGen.refl⟩
        · intro u hu
          refine ⟨?_, (j2 u.ID).mp ⟨u, hu, rfl⟩⟩
          rcases j3 u hu with h5 | ⟨a, ha⟩
          · exact h5
          · obtain ⟨k, s, o, -, -, -, -, hc⟩ := aliasFrom_of_get hcol ha
            exact hc
  · intro hssa m hcol
    obtain ⟨r, hr⟩ := livenessLoop_done hcol hssa steps
    exact ⟨r.2, by unfold liveness; rw [hcol]; simp only; rw [hr]⟩


/-- Witness for C25 on `aliasChainProgram`. -/
theorem liveness_spec_witness :
    SSAForm aliasChainProgram ∧
    ∃ out, liveness 6 aliasChainProgram = Outcome.done out ∧
      ∃ aliases, collectLiveAliases aliasChainProgram [] = some aliases ∧
        out.length = aliasChainProgram.length ∧
        ∀ (i : Nat) (s1 : Step), out[i]? = some s1 →
          (∃ s, aliasChainProgram[i]? = some s ∧ s1 = { s with Live := s1.Live }) ∧
          (∀ n, LiveAt aliasChainProgram i n → ∃ u ∈ s1.Live, u.ID = n) ∧
          (∀ u ∈ s1.Live, u.Const = false ∧
            ∃ n, LiveAt aliasChainProgram i n ∧
              Relation.ReflTransGen (AliasLink aliases) n u.ID) := by
  obtain ⟨out, ho⟩ := (liveness_spec aliasChainProgram).2 (by decide)
    [(3, exVal "y" 2), (2, exVal "x" 1)] (by decide)
  exact ⟨by decide, out, ho, (liveness_spec aliasChainProgram).1 6 out ho⟩

/-- Claim C26, evaluated: in `y = x << 2; z = y + y; return z` the Live set of the step
`z = y + y` holds `y`, the output of the `Lshift`, and not its input `x`; with `Mov` in the
place of `Lshift` (`aliasedProgram`) the Live set of that step holds `y` and `x`. -/
theorem liveness_misses_shift_alias :
    liveness 4 shiftProgram = Outcome.done
      [ { Label := "", Live := [exVal "x" 1],
          Instr := exInstr Operand.Lshift [exVal "x" 1, { exVal "$2" 0 with Const := true }]
            (some (exVal "y" 2)) },
        { Label := "", Live := [exVal "y" 2],
          Instr := exInstr Operand.Add [exVal "y" 2, exVal "y" 2] (some (exVal "z" 3)) },
        { Label := "", Live := [exVal "z" 3],
          Instr := exInstr Operand.Ret [exVal "z" 3] none } ] ∧
    liveness 4 aliasedProgram = Outcome.done
      [ { Label := "", Live := [exVal "x" 1],
          Instr := exInstr Operand.Mov [exVal "x" 1] (some (exVal "y" 2)) },
        { Label := "", Live := [exVal "y" 2, exVal "x" 1],
          Instr := exInstr Operand.Add [exVal "y" 2, exVal "y" 2] (some (exVal "z" 3)) },
        { Label := "", Live := [exVal "z" 3],
          Instr := exInstr Operand.Ret [exVal "z" 3] none } ] := by
  constructor <;> decide

/-! ## The type of the `Phi` of `Block.ReturnBinding` -/

theorem returnBindingSwitch_typed (heap : Heap) (name : String) (s : BindingStackState)
    (p : Ptr) (b : Block) (st st1 : RBState) (hst : st.stack = [])
    (h : returnBindingSwitch heap name s p b st = some st1) :
    (st1.retBlock = st.retBlock ∧ st1.stack.length ≤ 1) ∨
    (AppendsTypedPhi st.retBlock st1 ∧ st1.stack = []) := by
  unfold returnBindingSwitch at h
  split at h
  · split at h
    · exact Option.noConfusion h
    · split at h
      · cases h; exact Or.inl ⟨rfl, by simp [hst]⟩
      · split at h <;> (cases h; exact Or.inl ⟨rfl, by simp [hst]⟩)
  · split at h
    · split at h
      · exact Option.noConfusion h
      · cases h; exact Or.inl ⟨rfl, by simp [hst]⟩
    · cases h; exact Or.inl ⟨rfl, by simp [hst]⟩
  · split at h
    · exact Option.noConfusion h
    · split at h
      · cases h; exact Or.inl ⟨rfl, by simp [hst]⟩
      · split at h
        · cases h; exact Or.inl ⟨rfl, by simp [hst]⟩
        · cases h
          refine Or.inr ⟨⟨_, s.vTrue, st.v, _, rfl, ?_, ?_⟩, hst⟩
          · simp [Generator.AnonVal]
          · intro hne
            simp [hne]
  · cases h; exact Or.inl ⟨rfl, by simp [hst]⟩

theorem returnBindingIter_typed (heap : Heap) (name : String) (st st1 : RBState)
    (hlen : st.stack.length ≤ 1) (h : returnBindingIter heap name st = some st1) :
    (st1.retBlock = st.retBlock ∧ st1.stack.length ≤ 1) ∨
    (AppendsTypedPhi st.retBlock st1 ∧ st1.stack = []) := by
  unfold returnBindingIter at h
  split at h
  · cases h; exact Or.inl ⟨rfl, hlen⟩
  · rename_i s stack hs
    have hnil : stack = [] := by
      rw [hs] at hlen
      simp only [List.length_cons] at hlen
      exact List.eq_nil_of_length_eq_zero (by omega)
    subst hnil
    split at h
    · exact Option.noConfusion h
    · split at h
      · exact Option.noConfusion h
      · split at h
        · exact (returnBindingSwitch_typed _ _ _ _ _ _ _ rfl h :)
        · split at h
          · split at h
            · cases h; exact Or.inl ⟨rfl, by simp⟩
            · split at h
              · exact (returnBindingSwitch_typed _ _ _ _ _ _ _ rfl h :)
              · exact (returnBindingSwitch_typed _ _ _ _ _ _ _ rfl h :)
          · cases h; exact Or.inl ⟨rfl, by simp⟩

theorem returnBindingLoop_typed (heap : Heap) (name : String) (fuel : Nat)
    (st st1 : RBState) (hlen : st.stack.length ≤ 1)
    (h : returnBindingLoop heap name fuel st = Outcome.done st1) :
    st1.retBlock = st.retBlock ∨ AppendsTypedPhi st.retBlock st1 := by
  induction fuel generalizing st with
  | zero =>
    simp only [returnBindingLoop] at h
    split at h
    · cases h; exact Or.inl rfl
    · exact Outcome.noConfusion h
  | succ n ih =>
    simp only [returnBindingLoop] at h
    split at h
    · cases h; exact Or.inl rfl
    · cases hi : returnBindingIter heap name st with
      | none => rw [hi] at h; exact Outcome.noConfusion h
      | some st2 =>
        rw [hi] at h
        rcases returnBindingIter_typed heap name st st2 hlen hi with ⟨h1, h2⟩ | ⟨h1, h2⟩
        · rw [← h1]
          exact ih st2 h2 h
        · have h3 : returnBindingLoop heap name n st2 = Outcome.done st1 := h
          rw [returnBindingLoop_of_empty heap name n st2 h2] at h3
          cases h3
          exact Or.inr h1

/-- Claim C27: a call of `ReturnBinding` that returns leaves `retBlock` unchanged or appends
exactly one `Phi`; the output of that `Phi` has the type of the true operand when that is
strictly wider and the type of the false operand otherwise, and when the widths of the two
operands differ the call returns `diff = true`. -/
theorem ReturnBinding_phi_type (heap : Heap) (fuel : Nat) (bl : Ptr) (ctx : ReturnBindingCTX)
    (name : String) (retBlock : List Instr) (gen : Generator) (st : RBState)
    (h : ReturnBinding heap fuel bl ctx name retBlock gen = Outcome.done st) :
    st.retBlock = retBlock ∨ AppendsTypedPhi retBlock st := by
  unfold ReturnBinding at h
  split at h
  · exact Outcome.noConfusion h
  · split at h
    · cases h; exact Or.inl rfl
    · exact returnBindingLoop_typed heap name fuel _ st (by simp) h

/-- Witness for C27: the true operand `a` has 8 bits and the false operand `w` has 16. -/
theorem ReturnBinding_phi_type_witness :
    ReturnBinding phiHeap 8 0 wideCtx "x" [] { nextID := 10 } = Outcome.done wideResult ∧
    wideResult.retBlock ≠ [] ∧
    (wideResult.retBlock = [] ∨ AppendsTypedPhi [] wideResult) :=
  ⟨by decide, by decide,
    ReturnBinding_phi_type phiHeap 8 0 wideCtx "x" [] { nextID := 10 } wideResult (by decide)⟩

/-! ## `Block.Serialize`: lemmas and the claim -/

theorem length_le_of_nodup_lt {l : List Nat} {n : Nat} (hnd : l.Nodup)
    (hlt : ∀ x ∈ l, x < n) : l.length ≤ n := by
  have h1 : l.toFinset ⊆ Finset.range n := by
    intro x hx
    exact Finset.mem_range.mpr (hlt x (List.mem_toFinset.mp hx))
  have h2 := Finset.card_le_card h1
  rw [List.toFinset_card_of_nodup hnd, Finset.card_range] at h2
  exact h2

theorem mem_pushSucc (b : Block) (rest : List Ptr) (q : Ptr) :
    q ∈ (match b.Branch with
      | some n => n :: (match b.Next with | some n => n :: rest | none => rest)
      | none => (match b.Next with | some n => n :: rest | none => rest)) ↔
    b.Branch = some q ∨ b.Next = some q ∨ q ∈ rest := by
  cases b.Branch <;> cases b.Next <;> simp [eq_comm]

theorem seen_iff_visited {heap : Heap} (hu : UniqueIDs heap) {seen : List Nat}
    {visited : List Ptr}
    (hseen : ∀ id, id ∈ seen ↔ ∃ p ∈ visited, idOf heap p = some id) {p : Ptr} {b : Block}
    (hb : heap[p]? = some b) : b.ID ∈ seen ↔ p ∈ visited := by
  rw [hseen]
  constructor
  · rintro ⟨q, hq, e⟩
    unfold idOf at e
    cases hq2 : heap[q]? with
    | none => rw [hq2] at e; cases e
    | some c =>
      rw [hq2] at e
      simp only [Option.map_some', Option.some.injEq] at e
      obtain ⟨hpl, hpe⟩ := List.getElem?_eq_some.mp hb
      obtain ⟨hql, hqe⟩ := List.getElem?_eq_some.mp hq2
      have := hu ⟨q, hql⟩ ⟨p, hpl⟩ (by simp [Fin.getElem_fin, hpe, hqe, e])
      have : q = p := by simpa using this
      rw [← this]; exact hq
  · intro hp
    exact ⟨p, hp, by unfold idOf; rw [hb]; rfl⟩


theorem serializeLoop_spec (heap : Heap) (bl : Ptr) (hv : ValidHeap heap)
    (hu : UniqueIDs heap) :
    ∀ (fuel : Nat) (stack : List Ptr) (code : List Step) (seen : List Nat)
      (visited : List Ptr), SerializeInv heap bl stack code seen visited →
      2 * (heap.length - visited.length) + stack.length ≤ fuel →
      ∃ order : List Ptr,
        serializeLoop heap fuel stack code seen
          = Outcome.done ((order.map (blockStepsAt heap)).flatten) ∧
        order.Nodup ∧ (∀ p ∈ order, Reachable heap bl p) ∧
        (∀ p ∈ order, ∀ q, Edge heap p q → q ∈ order) ∧ bl ∈ order := by
  intro fuel
  induction fuel with
  | zero =>
    intro stack code seen visited inv hm
    have hs : stack = [] := by
      cases stack with
      | nil => rfl
      | cons a r => simp at hm
    subst hs
    refine ⟨visited, ?_, inv.nodup, inv.reach.1, ?_, ?_⟩
    · simp [serializeLoop, inv.code]
    · intro p hp q hq
      rcases inv.closed p hp q hq with h | h
      · exact h
      · cases h
    · rcases inv.start with h | h
      · exact h
      · cases h
  | succ fuel ih =>
    intro stack code seen visited inv hm
    cases stack with
    | nil =>
      refine ⟨visited, ?_, inv.nodup, inv.reach.1, ?_, ?_⟩
      · simp [serializeLoop, inv.code]
      · intro p hp q hq
        rcases inv.closed p hp q hq with h | h
        · exact h
        · cases h
      · rcases inv.start with h | h
        · exact h
        · cases h
    | cons p rest =>
      have hp : p < heap.length := inv.valid.2 p (List.mem_cons_self _ _)
      have hb : heap[p]? = some heap[p] := List.getElem?_eq_getElem hp
      have hvis : visited.length ≤ heap.length :=
        length_le_of_nodup_lt inv.nodup inv.valid.1
      simp only [serializeLoop, hb]
      by_cases hseen : heap[p].ID ∈ seen
      · rw [if_pos hseen]
        have hpv : p ∈ visited := (seen_iff_visited hu inv.seen hb).mp hseen
        apply ih rest code seen visited
        · refine ⟨inv.code, inv.seen, inv.nodup, ⟨inv.valid.1, ?_⟩, ⟨inv.reach.1, ?_⟩, ?_, ?_⟩
          · intro q hq; exact inv.valid.2 q (List.mem_cons_of_mem _ hq)
          · intro q hq; exact inv.reach.2 q (List.mem_cons_of_mem _ hq)
          · intro q hq r hr
            rcases inv.closed q hq r hr with h | h
            · exact Or.inl h
            · rcases List.mem_cons.mp h with h | h
              · exact Or.inl (h ▸ hpv)
              · exact Or.inr h
          · rcases inv.start with h | h
            · exact Or.inl h
            · rcases List.mem_cons.mp h with h | h
              · exact Or.inl (h ▸ hpv)
              · exact Or.inr h
        · simp only [List.length_cons] at hm
          omega
      · rw [if_neg hseen]
        have hpv : p ∉ visited := fun h => hseen ((seen_iff_visited hu inv.seen hb).mpr h)
        have hnd : (visited ++ [p]).Nodup := by
          rw [List.nodup_append]
          refine ⟨inv.nodup, List.nodup_singleton p, ?_⟩
          intro a ha hb2
          rw [List.mem_singleton] at hb2
          exact hpv (hb2 ▸ ha)
        have hval : ∀ q ∈ visited ++ [p], q < heap.length := by
          intro q hq
          rcases List.mem_append.mp hq with h | h
          · exact inv.valid.1 q h
          · rw [List.mem_singleton] at h; exact h ▸ hp
        have hlen := length_le_of_nodup_lt hnd hval
        have hmemb : heap[p] ∈ heap := List.getElem_mem hp
        have hpr : Reachable heap bl p := inv.reach.2 p (List.mem_cons_self _ _)
        apply ih _ (code ++ blockSteps heap[p]) (heap[p].ID :: seen) (visited ++ [p])
        · refine ⟨?_, ?_, hnd, ⟨hval, ?_⟩, ⟨?_, ?_⟩, ?_, ?_⟩
          · rw [inv.code]
            simp [blockStepsAt, hb]
          · intro id
            rw [List.mem_cons, inv.seen]
            constructor
            · rintro (h | ⟨q, hq, e⟩)
              · exact ⟨p, by simp, by unfold idOf; rw [hb, h]; rfl⟩
              · exact ⟨q, List.mem_append_left _ hq, e⟩
            · rintro ⟨q, hq, e⟩
              rcases List.mem_append.mp hq with h | h
              · exact Or.inr ⟨q, h, e⟩
              · rw [List.mem_singleton] at h
                subst h
                unfold idOf at e
                rw [hb] at e
                exact Or.inl (Option.some.inj e).symm
          · intro q hq
            rcases (mem_pushSucc heap[p] rest q).mp hq with h | h | h
            · exact (hv _ hmemb).2.2 q (by rw [h]; rfl)
            · exact (hv _ hmemb).2.1 q (by rw [h]; rfl)
            · exact inv.valid.2 q (List.mem_cons_of_mem _ h)
          · intro q hq
            rcases List.mem_append.mp hq with h | h
            · exact inv.reach.1 q h
            · rw [List.mem_singleton] at h; exact h ▸ hpr
          · intro q hq
            rcases (mem_pushSucc heap[p] rest q).mp hq with h | h | h
            · exact Relation.ReflTransGen.tail hpr ⟨heap[p], hb, Or.inr h⟩
            · exact Relation.ReflTransGen.tail hpr ⟨heap[p], hb, Or.inl h⟩
            · exact inv.reach.2 q (List.mem_cons_of_mem _ h)
          · intro q hq r hr
            rcases List.mem_append.mp hq with h | h
            · rcases inv.closed q h r hr with h2 | h2
              · exact Or.inl (List.mem_append_left _ h2)
              · rcases List.mem_cons.mp h2 with h3 | h3
                · exact Or.inl (by rw [h3]; simp)
                · exact Or.inr ((mem_pushSucc heap[p] rest r).mpr (Or.inr (Or.inr h3)))
            · rw [List.mem_singleton] at h
              subst h
              obtain ⟨b, hb2, hnb⟩ := hr
              rw [hb] at hb2
              have hbe : heap[q] = b := Option.some.inj hb2
              subst hbe
              rcases hnb with h3 | h3
              · exact Or.inr ((mem_pushSucc heap[q] rest r).mpr (Or.inr (Or.inl h3)))
              · exact Or.inr ((mem_pushSucc heap[q] rest r).mpr (Or.inl h3))
          · rcases inv.start with h | h
            · exact Or.inl (List.mem_append_left _ h)
            · rcases List.mem_cons.mp h with h3 | h3
              · exact Or.inl (by rw [h3]; simp)
              · exact Or.inr ((mem_pushSucc heap[p] rest bl).mpr (Or.inr (Or.inr h3)))
        · simp only [List.length_cons, List.length_append, List.length_nil] at hm hlen
          cases heap[p].Branch <;> cases heap[p].Next <;>
            simp only [List.length_cons, List.length_append, List.length_nil] <;> omega

theorem blockSteps_instr (b : Block) : (blockSteps b).map (fun s => s.Instr) = b.Instr := by
  unfold blockSteps
  cases b.Instr with
  | nil => rfl
  | cons i rest => simp [Function.comp_def]

theorem blockSteps_label (b : Block) :
    (blockSteps b).map (fun s => s.Label) =
      match b.Instr with
      | [] => []
      | _ :: rest => b.Name :: List.replicate rest.length "" := by
  unfold blockSteps
  cases b.Instr with
  | nil => rfl
  | cons i rest =>
    simp only [List.map_cons, List.map_map, List.cons.injEq, true_and]
    rw [List.eq_replicate_iff]
    simp

theorem length_blockStepsAt (heap : Heap) (p : Ptr) :
    (blockStepsAt heap p).length = instrCount heap p := by
  unfold blockStepsAt instrCount
  cases heap[p]? with
  | none => rfl
  | some b => simp only; rw [← blockSteps_instr b, List.length_map]

theorem reachable_mem_of_closed {heap : Heap} {bl : Ptr} {order : List Ptr}
    (hstart : bl ∈ order) (hclosed : ∀ p ∈ order, ∀ q, Edge heap p q → q ∈ order) :
    ∀ p, Reachable heap bl p → p ∈ order := by
  intro p hp
  induction hp with
  | refl => exact hstart
  | tail _ hbc ih => exact hclosed _ ih _ hbc

/-- Claim C28: on a heap of blocks with valid pointers and unique block ids,
`Block.Serialize` started at a block of the heap returns once the fuel covers two iterations
per block and one more; it emits the blocks of some order one after the other, each as the
contiguous run of its instructions in block order; the order has no repetition and holds
exactly the blocks reachable from the start through `Next` and `Branch` edges; the length of
the result is the sum of the instruction counts of these blocks; and in the run of a block
the first step carries the block name and every later step the empty label. -/
theorem Serialize_spec (heap : Heap) (bl : Ptr) (fuel : Nat) (hv : ValidHeap heap)
    (hu : UniqueIDs heap) (hbl : bl < heap.length) (hfuel : 2 * heap.length + 1 ≤ fuel) :
    ∃ order : List Ptr,
      Serialize heap fuel bl = Outcome.done ((order.map (blockStepsAt heap)).flatten) ∧
      order.Nodup ∧ (∀ p, p ∈ order ↔ Reachable heap bl p) ∧
      ((order.map (blockStepsAt heap)).flatten).length = (order.map (instrCount heap)).sum ∧
      ∀ p ∈ order, ∃ b, heap[p]? = some b ∧
        (blockStepsAt heap p).map (fun s => s.Instr) = b.Instr ∧
        (blockStepsAt heap p).map (fun s => s.Label) =
          match b.Instr with
          | [] => []
          | _ :: rest => b.Name :: List.replicate rest.length "" := by
  have inv : SerializeInv heap bl [bl] [] [] [] := by
    refine ⟨rfl, ?_, List.nodup_nil, ⟨?_, ?_⟩, ⟨?_, ?_⟩, ?_, ?_⟩
    · intro id; simp
    · intro p hp; cases hp
    · intro p hp; rw [List.mem_singleton] at hp; exact hp ▸ hbl
    · intro p hp; cases hp
    · intro p hp; rw [List.mem_singleton] at hp; exact hp ▸ Relation.ReflTransGen.refl
    · intro p hp; cases hp
    · exact Or.inr (List.mem_singleton_self bl)
  obtain ⟨order, h1, h2, h3, h4, h5⟩ :=
    serializeLoop_spec heap bl hv hu fuel [bl] [] [] [] inv (by simpa using hfuel)
  refine ⟨order, h1, h2, fun p => ⟨h3 p, reachable_mem_of_closed h5 h4 p⟩, ?_, ?_⟩
  · rw [List.length_flatten, List.map_map]
    congr 1
    apply List.map_congr_left
    intro p _
    exact length_blockStepsAt heap p
  · intro p hp
    have hr := h3 p hp
    have hlt : p < heap.length := by
      rcases Relation.ReflTransGen.cases_tail hr with h | ⟨c, _, b, hb, hn⟩
      · exact h ▸ hbl
      · have hmem : b ∈ heap := List.getElem?_mem hb
        rcases hn with h | h
        · exact (hv b hmem).2.1 p (by rw [h]; rfl)
        · exact (hv b hmem).2.2 p (by rw [h]; rfl)
    refine ⟨heap[p], List.getElem?_eq_getElem hlt, ?_, ?_⟩
    · unfold blockStepsAt
      rw [List.getElem?_eq_getElem hlt]
      exact blockSteps_instr _
    · unfold blockStepsAt
      rw [List.getElem?_eq_getElem hlt]
      exact blockSteps_label _

/-- Witness for C28 on `loopHeap`, whose blocks 0 and 1 form a cycle. -/
theorem Serialize_spec_witness :
    ValidHeap loopHeap ∧ UniqueIDs loopHeap ∧
    ∃ order : List Ptr,
      Serialize loopHeap 9 0 = Outcome.done ((order.map (blockStepsAt loopHeap)).flatten) ∧
      order.Nodup ∧ (∀ p, p ∈ order ↔ Reachable loopHeap 0 p) ∧
      ((order.map (blockStepsAt loopHeap)).flatten).length
        = (order.map (instrCount loopHeap)).sum ∧
      ∀ p ∈ order, ∃ b, loopHeap[p]? = some b ∧
        (blockStepsAt loopHeap p).map (fun s => s.Instr) = b.Instr ∧
        (blockStepsAt loopHeap p).map (fun s => s.Label) =
          match b.Instr with
          | [] => []
          | _ :: rest => b.Name :: List.replicate rest.length "" :=
  ⟨by decide, by decide,
    Serialize_spec loopHeap 0 9 (by decide) (by decide) (by decide) (by decide)⟩

/-! ## `Stats.Add` and the indices of `AssignLevels` -/

theorem raiseStats_apply (o s2 : Stats) (op : Operation) :
    ([Operation.NumLevels, Operation.MaxWidth].foldl
      (fun s i => if o i > s i then Function.update s i (o i) else s) s2) op =
      match op with
      | Operation.NumLevels => max (s2 Operation.NumLevels) (o Operation.NumLevels)
      | Operation.MaxWidth => max (s2 Operation.MaxWidth) (o Operation.MaxWidth)
      | op => s2 op := by
  simp only [List.foldl_cons, List.foldl_nil]
  by_cases h1 : o Operation.NumLevels > s2 Operation.NumLevels
  · rw [if_pos h1]
    have e : Function.update s2 Operation.NumLevels (o Operation.NumLevels) Operation.MaxWidth
        = s2 Operation.MaxWidth := Function.update_noteq (by decide) _ _
    rw [e]
    by_cases h2 : o Operation.MaxWidth > s2 Operation.MaxWidth
    · rw [if_pos h2]
      cases op <;> simp [Function.update_apply] <;> omega
    · rw [if_neg h2]
      cases op <;> simp [Function.update_apply] <;> omega
  · rw [if_neg h1]
    by_cases h2 : o Operation.MaxWidth > s2 Operation.MaxWidth
    · rw [if_pos h2]
      cases op <;> simp [Function.update_apply] <;> omega
    · rw [if_neg h2]
      cases op <;> simp <;> omega

theorem Stats_Add_apply (s o : Stats) (op : Operation) :
    Stats.Add s o op =
      match op with
      | Operation.Count => (s Operation.Count + 1) % 2 ^ 64
      | Operation.NumLevels => max (s Operation.NumLevels) (o Operation.NumLevels)
      | Operation.MaxWidth => max (s Operation.MaxWidth) (o Operation.MaxWidth)
      | op => (s op + o op) % 2 ^ 64 := by
  unfold Stats.Add
  simp only [raiseStats_apply]
  cases op <;> simp [gateOps, Function.update_apply]

/-- Claim C29: `Stats.Add(o)` adds the five per-opcode counters `XOR`, `XNOR`, `AND`, `OR`
and `INV` of `o` (modulo 2^64), sets `NumLevels` and `MaxWidth` to the maximum of both
sides, and increments the slot `Count`; so `Count()` and `Cost()` of the result are the sums
of those of the two sides (modulo 2^64). -/
theorem Stats_Add_spec (s o : Stats) :
    Stats.Add s o Operation.XOR = (s Operation.XOR + o Operation.XOR) % 2 ^ 64 ∧
    Stats.Add s o Operation.XNOR = (s Operation.XNOR + o Operation.XNOR) % 2 ^ 64 ∧
    Stats.Add s o Operation.AND = (s Operation.AND + o Operation.AND) % 2 ^ 64 ∧
    Stats.Add s o Operation.OR = (s Operation.OR + o Operation.OR) % 2 ^ 64 ∧
    Stats.Add s o Operation.INV = (s Operation.INV + o Operation.INV) % 2 ^ 64 ∧
    Stats.Add s o Operation.NumLevels = max (s Operation.NumLevels) (o Operation.NumLevels) ∧
    Stats.Add s o Operation.MaxWidth = max (s Operation.MaxWidth) (o Operation.MaxWidth) ∧
    Stats.Add s o Operation.Count = (s Operation.Count + 1) % 2 ^ 64 ∧
    Stats.Count (Stats.Add s o) = (Stats.Count s + Stats.Count o) % 2 ^ 64 ∧
    Stats.Cost (Stats.Add s o) = (Stats.Cost s + Stats.Cost o) % 2 ^ 64 := by
  refine ⟨Stats_Add_apply s o _, Stats_Add_apply s o _, Stats_Add_apply s o _,
    Stats_Add_apply s o _, Stats_Add_apply s o _, Stats_Add_apply s o _,
    Stats_Add_apply s o _, Stats_Add_apply s o _, ?_, ?_⟩
  · unfold Stats.Count gateOps
    simp only [List.foldl_cons, List.foldl_nil, Stats_Add_apply]
    omega
  · unfold Stats.Cost
    simp only [Stats_Add_apply]
    omega


theorem inputLevel_some {st : LevelState} (hinv : LevelInv st) {g : Gate}
    (h0 : g.Input0.val < st.levels.length)
    (h1 : g.Op ≠ Operation.INV → g.Input1.val < st.levels.length) :
    inputLevel st.levels g = some (inputsLevel st.gates g) := by
  unfold inputLevel inputsLevel
  rw [hinv.levels g.Input0 h0]
  simp only
  by_cases hop : g.Op ≠ Operation.INV
  · rw [if_pos hop, if_pos hop, hinv.levels g.Input1 (h1 hop)]
    simp only
    by_cases hgt : wireLevel st.gates g.Input1 > wireLevel st.gates g.Input0
    · rw [if_pos hgt]
      congr 1
      exact (Nat.max_eq_right (Nat.le_of_lt hgt)).symm
    · rw [if_neg hgt]
      congr 1
      exact (Nat.max_eq_left (Nat.le_of_not_lt hgt)).symm
  · rw [if_neg hop, if_neg hop]

theorem assignLevel_some {st : LevelState} (hinv : LevelInv st)
    (hlev : ∀ (i : Nat) (g : Gate), st.gates[i]? = some g → g.Level ≤ i) {g : Gate}
    (h0 : g.Input0.val < st.levels.length)
    (h1 : g.Op ≠ Operation.INV → g.Input1.val < st.levels.length)
    (ho : g.Output.val < st.levels.length) (hlen : st.gates.length < st.levels.length) :
    ∃ st1, assignLevel st g = some st1 := by
  unfold assignLevel
  rw [inputLevel_some hinv h0 h1]
  simp only
  have hb := inputsLevel_le st.gates g hlev
  have hc : inputsLevel st.gates g < st.countByLevel.length := by
    rw [hinv.length]; omega
  rw [List.getElem?_eq_getElem hc]
  simp only
  rw [if_pos ho]
  exact ⟨_, rfl⟩

theorem assignLoop_some : ∀ (gates : List Gate) (st : LevelState), LevelInv st →
    (∀ (i : Nat) (g : Gate), st.gates[i]? = some g → g.Level ≤ i) →
    (∀ g ∈ gates, g.Input0.val < st.levels.length ∧ g.Output.val < st.levels.length ∧
      (g.Op ≠ Operation.INV → g.Input1.val < st.levels.length)) →
    st.gates.length + gates.length ≤ st.levels.length →
    ∃ st1, assignLoop gates st = some st1 := by
  intro gates
  induction gates with
  | nil => intro st _ _ _ _; exact ⟨st, rfl⟩
  | cons g rest ih =>
    intro st hinv hlev hr hlen
    have hg := hr g (List.mem_cons_self _ _)
    simp only [List.length_cons] at hlen
    obtain ⟨st1, h1⟩ := assignLevel_some hinv hlev hg.1 hg.2.2 hg.2.1 (by omega)
    obtain ⟨hinv1, hg1, hl1⟩ := assignLevel_spec hinv h1
    simp only [assignLoop, h1]
    apply ih st1 hinv1
    · intro i a ha
      rw [hg1] at ha
      by_cases hi : i < st.gates.length
      · rw [List.getElem?_append_left hi] at ha
        exact hlev i a ha
      · have hi2 : i = st.gates.length := by
          have := (List.getElem?_eq_some.mp ha).1
          simp only [List.length_append, List.length_singleton] at this
          omega
        subst hi2
        simp only [List.getElem?_concat_length, Option.some.injEq] at ha
        rw [← ha]
        exact inputsLevel_le st.gates g hlev
    · intro a ha
      rw [hl1]
      exact hr a (List.mem_cons_of_mem _ ha)
    · rw [hg1, hl1]
      simp only [List.length_append, List.length_singleton]
      omega

theorem length_le_of_singleWriter {gates : List Gate} (hsw : SingleWriter gates) (n : Nat)
    (hout : ∀ k : Fin gates.length, gates[k].Output.val < n) : gates.length ≤ n := by
  let f : Fin gates.length → Fin n := fun k => ⟨gates[k].Output.val, hout k⟩
  have hinj : Function.Injective f := by
    intro i j hij
    apply hsw i j
    apply Fin.ext
    have := congrArg Fin.val hij
    simpa [f] using this
  have := Fintype.card_le_of_injective f hinj
  simpa using this

/-- Claim C30: when `Input0` and `Output` of every gate are below `NumWires`, `Input1` of
every gate that is not `INV` is below `NumWires`, and the gates have distinct outputs,
`AssignLevels` returns without an index out of range; it changes nothing but the `Level`
fields and the `NumLevels` and `MaxWidth` slots of `Stats`, and the level of every gate is
at most its index in `Gates` and below `NumWires`. -/
theorem AssignLevels_in_range (c : Circuit) (hn : 0 ≤ c.NumWires) (hr : WiresInRange c)
    (hsw : SingleWriter c.Gates) :
    ∃ c2, AssignLevels c = some c2 ∧
      c2.NumGates = c.NumGates ∧ c2.NumWires = c.NumWires ∧ c2.Inputs = c.Inputs ∧
      c2.Outputs = c.Outputs ∧
      (∀ op, c2.Stats op = c.Stats op ∨ op = Operation.NumLevels ∨ op = Operation.MaxWidth) ∧
      c2.Gates.length = c.Gates.length ∧
      ∀ k : Fin c.Gates.length, ∃ g2 ∈ c2.Gates[k.val]?,
        g2 = { c.Gates[k] with Level := g2.Level } ∧ g2.Level ≤ k.val ∧
        (g2.Level : Int) < c.NumWires := by
  have hnw : ((c.NumWires.toNat : Nat) : Int) = c.NumWires := Int.toNat_of_nonneg hn
  have hlenW : c.Gates.length ≤ c.NumWires.toNat := by
    apply length_le_of_singleWriter hsw
    intro k
    have := (hr k).2.1
    omega
  obtain ⟨st, hst⟩ := assignLoop_some c.Gates
    { gates := [], levels := List.replicate c.NumWires.toNat 0,
      countByLevel := List.replicate c.NumWires.toNat 0, max := 0 }
    (levelInv_init _) (by intro i g h; simp at h)
    (by
      intro g hg
      obtain ⟨k, hk, e⟩ := List.mem_iff_getElem.mp hg
      have := hr ⟨k, hk⟩
      simp only [Fin.getElem_fin, e] at this
      simp only [List.length_replicate]
      refine ⟨by omega, by omega, fun hop => ?_⟩
      have := this.2.2 hop
      omega)
    (by simpa using hlenW)
  have hex : ∃ c2, AssignLevels c = some c2 ∧
      c2.NumGates = c.NumGates ∧ c2.NumWires = c.NumWires ∧ c2.Inputs = c.Inputs ∧
      c2.Outputs = c.Outputs ∧
      (∀ op, c2.Stats op = c.Stats op ∨ op = Operation.NumLevels ∨
        op = Operation.MaxWidth) := by
    refine ⟨_, AssignLevels_of_loop c st (by omega) hst, rfl, rfl, rfl, rfl, ?_⟩
    intro op
    by_cases h1 : op = Operation.MaxWidth
    · exact Or.inr (Or.inr h1)
    · by_cases h2 : op = Operation.NumLevels
      · exact Or.inr (Or.inl h2)
      · left
        simp [Function.update_apply, h1, h2]
  obtain ⟨c2, hrun, f1, f2, f3, f4, f5⟩ := hex
  obtain ⟨st2, -, -, hg, hlen, hk, -, -⟩ := AssignLevels_spec hrun
  refine ⟨c2, hrun, f1, f2, f3, f4, f5, hlen, ?_⟩
  intro k
  have hk2 : k.val < c2.Gates.length := by rw [hlen]; exact k.isLt
  have hget := List.getElem?_eq_getElem hk2
  refine ⟨_, hget, ?_, ?_, ?_⟩
  · have := hk k.val c.Gates[k] _ (List.getElem?_eq_getElem k.isLt) hget
    rw [this]
  · exact level_le_index hrun k.val _ hget
  · have h1 := level_le_index hrun k.val _ hget
    have h2 := k.isLt
    omega

/-- Witness for C30 on `invCircuit`, whose `INV` gate has `Input1 = InvalidWire`. -/
theorem AssignLevels_in_range_witness :
    0 ≤ invCircuit.NumWires ∧ WiresInRange invCircuit ∧ SingleWriter invCircuit.Gates ∧
    ∃ c2, AssignLevels invCircuit = some c2 ∧
      c2.NumGates = invCircuit.NumGates ∧ c2.NumWires = invCircuit.NumWires ∧
      c2.Inputs = invCircuit.Inputs ∧ c2.Outputs = invCircuit.Outputs ∧
      (∀ op, c2.Stats op = invCircuit.Stats op ∨ op = Operation.NumLevels ∨
        op = Operation.MaxWidth) ∧
      c2.Gates.length = invCircuit.Gates.length ∧
      ∀ k : Fin invCircuit.Gates.length, ∃ g2 ∈ c2.Gates[k.val]?,
        g2 = { invCircuit.Gates[k] with Level := g2.Level } ∧ g2.Level ≤ k.val ∧
        (g2.Level : Int) < invCircuit.NumWires :=
  ⟨by decide, by decide, by decide,
    AssignLevels_in_range invCircuit (by decide) (by decide) (by decide)⟩

/-! ## The loop of `Block.returnBinding` ends -/

theorem pathsWithin_of_ranked {heap : Heap} {rank : Ptr → Nat} {l : Nat}
    (hr : RankedHeap heap rank l) : PathsWithin heap l := by
  have key : ∀ (path : List Ptr) (a : Ptr), List.Chain' (Edge heap) (a :: path) →
      path = [] ∨ (a < heap.length ∧ path.length ≤ rank a) := by
    intro path
    induction path with
    | nil => intro a _; exact Or.inl rfl
    | cons b rest ih =>
      intro a hc
      right
      rw [List.chain'_cons] at hc
      obtain ⟨⟨blk, hblk, hedge⟩, hrest⟩ := hc
      obtain ⟨hlt, hget⟩ := List.getElem?_eq_some.mp hblk
      have hrank : rank b < rank a := by
        have h3 := hr ⟨a, hlt⟩
        simp only [Fin.getElem_fin, hget] at h3
        rcases hedge with h | h
        · exact h3.2.1 b (by rw [h]; rfl)
        · exact h3.2.2 b (by rw [h]; rfl)
      refine ⟨hlt, ?_⟩
      rcases ih b hrest with h | ⟨_, h⟩
      · rw [h]
        simp only [List.length_cons, List.length_nil]
        omega
      · simp only [List.length_cons]
        omega
  intro path hc
  cases path with
  | nil => simp
  | cons a rest =>
    rcases key rest a hc with h | ⟨hlt, h⟩
    · rw [h]; simp
    · have h2 : rank a ≤ l := (hr ⟨a, hlt⟩).1
      simp only [List.length_cons]
      omega

theorem returnBindingSwitch_stack (heap : Heap) (name : String) (s : BindingStackState)
    (p : Ptr) (b : Block) (st st1 : RBState) (hst : st.stack = [])
    (h : returnBindingSwitch heap name s p b st = some st1) :
    st1.stack = [] ∨ ∃ g, st1.stack = [g] ∧ g.block = b.Next := by
  unfold returnBindingSwitch at h
  split at h
  · split at h
    · exact Option.noConfusion h
    · split at h
      · cases h; exact Or.inl hst
      · split at h
        · cases h; exact Or.inl hst
        · cases h; exact Or.inl hst
  · split at h
    · split at h
      · exact Option.noConfusion h
      · cases h; exact Or.inl hst
    · cases h
      simp only [hst]
      exact Or.inr ⟨_, rfl, rfl⟩
  · split at h
    · exact Option.noConfusion h
    · split at h
      · cases h; exact Or.inl hst
      · split at h
        · cases h; exact Or.inl hst
        · cases h; exact Or.inl hst
  · cases h; exact Or.inl hst

theorem returnBindingIter_stack (heap : Heap) (name : String) (st st1 : RBState)
    (f : BindingStackState) (hst : st.stack = [f])
    (h : returnBindingIter heap name st = some st1) :
    ∃ p b, f.block = some p ∧ heap[p]? = some b ∧
      (st1.stack = [] ∨ ∃ g, st1.stack = [g] ∧ (g.block = b.Next ∨ g.block = b.Branch)) := by
  unfold returnBindingIter at h
  rw [hst] at h
  simp only at h
  cases hp : f.block with
  | none => rw [hp] at h; exact Option.noConfusion h
  | some p =>
    rw [hp] at h
    simp only at h
    cases hb : heap[p]? with
    | none => rw [hb] at h; exact Option.noConfusion h
    | some b =>
      rw [hb] at h
      simp only at h
      refine ⟨p, b, rfl, hb, ?_⟩
      split at h
      · rcases returnBindingSwitch_stack _ _ _ _ _ _ _ rfl h with h1 | ⟨g, h1, h2⟩
        · exact Or.inl h1
        · exact Or.inr ⟨g, h1, Or.inl h2⟩
      · split at h
        · split at h
          · rename_i nxt hn
            cases h
            exact Or.inr ⟨_, rfl, Or.inl hn.symm⟩
          · split at h
            · rcases returnBindingSwitch_stack _ _ _ _ _ _ _ rfl h with h1 | ⟨g, h1, h2⟩
              · exact Or.inl h1
              · exact Or.inr ⟨g, h1, Or.inl h2⟩
            · rcases returnBindingSwitch_stack _ _ _ _ _ _ _ rfl h with h1 | ⟨g, h1, h2⟩
              · exact Or.inl h1
              · exact Or.inr ⟨g, h1, Or.inl h2⟩
        · cases h
          exact Or.inr ⟨_, rfl, Or.inr rfl⟩

theorem returnBindingIter_nil_block (heap : Heap) (name : String) (st : RBState)
    (g : BindingStackState) (hst : st.stack = [g]) (hg : g.block = none) :
    returnBindingIter heap name st = none := by
  unfold returnBindingIter
  rw [hst]
  simp only [hg]

theorem returnBindingLoop_succ (heap : Heap) (name : String) (k : Nat) (st : RBState)
    (f : BindingStackState) (hst : st.stack = [f]) :
    returnBindingLoop heap name (k + 1) st =
      match returnBindingIter heap name st with
      | none => Outcome.panic
      | some st1 => returnBindingLoop heap name k st1 := by
  simp only [returnBindingLoop]
  rw [if_neg (by simp [hst])]

theorem returnBindingLoop_bound (heap : Heap) (name : String) (l : Nat)
    (hL : PathsWithin heap l) :
    ∀ (n : Nat) (st : RBState) (f : BindingStackState) (p : Ptr) (rpath : List Ptr),
      st.stack = [f] → f.block = some p → List.Chain' (flip (Edge heap)) (p :: rpath) →
      rpath.length + 1 + n = l + 1 →
      (∀ fuel, n + 2 ≤ fuel → returnBindingLoop heap name fuel st ≠ Outcome.timeout) ∧
      (returnBindingLoop heap name (n + 1) st = Outcome.timeout →
        returnBindingLoop heap name (n + 2) st = Outcome.panic) := by
  intro n
  induction n with
  | zero =>
    intro st f p rpath hst hp hc hn
    cases hi : returnBindingIter heap name st with
    | none =>
      constructor
      · intro fuel hf
        obtain ⟨k, rfl⟩ : ∃ k, fuel = k + 1 := ⟨fuel - 1, by omega⟩
        rw [returnBindingLoop_succ heap name k st f hst, hi]
        exact fun h => Outcome.noConfusion h
      · intro h
        rw [returnBindingLoop_succ heap name 0 st f hst, hi] at h
        exact Outcome.noConfusion h
    | some st1 =>
      obtain ⟨p2, b, hp2, hb, hcase⟩ := returnBindingIter_stack heap name st st1 f hst hi
      rw [hp] at hp2
      cases hp2
      rcases hcase with h1 | ⟨g, h1, h2⟩
      · constructor
        · intro fuel hf
          obtain ⟨k, rfl⟩ : ∃ k, fuel = k + 1 := ⟨fuel - 1, by omega⟩
          rw [returnBindingLoop_succ heap name k st f hst, hi]
          simp only
          rw [returnBindingLoop_of_empty heap name k st1 h1]
          exact fun h => Outcome.noConfusion h
        · intro h
          rw [returnBindingLoop_succ heap name 0 st f hst, hi] at h
          simp only at h
          rw [returnBindingLoop_of_empty heap name 0 st1 h1] at h
          exact Outcome.noConfusion h
      · cases hg : g.block with
        | none =>
          have hnone := returnBindingIter_nil_block heap name st1 g h1 hg
          constructor
          · intro fuel hf
            obtain ⟨k, rfl⟩ : ∃ k, fuel = k + 2 := ⟨fuel - 2, by omega⟩
            rw [returnBindingLoop_succ heap name (k + 1) st f hst, hi]
            simp only
            rw [returnBindingLoop_succ heap name k st1 g h1, hnone]
            exact fun h => Outcome.noConfusion h
          · intro _
            rw [returnBindingLoop_succ heap name 1 st f hst, hi]
            simp only
            rw [returnBindingLoop_succ heap name 0 st1 g h1, hnone]
        | some q =>
          exfalso
          have hedge : Edge heap p q := by
            refine ⟨b, hb, ?_⟩
            rcases h2 with h | h
            · exact Or.inl (by rw [← h, hg])
            · exact Or.inr (by rw [← h, hg])
          have hc2 : List.Chain' (flip (Edge heap)) (q :: p :: rpath) :=
            List.chain'_cons.mpr ⟨hedge, hc⟩
          have h3 := hL _ (List.chain'_reverse.mpr hc2)
          simp only [List.length_reverse, List.length_cons] at h3
          omega
  | succ n ih =>
    intro st f p rpath hst hp hc hn
    cases hi : returnBindingIter heap name st with
    | none =>
      constructor
      · intro fuel hf
        obtain ⟨k, rfl⟩ : ∃ k, fuel = k + 1 := ⟨fuel - 1, by omega⟩
        rw [returnBindingLoop_succ heap name k st f hst, hi]
        exact fun h => Outcome.noConfusion h
      · intro h
        rw [returnBindingLoop_succ heap name (n + 1) st f hst, hi] at h
        exact Outcome.noConfusion h
    | some st1 =>
      obtain ⟨p2, b, hp2, hb, hcase⟩ := returnBindingIter_stack heap name st st1 f hst hi
      rw [hp] at hp2
      cases hp2
      rcases hcase with h1 | ⟨g, h1, h2⟩
      · constructor
        · intro fuel hf
          obtain ⟨k, rfl⟩ : ∃ k, fuel = k + 1 := ⟨fuel - 1, by omega⟩
          rw [returnBindingLoop_succ heap name k st f hst, hi]
          simp only
          rw [returnBindingLoop_of_empty heap name k st1 h1]
          exact fun h => Outcome.noConfusion h
        · intro h
          rw [returnBindingLoop_succ heap name (n + 1) st f hst, hi] at h
          simp only at h
          rw [returnBindingLoop_of_empty heap name (n + 1) st1 h1] at h
          exact Outcome.noConfusion h
      · cases hg : g.block with
        | none =>
          have hnone := returnBindingIter_nil_block heap name st1 g h1 hg
          constructor
          · intro fuel hf
            obtain ⟨k, rfl⟩ : ∃ k, fuel = k + 2 := ⟨fuel - 2, by omega⟩
            rw [returnBindingLoop_succ heap name (k + 1) st f hst, hi]
            simp only
            rw [returnBindingLoop_succ heap name k st1 g h1, hnone]
            exact fun h => Outcome.noConfusion h
          · intro _
            rw [returnBindingLoop_succ heap name (n + 2) st f hst, hi]
            simp only
            rw [returnBindingLoop_succ heap name (n + 1) st1 g h1, hnone]
        | some q =>
          have hedge : Edge heap p q := by
            refine ⟨b, hb, ?_⟩
            rcases h2 with h | h
            · exact Or.inl (by rw [← h, hg])
            · exact Or.inr (by rw [← h, hg])
          have hc2 : List.Chain' (flip (Edge heap)) (q :: p :: rpath) :=
            List.chain'_cons.mpr ⟨hedge, hc⟩
          obtain ⟨ih1, ih2⟩ := ih st1 g q (p :: rpath) h1 hg hc2
            (by simp only [List.length_cons]; omega)
          constructor
          · intro fuel hf
            obtain ⟨k, rfl⟩ : ∃ k, fuel = k + 1 := ⟨fuel - 1, by omega⟩
            rw [returnBindingLoop_succ heap name k st f hst, hi]
            exact ih1 k (by omega)
          · intro h
            rw [returnBindingLoop_succ heap name (n + 1) st f hst, hi] at h
            rw [returnBindingLoop_succ heap name (n + 2) st f hst, hi]
            exact ih2 h

/-- On `forkHeap`, whose longest path has one edge, with block 1 memoized: two iterations
complete, which leave the frame of the nil `Next` of block 1 on the stack, and the third
panics. -/
theorem returnBinding_fork_third_iteration :
    PathsWithin forkHeap 1 ∧
    ReturnBinding forkHeap 2 0 forkCtx "x" [] { nextID := 10 } = Outcome.timeout ∧
    ReturnBinding forkHeap 3 0 forkCtx "x" [] { nextID := 10 } = Outcome.panic :=
  ⟨pathsWithin_of_ranked (by decide : RankedHeap forkHeap forkRank 1), by decide, by decide⟩

/-- Claim C31: on a graph of blocks whose paths have at most `l` edges (a finite acyclic
graph with longest path `l`), the loop of `returnBinding` ends for every start block,
context and name: with a bound of `l + 2` or more iterations the call never runs out of
iterations.  At most `l + 1` iterations complete: when the loop is not over after `l + 1`
iterations, the next iteration panics (it pops a frame whose block is nil, the `Next` of a
memoized branch block without `Next`).  Every iteration that starts with at most one frame on
the stack ends with at most one frame, and the block of a frame it pushes is the `Next` or
the `Branch` of the block of the frame it popped. -/
theorem returnBinding_terminates (heap : Heap) (l : Nat) (hL : PathsWithin heap l) (bl : Ptr)
    (ctx : ReturnBindingCTX) (name : String) (retBlock : List Instr) (gen : Generator) :
    (∀ fuel, l + 2 ≤ fuel →
      ReturnBinding heap fuel bl ctx name retBlock gen ≠ Outcome.timeout) ∧
    (ReturnBinding heap (l + 1) bl ctx name retBlock gen = Outcome.timeout →
      ReturnBinding heap (l + 2) bl ctx name retBlock gen = Outcome.panic) ∧
    (∀ st st1 : RBState, st.stack.length ≤ 1 → returnBindingIter heap name st = some st1 →
      st1.stack.length ≤ 1 ∧
      ∀ g ∈ st1.stack, ∃ f p b, st.stack = [f] ∧ f.block = some p ∧ heap[p]? = some b ∧
        (g.block = b.Next ∨ g.block = b.Branch)) := by
  refine ⟨?_, ?_, ?_⟩
  · intro fuel hf
    unfold ReturnBinding
    split
    · exact fun h => Outcome.noConfusion h
    · split
      · exact fun h => Outcome.noConfusion h
      · exact (returnBindingLoop_bound heap name l hL l _ _ bl [] rfl rfl
          (List.chain'_singleton bl) (by simp only [List.length_nil]; omega)).1 fuel hf
  · unfold ReturnBinding
    split
    · intro h; exact Outcome.noConfusion h
    · split
      · intro h; exact Outcome.noConfusion h
      · exact (returnBindingLoop_bound heap name l hL l _ _ bl [] rfl rfl
          (List.chain'_singleton bl) (by simp only [List.length_nil]; omega)).2
  · intro st st1 hlen h
    cases hs : st.stack with
    | nil =>
      unfold returnBindingIter at h
      rw [hs] at h
      cases h
      rw [hs]
      exact ⟨by simp, fun g hg => by cases hg⟩
    | cons f rest =>
      have hrest : rest = [] := by
        rw [hs] at hlen
        simp only [List.length_cons] at hlen
        exact List.eq_nil_of_length_eq_zero (by omega)
      subst hrest
      obtain ⟨p, b, hp, hb, hcase⟩ := returnBindingIter_stack heap name st st1 f hs h
      rcases hcase with h1 | ⟨g, h1, h2⟩
      · rw [h1]
        exact ⟨by simp, fun g hg => by cases hg⟩
      · rw [h1]
        refine ⟨by simp, ?_⟩
        intro g2 hg2
        rw [List.mem_singleton] at hg2
        subst hg2
        exact ⟨f, p, b, rfl, hp, hb, h2⟩

/-- Witness for C31 on `diamondHeap`, whose longest path has two edges: from a new context
the loop needs all three iterations. -/
theorem returnBinding_terminates_witness :
    PathsWithin diamondHeap 2 ∧
    ((∀ fuel, 2 + 2 ≤ fuel →
      ReturnBinding diamondHeap fuel 0 NewReturnBindingCTX "x" [] { nextID := 10 }
        ≠ Outcome.timeout) ∧
    (ReturnBinding diamondHeap (2 + 1) 0 NewReturnBindingCTX "x" [] { nextID := 10 }
        = Outcome.timeout →
      ReturnBinding diamondHeap (2 + 2) 0 NewReturnBindingCTX "x" [] { nextID := 10 }
        = Outcome.panic) ∧
    (∀ st st1 : RBState, st.stack.length ≤ 1 →
      returnBindingIter diamondHeap "x" st = some st1 →
      st1.stack.length ≤ 1 ∧
      ∀ g ∈ st1.stack, ∃ f p b, st.stack = [f] ∧ f.block = some p ∧
        diamondHeap[p]? = some b ∧ (g.block = b.Next ∨ g.block = b.Branch))) ∧
    ReturnBinding diamondHeap 2 0 NewReturnBindingCTX "x" [] { nextID := 10 }
      = Outcome.timeout ∧
    ∃ st, ReturnBinding diamondHeap 3 0 NewReturnBindingCTX "x" [] { nextID := 10 }
      = Outcome.done st :=
  ⟨pathsWithin_of_ranked (by decide : RankedHeap diamondHeap diamondRank 2),
    returnBinding_terminates diamondHeap 2
      (pathsWithin_of_ranked (by decide : RankedHeap diamondHeap diamondRank 2)) 0
      NewReturnBindingCTX "x" [] { nextID := 10 },
    by decide, ⟨_, rfl⟩⟩

/-! ## The builtin `floorPow2`: the claim -/

namespace Ast

theorem int32_of_lt {x : Int} (h0 : 0 ≤ x) (h1 : x < 2 ^ 31) : int32 x = x := by
  unfold int32
  omega

theorem floorPow2Loop_spec (val : Int) (hlt : val < 2 ^ 30) :
    ∀ (n k : Nat), k + n = 30 → (k = 0 ∨ (2 : Int) ^ (k - 1) ≤ val) →
      ∀ fuel, n + 1 ≤ fuel →
        ∃ j : Nat, j ≤ 30 ∧ floorPow2Loop val fuel (2 ^ k) = some (2 ^ j) ∧ val < 2 ^ j ∧
          (j = 0 ∨ (2 : Int) ^ (j - 1) ≤ val) := by
  intro n
  induction n with
  | zero =>
    intro k hk hp fuel hf
    have hk30 : k = 30 := by omega
    subst hk30
    obtain ⟨f, rfl⟩ : ∃ f, fuel = f + 1 := ⟨fuel - 1, by omega⟩
    refine ⟨30, le_refl _, ?_, hlt, hp⟩
    simp only [floorPow2Loop]
    rw [if_neg (by omega)]
  | succ n ih =>
    intro k hk hp fuel hf
    obtain ⟨f, rfl⟩ : ∃ f, fuel = f + 1 := ⟨fuel - 1, by omega⟩
    simp only [floorPow2Loop]
    by_cases hle : (2 : Int) ^ k ≤ val
    · rw [if_pos hle]
      have hb : (2 : Int) ^ (k + 1) ≤ 2 ^ 30 :=
        pow_le_pow_right₀ (by norm_num) (by omega)
      have hpos : (0 : Int) ≤ 2 ^ (k + 1) := by positivity
      have he : int32 ((2 : Int) ^ k * 2) = 2 ^ (k + 1) := by
        rw [← pow_succ]
        exact int32_of_lt hpos (by omega)
      rw [he]
      exact ih (k + 1) (by omega) (Or.inr (by simpa using hle)) f (by omega)
    · rw [if_neg hle]
      exact ⟨k, by omega, rfl, by omega, hp⟩

/-- Claim C32: when the argument evaluates to a constant integer `val` with
`0 ≤ val < 2^30`, `floorPow2Eval` returns, once the bound covers the at most 31 tests of the
loop condition, the constant `r` of type `int32` with the flag `true`, where `r = 0` for
`val = 0` and otherwise `r` is a power of two with `r ≤ val < 2r`. -/
theorem floorPow2Eval_spec {α : Type} (eval : α → Generator → Option (Value × Generator))
    (constInt : Value → Option Int) (fuel : Nat) (arg : α) (gen gen1 : Generator)
    (constVal : Value) (val : Int) (he : eval arg gen = some (constVal, gen1))
    (hc : constInt constVal = some val) (h0 : 0 ≤ val) (hlt : val < 2 ^ 30)
    (hf : 31 ≤ fuel) :
    ∃ r : Int,
      floorPow2Eval eval constInt fuel [arg] gen
        = EvalResult.ok (gen1.Constant r Int32) true gen1 ∧
      ((val = 0 ∧ r = 0) ∨ (1 ≤ val ∧ (∃ k : Nat, r = 2 ^ k) ∧ r ≤ val ∧ val < 2 * r)) := by
  obtain ⟨j, hj, hloop, hv, hp⟩ :=
    floorPow2Loop_spec val hlt 30 0 (by omega) (Or.inl rfl) fuel (by omega)
  rw [pow_zero] at hloop
  have hres : floorPow2Eval eval constInt fuel [arg] gen
      = EvalResult.ok (gen1.Constant (int32 ((2 : Int) ^ j / 2)) Int32) true gen1 := by
    simp only [floorPow2Eval, he, hc, hloop]
  refine ⟨int32 ((2 : Int) ^ j / 2), hres, ?_⟩
  cases j with
  | zero =>
    left
    simp only [pow_zero] at hv ⊢
    refine ⟨by omega, ?_⟩
    unfold int32
    omega
  | succ j =>
    right
    have hp2 : (2 : Int) ^ j ≤ val := by
      rcases hp with h | h
      · omega
      · simpa using h
    have hdiv : (2 : Int) ^ (j + 1) / 2 = 2 ^ j := by
      rw [pow_succ]
      exact Int.mul_ediv_cancel _ (by norm_num)
    have hpos : (0 : Int) < 2 ^ j := by positivity
    have he2 : int32 ((2 : Int) ^ (j + 1) / 2) = 2 ^ j := by
      rw [hdiv]
      exact int32_of_lt (le_of_lt hpos) (by omega)
    rw [he2]
    refine ⟨by omega, ⟨j, rfl⟩, hp2, ?_⟩
    rw [pow_succ] at hv
    omega

/-- Witness for C32 on the constant 1000: the result is 512. -/
theorem floorPow2Eval_spec_witness :
    ∃ r : Int,
      floorPow2Eval evalValue constValueOf 31 [exGen.Constant 1000 Int32] exGen
        = EvalResult.ok (exGen.Constant r Int32) true exGen ∧
      (((1000 : Int) = 0 ∧ r = 0) ∨
        ((1 : Int) ≤ 1000 ∧ (∃ k : Nat, r = 2 ^ k) ∧ r ≤ 1000 ∧ (1000 : Int) < 2 * r)) :=
  floorPow2Eval_spec evalValue constValueOf 31 (exGen.Constant 1000 Int32) exGen exGen
    (exGen.Constant 1000 Int32) 1000 rfl rfl (by decide) (by decide) (by decide)

end Ast

end Bedlam
